import Mathlib

/-!
# Zone memory allocation (`src/src/mem/zone.c`)

A shallow embedding of the arena allocator.  The C code works on raw memory; the
model keeps one map per field of `memblock_t` (address of a header ↦ value of
that field), the three fields of `memzone_t` that the code uses, and a map for
the owner slots (`*block->user`).  Addresses and machine integers are `Int`;
`int` arithmetic is reduced with `toInt` (32-bit two's complement) at the places
where the C code computes a new `int`.

What is not part of the state: payload bytes (so the two debugging switches
`zero_on_free` and `scan_on_free`, which only touch payload bytes and `stderr`,
are modelled in their default, switched-off position), and owner slots are kept
apart from block headers.

The file has further parts, each in a namespace of its own: `Query` for
`src/zendoom/src/net/query.c`, `GameMode` for `src/src/game/gamemode.c`, `Hud`
for `src/src/hud/stuff.c`, `Deh` for `src/src/deh_main.c`, `Gui` for
`src/src/net/gui.c` and `Loop` for `src/src/game/main.c`.  The definitions of
all parts come first, the theorems follow in the same order.
-/

namespace Zone

/-- Constants that `zone.c` takes from places outside the translated file: the
tag values of `zone.h` and the sizes fixed by the ABI. -/
structure Params where
  /-- tag of the list sentinel, `zone.h` -/
  PU_STATIC : Int
  /-- tag of a free block, `zone.h` -/
  PU_FREE : Int
  /-- tags at or above this one are purgable, `zone.h` -/
  PU_PURGELEVEL : Int
  /-- `#define MEM_ALIGN sizeof(void *)` -/
  MEM_ALIGN : Nat
  /-- `sizeof(memblock_t)` -/
  sizeof_memblock_t : Int
  /-- `sizeof(memzone_t)` -/
  sizeof_memzone_t : Int
  /-- `offsetof(memzone_t, blocklist)` -/
  blocklist_offset : Int

/-- What the proofs assume about the constants: the sentinel's tag is neither the
free tag nor purgable, pointers have 4 or 8 bytes, a block header is not larger
than `MINFRAGMENT`, and the sentinel header lies inside `memzone_t`. -/
def Params.Valid (K : Params) : Prop :=
  K.PU_STATIC ≠ K.PU_FREE ∧ K.PU_STATIC < K.PU_PURGELEVEL ∧
  (K.MEM_ALIGN = 4 ∨ K.MEM_ALIGN = 8) ∧
  0 < K.sizeof_memblock_t ∧ K.sizeof_memblock_t ≤ 64 ∧
  0 ≤ K.blocklist_offset ∧ K.blocklist_offset + K.sizeof_memblock_t ≤ K.sizeof_memzone_t

instance (K : Params) : Decidable K.Valid := by
  unfold Params.Valid; infer_instance

/-- The constants of an LP64 build with the tag numbering `PU_STATIC = 1`,
`PU_FREE = 4`, `PU_PURGELEVEL = 7`; used for concrete runs. -/
def lp64 : Params :=
  { PU_STATIC := 1, PU_FREE := 4, PU_PURGELEVEL := 7, MEM_ALIGN := 8,
    sizeof_memblock_t := 40, sizeof_memzone_t := 56, blocklist_offset := 8 }

/-- `#define ZONEID 0x1d4a11` -/
def ZONEID : Int := 0x1d4a11

/-- `#define MINFRAGMENT 64` -/
def MINFRAGMENT : Int := 64

/-- Conversion of an integer value to the 32-bit `int` of the C code. -/
def toInt (x : Int) : Int := (x + 2147483648) % 4294967296 - 2147483648

/-- Conversion of an integer value to `size_t` (as wide as a pointer). -/
def toSizeT (K : Params) (x : Int) : Nat := (x % ((2 ^ (8 * K.MEM_ALIGN) : Nat) : Int)).toNat

/-- `size = (size + MEM_ALIGN - 1) & ~(MEM_ALIGN - 1);` computed in `size_t` and
stored back into the `int`. -/
def alignSize (K : Params) (size : Int) : Int :=
  toInt ((toSizeT K (size + K.MEM_ALIGN - 1) &&&
    (2 ^ (8 * K.MEM_ALIGN) - 1 - (K.MEM_ALIGN - 1)) : Nat) : Int)

/-- Pointwise update of a field map. -/
def upd (f : Int → Int) (a v : Int) : Int → Int := fun x => if x = a then v else f x

/-- The memory that `zone.c` reads and writes. -/
structure Mem where
  /-- `static memzone_t *mainzone` -/
  mainzone : Int
  /-- `mainzone->size` -/
  zonesize : Int
  /-- `mainzone->rover` -/
  rover : Int
  /-- `block->size`, by header address -/
  size : Int → Int
  /-- `block->user`, by header address; `0` is `NULL` -/
  user : Int → Int
  /-- `block->tag`, by header address -/
  tag : Int → Int
  /-- `block->id`, by header address -/
  id : Int → Int
  /-- `block->next`, by header address -/
  next : Int → Int
  /-- `block->prev`, by header address -/
  prev : Int → Int
  /-- the owner slots: `*u` for a `void **u` -/
  slot : Int → Int

/-- `&mainzone->blocklist`, the start / end cap of the linked list. -/
def sentinel (K : Params) (m : Mem) : Int := m.mainzone + K.blocklist_offset

/-- The calls of `error(...)` in `zone.c`. -/
inductive Fatal where
  /-- "Z_Free: freed a pointer without ZONEID" -/
  | free_without_zoneid
  /-- "Z_Malloc: failed on allocation of %i bytes" -/
  | malloc_failed
  /-- "Z_Malloc: an owner is required for purgable blocks" -/
  | malloc_owner_required
  /-- "Z_CheckHeap: block size does not touch the next block" -/
  | checkheap_size
  /-- "Z_CheckHeap: next block doesn't have proper back link" -/
  | checkheap_backlink
  /-- "Z_CheckHeap: two consecutive free blocks" -/
  | checkheap_two_free
  /-- "Z_ChangeTag: block without a ZONEID!" -/
  | changetag_without_zoneid
  /-- "Z_ChangeTag: an owner is required for purgable blocks" -/
  | changetag_owner_required
  deriving DecidableEq, Repr

/-- How a call ends: it returns (`ok`, with the memory and the result), it ends
the process in `error` (`fatal`, with the memory as it is at that moment), or
the model ran out of loop iterations (`nofuel`). -/
inductive Outcome (α : Type) where
  | ok (m : Mem) (r : α)
  | fatal (m : Mem) (e : Fatal)
  | nofuel

/-- `Z_Init`, with the result of `I_ZoneBase(&size)` as arguments: the memory
before, the base address and the size of the zone. -/
def Z_Init (K : Params) (m : Mem) (base : Int) (size : Int) : Mem :=
  -- mainzone = (memzone_t *)I_ZoneBase(&size); mainzone->size = size;
  let m := { m with mainzone := base, zonesize := size }
  -- block = (memblock_t *)((byte *)mainzone + sizeof(memzone_t));
  let block := m.mainzone + K.sizeof_memzone_t
  -- mainzone->blocklist.next = mainzone->blocklist.prev = block
  let m := { m with prev := upd m.prev (sentinel K m) block }
  let m := { m with next := upd m.next (sentinel K m) block }
  -- mainzone->blocklist.user = (void *)mainzone;
  let m := { m with user := upd m.user (sentinel K m) m.mainzone }
  -- mainzone->blocklist.tag = PU_STATIC;
  let m := { m with tag := upd m.tag (sentinel K m) K.PU_STATIC }
  -- mainzone->rover = block;
  let m := { m with rover := block }
  -- block->prev = block->next = &mainzone->blocklist;
  let m := { m with next := upd m.next block (sentinel K m) }
  let m := { m with prev := upd m.prev block (sentinel K m) }
  -- block->tag = PU_FREE;
  let m := { m with tag := upd m.tag block K.PU_FREE }
  -- block->size = mainzone->size - sizeof(memzone_t);
  { m with size := upd m.size block (toInt (m.zonesize - K.sizeof_memzone_t)) }

/-- The merge step that `Z_Free` performs twice (lines 170-175 with
`x = other, y = block`, lines 183-188 with `x = block, y = other`):
`x->size += y->size; x->next = y->next; x->next->prev = x;
if (y == mainzone->rover) mainzone->rover = x;` -/
def merge (m : Mem) (x y : Int) : Mem :=
  let m := { m with size := upd m.size x (toInt (m.size x + m.size y)) }
  let m := { m with next := upd m.next x (m.next y) }
  let m := { m with prev := upd m.prev (m.next x) x }
  if y = m.rover then { m with rover := x } else m

/-- Lines 147-155 of `Z_Free`: clear the user's mark, mark the block as free. -/
def markFree (K : Params) (m : Mem) (block : Int) : Mem :=
  let m := if m.tag block ≠ K.PU_FREE ∧ m.user block ≠ 0
    then { m with slot := upd m.slot (m.user block) 0 } else m
  let m := { m with tag := upd m.tag block K.PU_FREE }
  let m := { m with user := upd m.user block 0 }
  { m with id := upd m.id block 0 }

/-- Lines 166-189 of `Z_Free`: merge with the previous block if it is free, then
merge the next block onto the end if it is free. -/
def coalesce (K : Params) (m : Mem) (block : Int) : Mem :=
  let other := m.prev block
  let mb : Mem × Int :=
    if m.tag other = K.PU_FREE then (merge m other block, other) else (m, block)
  let m := mb.1
  let block := mb.2
  let other := m.next block
  if m.tag other = K.PU_FREE then merge m block other else m

/-- `Z_Free` -/
def Z_Free (K : Params) (m : Mem) (ptr : Int) : Outcome Unit :=
  let block := ptr - K.sizeof_memblock_t
  if m.id block ≠ ZONEID then .fatal m .free_without_zoneid
  else .ok (coalesce K (markFree K m block) block) ()

/-- The body of the `do ... while` loop of `Z_Malloc` behind the test for a full
round (lines 232-248); the result is the new `base` and `rover`. -/
def Z_Malloc_body (K : Params) (m : Mem) (base rover : Int) : Outcome (Int × Int) :=
  if m.tag rover ≠ K.PU_FREE then
    if m.tag rover < K.PU_PURGELEVEL then
      -- hit a block that can't be purged, so move base past it
      -- base = rover = rover->next;
      .ok m (m.next rover, m.next rover)
    else
      -- free the rover block (adding the size to base)
      -- base = base->prev; Z_Free(...); base = base->next; rover = base->next;
      let base := m.prev base
      match Z_Free K m (rover + K.sizeof_memblock_t) with
      | .ok m _ =>
        let base := m.next base
        .ok m (base, m.next base)
      | .fatal m e => .fatal m e
      | .nofuel => .nofuel
  else
    -- rover = rover->next;
    .ok m (base, m.next rover)

/-- The `do ... while` loop of `Z_Malloc` (lines 226-250); `size` is the aligned
size with the header, the result is the final `base`. -/
def Z_Malloc_scan (K : Params) (size start : Int) : Nat → Mem → Int → Int → Outcome Int
  | 0, _, _, _ => .nofuel
  | fuel + 1, m, base, rover =>
    if rover = start then
      -- scanned all the way around the list
      .fatal m .malloc_failed
    else
      match Z_Malloc_body K m base rover with
      | .ok m (base, rover) =>
        -- while (base->tag != PU_FREE || base->size < size)
        if m.tag base ≠ K.PU_FREE ∨ m.size base < size then
          Z_Malloc_scan K size start fuel m base rover
        else .ok m base
      | .fatal m e => .fatal m e
      | .nofuel => .nofuel

/-- Lines 252-268 of `Z_Malloc`: split off the free fragment after the allocated
block when more than `MINFRAGMENT` bytes remain. -/
def split (K : Params) (m : Mem) (base size : Int) : Mem :=
  let extra := toInt (m.size base - size)
  if extra > MINFRAGMENT then
    let newblock := base + size
    let m := { m with size := upd m.size newblock extra }
    let m := { m with tag := upd m.tag newblock K.PU_FREE }
    let m := { m with user := upd m.user newblock 0 }
    let m := { m with prev := upd m.prev newblock base }
    let m := { m with next := upd m.next newblock (m.next base) }
    let m := { m with prev := upd m.prev (m.next newblock) newblock }
    let m := { m with next := upd m.next base newblock }
    { m with size := upd m.size base size }
  else m

/-- Lines 273-285 of `Z_Malloc`: the block `base` is handed over. -/
def claimMem (K : Params) (m : Mem) (base tag user : Int) : Mem :=
  let m := { m with user := upd m.user base user }
  let m := { m with tag := upd m.tag base tag }
  let result := base + K.sizeof_memblock_t
  let m := if m.user base ≠ 0 then { m with slot := upd m.slot (m.user base) result } else m
  -- next allocation will start looking here
  let m := { m with rover := m.next base }
  { m with id := upd m.id base ZONEID }

/-- Lines 270-287 of `Z_Malloc`: the owner check and the hand-over of the block. -/
def claim (K : Params) (m : Mem) (base tag user : Int) : Outcome Int :=
  if user = 0 ∧ tag ≥ K.PU_PURGELEVEL then .fatal m .malloc_owner_required
  else .ok (claimMem K m base tag user) (base + K.sizeof_memblock_t)

/-- Lines 218-221 of `Z_Malloc`: the block the scan starts from, the rover or
the free block behind it. -/
def scanBase (K : Params) (m : Mem) : Int :=
  if m.tag (m.prev m.rover) = K.PU_FREE then m.prev m.rover else m.rover

/-- Line 224 of `Z_Malloc`: `start = base->prev`, the block at which the scan
gives up. -/
def scanStart (K : Params) (m : Mem) : Int := m.prev (scanBase K m)

/-- Lines 206-214 of `Z_Malloc`: the aligned size with the block header. -/
def needed (K : Params) (size : Int) : Int := toInt (alignSize K size + K.sizeof_memblock_t)

/-- `Z_Malloc`; `fuel` bounds the iterations of the scan. -/
def Z_Malloc (K : Params) (fuel : Nat) (m : Mem) (size tag user : Int) : Outcome Int :=
  -- size = (size + MEM_ALIGN - 1) & ~(MEM_ALIGN - 1); size += sizeof(memblock_t);
  let size := needed K size
  -- if there is a free block behind the rover, back up over them
  let base := scanBase K m
  let rover := base
  let start := m.prev base
  match Z_Malloc_scan K size start fuel m base rover with
  | .ok m base => claim K (split K m base size) base tag user
  | .fatal m e => .fatal m e
  | .nofuel => .nofuel

/-- The `for` loop of `Z_FreeTags`, from `block` on. -/
def Z_FreeTags_loop (K : Params) (lowtag hightag : Int) : Nat → Mem → Int → Outcome Unit
  | 0, _, _ => .nofuel
  | fuel + 1, m, block =>
    if block = sentinel K m then .ok m ()
    else
      -- get link before freeing
      let next := m.next block
      if m.tag block = K.PU_FREE then Z_FreeTags_loop K lowtag hightag fuel m next
      else if m.tag block ≥ lowtag ∧ m.tag block ≤ hightag then
        match Z_Free K m (block + K.sizeof_memblock_t) with
        | .ok m _ => Z_FreeTags_loop K lowtag hightag fuel m next
        | .fatal m e => .fatal m e
        | .nofuel => .nofuel
      else Z_FreeTags_loop K lowtag hightag fuel m next

/-- `Z_FreeTags`; `fuel` bounds the iterations of the loop. -/
def Z_FreeTags (K : Params) (fuel : Nat) (m : Mem) (lowtag hightag : Int) : Outcome Unit :=
  Z_FreeTags_loop K lowtag hightag fuel m (m.next (sentinel K m))

/-- The `for` loop of `Z_CheckHeap`, from `block` on. -/
def Z_CheckHeap_loop (K : Params) (m : Mem) : Nat → Int → Outcome Unit
  | 0, _ => .nofuel
  | fuel + 1, block =>
    if m.next block = sentinel K m then
      -- all blocks have been hit
      .ok m ()
    else if block + m.size block ≠ m.next block then .fatal m .checkheap_size
    else if m.prev (m.next block) ≠ block then .fatal m .checkheap_backlink
    else if m.tag block = K.PU_FREE ∧ m.tag (m.next block) = K.PU_FREE then
      .fatal m .checkheap_two_free
    else Z_CheckHeap_loop K m fuel (m.next block)

/-- `Z_CheckHeap`; `fuel` bounds the iterations of the loop. -/
def Z_CheckHeap (K : Params) (fuel : Nat) (m : Mem) : Outcome Unit :=
  Z_CheckHeap_loop K m fuel (m.next (sentinel K m))

/-- `Z_ChangeTag2` (the `file` and `line` arguments only feed the error text). -/
def Z_ChangeTag2 (K : Params) (m : Mem) (ptr tag : Int) : Outcome Unit :=
  let block := ptr - K.sizeof_memblock_t
  if m.id block ≠ ZONEID then .fatal m .changetag_without_zoneid
  else if tag ≥ K.PU_PURGELEVEL ∧ m.user block = 0 then .fatal m .changetag_owner_required
  else .ok { m with tag := upd m.tag block tag } ()

/-! ## The arena invariant -/

/-- Address of the first block, right behind the zone header. -/
def first (K : Params) (m : Mem) : Int := m.mainzone + K.sizeof_memzone_t

/-- One past the last byte of the zone. -/
def zoneEnd (m : Mem) : Int := m.mainzone + m.zonesize

/-- What links `x` to its successor `y` in the circular list: the two pointers,
and the layout (the sentinel is followed by the first block, any other block ends
where its successor begins, the last one at the end of the zone). -/
def Link (K : Params) (m : Mem) (x y : Int) : Prop :=
  m.next x = y ∧ m.prev y = x ∧
  (x = sentinel K m → y = first K m) ∧
  (x ≠ sentinel K m → y = sentinel K m → x + m.size x = zoneEnd m) ∧
  (x ≠ sentinel K m → y ≠ sentinel K m → x + m.size x = y)

/-- The blocks `x` and `y` are not both free. -/
def NoFreePair (K : Params) (m : Mem) (x y : Int) : Prop :=
  ¬ (m.tag x = K.PU_FREE ∧ m.tag y = K.PU_FREE)

/-- The relation `R` holds between every element of the circular list and the
element after it, the last one being followed by the first. -/
def Cyc (R : Int → Int → Prop) : List Int → Prop
  | [] => True
  | a :: l => List.Chain R a (l ++ [a])

/-- Pointers and geometry of the circular list `c` (the sentinel and the blocks,
listed in the order of the `next` pointers from any starting point). -/
structure Struct (K : Params) (m : Mem) (c : List Int) : Prop where
  nodup : c.Nodup
  sent : sentinel K m ∈ c
  link : Cyc (Link K m) c
  geom : ∀ x ∈ c, x ≠ sentinel K m →
    K.sizeof_memblock_t ≤ m.size x ∧ first K m ≤ x ∧ x + m.size x ≤ zoneEnd m
  sep : ∀ x ∈ c, ∀ y ∈ c, x ≠ sentinel K m → y ≠ sentinel K m → x < y → x + m.size x ≤ y
  rover : m.rover ∈ c
  small : m.zonesize < 2147483648

/-- Tags, ids and owners along the circular list `c`: the sentinel is tagged
`PU_STATIC`, no two neighbours are both free, every block in use carries
`ZONEID`, and every purgable block in use has an owner. -/
structure Tags (K : Params) (m : Mem) (c : List Int) : Prop where
  sent : m.tag (sentinel K m) = K.PU_STATIC
  nofree : Cyc (NoFreePair K m) c
  ids : ∀ x ∈ c, x ≠ sentinel K m → m.tag x ≠ K.PU_FREE → m.id x = ZONEID
  owner : ∀ x ∈ c, x ≠ sentinel K m → m.tag x ≠ K.PU_FREE →
    m.tag x ≥ K.PU_PURGELEVEL → m.user x ≠ 0

/-- The invariant of the arena, for the circular list `c`. -/
def CInv (K : Params) (m : Mem) (c : List Int) : Prop := Struct K m c ∧ Tags K m c

/-- The arena is well formed and `l` lists its blocks in address order, from the
block after the sentinel to the block before it. -/
def Arena (K : Params) (m : Mem) (l : List Int) : Prop := CInv K m (sentinel K m :: l)

/-! ## The scan of `Z_Malloc`: kinds of blocks, scan states, steps -/

/-- The block is in use with a tag below `PU_PURGELEVEL`: the scan moves past it. -/
def Fixed (K : Params) (m : Mem) (x : Int) : Prop :=
  m.tag x ≠ K.PU_FREE ∧ m.tag x < K.PU_PURGELEVEL

/-- The block is in use with a tag at or above `PU_PURGELEVEL`: the scan frees it. -/
def Purgable (K : Params) (m : Mem) (x : Int) : Prop :=
  m.tag x ≠ K.PU_FREE ∧ ¬ m.tag x < K.PU_PURGELEVEL

/-- The block is free or purgable. -/
def Eligible (K : Params) (m : Mem) (x : Int) : Prop :=
  m.tag x = K.PU_FREE ∨ K.PU_PURGELEVEL ≤ m.tag x

/-- Combined size of the blocks of `l`. -/
def total (m : Mem) (l : List Int) : Int := (l.map m.size).sum

/-- Where the scan stands: the circular list is `P ++ T ++ [start]`, with `T` the
blocks still ahead of `rover` (from `rover` on) and `P` the blocks behind it;
`base` is either `rover` itself, preceded by a block in use, or the free block
right in front of `rover`. -/
structure ScanSt (K : Params) (start : Int) (m : Mem) (base rover : Int)
    (P T : List Int) : Prop where
  inv : CInv K m (P ++ T ++ [start])
  rov : (T ++ [start]).head? = some rover
  startTag : m.tag start ≠ K.PU_FREE
  shape : (base = rover ∧ ∀ q, P.getLast? = some q → m.tag q ≠ K.PU_FREE) ∨
    (∃ P', P = P' ++ [base] ∧ m.tag base = K.PU_FREE)

/-- One round of the loop body, by what the rover points at: a free block
(`adv`), a block in use that cannot be purged (`skip`), or a purgable block
that is freed, where `base` is the rover itself (`purgeA`) or the free block in
front of it (`purgeB`), and the block behind is free as well (`_merge`) or not. -/
inductive Step (K : Params) :
    Mem → Int → Int → List Int → List Int → Mem → Int → Int → List Int → List Int → Prop
  | adv (m : Mem) (r : Int) (P T : List Int) : m.tag r = K.PU_FREE →
      Step K m r r P (r :: T) m r (m.next r) (P ++ [r]) T
  | skip (m : Mem) (base r : Int) (P T : List Int) : Fixed K m r →
      Step K m base r P (r :: T) m (m.next r) (m.next r) (P ++ [r]) T
  | purgeA (m : Mem) (r : Int) (P T : List Int) : Purgable K m r →
      m.tag (m.prev r) ≠ K.PU_FREE → m.tag (m.next r) ≠ K.PU_FREE →
      Step K m r r P (r :: T) (markFree K m r) r (m.next r) (P ++ [r]) T
  | purgeA_merge (m : Mem) (r n : Int) (P T : List Int) : Purgable K m r →
      m.tag (m.prev r) ≠ K.PU_FREE → m.tag n = K.PU_FREE → m.next r = n →
      Step K m r r P (r :: n :: T) (merge (markFree K m r) r n) r (m.next n) (P ++ [r]) T
  | purgeB (m : Mem) (base r : Int) (P T : List Int) : m.tag base = K.PU_FREE →
      Purgable K m r → m.tag (m.next r) ≠ K.PU_FREE →
      Step K m base r (P ++ [base]) (r :: T) (merge (markFree K m r) base r) base (m.next r)
        (P ++ [base]) T
  | purgeB_merge (m : Mem) (base r n : Int) (P T : List Int) : m.tag base = K.PU_FREE →
      Purgable K m r → m.tag n = K.PU_FREE → m.next r = n →
      Step K m base r (P ++ [base]) (r :: n :: T)
        (merge (merge (markFree K m r) base r) base n) base (m.next n) (P ++ [base]) T

/-! ## The sweep of `Z_FreeTags`: steps -/

/-- One block of the sweep of `Z_FreeTags`: `D` are the blocks behind the
sweep, `b :: T` the blocks ahead.  The block `b` is kept (`keep`), or freed,
where the block before it is free (`tf`, `tt`) or not and the block after it is
free (`ft`, `tt`) or not. -/
inductive FStep (K : Params) (lowtag hightag : Int) :
    Mem → List Int → List Int → Mem → List Int → List Int → Prop
  | keep (m : Mem) (b : Int) (D T : List Int) :
      (m.tag b = K.PU_FREE ∨ ¬ (m.tag b ≥ lowtag ∧ m.tag b ≤ hightag)) →
      FStep K lowtag hightag m D (b :: T) m (D ++ [b]) T
  | ff (m : Mem) (b : Int) (D T : List Int) : m.tag b ≠ K.PU_FREE →
      (m.tag b ≥ lowtag ∧ m.tag b ≤ hightag) →
      m.tag (m.prev b) ≠ K.PU_FREE → m.tag (m.next b) ≠ K.PU_FREE →
      FStep K lowtag hightag m D (b :: T) (markFree K m b) (D ++ [b]) T
  | ft (m : Mem) (b n : Int) (D T : List Int) : m.tag b ≠ K.PU_FREE →
      (m.tag b ≥ lowtag ∧ m.tag b ≤ hightag) →
      m.tag (m.prev b) ≠ K.PU_FREE → m.tag n = K.PU_FREE →
      FStep K lowtag hightag m D (b :: n :: T) (merge (markFree K m b) b n) (D ++ [b]) T
  | tf (m : Mem) (p b : Int) (D T : List Int) : m.tag b ≠ K.PU_FREE →
      (m.tag b ≥ lowtag ∧ m.tag b ≤ hightag) →
      m.tag p = K.PU_FREE → m.tag (m.next b) ≠ K.PU_FREE →
      FStep K lowtag hightag m (D ++ [p]) (b :: T) (merge (markFree K m b) p b) (D ++ [p]) T
  | tt (m : Mem) (p b n : Int) (D T : List Int) : m.tag b ≠ K.PU_FREE →
      (m.tag b ≥ lowtag ∧ m.tag b ≤ hightag) →
      m.tag p = K.PU_FREE → m.tag n = K.PU_FREE →
      FStep K lowtag hightag m (D ++ [p]) (b :: n :: T)
        (merge (merge (markFree K m b) p b) p n) (D ++ [p]) T

/-! ## Blocks in the list, reachable arenas -/

/-- The block at address `b` is in the list: it is met when the list is walked
along the `next` pointers from the sentinel, before the sentinel comes again. -/
inductive Listed (K : Params) (m : Mem) : Int → Prop
  | head : m.next (sentinel K m) ≠ sentinel K m → Listed K m (m.next (sentinel K m))
  | next (b : Int) : Listed K m b → m.next b ≠ sentinel K m → Listed K m (m.next b)

/-- The arenas that arise from `Z_Init` on a zone with room for the zone header
and a block header by calls that return: `Z_Malloc` with a size that is not
negative and a tag other than `PU_FREE`, `Z_Free` and `Z_ChangeTag2` (to a tag
other than `PU_FREE`) on the payload pointer of a block in the list, and
`Z_FreeTags`. -/
inductive Reach (K : Params) : Mem → Prop
  | init (m : Mem) (base size : Int) :
      K.sizeof_memzone_t + K.sizeof_memblock_t ≤ size → size < 2147483648 →
      Reach K (Z_Init K m base size)
  | malloc (m : Mem) (fuel : Nat) (size tag user : Int) (m' : Mem) (p : Int) :
      Reach K m → 0 ≤ size → size < 2147483648 → tag ≠ K.PU_FREE →
      Z_Malloc K fuel m size tag user = .ok m' p → Reach K m'
  | free (m : Mem) (ptr : Int) (m' : Mem) :
      Reach K m → Listed K m (ptr - K.sizeof_memblock_t) →
      Z_Free K m ptr = .ok m' () → Reach K m'
  | freeTags (m : Mem) (fuel : Nat) (lowtag hightag : Int) (m' : Mem) :
      Reach K m → Z_FreeTags K fuel m lowtag hightag = .ok m' () → Reach K m'
  | changeTag (m : Mem) (ptr tag : Int) (m' : Mem) :
      Reach K m → Listed K m (ptr - K.sizeof_memblock_t) → tag ≠ K.PU_FREE →
      Z_ChangeTag2 K m ptr tag = .ok m' () → Reach K m'

/-! ## Outcomes as memories -/

/-- A memory filled with zeros, for concrete runs. -/
def zeroMem : Mem :=
  { mainzone := 0, zonesize := 0, rover := 0, size := fun _ => 0, user := fun _ => 0,
    tag := fun _ => 0, id := fun _ => 0, next := fun _ => 0, prev := fun _ => 0,
    slot := fun _ => 0 }

/-- The memory at the end of a call (all zeros if the model ran out of fuel). -/
def memOf {α : Type} : Outcome α → Mem
  | .ok m _ => m
  | .fatal m _ => m
  | .nofuel => zeroMem

/-- The calls other than `Z_Malloc`, as steps from one memory to the next. -/
inductive FreeStep (K : Params) : Mem → Mem → Prop
  | free (m : Mem) (ptr : Int) (m' : Mem) : Z_Free K m ptr = .ok m' () → FreeStep K m m'
  | freeTags (m : Mem) (fuel : Nat) (lowtag hightag : Int) (m' : Mem) :
      Z_FreeTags K fuel m lowtag hightag = .ok m' () → FreeStep K m m'
  | changeTag (m : Mem) (ptr tag : Int) (m' : Mem) :
      Z_ChangeTag2 K m ptr tag = .ok m' () → FreeStep K m m'

/-! ## What `Z_Free` and `Z_FreeTags` change -/

/-- The effect of `Z_Free` on the block `b`, apart from the links: tag, owner
and id of `b` are reset, the owner slot of `b` is cleared, and no size changes
but that of `b` or of a free block. -/
structure FreeDelta (K : Params) (m : Mem) (b : Int) (m' : Mem) : Prop where
  tag : m'.tag = upd m.tag b K.PU_FREE
  user : m'.user = upd m.user b 0
  id : m'.id = upd m.id b 0
  slot : m'.slot =
    if m.tag b ≠ K.PU_FREE ∧ m.user b ≠ 0 then upd m.slot (m.user b) 0 else m.slot
  size : ∀ x, x ≠ b → m.tag x ≠ K.PU_FREE → m'.size x = m.size x
  mainzone : m'.mainzone = m.mainzone

/-- What holds during the sweep of `Z_FreeTags` over the arena `m0` with the
blocks `l0`: behind the sweep no block in use has a tag in the range, the
blocks ahead are as they were, the blocks of `l0` in the range that the sweep
has passed are freed with their owner slots cleared, and the blocks in use out
of the range that it has passed are in the list as they were. -/
def FTInv (K : Params) (lowtag hightag : Int) (m0 : Mem) (l0 : List Int)
    (m : Mem) (D T : List Int) : Prop :=
  (∀ x ∈ D, m.tag x ≠ K.PU_FREE → ¬ (m.tag x ≥ lowtag ∧ m.tag x ≤ hightag)) ∧
  (∀ x ∈ T, m.tag x = m0.tag x ∧ m.user x = m0.user x ∧
    (m.tag x ≠ K.PU_FREE → m.size x = m0.size x)) ∧
  ∃ Q, l0 = Q ++ T ∧
    (∀ x ∈ Q, m0.tag x ≠ K.PU_FREE → (m0.tag x ≥ lowtag ∧ m0.tag x ≤ hightag) →
      m.tag x = K.PU_FREE ∧ (m0.user x ≠ 0 → m.slot (m0.user x) = 0)) ∧
    (∀ x ∈ Q, m0.tag x ≠ K.PU_FREE → ¬ (m0.tag x ≥ lowtag ∧ m0.tag x ≤ hightag) →
      x ∈ D ∧ m.size x = m0.size x ∧ m.tag x = m0.tag x ∧ m.user x = m0.user x)

/-! ## Deciding the invariant on a concrete arena -/

instance (K : Params) (m : Mem) : DecidableRel (Link K m) := fun x y =>
  inferInstanceAs (Decidable (m.next x = y ∧ m.prev y = x ∧
    (x = sentinel K m → y = first K m) ∧
    (x ≠ sentinel K m → y = sentinel K m → x + m.size x = zoneEnd m) ∧
    (x ≠ sentinel K m → y ≠ sentinel K m → x + m.size x = y)))

instance (K : Params) (m : Mem) : DecidableRel (NoFreePair K m) := fun x y =>
  inferInstanceAs (Decidable (¬ (m.tag x = K.PU_FREE ∧ m.tag y = K.PU_FREE)))

/-- Deciding a chain link by link. -/
def decChain (R : Int → Int → Prop) [DecidableRel R] :
    (a : Int) → (l : List Int) → Decidable (List.Chain R a l)
  | _, [] => isTrue List.Chain.nil
  | a, b :: l =>
    have : Decidable (List.Chain R b l) := decChain R b l
    decidable_of_iff (R a b ∧ List.Chain R b l) List.chain_cons.symm

instance (R : Int → Int → Prop) [DecidableRel R] : (c : List Int) → Decidable (Cyc R c)
  | [] => isTrue trivial
  | a :: l => decChain R a (l ++ [a])

instance (K : Params) (m : Mem) (c : List Int) : Decidable (Struct K m c) :=
  decidable_of_iff (c.Nodup ∧ sentinel K m ∈ c ∧ Cyc (Link K m) c ∧
      (∀ x ∈ c, x ≠ sentinel K m →
        K.sizeof_memblock_t ≤ m.size x ∧ first K m ≤ x ∧ x + m.size x ≤ zoneEnd m) ∧
      (∀ x ∈ c, ∀ y ∈ c, x ≠ sentinel K m → y ≠ sentinel K m → x < y → x + m.size x ≤ y) ∧
      m.rover ∈ c ∧ m.zonesize < 2147483648)
    ⟨fun ⟨a, b, c, d, e, f, g⟩ => ⟨a, b, c, d, e, f, g⟩,
     fun h => ⟨h.nodup, h.sent, h.link, h.geom, h.sep, h.rover, h.small⟩⟩

instance (K : Params) (m : Mem) (c : List Int) : Decidable (Tags K m c) :=
  decidable_of_iff (m.tag (sentinel K m) = K.PU_STATIC ∧ Cyc (NoFreePair K m) c ∧
      (∀ x ∈ c, x ≠ sentinel K m → m.tag x ≠ K.PU_FREE → m.id x = ZONEID) ∧
      (∀ x ∈ c, x ≠ sentinel K m → m.tag x ≠ K.PU_FREE →
        m.tag x ≥ K.PU_PURGELEVEL → m.user x ≠ 0))
    ⟨fun ⟨a, b, c, d⟩ => ⟨a, b, c, d⟩, fun h => ⟨h.sent, h.nofree, h.ids, h.owner⟩⟩

instance (K : Params) (m : Mem) (c : List Int) : Decidable (CInv K m c) :=
  inferInstanceAs (Decidable (Struct K m c ∧ Tags K m c))

instance (K : Params) (m : Mem) (l : List Int) : Decidable (Arena K m l) :=
  inferInstanceAs (Decidable (CInv K m (sentinel K m :: l)))

/-! ## Runs of free or purgable blocks -/

/-- The list `R` contains a run of consecutive blocks, each free or purgable,
with a combined size of at least `need`. -/
def HasRun (K : Params) (m : Mem) (need : Int) (R : List Int) : Prop :=
  ∃ l1 sp l2, R = l1 ++ sp ++ l2 ∧ (∀ x ∈ sp, Eligible K m x) ∧ need ≤ total m sp

/-- The scan of `Z_Malloc` as a fold over the blocks ahead: `acc` is the size
collected in the current run; a free or purgable block adds its size, any other
block ends the run. -/
def fits (K : Params) (m : Mem) (need : Int) : Int → List Int → Prop
  | acc, [] => need ≤ acc
  | acc, x :: l => (Eligible K m x → fits K m need (acc + m.size x) l) ∧
      (¬ Eligible K m x → need ≤ acc ∨ fits K m need 0 l)

/-! ## The history of a scan -/

/-- What a scan of `Z_Malloc` that started in the memory `m0`, with the blocks
`R0` ahead of it, has done by the time it stands at `base`, `rover`: the blocks
`Q` lie behind the current run, the blocks `span` have been merged into `base`,
the blocks `T` are still ahead. -/
structure Hist (K : Params) (need : Int) (m0 : Mem) (R0 : List Int) (start : Int)
    (m : Mem) (base rover : Int) (P T Q span : List Int) : Prop where
  split : R0 = Q ++ span ++ T
  shapeA : base = rover → span = []
  shapeB : base ≠ rover → span.head? = some base ∧ m.size base = total m0 span
  elig : ∀ x ∈ span, Eligible K m0 x
  minimal : 0 < need → ∀ sp r tl, span = sp ++ r :: tl → Purgable K m0 r → total m0 sp < need
  behind : Q = [] ∨ ∃ Q' q, Q = Q' ++ [q] ∧ Fixed K m0 q
  evicted : ∀ x ∈ Q ++ span, Purgable K m0 x → m.tag x = K.PU_FREE
  ahead : ∀ x ∈ T ++ [start], m.tag x = m0.tag x ∧ m.user x = m0.user x ∧
    m.id x = m0.id x ∧ m.size x = m0.size x
  run : 0 < need → (HasRun K m0 need R0 ↔ fits K m0 need (total m0 span) T)
  tags : ∀ x, m.tag x = m0.tag x ∨ (Purgable K m0 x ∧ x ∈ R0 ∧ m.tag x = K.PU_FREE)
  keep : ∀ x, m.tag x ≠ K.PU_FREE → m.tag x = m0.tag x ∧ m.user x = m0.user x ∧
    m.id x = m0.id x ∧ m.size x = m0.size x
  live : ∀ x ∈ R0 ++ [start], m.tag x ≠ K.PU_FREE → x ∈ P ++ T ++ [start]
  slots : ∀ u, m.slot u = m0.slot u ∨
    (m.slot u = 0 ∧ ∃ x ∈ R0, Purgable K m0 x ∧ m0.user x = u)
  sub : ∀ x ∈ P ++ T ++ [start], x ∈ R0 ++ [start]
  zone : m.mainzone = m0.mainzone ∧ m.zonesize = m0.zonesize

/-- The request does not overflow an `int`: the size is not negative, and the
size rounded up to a multiple of `MEM_ALIGN`, with the block header added, is
below `2^31`. -/
def NoOverflow (K : Params) (size : Int) : Prop :=
  0 ≤ size ∧
    size + K.MEM_ALIGN - 1 - (size + K.MEM_ALIGN - 1) % K.MEM_ALIGN + K.sizeof_memblock_t
      < 2147483648

instance (K : Params) (size : Int) : Decidable (NoOverflow K size) :=
  inferInstanceAs (Decidable (_ ∧ _))

/-! ## Concrete arenas -/

/-- A fresh zone of 1056 bytes at address 1000: the sentinel is at 1008, the
first block at 1056 with 1000 bytes. -/
def demoInit : Mem := Z_Init lp64 zeroMem 1000 1056

/-- The fresh zone after `Z_Malloc(100, PU_STATIC, 5000)`: the block at 1056 is
in use with the owner slot 5000. -/
def demoStatic : Mem := memOf (Z_Malloc lp64 4 demoInit 100 1 5000)

/-- The fresh zone after `Z_Malloc(400, 1, NULL)` twice, `Z_Free` of the first
block and `Z_Malloc(400, 8, 5000)`: a purgable block at 1056, a block in use at
1496, a free block at 1936, and the rover at 1496. -/
def demoBehind : Mem :=
  memOf (Z_Malloc lp64 6
    (memOf (Z_Free lp64
      (memOf (Z_Malloc lp64 4 (memOf (Z_Malloc lp64 4 demoInit 400 1 0)) 400 1 0)) 1096))
    400 8 5000)

/-- A zone of 2056 bytes at address 1000 after `Z_Malloc(100, 8, 5000)`,
`Z_Malloc(100, 1, NULL)`, `Z_Malloc(400, 8, 5008)` and `Z_Malloc(1200, 1, NULL)`:
a purgable block at 1056, a block in use at 1200, a purgable block at 1344, a
block in use at 1784, nothing free, and the rover at the sentinel. -/
def demoFull : Mem :=
  memOf (Z_Malloc lp64 4
    (memOf (Z_Malloc lp64 4
      (memOf (Z_Malloc lp64 4
        (memOf (Z_Malloc lp64 4 (Z_Init lp64 zeroMem 1000 2056) 100 8 5000)) 100 1 0))
      400 8 5008))
    1200 1 0)

instance (K : Params) (m : Mem) (x : Int) : Decidable (Fixed K m x) :=
  inferInstanceAs (Decidable (_ ∧ _))

instance (K : Params) (m : Mem) (x : Int) : Decidable (Purgable K m x) :=
  inferInstanceAs (Decidable (_ ∧ _))

instance (K : Params) (m : Mem) (x : Int) : Decidable (Eligible K m x) :=
  inferInstanceAs (Decidable (_ ∨ _))

/-- The owner slots of the purgable blocks that the scan has passed (the blocks
of `R0` that are no longer among the blocks `T` ahead) hold `NULL`. -/
def Cleared (K : Params) (m0 : Mem) (R0 : List Int) (m : Mem) (T : List Int) : Prop :=
  ∀ x ∈ R0, x ∉ T → Purgable K m0 x → m0.user x ≠ 0 → m.slot (m0.user x) = 0

/-! ## Notions for: Arenas reached with any tags -/

/-- The part of the arena invariant that needs no discipline about the tags the
callers pass: pointers and geometry of the circular list `c`, the tag of the
sentinel, `ZONEID` in every block that is not tagged `PU_FREE`, and an owner for
every purgable block. -/
structure Weak (K : Params) (m : Mem) (c : List Int) : Prop where
  struct : Struct K m c
  sent : m.tag (sentinel K m) = K.PU_STATIC
  ids : ∀ x ∈ c, x ≠ sentinel K m → m.tag x ≠ K.PU_FREE → m.id x = ZONEID
  owner : ∀ x ∈ c, x ≠ sentinel K m → m.tag x ≠ K.PU_FREE →
    m.tag x ≥ K.PU_PURGELEVEL → m.user x ≠ 0

/-- Where the scan of `Z_Malloc` stands, whatever the tags in the arena: `base`
and `rover` are in the list; `base` is the rover, with no free block in front of
it unless it is free itself, or a block at a lower address. -/
structure WScan (K : Params) (m : Mem) (c : List Int) (base rover : Int) : Prop where
  weak : Weak K m c
  bmem : base ∈ c
  rmem : rover ∈ c
  order : (base = rover ∧ (m.tag base ≠ K.PU_FREE → m.tag (m.prev base) ≠ K.PU_FREE)) ∨
    (base ≠ rover ∧ base ≠ sentinel K m ∧ (rover = sentinel K m ∨ base < rover))

/-- The arenas that arise from `Z_Init` on a zone with room for the zone header
and a block header by calls that return, whatever the tags that are passed:
`Z_Malloc` with a size that is not negative, `Z_Free` and `Z_ChangeTag2` on the
payload pointer of a block in the list, and `Z_FreeTags`. -/
inductive Returns (K : Params) : Mem → Prop
  | init (m : Mem) (base size : Int) :
      K.sizeof_memzone_t + K.sizeof_memblock_t ≤ size → size < 2147483648 →
      Returns K (Z_Init K m base size)
  | malloc (m : Mem) (fuel : Nat) (size tag user : Int) (m' : Mem) (p : Int) :
      Returns K m → 0 ≤ size → size < 2147483648 →
      Z_Malloc K fuel m size tag user = .ok m' p → Returns K m'
  | free (m : Mem) (ptr : Int) (m' : Mem) :
      Returns K m → Listed K m (ptr - K.sizeof_memblock_t) →
      Z_Free K m ptr = .ok m' () → Returns K m'
  | freeTags (m : Mem) (fuel : Nat) (lowtag hightag : Int) (m' : Mem) :
      Returns K m → Z_FreeTags K fuel m lowtag hightag = .ok m' () → Returns K m'
  | changeTag (m : Mem) (ptr tag : Int) (m' : Mem) :
      Returns K m → Listed K m (ptr - K.sizeof_memblock_t) →
      Z_ChangeTag2 K m ptr tag = .ok m' () → Returns K m'

/-- The fresh zone after `Z_Malloc(100, PU_CACHE, 5000)` with `PU_CACHE = 8`: the
block at 1056 is purgable with the owner slot 5000, the block at 1200 is free. -/
def demoCache : Mem := memOf (Z_Malloc lp64 4 demoInit 100 8 5000)

/-! ## A concrete arena with a purgable block -/

/-- An arena with one purgable block of 144 bytes, owned by the slot at address
5000, in front of a free block; for concrete runs. -/
def demoOwned : Mem := memOf (Z_Malloc lp64 4 (Z_Init lp64 zeroMem 1000 1056) 100 8 5000)

end Zone

namespace Query

/-!
# Querying servers (`src/zendoom/src/net/query.c`)

A shallow embedding of the client side of the server query.  The module state
of `query.c` is the record `State`; a pointer into the `targets` array is the
index of the target, an address (`net_addr_t *`) is a number with `0` for
`NULL`.  The clock (`I_GetTimeMS`), the network (`NET_RecvPacket`) and the
decoding of a packet are inputs of the functions; the queries that are sent are
collected in `State.sent`.
-/

/-- Time to wait for a response before declaring a timeout. -/
def QUERY_TIMEOUT_SECS : Nat := 2

/-- Number of query attempts to make before giving up on a server. -/
def QUERY_MAX_ATTEMPTS : Nat := 3

/-- Packet types of `defs.h`, which `query.c` takes from outside the translated
file. -/
structure Consts where
  NET_PACKET_TYPE_QUERY_RESPONSE : Nat
  NET_MASTER_PACKET_TYPE_QUERY_RESPONSE : Nat

/-- Conversion to `unsigned int`. -/
def u32 (x : Int) : Nat := (x % 4294967296).toNat

/-- Conversion to `int`. -/
def i32 (x : Int) : Int := (x + 2147483648) % 4294967296 - 2147483648

/-- What type of target the query is directed at. -/
inductive query_target_type_t where
  | QUERY_TARGET_SERVER
  | QUERY_TARGET_MASTER
  | QUERY_TARGET_BROADCAST
  deriving DecidableEq

/-- The current state of the target being queried. -/
inductive query_target_state_t where
  | QUERY_TARGET_QUEUED
  | QUERY_TARGET_QUERIED
  | QUERY_TARGET_RESPONDED
  | QUERY_TARGET_NO_RESPONSE
  deriving DecidableEq

open query_target_type_t query_target_state_t

/-- One entry of the `targets` array; `data` stands for the `net_querydata_t`. -/
structure query_target_t where
  type : query_target_type_t
  state : query_target_state_t
  addr : Nat
  data : Nat
  ping_time : Nat
  query_time : Nat
  query_attempts : Nat
  printed : Bool
  deriving DecidableEq

instance : Inhabited query_target_t :=
  ⟨⟨QUERY_TARGET_SERVER, QUERY_TARGET_QUEUED, 0, 0, 0, 0, 0, false⟩⟩

/-- The static variables of `query.c` that the query loop uses.  `fresh n` is
what the memory of a new entry `n` of `targets` holds before it is initialised;
`sent` lists the queries sent so far, oldest first, as pairs of the clock
reading and the index of the target. -/
structure State where
  targets : List query_target_t
  last_query_time : Int
  query_loop_running : Bool
  printed_header : Bool
  fresh : Nat → query_target_t
  sent : List (Nat × Nat)

/-- What the reads of a received packet yield: the header (`net_read_int16`,
`none` when the read fails), the query data (`NET_ReadQueryData`), and the
strings of a master response (`NET_ReadString` until it returns `NULL`), each
as the address to which `net_resolve_address` resolves it (`0` for `NULL`). -/
structure net_packet_t where
  header : Option Nat
  querydata : Option Nat
  addrs : List Nat
  deriving DecidableEq

/-- A `net_query_callback_t` (without `usedata`): address, query data, ping time. -/
abbrev net_query_callback_t := Nat → Nat → Nat → State → State

/-- Index of the first entry from index `i` on for which `p` holds. -/
def firstIndex (p : query_target_t → Bool) : List query_target_t → Nat → Option Nat
  | [], _ => none
  | t :: ts, i => if p t then some i else firstIndex p ts (i + 1)

/-- The list with the entry at index `i` replaced by its image under `f`. -/
def onTarget (f : query_target_t → query_target_t) : Nat → List query_target_t →
    List query_target_t
  | _, [] => []
  | 0, t :: ts => f t :: ts
  | i + 1, t :: ts => t :: onTarget f i ts

/-- `targets[i]` -/
def State.target (st : State) (i : Nat) : query_target_t := st.targets.getD i default

/-- `net_get_target_for_addr`: the index of the target, or `none` for `NULL`. -/
def net_get_target_for_addr (st : State) (addr : Nat) (create : Bool) : State × Option Nat :=
  match firstIndex (fun t => t.addr = addr) st.targets 0 with
  | some i => (st, some i)
  | none =>
    if ¬ create then (st, none)
    else
      -- targets = I_Realloc(targets, sizeof(query_target_t) * (num_targets + 1));
      let target : query_target_t :=
        { st.fresh st.targets.length with
          type := QUERY_TARGET_SERVER, state := QUERY_TARGET_QUEUED, printed := false,
          query_attempts := 0, addr := addr }
      ({ st with targets := st.targets ++ [target] }, some st.targets.length)

/-- `net_free_targets` -/
def net_free_targets (st : State) : State := { st with targets := [] }

/-- `net_query_ParseResponse`; `now` is the reading of `I_GetTimeMS`. -/
def net_query_ParseResponse (K : Consts) (st : State) (addr : Nat) (packet : net_packet_t)
    (callback : net_query_callback_t) (now : Nat) : State :=
  -- Read the header
  match packet.header with
  | none => st
  | some packet_type =>
    if packet_type ≠ K.NET_PACKET_TYPE_QUERY_RESPONSE then st
    else
      -- Read query data
      match packet.querydata with
      | none => st
      | some querydata =>
        -- Find the target that responded.
        let found : Option (State × Nat) :=
          match net_get_target_for_addr st addr false with
          | (st, some target) => some (st, target)
          | (st, none) =>
            match net_get_target_for_addr st 0 false with
            | (_, none) => none
            | (st, some broadcast_target) =>
              if (st.target broadcast_target).state ≠ QUERY_TARGET_QUERIED then none
              else
                -- Create new target.
                match net_get_target_for_addr st addr true with
                | (st, some target) =>
                  some ({ st with targets := (onTarget (fun t =>
                    { t with state := QUERY_TARGET_QUERIED,
                             query_time := (st.target broadcast_target).query_time })
                    target st.targets) }, target)
                | (_, none) => none
        match found with
        | none => st
        | some (st, target) =>
          if (st.target target).state ≠ QUERY_TARGET_RESPONDED then
            let ping_time := u32 (now - (st.target target).query_time)
            let st := { st with targets := (onTarget (fun t =>
              { t with state := QUERY_TARGET_RESPONDED, data := querydata,
                       ping_time := ping_time }) target st.targets) }
            callback addr querydata ping_time st
          else st

/-- The loop of `net_query_parse_master_response` over the addresses. -/
def addMasterTargets (st : State) : List Nat → State
  | [] => st
  | addr :: rest =>
    if addr ≠ 0 then addMasterTargets (net_get_target_for_addr st addr true).1 rest
    else addMasterTargets st rest

/-- `net_query_parse_master_response` -/
def net_query_parse_master_response (K : Consts) (st : State) (master_addr : Nat)
    (packet : net_packet_t) : State :=
  match packet.header with
  | none => st
  | some packet_type =>
    if packet_type ≠ K.NET_MASTER_PACKET_TYPE_QUERY_RESPONSE then st
    else
      let st := addMasterTargets st packet.addrs
      -- Mark the master as having responded.
      match net_get_target_for_addr st master_addr true with
      | (st, some target) =>
        { st with targets :=
            (onTarget (fun t => { t with state := QUERY_TARGET_RESPONDED }) target st.targets) }
      | (st, none) => st

/-- `net_query_parse_packet` -/
def net_query_parse_packet (K : Consts) (st : State) (addr : Nat) (packet : net_packet_t)
    (callback : net_query_callback_t) (now : Nat) : State :=
  -- This might be the master server responding.
  match net_get_target_for_addr st addr false with
  | (st, some target) =>
    if (st.target target).type = QUERY_TARGET_MASTER then
      net_query_parse_master_response K st addr packet
    else net_query_ParseResponse K st addr packet callback now
  | (st, none) => net_query_ParseResponse K st addr packet callback now

/-- `net_query_get_response`; `recv` is what `NET_RecvPacket` delivers. -/
def net_query_get_response (K : Consts) (st : State) (recv : Option (Nat × net_packet_t))
    (callback : net_query_callback_t) (now : Nat) : State :=
  match recv with
  | some (addr, packet) => net_query_parse_packet K st addr packet callback now
  | none => st

/-- `net_send_one_query`; `now` is the reading of `I_GetTimeMS` as `unsigned int`. -/
def net_send_one_query (st : State) (now : Nat) : State :=
  -- Rate limit - only send one query every 50ms.
  if u32 (now - st.last_query_time) < 50 then st
  else
    match firstIndex (fun t => t.state = QUERY_TARGET_QUEUED ∨
        (t.state = QUERY_TARGET_QUERIED ∧
          u32 (now - t.query_time) > QUERY_TIMEOUT_SECS * 1000)) st.targets 0 with
    | none => st
    | some i =>
      -- Found a target to query.
      { st with
        targets := (onTarget (fun t =>
          { t with state := QUERY_TARGET_QUERIED, query_time := now,
                   query_attempts := u32 (t.query_attempts + 1) }) i st.targets),
        sent := st.sent ++ [(now, i)],
        last_query_time := i32 now }

/-- `net_check_target_timeouts`; `now` is the reading of `I_GetTimeMS`. -/
def net_check_target_timeouts (st : State) (now : Nat) : State :=
  { st with targets := st.targets.map (fun t =>
      if t.state = QUERY_TARGET_QUERIED ∧ t.query_attempts ≥ QUERY_MAX_ATTEMPTS ∧
          u32 (now - t.query_time) > QUERY_TIMEOUT_SECS * 1000 then
        { t with state := QUERY_TARGET_NO_RESPONSE }
      else t) }

/-- `net_all_targets_done` -/
def net_all_targets_done (st : State) : Bool :=
  st.targets.all (fun t =>
    ¬ (t.state ≠ QUERY_TARGET_RESPONDED ∧ t.state ≠ QUERY_TARGET_NO_RESPONSE))

/-- The inputs of one call of `net_query_Poll`: the three clock readings (in
`net_check_target_timeouts`, `net_send_one_query` and
`net_query_ParseResponse`) and the packet received, if any. -/
structure PollInput where
  t_check : Nat
  t_send : Nat
  t_recv : Nat
  recv : Option (Nat × net_packet_t)
  deriving DecidableEq

/-- `net_query_Poll`: the new state and the return value. -/
def net_query_Poll (K : Consts) (st : State) (callback : net_query_callback_t)
    (inp : PollInput) : State × Int :=
  let st := net_check_target_timeouts st inp.t_check
  -- Send a query.  This will only send a single query at once.
  let st := net_send_one_query st inp.t_send
  -- Check for a response
  let st := net_query_get_response K st inp.recv callback inp.t_recv
  (st, if net_all_targets_done st then 0 else 1)

/-- `net_query_ExitLoop` -/
def net_query_ExitLoop (st : State) : State := { st with query_loop_running := false }

/-- The `while` loop of `net_query_QueryLoop`, one `PollInput` per iteration;
`none` when the inputs run out before the loop ends. -/
def queryLoop (K : Consts) (callback : net_query_callback_t) : State → List PollInput →
    Option State
  | st, [] => if st.query_loop_running then none else some st
  | st, inp :: rest =>
    if st.query_loop_running then
      if (net_query_Poll K st callback inp).2 ≠ 0 then
        queryLoop K callback (net_query_Poll K st callback inp).1 rest
      else some (net_query_Poll K st callback inp).1
    else some st

/-- `net_query_QueryLoop` -/
def net_query_QueryLoop (K : Consts) (st : State) (callback : net_query_callback_t)
    (ins : List PollInput) : Option State :=
  queryLoop K callback { st with query_loop_running := true } ins

/-- `net_query_Init` -/
def net_query_Init (st : State) : State :=
  { st with targets := [], printed_header := false }

/-- `net_query_ExitCallback` -/
def net_query_ExitCallback : net_query_callback_t := fun _ _ _ st => net_query_ExitLoop st

/-- `net_queryPrintCallback` (the output apart) -/
def net_queryPrintCallback : net_query_callback_t := fun _ _ _ st =>
  { st with printed_header := true }

/-- The loop of `GetNumResponses` -/
def GetNumResponses_loop : List query_target_t → Int → Int
  | [], result => result
  | t :: ts, result =>
    if t.type = QUERY_TARGET_SERVER ∧ t.state = QUERY_TARGET_RESPONDED then
      GetNumResponses_loop ts (i32 (result + 1))
    else GetNumResponses_loop ts result

/-- `GetNumResponses` -/
def GetNumResponses (st : State) : Int := GetNumResponses_loop st.targets 0

/-- `net_start_lan_query`: the new state (the return value is 1). -/
def net_start_lan_query (st : State) : State :=
  let st := net_query_Init st
  -- Add a broadcast target to the list.
  match net_get_target_for_addr st 0 true with
  | (st, some target) =>
    { st with targets :=
        (onTarget (fun t => { t with type := QUERY_TARGET_BROADCAST }) target st.targets) }
  | (st, none) => st

/-- The calls of `error(...)` in `net_queryAddress`. -/
inductive QueryError where
  /-- "net_queryAddress: Host '%s' not found!" -/
  | host_not_found
  /-- "No response from '%s'" -/
  | no_response
  deriving DecidableEq

/-- How `net_queryAddress` ends: it returns, it stops in `error`, or the inputs
of the model ran out. -/
inductive QueryOutcome where
  | returned (st : State)
  | fatal (st : State) (e : QueryError)
  | nofuel

/-- `net_queryAddress`; `addr` is what `net_resolve_address` yields for the
string, `ins` are the inputs of the calls of `net_query_Poll`. -/
def net_queryAddress (K : Consts) (st : State) (addr : Nat) (ins : List PollInput) :
    QueryOutcome :=
  let st := net_query_Init st
  if addr = 0 then .fatal st .host_not_found
  else
    -- Add the address to the list of targets.
    match net_get_target_for_addr st addr true with
    | (st, some target) =>
      -- Run query loop.
      match net_query_QueryLoop K st net_query_ExitCallback ins with
      | none => .nofuel
      | some st =>
        -- Check if the target responded.
        if (st.target target).state = QUERY_TARGET_RESPONDED then
          .returned (net_free_targets
            (net_queryPrintCallback addr (st.target target).data (st.target target).ping_time st))
        else .fatal st .no_response
    | (st, none) => .fatal st .host_not_found

/-! ## Notions for the statements -/

/-- The callback leaves the static variables of `query.c` alone, except for the
two flags (the callbacks of `query.c` set `printed_header` or clear
`query_loop_running`). -/
def CallbackOk (callback : net_query_callback_t) : Prop :=
  ∀ addr data ping st, (callback addr data ping st).targets = st.targets ∧
    (callback addr data ping st).last_query_time = st.last_query_time ∧
    (callback addr data ping st).sent = st.sent ∧
    (callback addr data ping st).fresh = st.fresh

/-- The entry that `net_get_target_for_addr` creates for `addr`. -/
def newTarget (st : State) (addr : Nat) : query_target_t :=
  { st.fresh st.targets.length with
    type := QUERY_TARGET_SERVER, state := QUERY_TARGET_QUEUED, printed := false,
    query_attempts := 0, addr := addr }

/-- The packet is a query response that can be read. -/
def ValidResponse (K : Consts) (packet : net_packet_t) : Prop :=
  packet.header = some K.NET_PACKET_TYPE_QUERY_RESPONSE ∧ packet.querydata ≠ none

instance (K : Consts) (packet : net_packet_t) : Decidable (ValidResponse K packet) :=
  inferInstanceAs (Decidable (_ ∧ _))

/-- What the receipt of a packet does to a target: nothing, or the target is
marked as having responded. -/
def Received (t t' : query_target_t) : Prop :=
  t' = t ∨ ∃ d p, t' = { t with state := QUERY_TARGET_RESPONDED, data := d, ping_time := p }

/-- The shape of a target that has been created during the receipt of a packet:
a server that no query was sent to, queued or marked as having responded. -/
def Created (t : query_target_t) : Prop :=
  t.type = QUERY_TARGET_SERVER ∧ t.query_attempts = 0 ∧
    (t.state = QUERY_TARGET_QUEUED ∨ t.state = QUERY_TARGET_RESPONDED)

/-- The effect of the receipt of a packet on the module state: targets stay in
place and are at most marked as having responded, new targets are added at the
end, the record of the queries sent is as it was. -/
def Grows (st st' : State) : Prop :=
  ∃ mid extra, st'.targets = mid ++ extra ∧ List.Forall₂ Received st.targets mid ∧
    (∀ t ∈ extra, Created t) ∧ st'.sent = st.sent ∧
    st'.last_query_time = st.last_query_time ∧ st'.fresh = st.fresh

/-- The life cycle of a target as the code has it: a target stays as it is,
a queued or queried target becomes queried, a queried target becomes "no
response", and a target in any state is marked as having responded. -/
def Follows (s s' : query_target_state_t) : Prop :=
  s' = s ∨ (s' = QUERY_TARGET_QUERIED ∧ (s = QUERY_TARGET_QUEUED ∨ s = QUERY_TARGET_QUERIED)) ∨
    (s' = QUERY_TARGET_NO_RESPONSE ∧ s = QUERY_TARGET_QUERIED) ∨ s' = QUERY_TARGET_RESPONDED

/-- The targets `new` come from the targets `old` by steps of the life cycle;
the targets added at the end are queued, or created for a response that has
just arrived and marked as having responded. -/
def Lifecycle (old new : List query_target_t) : Prop :=
  ∃ mid extra, new = mid ++ extra ∧
    List.Forall₂ (fun t t' => Follows t.state t'.state) old mid ∧
    ∀ t ∈ extra, t.state = QUERY_TARGET_QUEUED ∨ t.state = QUERY_TARGET_RESPONDED

/-- The timeout test of `net_check_target_timeouts` at the clock reading `now`. -/
def TimedOut (t : query_target_t) (now : Nat) : Prop :=
  t.state = QUERY_TARGET_QUERIED ∧ t.query_attempts ≥ QUERY_MAX_ATTEMPTS ∧
    u32 (now - t.query_time) > QUERY_TIMEOUT_SECS * 1000

instance (t : query_target_t) (now : Nat) : Decidable (TimedOut t now) :=
  inferInstanceAs (Decidable (_ ∧ _))

/-- The state in which `net_queryAddress` enters the loop of
`net_query_QueryLoop`. -/
def queryStart (st : State) (addr : Nat) : State :=
  { (net_get_target_for_addr (net_query_Init st) addr true).1 with query_loop_running := true }

/-- In the claim's words: the broadcast target is in the state `QUERIED`. -/
def broadcastQueried (st : State) : Prop :=
  ∃ t ∈ st.targets, t.type = QUERY_TARGET_BROADCAST ∧ t.state = QUERY_TARGET_QUERIED

instance (st : State) : Decidable (broadcastQueried st) :=
  inferInstanceAs (Decidable (∃ t ∈ st.targets, _))

/-- In the claim's words: the addresses from which a valid query response
arrives while the broadcast target is in the state `QUERIED`, along a sequence
of polls, in the order of arrival (with repetitions). -/
def lanResponders (K : Consts) (callback : net_query_callback_t) :
    State → List PollInput → List Nat
  | _, [] => []
  | st, inp :: rest =>
    (match inp.recv with
      | some (addr, packet) =>
        if ValidResponse K packet ∧
            broadcastQueried
              (net_send_one_query (net_check_target_timeouts st inp.t_check) inp.t_send) then
          [addr]
        else []
      | none => []) ++ lanResponders K callback (net_query_Poll K st callback inp).1 rest

/-- The shape of the targets in a LAN query: the broadcast target, followed by
one server for each of the addresses `S`, each marked as having responded. -/
def LanInv (st : State) (S : List Nat) : Prop :=
  ∃ bt rest, st.targets = bt :: rest ∧ bt.addr = 0 ∧ bt.type = QUERY_TARGET_BROADCAST ∧
    (∀ t ∈ rest, t.type = QUERY_TARGET_SERVER ∧ t.state = QUERY_TARGET_RESPONDED ∧
      t.addr ≠ 0) ∧
    rest.map (fun t => t.addr) = S ∧ S.Nodup

/-- The bound on the queries sent to a target: at most `QUERY_MAX_ATTEMPTS`,
and none while the target is queued. -/
def AttemptsOk (t : query_target_t) : Prop :=
  t.query_attempts ≤ QUERY_MAX_ATTEMPTS ∧ (t.state = QUERY_TARGET_QUEUED → t.query_attempts = 0)

/-- The target that `net_get_target_for_addr` finds for `addr`: the first
target with that address, at index `i`. -/
def TargetAt (st : State) (addr i : Nat) (t : query_target_t) : Prop :=
  st.targets[i]? = some t ∧ t.addr = addr ∧
    ∀ (j : Nat) (t' : query_target_t), j < i → st.targets[j]? = some t' → t'.addr ≠ addr

/-- The target for `addr` is marked as having responded. -/
def respondedAt (st : State) (addr : Nat) : Prop :=
  ∃ i t, TargetAt st addr i t ∧ t.state = QUERY_TARGET_RESPONDED

/-- The targets of `l` are still in place in `l'`, with their addresses, and
those that had responded are still marked so. -/
def Stays (l l' : List query_target_t) : Prop :=
  ∀ (i : Nat) (t : query_target_t), l[i]? = some t →
    ∃ t' : query_target_t, l'[i]? = some t' ∧ t'.addr = t.addr ∧
    (t.state = QUERY_TARGET_RESPONDED → t'.state = QUERY_TARGET_RESPONDED)

/-! ## Concrete runs -/

/-- The packet types of Chocolate Doom's `net_defs.h`, for concrete runs. -/
def demoConsts : Consts :=
  { NET_PACKET_TYPE_QUERY_RESPONSE := 14, NET_MASTER_PACKET_TYPE_QUERY_RESPONSE := 3 }

/-- The module state at program start, with zeroed memory. -/
def initState : State :=
  { targets := [], last_query_time := 0, query_loop_running := false,
    printed_header := false, fresh := fun _ => default, sent := [] }

/-- A poll with one clock reading in which nothing is received. -/
def quiet (t : Nat) : PollInput := { t_check := t, t_send := t, t_recv := t, recv := none }

/-- A poll with one clock reading in which a query response from `addr` is
received. -/
def answer (t addr : Nat) : PollInput :=
  { t_check := t, t_send := t, t_recv := t,
    recv := some (addr, { header := some 14, querydata := some 1, addrs := [] }) }

/-- A sequence of calls of `net_query_Poll`, whatever they return. -/
def polls (K : Consts) (callback : net_query_callback_t) : State → List PollInput → State
  | st, [] => st
  | st, inp :: rest => polls K callback (net_query_Poll K st callback inp).1 rest

/-- The packet of `answer`: a query response that can be read. -/
def demoResponse : net_packet_t := { header := some 14, querydata := some 1, addrs := [] }

/-- The state in which `net_queryAddress` enters its loop for the address 7. -/
def demoDirect : State := queryStart initState 7

/-- The target of `demoDirect` after three queries without a response, timed
out. -/
def demoTimedOut : State :=
  polls demoConsts net_query_ExitCallback demoDirect
    [quiet 50, quiet 2051, quiet 4052, quiet 6053]

/-- The return values of a sequence of calls of `net_query_Poll`. -/
def pollResults (K : Consts) (callback : net_query_callback_t) :
    State → List PollInput → List Int
  | _, [] => []
  | st, inp :: rest =>
    (net_query_Poll K st callback inp).2 ::
      pollResults K callback (net_query_Poll K st callback inp).1 rest

/-- A LAN query in which two servers have responded to the first broadcast. -/
def demoLan : State :=
  polls demoConsts net_queryPrintCallback (net_start_lan_query initState)
    [quiet 50, answer 60 11, answer 70 12]

end Query

namespace GameMode

/-!
# Game modes (`src/src/game/gamemode.c`)

The enumerations of `gamemode.h` are C integers (the values checked here are
"received over the network"), so a mission and a mode are numbers, with the
enumerators as constants.
-/

/-- `GameMission_t`: the "mission" controls what game we are playing. -/
abbrev GameMission_t := Int

/-- `doom`: Doom 1 -/
def GameMission_t.doom : GameMission_t := 0

/-- `none` -/
def GameMission_t.none : GameMission_t := 1

/-- `GameMode_t`: shareware vs. registered. -/
abbrev GameMode_t := Int

/-- `shareware`: Doom shareware -/
def GameMode_t.shareware : GameMode_t := 0

/-- `registered`: Doom registered -/
def GameMode_t.registered : GameMode_t := 1

/-- `indetermined`: Unknown. -/
def GameMode_t.indetermined : GameMode_t := 2

/-- An entry of `validoom_modes`. -/
structure valid_mode_t where
  mission : GameMission_t
  mode : GameMode_t
  episode : Int
  map : Int

/-- `validoom_modes`: valid game mode/mission combinations, with the number of
episodes/maps for each. -/
def validoom_modes : List valid_mode_t :=
  [⟨GameMission_t.doom, GameMode_t.shareware, 1, 9⟩,
   ⟨GameMission_t.doom, GameMode_t.registered, 3, 9⟩]

/-- The loop of `D_ValidGameMode` over the entries of the table from `i` on. -/
def D_ValidGameMode_loop (mission : GameMission_t) (mode : GameMode_t) :
    List valid_mode_t → Bool
  | [] => false
  | e :: rest =>
    if e.mode = mode ∧ e.mission = mission then true
    else D_ValidGameMode_loop mission mode rest

/-- `D_ValidGameMode`: check that a gamemode+gamemission received over the
network is valid. -/
def D_ValidGameMode (mission : GameMission_t) (mode : GameMode_t) : Bool :=
  D_ValidGameMode_loop mission mode validoom_modes

/-- The loop of `D_ValidEpisodeMap` over the entries of the table from `i` on. -/
def D_ValidEpisodeMap_loop (mission : GameMission_t) (mode : GameMode_t) (episode map : Int) :
    List valid_mode_t → Bool
  | [] =>
    -- Unknown mode/mission combination
    false
  | e :: rest =>
    -- Find the table entry for this mission/mode combination.
    if mission = e.mission ∧ mode = e.mode then
      decide (episode ≥ 1 ∧ episode ≤ e.episode ∧ map ≥ 1 ∧ map ≤ e.map)
    else D_ValidEpisodeMap_loop mission mode episode map rest

/-- `D_ValidEpisodeMap` -/
def D_ValidEpisodeMap (mission : GameMission_t) (mode : GameMode_t) (episode map : Int) :
    Bool :=
  D_ValidEpisodeMap_loop mission mode episode map validoom_modes

end GameMode

namespace Hud

/-!
# The chat character queue (`src/src/hud/stuff.c`)

The queue of `HU_queueChatChar` and `HU_dequeueChatChar`: the array
`chatchars` as a map from the index to the character, the two `int` indices,
and the message pointer of the player that `HU_queueChatChar` sets when the
queue is full.  Characters and pointers are numbers.
-/

/-- `#define QUEUESIZE 128` -/
def QUEUESIZE : Int := 128

/-- The static variables `chatchars`, `head` and `tail`, and `plr->message`. -/
structure ChatState where
  /-- `static char chatchars[QUEUESIZE]`, by index -/
  chatchars : Int → Int
  /-- `static int head = 0` -/
  head : Int
  /-- `static int tail = 0` -/
  tail : Int
  /-- `plr->message` -/
  plr_message : Int

/-- The state at program start: the statics are zero. -/
def chatInit (message : Int) : ChatState :=
  { chatchars := fun _ => 0, head := 0, tail := 0, plr_message := message }

/-- `HU_queueChatChar`; `HUSTR_MSGU` is the message of `dstrings.h`. -/
def HU_queueChatChar (HUSTR_MSGU : Int) (st : ChatState) (c : Int) : ChatState :=
  if Int.land (st.head + 1) (QUEUESIZE - 1) = st.tail then
    { st with plr_message := HUSTR_MSGU }
  else
    { st with
      chatchars := fun i => if i = st.head then c else st.chatchars i,
      head := Int.land (st.head + 1) (QUEUESIZE - 1) }

/-- `HU_dequeueChatChar`: the character returned and the new state. -/
def HU_dequeueChatChar (st : ChatState) : Int × ChatState :=
  if st.head ≠ st.tail then
    (st.chatchars st.tail, { st with tail := Int.land (st.tail + 1) (QUEUESIZE - 1) })
  else (0, st)

/-- A call of one of the two functions. -/
inductive ChatOp where
  | queue (c : Int)
  | dequeue

/-- A sequence of calls: the final state and the characters that the calls of
`HU_dequeueChatChar` returned, in order. -/
def runChat (HUSTR_MSGU : Int) : ChatState → List ChatOp → ChatState × List Int
  | st, [] => (st, [])
  | st, .queue c :: ops => runChat HUSTR_MSGU (HU_queueChatChar HUSTR_MSGU st c) ops
  | st, .dequeue :: ops =>
    ((runChat HUSTR_MSGU (HU_dequeueChatChar st).2 ops).1,
      (HU_dequeueChatChar st).1 :: (runChat HUSTR_MSGU (HU_dequeueChatChar st).2 ops).2)

/-! ## Notions for the statements about the chat queue -/

/-- Both indices are indices of the array. -/
def ChatInv (st : ChatState) : Prop :=
  0 ≤ st.head ∧ st.head < QUEUESIZE ∧ 0 ≤ st.tail ∧ st.tail < QUEUESIZE

instance (st : ChatState) : Decidable (ChatInv st) := inferInstanceAs (Decidable (_ ∧ _))

/-- The pending characters: the entries of the array from `tail` up to `head`,
around the end of the array. -/
def pending (st : ChatState) : List Int :=
  (List.range ((st.head - st.tail) % QUEUESIZE).toNat).map
    (fun (i : Nat) => st.chatchars ((st.tail + (i : Int)) % QUEUESIZE))

/-- In the claim's words: queueing a character on a FIFO that holds at most
`QUEUESIZE - 1` characters; a character queued while that many are pending is
dropped. -/
def fifoQueue (q : List Int) (c : Int) : List Int :=
  if q.length < 127 then q ++ [c] else q

/-- In the claim's words: dequeueing yields the oldest pending character, and 0
when the queue is empty. -/
def fifoDequeue : List Int → Int × List Int
  | [] => (0, [])
  | c :: q => (c, q)

/-- In the claim's words: a sequence of calls on the FIFO, with the characters
dequeued. -/
def runFifo : List Int → List ChatOp → List Int × List Int
  | q, [] => (q, [])
  | q, .queue c :: ops => runFifo (fifoQueue q c) ops
  | q, .dequeue :: ops =>
    ((runFifo (fifoDequeue q).2 ops).1, (fifoDequeue q).1 :: (runFifo (fifoDequeue q).2 ops).2)

end Hud

namespace Deh

/-!
# Assignments in dehacked files (`src/src/deh_main.c`)

A C string is the list of its characters before the terminating `\0` (so no
element of the list is 0); a pointer into the string is the list of the
characters from that place on.  `isspace` of `<ctype.h>` is a parameter.
-/

/-- `strchr(s, c)` for a character `c` other than `\0`: the offset of the first
`c` in the string, `none` for `NULL`. -/
def strchr : List Nat → Nat → Option Nat
  | [], _ => none
  | x :: s, c => if x = c then some 0 else (strchr s c).map (fun i => i + 1)

/-- The first loop of `CleanString`: `while (*s && isspace(*s)) ++s;` -/
def skipLeading (isspace : Nat → Bool) : List Nat → List Nat
  | [] => []
  | c :: s => if isspace c then skipLeading isspace s else c :: s

/-- The second loop of `CleanString`, with `strending` at the last character:
`while (strlen(s) > 0 && isspace(*strending)) { *strending = '\0'; --strending; }`;
`fuel` bounds the iterations. -/
def stripTrailing (isspace : Nat → Bool) : Nat → List Nat → List Nat
  | 0, s => s
  | fuel + 1, s =>
    match s.getLast? with
    | some c => if isspace c then stripTrailing isspace fuel s.dropLast else s
    | none => s

/-- `CleanString`: strip whitespace from the start and end of a string. Every
iteration of the second loop shortens the string, so `strlen(s)` iterations
are enough. -/
def CleanString (isspace : Nat → Bool) (s : List Nat) : List Nat :=
  -- Leading whitespace
  let s := skipLeading isspace s
  -- Trailing whitespace
  stripTrailing isspace s.length s

/-- `DEH_ParseAssignment`: `none` for `false`, otherwise `*variable_name` and
`*value`. -/
def DEH_ParseAssignment (isspace : Nat → Bool) (line : List Nat) :
    Option (List Nat × List Nat) :=
  -- find the equals
  match strchr line 61 with
  | none => none
  | some p =>
    -- variable name at the start
    -- turn the '=' into a \0 to terminate the string here
    -- value immediately follows the '='
    some (CleanString isspace (line.take p), CleanString isspace (line.drop (p + 1)))

/-! ## Notions for the statements about `DEH_ParseAssignment` -/

/-- In the claim's words: the text with all leading and trailing whitespace
removed. -/
def trimmed (isspace : Nat → Bool) (s : List Nat) : List Nat :=
  (s.dropWhile isspace).rdropWhile isspace

/-- The `isspace` of the "C" locale: space, `\t`, `\n`, `\v`, `\f`, `\r`. -/
def isspaceC (c : Nat) : Bool := c = 32 || (9 ≤ c && c ≤ 13)

/-- The characters of a string literal. -/
def chars (s : String) : List Nat := s.toList.map Char.toNat

end Deh

namespace Gui

/-!
# The client waiting screen (`src/src/net/gui.c`)

The statics of `gui.c` and the globals of the client that it reads form the
record `State`; what the functions print, and the calls they make into the
client (`NET_CL_LaunchGame`), are collected in `State.out`.  Strings and label
pointers are numbers.  The keyboard, the query code and the network
(`NET_CL_Run`, `net_server_run`) are inputs.
-/

/-- The bytes of a `sha1_digest_t`, from the start of the array. -/
abbrev sha1_digest_t := List Nat

/-- The fields of `net_waitdata_t` (`net/defs.h`) that `gui.c` reads. -/
structure net_waitdata_t where
  num_players : Int
  num_drones : Int
  max_players : Int
  is_controller : Bool
  wad_sha1sum : sha1_digest_t
  player_names : Nat → Nat
  player_addrs : Nat → Nat

/-- What `gui.c` prints and the calls it makes into the client. -/
inductive Event where
  /-- `printf(" %i. %s %s\n", i + 1, player_labels[i], ip_labels[i])` -/
  | window_line (n : Int) (name addr : Nat)
  /-- "You are the controller. Type "s" to start server ..." -/
  | controller_prompt
  /-- the call `NET_CL_LaunchGame()` -/
  | launch_game
  /-- the escape sequence that clears the screen -/
  | clear_screen
  /-- "Your server is now registered with the global master server. ..." -/
  | master_registered
  /-- "Failed to register with the master server. ..." -/
  | master_failed
  /-- "Warning: WAD SHA1 does not match server:" -/
  | sha1_warning
  /-- `PrintSHA1Digest("Local", ...)` -/
  | digest_local (d : sha1_digest_t)
  /-- `PrintSHA1Digest("Server", ...)` -/
  | digest_server (d : sha1_digest_t)
  /-- "If you continue, this may cause your game to desync." -/
  | desync_notice
  deriving DecidableEq, Repr

/-- The statics of `gui.c`, the globals of the client that it reads, and the
output. -/
structure State where
  /-- `static int old_max_players` -/
  old_max_players : Int
  /-- `static char *player_labels[NET_MAXPLAYERS]`, by index -/
  player_labels : Nat → Nat
  /-- `static char *ip_labels[NET_MAXPLAYERS]`, by index -/
  ip_labels : Nat → Nat
  /-- `static boolean had_warning` -/
  had_warning : Bool
  /-- `static int expected_nodes`: number of players we expect to be in the
  game. When the number is reached, we auto-start the game (if we're the
  controller). If zero, do not autostart. -/
  expected_nodes : Int
  client_received_wait_data : Bool
  client_wait_data : net_waitdata_t
  net_local_wad_sha1sum : sha1_digest_t
  client_connected : Bool
  net_waiting_for_launch : Bool
  /-- what has been printed and called so far -/
  out : List Event

/-- The empty string `""`. -/
def emptyLabel : Nat := 0

/-- The loop of `BuildWindow` over the player labels `i, i + 1, ...`. -/
def BuildWindow_loop : Nat → Nat → State → State
  | 0, _, st => st
  | n + 1, i, st =>
    let st := { st with out := st.out ++
      [Event.window_line (i + 1) (st.player_labels i) (st.ip_labels i)] }
    let st := { st with
      player_labels := fun j => if j = i then emptyLabel else st.player_labels j }
    let st := { st with ip_labels := fun j => if j = i then emptyLabel else st.ip_labels j }
    BuildWindow_loop n (i + 1) st

/-- `BuildWindow` -/
def BuildWindow (st : State) : State :=
  BuildWindow_loop st.client_wait_data.max_players.toNat 0 st

/-- The loop of `UpdateGUI` over the player labels `i, i + 1, ...`. -/
def UpdateGUI_loop : Nat → Nat → State → State
  | 0, _, st => st
  | n + 1, i, st =>
    let st :=
      if (i : Int) < st.client_wait_data.num_players then
        { st with
          player_labels := fun j =>
            if j = i then st.client_wait_data.player_names i else st.player_labels j,
          ip_labels := fun j =>
            if j = i then st.client_wait_data.player_addrs i else st.ip_labels j }
      else
        { st with
          player_labels := fun j => if j = i then emptyLabel else st.player_labels j,
          ip_labels := fun j => if j = i then emptyLabel else st.ip_labels j }
    UpdateGUI_loop n (i + 1) st

/-- `UpdateGUI`; `key` is what `getchar()` returns when it is called. -/
def UpdateGUI (st : State) (key : Int) : State :=
  -- If the value of max_players changes, we must rebuild the
  -- contents of the window.
  if st.client_received_wait_data then
    let st :=
      if st.client_wait_data.max_players ≠ st.old_max_players then BuildWindow st else st
    let st := UpdateGUI_loop st.client_wait_data.max_players.toNat 0 st
    let st :=
      if st.client_wait_data.is_controller then
        let st := { st with out := st.out ++ [Event.controller_prompt] }
        if key = 115 then { st with out := st.out ++ [Event.launch_game] } else st
      else st
    { st with out := st.out ++ [Event.clear_screen] }
  else st

/-- `CheckMasterStatus`; `master` is what `net_query_CheckAddedToMaster` yields:
`none` when it returns false, otherwise the value of `added`. -/
def CheckMasterStatus (st : State) (master : Option Bool) : State :=
  match master with
  | none => st
  | some true => { st with out := st.out ++ [Event.master_registered] }
  | some false => { st with out := st.out ++ [Event.master_failed] }

/-- `memcmp(a, b, n) == 0` -/
def memcmp_eq (a b : List Nat) (n : Nat) : Bool := a.take n = b.take n

/-- `CheckSHA1Sums`; `digest_size` is `sizeof(sha1_digest_t)`. -/
def CheckSHA1Sums (digest_size : Nat) (st : State) : State :=
  if ¬ st.client_received_wait_data ∨ st.had_warning then st
  else
    let correct_wad :=
      memcmp_eq st.net_local_wad_sha1sum st.client_wait_data.wad_sha1sum digest_size
    if correct_wad then st
    else
      { st with
        out := st.out ++ [Event.sha1_warning, Event.digest_local st.net_local_wad_sha1sum,
          Event.digest_server st.client_wait_data.wad_sha1sum, Event.desync_notice],
        had_warning := true }

/-- `ParseCommandLineArgs`; `nodes` is `atoi(myargv[i + 1])` when the parameter
`-nodes` is given, `none` when `M_CheckParmWithArgs` finds nothing. -/
def ParseCommandLineArgs (st : State) (nodes : Option Int) : State :=
  match nodes with
  | some n => { st with expected_nodes := n }
  | none => st

/-- `CheckAutoLaunch` -/
def CheckAutoLaunch (st : State) : State :=
  if st.client_received_wait_data ∧ st.client_wait_data.is_controller ∧ st.expected_nodes > 0
  then
    let nodes := st.client_wait_data.num_players + st.client_wait_data.num_drones
    if nodes ≥ st.expected_nodes then { st with expected_nodes := 0 } else st
  else st

/-- The inputs of one iteration of the loop of `NET_WaitForLaunch`: the key
that `getchar()` returns, the answer of the query code, and the globals of the
client after `NET_CL_Run()` and `net_server_run()`. -/
structure WaitInput where
  key : Int
  master : Option Bool
  received_wait_data : Bool
  wait_data : net_waitdata_t
  connected : Bool
  waiting_for_launch : Bool

/-- How `NET_WaitForLaunch` ends: it returns, it stops in
`error("Lost connection to server")`, or the inputs of the model ran out. -/
inductive WaitOutcome where
  | returned (st : State)
  | lost_connection (st : State)
  | nofuel

/-- One iteration of the loop of `NET_WaitForLaunch` up to the test of the
connection. -/
def waitStep (digest_size : Nat) (st : State) (inp : WaitInput) : State :=
  let st := UpdateGUI st inp.key
  let st := CheckAutoLaunch st
  let st := CheckSHA1Sums digest_size st
  let st := CheckMasterStatus st inp.master
  -- NET_CL_Run(); net_server_run();
  { st with
    client_received_wait_data := inp.received_wait_data,
    client_wait_data := inp.wait_data,
    client_connected := inp.connected,
    net_waiting_for_launch := inp.waiting_for_launch }

/-- The `while` loop of `NET_WaitForLaunch`, one `WaitInput` per iteration. -/
def waitLoop (digest_size : Nat) : State → List WaitInput → WaitOutcome
  | st, [] => if st.net_waiting_for_launch then .nofuel else .returned st
  | st, inp :: rest =>
    if st.net_waiting_for_launch then
      let st := waitStep digest_size st inp
      if ¬ st.client_connected then .lost_connection st
      else waitLoop digest_size st rest
    else .returned st

/-- `NET_WaitForLaunch` -/
def NET_WaitForLaunch (digest_size : Nat) (st : State) (nodes : Option Int)
    (ins : List WaitInput) : WaitOutcome :=
  let st := ParseCommandLineArgs st nodes
  let st := { st with had_warning := false }
  waitLoop digest_size st ins

/-! ## Notions for the statements about the waiting screen -/

/-- The state in which `NET_WaitForLaunch` ends, `none` when the inputs ran
out. -/
def WaitOutcome.state : WaitOutcome → Option State
  | .returned st => some st
  | .lost_connection st => some st
  | .nofuel => none

/-- The wait data of a lobby with two players of which we are the controller. -/
def demoWaitData : net_waitdata_t :=
  { num_players := 2, num_drones := 0, max_players := 4, is_controller := true,
    wad_sha1sum := List.replicate 20 7, player_names := fun i => 100 + i,
    player_addrs := fun i => 200 + i }

/-- A client that has received `demoWaitData` and was started with `-nodes 2`;
its WAD differs from the one of the server. -/
def demoLobby : State :=
  { old_max_players := 0, player_labels := fun _ => 0, ip_labels := fun _ => 0,
    had_warning := false, expected_nodes := 2, client_received_wait_data := true,
    client_wait_data := demoWaitData, net_local_wad_sha1sum := List.replicate 20 9,
    client_connected := true, net_waiting_for_launch := true, out := [] }

/-- An iteration in which a key other than `s` is read and the lobby stays as
it is. -/
def demoIdle : WaitInput :=
  { key := 10, master := none, received_wait_data := true, wait_data := demoWaitData,
    connected := true, waiting_for_launch := true }

/-- The two states agree on everything but the labels and the output. -/
def SameCore (st st' : State) : Prop :=
  st'.old_max_players = st.old_max_players ∧ st'.had_warning = st.had_warning ∧
  st'.expected_nodes = st.expected_nodes ∧
  st'.client_received_wait_data = st.client_received_wait_data ∧
  st'.client_wait_data = st.client_wait_data ∧
  st'.net_local_wad_sha1sum = st.net_local_wad_sha1sum ∧
  st'.client_connected = st.client_connected ∧
  st'.net_waiting_for_launch = st.net_waiting_for_launch

/-- The number of times the checksum warning has been printed. -/
def warnings (st : State) : Nat := st.out.count Event.sha1_warning

/-- The number of launch requests made. -/
def launches (st : State) : Nat := st.out.count Event.launch_game

end Gui

namespace Loop

/-!
# The frame loop (`src/src/game/main.c`) and the tick scheduler

`D_RunFrame` is translated from the source.  `TryRunTics`, which it calls, and
the command buffers are code of the repository that is not under `src/`: the
scheduler is modelled from section 4.5 of the specification.
-/

/-- Conversion to `int`. -/
def toInt (x : Int) : Int := (x + 2147483648) % 4294967296 - 2147483648

/-- Modelled from the spec: a `TickCommand` (section 3), the input of one peer
for one tick; what it contains plays no part here. -/
abbrev TickCommand := Nat

/-- Modelled from the spec: the state of the tick scheduler of section 4.5 (the
code of `TryRunTics` is missing): the connected, non-drone peers, the per-peer,
per-tick buffer of commands, the number of the next tick to be applied, and the
"tick N resolved" events so far, oldest first, each with the commands of the
peers that the tick was applied with. -/
structure Scheduler where
  peers : List Nat
  buffer : Nat → Nat → Option TickCommand
  gametic : Nat
  resolved : List (Nat × List TickCommand)

/-- Modelled from the spec: an incoming command is collected into the buffer
under its peer and tick number; commands are immutable once stored. -/
def storeCommand (s : Scheduler) (peer tick : Nat) (cmd : TickCommand) : Scheduler :=
  match s.buffer peer tick with
  | some _ => s
  | none =>
    { s with buffer := fun p n => if p = peer ∧ n = tick then some cmd else s.buffer p n }

/-- Modelled from the spec: a tick is resolvable only once a command has been
received (or synthesized) for every connected, non-drone peer. -/
def resolvable (s : Scheduler) (n : Nat) : Bool :=
  s.peers.all (fun p => (s.buffer p n).isSome)

/-- Modelled from the spec: the next tick is applied to the simulation with the
commands of the peers; this is the event "tick N resolved". -/
def runTick (s : Scheduler) : Scheduler :=
  { s with
    resolved := s.resolved ++
      [(s.gametic, s.peers.map (fun p => (s.buffer p s.gametic).getD 0))],
    gametic := s.gametic + 1 }

/-- Modelled from the spec: ticks are applied strictly in increasing order, as
long as the next one is resolvable; the frame pacing policy allows `budget`
ticks in this frame. -/
def runTics : Nat → Scheduler → Scheduler
  | 0, s => s
  | budget + 1, s => if resolvable s s.gametic then runTics budget (runTick s) else s

/-- What one call of `TryRunTics` takes from outside: the commands that have
come in (the local one, those of the other peers, those synthesized on a
timeout), each with its peer and tick number, and the number of ticks that the
pacing policy allows. -/
structure TicsInput where
  incoming : List (Nat × Nat × TickCommand)
  budget : Nat

/-- Modelled from the spec: `TryRunTics`, one step of the scheduler: collect
the incoming commands, then run the resolvable ticks. -/
def TryRunTics (s : Scheduler) (inp : TicsInput) : Scheduler :=
  runTics inp.budget (inp.incoming.foldl (fun s c => storeCommand s c.1 c.2.1 c.2.2) s)

/-- The statics of `D_RunFrame` and the scheduler. -/
structure FrameState where
  /-- `static int wipestart` -/
  wipestart : Int
  /-- `static boolean wipe` -/
  wipe : Bool
  sched : Scheduler

/-- What one call of `D_RunFrame` takes from outside: the readings of
`I_GetTime()`, the result of `wipe_ScreenWipe`, the input of `TryRunTics`,
`screenvisible && !nodrawers`, and the result of `D_Display()`. -/
structure FrameInput where
  clock : List Int
  wipe_done : Bool
  tics : TicsInput
  drawing : Bool
  display : Bool

/-- The `do ... while (tics <= 0)` loop of `D_RunFrame`, one reading of the
clock per iteration: the last `nowtime`, `none` when the readings run out. -/
def wipeWait (wipestart : Int) : List Int → Option Int
  | [] => none
  | nowtime :: rest =>
    if toInt (nowtime - wipestart) ≤ 0 then wipeWait wipestart rest else some nowtime

/-- `D_RunFrame`; `none` when the clock readings of the model run out. -/
def D_RunFrame (st : FrameState) (inp : FrameInput) : Option FrameState :=
  if st.wipe then
    match wipeWait st.wipestart inp.clock with
    | none => none
    | some nowtime =>
      -- wipestart = nowtime; wipe = !wipe_ScreenWipe(...); I_UpdateNoBlit(); M_Drawer();
      -- I_FinishUpdate(); return;
      some { st with wipestart := nowtime, wipe := !inp.wipe_done }
  else
    -- I_StartFrame(); TryRunTics(); S_UpdateSounds(...);
    let st := { st with sched := TryRunTics st.sched inp.tics }
    -- Update display, next frame, with current state if no profiling is on
    if inp.drawing then
      if inp.display then
        -- start wipe on this frame
        match inp.clock with
        | [] => none
        | now :: _ => some { st with wipe := true, wipestart := toInt (now - 1) }
      else
        -- normal update
        some { st with wipe := false }
    else some st

/-- A sequence of frames. -/
def frames : FrameState → List FrameInput → Option FrameState
  | st, [] => some st
  | st, inp :: rest =>
    match D_RunFrame st inp with
    | none => none
    | some st => frames st rest

/-! ## Notions for the statements about the scheduler -/

/-- The scheduler at the start of a game with the given peers. -/
def newGame (peers : List Nat) : Scheduler :=
  { peers := peers, buffer := fun _ _ => none, gametic := 0, resolved := [] }

/-- The state of `D_RunFrame` at the start of a game. -/
def newFrames (peers : List Nat) : FrameState :=
  { wipestart := 0, wipe := false, sched := newGame peers }

/-- The commands in the buffer are those of the table `cmds` (the "same ordered
sequence of per-tick commands" of the claim), and the events so far are the
ticks below `gametic`, in order, each with the commands of the table. -/
def Agrees (cmds : Nat → Nat → TickCommand) (s : Scheduler) : Prop :=
  (∀ p n c, s.buffer p n = some c → c = cmds p n) ∧
    s.resolved = (List.range s.gametic).map (fun n => (n, s.peers.map (fun p => cmds p n)))

/-- Every command that comes in is the one of the table `cmds`. -/
def FromTable (cmds : Nat → Nat → TickCommand) (inp : FrameInput) : Prop :=
  ∀ c ∈ inp.tics.incoming, c.2.2 = cmds c.1 c.2.1

/-- The tick numbers of the events so far, oldest first. -/
def ticks (s : Scheduler) : List Nat := s.resolved.map Prod.fst

/-- A frame without a wipe in which the commands `inc` come in and up to four
ticks may be run. -/
def demoFrame (inc : List (Nat × Nat × TickCommand)) : FrameInput :=
  { clock := [5], wipe_done := true, tics := { incoming := inc, budget := 4 },
    drawing := true, display := false }

/-- The commands of two peers `1` and `2`: peer `p` sends `10 * n + p` for tick
`n`. -/
def demoCmds (p n : Nat) : TickCommand := 10 * n + p

/-- Three frames of the first peer, which has all commands for the ticks 0, 1
and 2 in the end. -/
def demoFramesA : List FrameInput :=
  [demoFrame [(1, 0, 1), (2, 1, 12)], demoFrame [(2, 0, 2), (1, 1, 11), (1, 2, 21)],
    demoFrame [(2, 2, 22)]]

/-- Two frames of the second peer, to which the command of peer 1 for tick 1
has not come. -/
def demoFramesB : List FrameInput :=
  [demoFrame [(2, 0, 2), (2, 1, 12), (2, 2, 22)], demoFrame [(1, 0, 1), (1, 2, 21)]]

instance (cmds : Nat → Nat → TickCommand) (inp : FrameInput) : Decidable (FromTable cmds inp) :=
  inferInstanceAs (Decidable (∀ c ∈ inp.tics.incoming, _))

/-- The first peer after `demoFramesA`. -/
def demoPeerA : FrameState := (frames (newFrames [1, 2]) demoFramesA).getD (newFrames [])

/-- The second peer after `demoFramesB`. -/
def demoPeerB : FrameState := (frames (newFrames [1, 2]) demoFramesB).getD (newFrames [])

end Loop

namespace Zone

/-! ## Basic facts -/

@[simp] theorem upd_same (f : Int → Int) (a v : Int) : upd f a v a = v := by
  simp [upd]

theorem upd_other (f : Int → Int) {a x : Int} (v : Int) (h : x ≠ a) : upd f a v x = f x := by
  simp [upd, h]

theorem upd_apply (f : Int → Int) (a v x : Int) : upd f a v x = if x = a then v else f x := rfl

theorem toInt_eq {x : Int} (h1 : -2147483648 ≤ x) (h2 : x < 2147483648) : toInt x = x := by
  unfold toInt; omega

theorem land_mask (k W x : Nat) (hk : k ≤ W) (hx : x < 2 ^ W) :
    x &&& (2 ^ W - 1 - (2 ^ k - 1)) = x - x % 2 ^ k := by
  have hm : 2 ^ W - 1 - (2 ^ k - 1) = 2 ^ k * (2 ^ (W - k) - 1) := by
    have : 2 ^ W = 2 ^ k * 2 ^ (W - k) := by rw [← pow_add]; congr 1; omega
    have h1 : 0 < 2 ^ k := Nat.two_pow_pos k
    have h2 : 0 < 2 ^ (W - k) := Nat.two_pow_pos _
    rw [Nat.mul_sub, ← this]; omega
  have hx2 : x - x % 2 ^ k = 2 ^ k * (x / 2 ^ k) := by
    have := Nat.div_add_mod x (2 ^ k); omega
  rw [hm, hx2]
  apply Nat.eq_of_testBit_eq
  intro i
  rw [Nat.testBit_and, Nat.testBit_mul_pow_two, Nat.testBit_mul_pow_two,
    Nat.testBit_two_pow_sub_one, ← Nat.shiftRight_eq_div_pow, Nat.testBit_shiftRight]
  by_cases h : i ≥ k
  · simp only [h, decide_True, Bool.true_and]
    have e : k + (i - k) = i := by omega
    rw [e]
    by_cases h2 : i - k < W - k
    · simp [h2]
    · simp only [h2, decide_False, Bool.and_false]
      have : x < 2 ^ i := lt_of_lt_of_le hx (Nat.pow_le_pow_right (by decide) (by omega))
      exact (Nat.testBit_lt_two_pow this).symm
  · simp [h]

/-- Without overflow, the aligned size is the size rounded up to a multiple of
`MEM_ALIGN`. -/
theorem alignSize_eq (K : Params) (hK : K.Valid) (size : Int) (h0 : 0 ≤ size)
    (h1 : size + K.MEM_ALIGN - 1 < 2147483648) :
    alignSize K size = size + K.MEM_ALIGN - 1 - (size + K.MEM_ALIGN - 1) % K.MEM_ALIGN := by
  obtain ⟨_, _, hA, _⟩ := hK
  unfold alignSize toSizeT
  rcases hA with hA | hA
  · rw [hA] at h1 ⊢
    have e := land_mask 2 32 ((size + (4 : Nat) - 1) % ((2 ^ (8 * 4) : Nat) : Int)).toNat
      (by decide) (by omega)
    have e2 : (2 : Nat) ^ (8 * 4) - 1 - (4 - 1) = 2 ^ 32 - 1 - (2 ^ 2 - 1) := by norm_num
    rw [e2, e]
    have e3 : ((size + (4 : Nat) - 1) % ((2 ^ (8 * 4) : Nat) : Int)).toNat
        = (size + (4 : Nat) - 1).toNat := by
      congr 1; norm_num; omega
    rw [e3]
    have e4 : (((size + (4 : Nat) - 1).toNat - (size + (4 : Nat) - 1).toNat % 2 ^ 2 : Nat) : Int)
        = size + (4 : Nat) - 1 - (size + (4 : Nat) - 1) % (4 : Nat) := by
      norm_num; omega
    rw [e4]
    apply toInt_eq <;> omega
  · rw [hA] at h1 ⊢
    have e := land_mask 3 64 ((size + (8 : Nat) - 1) % ((2 ^ (8 * 8) : Nat) : Int)).toNat
      (by decide) (by omega)
    have e2 : (2 : Nat) ^ (8 * 8) - 1 - (8 - 1) = 2 ^ 64 - 1 - (2 ^ 3 - 1) := by norm_num
    rw [e2, e]
    have e3 : ((size + (8 : Nat) - 1) % ((2 ^ (8 * 8) : Nat) : Int)).toNat
        = (size + (8 : Nat) - 1).toNat := by
      congr 1; norm_num; omega
    rw [e3]
    have e4 : (((size + (8 : Nat) - 1).toNat - (size + (8 : Nat) - 1).toNat % 2 ^ 3 : Nat) : Int)
        = size + (8 : Nat) - 1 - (size + (8 : Nat) - 1) % (8 : Nat) := by
      norm_num; omega
    rw [e4]
    apply toInt_eq <;> omega

/-! ## Circular lists -/

theorem chain_congr {R R' : Int → Int → Prop} :
    ∀ (l : List Int) (a z : Int), List.Chain R a (l ++ [z]) →
      (∀ u ∈ a :: l, ∀ v ∈ l ++ [z], R u v → R' u v) → List.Chain R' a (l ++ [z])
  | [], a, z, h, H => by
    simp only [List.nil_append, List.chain_singleton] at h ⊢
    exact H a (by simp) z (by simp) h
  | b :: l, a, z, h, H => by
    simp only [List.cons_append, List.chain_cons] at h ⊢
    refine ⟨H a (by simp) b (by simp) h.1, chain_congr l b z h.2 ?_⟩
    intro u hu v hv
    exact H u (List.mem_cons_of_mem _ hu) v (List.mem_cons_of_mem _ hv)

theorem cyc_rotate1 {R : Int → Int → Prop} (a : Int) (l : List Int) (h : Cyc R (a :: l)) :
    Cyc R (l ++ [a]) := by
  cases l with
  | nil => exact h
  | cons b l =>
    simp only [Cyc, List.cons_append, List.chain_cons] at h
    show List.Chain R b ((l ++ [a]) ++ [b])
    rw [List.append_assoc, List.singleton_append, List.chain_split, List.chain_singleton]
    exact ⟨h.2, h.1⟩

theorem cyc_rotate {R : Int → Int → Prop} : ∀ (l1 l2 : List Int), Cyc R (l1 ++ l2) → Cyc R (l2 ++ l1)
  | [], l2, h => by simpa using h
  | a :: l1, l2, h => by
    have h1 := cyc_rotate1 a (l1 ++ l2) h
    rw [List.append_assoc] at h1
    have h2 := cyc_rotate l1 (l2 ++ [a]) h1
    simpa using h2

theorem cyc_head {R : Int → Int → Prop} {x y : Int} {t : List Int} (h : Cyc R (x :: y :: t)) :
    R x y := by
  simp only [Cyc, List.cons_append, List.chain_cons] at h
  exact h.1

theorem cyc_congr {R R' : Int → Int → Prop} {c : List Int} (h : Cyc R c)
    (H : ∀ u ∈ c, ∀ v ∈ c, R u v → R' u v) : Cyc R' c := by
  cases c with
  | nil => trivial
  | cons a l =>
    apply chain_congr l a a h
    intro u hu v hv
    apply H u hu v
    simp only [List.mem_append, List.mem_singleton] at hv
    rcases hv with hv | hv
    · exact List.mem_cons_of_mem _ hv
    · simp [hv]

/-! ## Rotating the circular list -/

theorem struct_rotate {K : Params} {m : Mem} (l1 l2 : List Int) (h : Struct K m (l1 ++ l2)) :
    Struct K m (l2 ++ l1) where
  nodup := List.nodup_append_comm.1 h.nodup
  sent := by have := h.sent; simp only [List.mem_append] at this ⊢; tauto
  link := cyc_rotate l1 l2 h.link
  geom := fun x hx => h.geom x (by simp only [List.mem_append] at hx ⊢; tauto)
  sep := fun x hx y hy => h.sep x (by simp only [List.mem_append] at hx ⊢; tauto) y
    (by simp only [List.mem_append] at hy ⊢; tauto)
  rover := by have := h.rover; simp only [List.mem_append] at this ⊢; tauto
  small := h.small

theorem tags_rotate {K : Params} {m : Mem} (l1 l2 : List Int) (h : Tags K m (l1 ++ l2)) :
    Tags K m (l2 ++ l1) where
  sent := h.sent
  nofree := cyc_rotate l1 l2 h.nofree
  ids := fun x hx => h.ids x (by simp only [List.mem_append] at hx ⊢; tauto)
  owner := fun x hx => h.owner x (by simp only [List.mem_append] at hx ⊢; tauto)

theorem cinv_rotate {K : Params} {m : Mem} (l1 l2 : List Int) (h : CInv K m (l1 ++ l2)) :
    CInv K m (l2 ++ l1) :=
  ⟨struct_rotate l1 l2 h.1, tags_rotate l1 l2 h.2⟩

/-! ## The merge step -/

@[simp] theorem merge_size (m : Mem) (x y : Int) :
    (merge m x y).size = upd m.size x (toInt (m.size x + m.size y)) := by
  unfold merge; dsimp only; split <;> rfl

@[simp] theorem merge_next (m : Mem) (x y : Int) :
    (merge m x y).next = upd m.next x (m.next y) := by
  unfold merge; dsimp only; split <;> rfl

@[simp] theorem merge_prev (m : Mem) (x y : Int) :
    (merge m x y).prev = upd m.prev (m.next y) x := by
  unfold merge; dsimp only; split <;> simp

@[simp] theorem merge_rover (m : Mem) (x y : Int) :
    (merge m x y).rover = if y = m.rover then x else m.rover := by
  unfold merge; dsimp only; split <;> rfl

@[simp] theorem merge_tag (m : Mem) (x y : Int) : (merge m x y).tag = m.tag := by
  unfold merge; dsimp only; split <;> rfl

@[simp] theorem merge_user (m : Mem) (x y : Int) : (merge m x y).user = m.user := by
  unfold merge; dsimp only; split <;> rfl

@[simp] theorem merge_id (m : Mem) (x y : Int) : (merge m x y).id = m.id := by
  unfold merge; dsimp only; split <;> rfl

@[simp] theorem merge_slot (m : Mem) (x y : Int) : (merge m x y).slot = m.slot := by
  unfold merge; dsimp only; split <;> rfl

@[simp] theorem merge_mainzone (m : Mem) (x y : Int) : (merge m x y).mainzone = m.mainzone := by
  unfold merge; dsimp only; split <;> rfl

@[simp] theorem merge_zonesize (m : Mem) (x y : Int) : (merge m x y).zonesize = m.zonesize := by
  unfold merge; dsimp only; split <;> rfl

@[simp] theorem merge_sentinel (K : Params) (m : Mem) (x y : Int) :
    sentinel K (merge m x y) = sentinel K m := by
  simp [sentinel]

@[simp] theorem merge_first (K : Params) (m : Mem) (x y : Int) :
    first K (merge m x y) = first K m := by
  simp [first]

@[simp] theorem merge_zoneEnd (m : Mem) (x y : Int) : zoneEnd (merge m x y) = zoneEnd m := by
  simp [zoneEnd]

/-- In a well-formed list the sentinel lies in front of every block. -/
theorem sentinel_lt_first (K : Params) (hK : K.Valid) (m : Mem) : sentinel K m < first K m := by
  obtain ⟨_, _, _, h1, _, _, h2⟩ := hK
  unfold sentinel first; omega

/-- Merging the block `y` into its predecessor `x` keeps pointers and geometry
intact, with `y` gone from the list. -/
theorem merge_struct {K : Params} (hK : K.Valid) {m : Mem} {x y : Int} {t : List Int}
    (h : Struct K m (x :: y :: t)) (hx : x ≠ sentinel K m) (hy : y ≠ sentinel K m) :
    Struct K (merge m x y) (x :: t) := by
  have hsf := sentinel_lt_first K hK m
  obtain ⟨_, _, _, hh0, _, hoff, hmz⟩ := hK
  have hst : sentinel K m ∈ t := by
    have := h.sent
    simp only [List.mem_cons] at this
    rcases this with e | e | e
    · exact absurd e.symm hx
    · exact absurd e.symm hy
    · exact e
  obtain ⟨n, t', rfl⟩ : ∃ n t', t = n :: t' := by
    cases t with
    | nil => simp at hst
    | cons n t' => exact ⟨n, t', rfl⟩
  have hl := h.link
  simp only [Cyc, List.cons_append, List.chain_cons] at hl
  obtain ⟨hxy, hyn, hch⟩ := hl
  have hnd := h.nodup
  simp only [List.nodup_cons, List.mem_cons, not_or] at hnd
  obtain ⟨⟨hxy', hxn, hxt⟩, ⟨hyn', hyt⟩, hnt, hnd'⟩ := hnd
  have gx := h.geom x (by simp) hx
  have gy := h.geom y (by simp) hy
  have exy : x + m.size x = y := hxy.2.2.2.2 hx hy
  have hsm := h.small
  have hsz : toInt (m.size x + m.size y) = m.size x + m.size y := by
    apply toInt_eq
    · omega
    · unfold first zoneEnd at *; omega
  refine ⟨?_, ?_, ?_, ?_, ?_, ?_, ?_⟩
  · simp only [List.nodup_cons, List.mem_cons, not_or]
    exact ⟨⟨hxn, hxt⟩, hnt, hnd'⟩
  · simp only [merge_sentinel]
    exact List.mem_cons_of_mem _ hst
  · simp only [Cyc, List.cons_append, List.chain_cons]
    constructor
    · refine ⟨?_, ?_, ?_, ?_, ?_⟩
      · simp [hyn.1]
      · simp [hyn.1]
      · intro e; simp only [merge_sentinel] at e; exact absurd e hx
      · intro _ e
        simp only [merge_sentinel] at e
        simp only [merge_size, upd_same, hsz, merge_zoneEnd]
        have := hyn.2.2.2.1 hy e
        omega
      · intro _ e
        simp only [merge_sentinel] at e
        simp only [merge_size, upd_same, hsz]
        have := hyn.2.2.2.2 hy e
        omega
    · apply chain_congr t' n x hch
      intro u hu v hv huv
      have hux : u ≠ x := by
        rintro rfl
        simp only [List.mem_cons] at hu
        rcases hu with e | e
        · exact hxn e
        · exact hxt e
      have hvn : v ≠ n := by
        rintro rfl
        simp only [List.mem_append, List.mem_singleton] at hv
        rcases hv with e | e
        · exact hnt e
        · exact hxn e.symm
      obtain ⟨a1, a2, a3, a4, a5⟩ := huv
      refine ⟨?_, ?_, ?_, ?_, ?_⟩
      · simp [upd_other _ _ hux, a1]
      · rw [merge_prev, hyn.1, upd_other _ _ hvn]; exact a2
      · simpa using a3
      · simpa [upd_other _ _ hux] using a4
      · simpa [upd_other _ _ hux] using a5
  · intro z hz hzs
    simp only [merge_sentinel] at hzs
    simp only [merge_size, merge_first, merge_zoneEnd]
    by_cases hzx : z = x
    · subst hzx
      simp only [upd_same, hsz]
      refine ⟨by omega, gx.2.1, by omega⟩
    · rw [upd_other _ _ hzx]
      exact h.geom z (by simp only [List.mem_cons] at hz ⊢; tauto) hzs
  · intro z hz w hw hzs hws hzw
    simp only [merge_sentinel] at hzs hws
    simp only [merge_size]
    have hw' : w ∈ x :: y :: n :: t' := by simp only [List.mem_cons] at hw ⊢; tauto
    have hz' : z ∈ x :: y :: n :: t' := by simp only [List.mem_cons] at hz ⊢; tauto
    by_cases hzx : z = x
    · subst hzx
      simp only [upd_same, hsz]
      have hwy : w ≠ y := by
        rintro rfl
        simp only [List.mem_cons] at hw
        rcases hw with e | e | e
        · omega
        · exact hyn' e
        · exact hyt e
      have h1 := h.sep z hz' w hw' hx hws hzw
      have h2 := h.sep y (by simp) w hw' hy hws (by omega)
      omega
    · rw [upd_other _ _ hzx]
      exact h.sep z hz' w hw' hzs hws hzw
  · simp only [merge_rover]
    have := h.rover
    split
    · simp
    · rename_i hne
      simp only [List.mem_cons] at this ⊢
      rcases this with e | e | e
      · exact Or.inl e
      · exact absurd e.symm hne
      · exact Or.inr e
  · simpa using h.small

theorem chain_and {R S : Int → Int → Prop} :
    ∀ (l : List Int) (a : Int), List.Chain R a l → List.Chain S a l →
      List.Chain (fun u v => R u v ∧ S u v) a l
  | [], _, _, _ => List.Chain.nil
  | b :: l, a, h1, h2 => by
    simp only [List.chain_cons] at h1 h2 ⊢
    exact ⟨⟨h1.1, h2.1⟩, chain_and l b h1.2 h2.2⟩

theorem cyc_and {R S : Int → Int → Prop} {c : List Int} (h1 : Cyc R c) (h2 : Cyc S c) :
    Cyc (fun u v => R u v ∧ S u v) c := by
  cases c with
  | nil => trivial
  | cons a l => exact chain_and _ _ h1 h2

/-- The last element of a circular list is linked to the first. -/
theorem cyc_last {R : Int → Int → Prop} {x q : Int} {t : List Int} (h : Cyc R (x :: (t ++ [q]))) :
    R q x := by
  have := cyc_rotate [x] (t ++ [q]) h
  have := cyc_rotate t ([q] ++ [x]) (by simpa using this)
  simp only [List.singleton_append, List.cons_append] at this
  exact cyc_head this

/-! ## Memories that agree on the fields an invariant reads -/

theorem struct_congr {K : Params} {m m' : Mem} {c : List Int} (h : Struct K m c)
    (h1 : m'.next = m.next) (h2 : m'.prev = m.prev) (h3 : m'.size = m.size)
    (h4 : m'.rover = m.rover) (h5 : m'.mainzone = m.mainzone) (h6 : m'.zonesize = m.zonesize) :
    Struct K m' c := by
  have hs : sentinel K m' = sentinel K m := by simp [sentinel, h5]
  have hf : first K m' = first K m := by simp [first, h5]
  have he : zoneEnd m' = zoneEnd m := by simp [zoneEnd, h5, h6]
  have hl : Link K m' = Link K m := by
    funext x y; simp only [Link, hs, hf, he, h1, h2, h3]
  exact ⟨h.nodup, hs ▸ h.sent, hl ▸ h.link, by rw [hs, hf, he, h3]; exact h.geom,
    by rw [hs, h3]; exact h.sep, h4 ▸ h.rover, h6 ▸ h.small⟩

/-! ## Neighbours in the circular list -/

/-- Every block of the list has a predecessor in the list, different from it,
which `prev` points to. -/
theorem struct_pred {K : Params} {m : Mem} {c : List Int} (h : Struct K m c) {b : Int}
    (hb : b ∈ c) (hbs : b ≠ sentinel K m) :
    m.prev b ∈ c ∧ m.prev b ≠ b ∧ m.next (m.prev b) = b := by
  obtain ⟨l1, l2, rfl⟩ := List.append_of_mem hb
  have h' := struct_rotate l1 (b :: l2) h
  rw [List.cons_append] at h'
  have hs : sentinel K m ∈ l2 ++ l1 := by
    have := h'.sent
    simp only [List.mem_cons] at this
    rcases this with e | e
    · exact absurd e.symm hbs
    · exact e
  obtain ⟨t, q, ht⟩ : ∃ t q, l2 ++ l1 = t ++ [q] := by
    rcases List.eq_nil_or_concat (l2 ++ l1) with e | ⟨t, q, e⟩
    · rw [e] at hs; simp at hs
    · exact ⟨t, q, by simpa using e⟩
  rw [ht] at h'
  have hl := cyc_last h'.link
  have hq : q ∈ l1 ++ b :: l2 := by
    have : q ∈ l2 ++ l1 := by rw [ht]; simp
    simp only [List.mem_append, List.mem_cons] at this ⊢; tauto
  have hne : q ≠ b := by
    have := h'.nodup
    simp only [List.nodup_cons, List.mem_append, List.mem_singleton, not_or] at this
    exact fun e => this.1.2 e.symm
  rw [hl.2.1]
  exact ⟨hq, hne, hl.1⟩

/-- Every block of the list has a successor in the list, different from it,
which `next` points to. -/
theorem struct_succ {K : Params} {m : Mem} {c : List Int} (h : Struct K m c) {b : Int}
    (hb : b ∈ c) (hbs : b ≠ sentinel K m) :
    m.next b ∈ c ∧ m.next b ≠ b ∧ m.prev (m.next b) = b := by
  obtain ⟨l1, l2, rfl⟩ := List.append_of_mem hb
  have h' := struct_rotate l1 (b :: l2) h
  rw [List.cons_append] at h'
  have hs : sentinel K m ∈ l2 ++ l1 := by
    have := h'.sent
    simp only [List.mem_cons] at this
    rcases this with e | e
    · exact absurd e.symm hbs
    · exact e
  obtain ⟨n, t, ht⟩ : ∃ n t, l2 ++ l1 = n :: t := by
    cases hlt : l2 ++ l1 with
    | nil => rw [hlt] at hs; simp at hs
    | cons n t => exact ⟨n, t, rfl⟩
  rw [ht] at h'
  have hl := cyc_head h'.link
  have hq : n ∈ l1 ++ b :: l2 := by
    have : n ∈ l2 ++ l1 := by rw [ht]; simp
    simp only [List.mem_append, List.mem_cons] at this ⊢; tauto
  have hne : n ≠ b := by
    have := h'.nodup
    simp only [List.nodup_cons, List.mem_cons, not_or] at this
    exact fun e => this.1.1 e.symm
  rw [hl.1]
  exact ⟨hq, hne, hl.2.1⟩

/-! ## `Z_Free`: field by field -/

@[simp] theorem markFree_tag (K : Params) (m : Mem) (b : Int) :
    (markFree K m b).tag = upd m.tag b K.PU_FREE := by
  unfold markFree; dsimp only; split <;> rfl

@[simp] theorem markFree_user (K : Params) (m : Mem) (b : Int) :
    (markFree K m b).user = upd m.user b 0 := by
  unfold markFree; dsimp only; split <;> rfl

@[simp] theorem markFree_id (K : Params) (m : Mem) (b : Int) :
    (markFree K m b).id = upd m.id b 0 := by
  unfold markFree; dsimp only; split <;> rfl

theorem markFree_slot (K : Params) (m : Mem) (b : Int) :
    (markFree K m b).slot =
      if m.tag b ≠ K.PU_FREE ∧ m.user b ≠ 0 then upd m.slot (m.user b) 0 else m.slot := by
  unfold markFree; dsimp only; split <;> rfl

@[simp] theorem markFree_size (K : Params) (m : Mem) (b : Int) :
    (markFree K m b).size = m.size := by
  unfold markFree; dsimp only; split <;> rfl

@[simp] theorem markFree_next (K : Params) (m : Mem) (b : Int) :
    (markFree K m b).next = m.next := by
  unfold markFree; dsimp only; split <;> rfl

@[simp] theorem markFree_prev (K : Params) (m : Mem) (b : Int) :
    (markFree K m b).prev = m.prev := by
  unfold markFree; dsimp only; split <;> rfl

@[simp] theorem markFree_rover (K : Params) (m : Mem) (b : Int) :
    (markFree K m b).rover = m.rover := by
  unfold markFree; dsimp only; split <;> rfl

@[simp] theorem markFree_mainzone (K : Params) (m : Mem) (b : Int) :
    (markFree K m b).mainzone = m.mainzone := by
  unfold markFree; dsimp only; split <;> rfl

@[simp] theorem markFree_zonesize (K : Params) (m : Mem) (b : Int) :
    (markFree K m b).zonesize = m.zonesize := by
  unfold markFree; dsimp only; split <;> rfl

@[simp] theorem markFree_sentinel (K : Params) (m : Mem) (b : Int) :
    sentinel K (markFree K m b) = sentinel K m := by
  simp [sentinel]

theorem markFree_struct {K : Params} {m : Mem} {c : List Int} (h : Struct K m c) (b : Int) :
    Struct K (markFree K m b) c :=
  struct_congr h (by simp) (by simp) (by simp) (by simp) (by simp) (by simp)

/-- The four ways through the two merges of `Z_Free`. -/
theorem coalesce_ff (K : Params) (m : Mem) (b : Int)
    (hp : m.tag (m.prev b) ≠ K.PU_FREE) (hn : m.tag (m.next b) ≠ K.PU_FREE) :
    coalesce K m b = m := by
  unfold coalesce; simp [hp, hn]

theorem coalesce_tf (K : Params) (m : Mem) (b : Int)
    (hp : m.tag (m.prev b) = K.PU_FREE) (hn : m.tag (m.next b) ≠ K.PU_FREE) :
    coalesce K m b = merge m (m.prev b) b := by
  unfold coalesce; simp [hp, hn]

theorem coalesce_ft (K : Params) (m : Mem) (b : Int)
    (hp : m.tag (m.prev b) ≠ K.PU_FREE) (hn : m.tag (m.next b) = K.PU_FREE) :
    coalesce K m b = merge m b (m.next b) := by
  unfold coalesce; simp [hp, hn]

theorem coalesce_tt (K : Params) (m : Mem) (b : Int)
    (hp : m.tag (m.prev b) = K.PU_FREE) (hn : m.tag (m.next b) = K.PU_FREE) :
    coalesce K m b = merge (merge m (m.prev b) b) (m.prev b) (m.next b) := by
  unfold coalesce; simp [hp, hn]

/-! ## `Z_Free` keeps the invariant -/

theorem sentinel_not_free {K : Params} (hK : K.Valid) {m : Mem} {c : List Int}
    (h : Tags K m c) {x : Int} (hx : m.tag x = K.PU_FREE) : x ≠ sentinel K m := by
  rintro rfl
  rw [h.sent] at hx
  exact hK.1 hx

/-- Freeing a block between two blocks in use. -/
theorem free_ff {K : Params} {m : Mem} {c : List Int} {b : Int} (h : CInv K m c)
    (hb : b ∈ c) (hbs : b ≠ sentinel K m)
    (hp : m.tag (m.prev b) ≠ K.PU_FREE) (hn : m.tag (m.next b) ≠ K.PU_FREE) :
    coalesce K (markFree K m b) b = markFree K m b ∧ CInv K (markFree K m b) c := by
  obtain ⟨hpm, hpb, hpn⟩ := struct_pred h.1 hb hbs
  obtain ⟨hnm, hnb, hnp⟩ := struct_succ h.1 hb hbs
  refine ⟨coalesce_ff K _ b (by simp [upd_other _ _ hpb, hp]) (by simp [upd_other _ _ hnb, hn]),
    markFree_struct h.1 b, ?_, ?_, ?_, ?_⟩
  · simp [upd_other _ _ (Ne.symm hbs), h.2.sent]
  · apply cyc_congr (cyc_and h.1.link h.2.nofree)
    rintro u _ v _ ⟨hl, hnf⟩
    simp only [NoFreePair, markFree_tag, upd_apply]
    by_cases hu : u = b
    · subst hu
      have : v ≠ u := by rw [← hl.1]; exact hnb
      simp only [this, if_false]
      rw [← hl.1]
      tauto
    · by_cases hv : v = b
      · subst hv
        simp only [hu, if_false]
        rw [← hl.2.1]
        tauto
      · simp only [hu, hv, if_false]; exact hnf
  · intro x hx hxs
    simp only [markFree_sentinel] at hxs
    simp only [markFree_tag, markFree_id, upd_apply]
    by_cases e : x = b
    · simp [e]
    · simpa [e] using h.2.ids x hx hxs
  · intro x hx hxs
    simp only [markFree_sentinel] at hxs
    simp only [markFree_tag, markFree_user, upd_apply]
    by_cases e : x = b
    · simp [e]
    · simpa [e] using h.2.owner x hx hxs

/-- Tags, ids and owners on a list that does not contain the freed block. -/
theorem tags_without {K : Params} {m : Mem} {c c' : List Int} {b : Int} (h : Tags K m c)
    (hbs : b ≠ sentinel K m) (hsub : ∀ x ∈ c', x ∈ c) (hb : b ∉ c')
    (hnf : Cyc (NoFreePair K m) c') (m' : Mem) (hs : sentinel K m' = sentinel K m)
    (ht : m'.tag = upd m.tag b K.PU_FREE) (hi : m'.id = upd m.id b 0)
    (hu : m'.user = upd m.user b 0) : Tags K m' c' := by
  have hne : ∀ x ∈ c', x ≠ b := fun x hx e => hb (e ▸ hx)
  refine ⟨?_, ?_, ?_, ?_⟩
  · rw [hs, ht, upd_other _ _ (Ne.symm hbs)]; exact h.sent
  · apply cyc_congr hnf
    intro u hu v hv
    simp only [NoFreePair, ht, upd_other _ _ (hne u hu), upd_other _ _ (hne v hv)]
    exact id
  · intro x hx
    rw [hs, ht, hi, upd_other _ _ (hne x hx), upd_other _ _ (hne x hx)]
    exact h.ids x (hsub x hx)
  · intro x hx
    rw [hs, ht, hu, upd_other _ _ (hne x hx), upd_other _ _ (hne x hx)]
    exact h.owner x (hsub x hx)

/-- Freeing a block whose predecessor is free and whose successor is in use. -/
theorem free_tf {K : Params} (hK : K.Valid) {m : Mem} {p b : Int} {t : List Int}
    (h : CInv K m (p :: b :: t)) (hbs : b ≠ sentinel K m)
    (hp : m.tag p = K.PU_FREE) (hn : m.tag (m.next b) ≠ K.PU_FREE) :
    coalesce K (markFree K m b) b = merge (markFree K m b) p b ∧
      CInv K (merge (markFree K m b) p b) (p :: t) := by
  have hps := sentinel_not_free hK h.2 hp
  have hl := cyc_head h.1.link
  have hnd := h.1.nodup
  simp only [List.nodup_cons, List.mem_cons, not_or] at hnd
  obtain ⟨⟨hpb, hpt⟩, hbt, hnd'⟩ := hnd
  obtain ⟨hnm, hnb, hnp⟩ := struct_succ h.1 (show b ∈ p :: b :: t by simp) hbs
  have e1 := coalesce_tf K (markFree K m b) b
    (by simp [hl.2.1, upd_other _ _ hpb, hp]) (by simp [upd_other _ _ hnb, hn])
  simp only [markFree_prev, hl.2.1] at e1
  refine ⟨e1, merge_struct hK (markFree_struct h.1 b) (by simpa using hps) (by simpa using hbs), ?_⟩
  apply @tags_without K m _ (p :: t) b h.2 hbs
  · intro x hx; simp only [List.mem_cons] at hx ⊢; tauto
  · simp only [List.mem_cons, not_or]; exact ⟨fun e => hpb e.symm, hbt⟩
  · have hst : sentinel K m ∈ t := by
      have := h.1.sent
      simp only [List.mem_cons] at this
      rcases this with e | e | e
      · exact absurd e.symm hps
      · exact absurd e.symm hbs
      · exact e
    obtain ⟨n, t', rfl⟩ : ∃ n t', t = n :: t' := by
      cases t with
      | nil => simp at hst
      | cons n t' => exact ⟨n, t', rfl⟩
    have hc := cyc_and h.1.link h.2.nofree
    simp only [Cyc, List.cons_append, List.chain_cons] at hc ⊢
    obtain ⟨_, hbn, hch⟩ := hc
    refine ⟨?_, chain_congr _ _ _ hch (fun u _ v _ huv => huv.2)⟩
    rw [hbn.1.1] at hn
    exact fun e => hn e.2
  · simp
  · simp
  · simp
  · simp

/-- Freeing a block whose predecessor is in use and whose successor is free. -/
theorem free_ft {K : Params} (hK : K.Valid) {m : Mem} {b n : Int} {t : List Int}
    (h : CInv K m (b :: n :: t)) (hbs : b ≠ sentinel K m)
    (hp : m.tag (m.prev b) ≠ K.PU_FREE) (hn : m.tag n = K.PU_FREE) :
    coalesce K (markFree K m b) b = merge (markFree K m b) b n ∧
      CInv K (merge (markFree K m b) b n) (b :: t) := by
  have hns := sentinel_not_free hK h.2 hn
  have hl := cyc_head h.1.link
  have hnd := h.1.nodup
  simp only [List.nodup_cons, List.mem_cons, not_or] at hnd
  obtain ⟨⟨hbn, hbt⟩, hnt, hnd'⟩ := hnd
  obtain ⟨hpm, hpb, hpn⟩ := struct_pred h.1 (show b ∈ b :: n :: t by simp) hbs
  have e1 := coalesce_ft K (markFree K m b) b
    (by simp [upd_other _ _ hpb, hp]) (by simp [hl.1, upd_other _ _ (Ne.symm hbn), hn])
  simp only [markFree_next, hl.1] at e1
  refine ⟨e1, merge_struct hK (markFree_struct h.1 b) (by simpa using hbs) (by simpa using hns), ?_⟩
  have hst : sentinel K m ∈ t := by
    have := h.1.sent
    simp only [List.mem_cons] at this
    rcases this with e | e | e
    · exact absurd e.symm hbs
    · exact absurd e.symm hns
    · exact e
  obtain ⟨n2, t', rfl⟩ : ∃ n2 t', t = n2 :: t' := by
    cases t with
    | nil => simp at hst
    | cons n2 t' => exact ⟨n2, t', rfl⟩
  simp only [List.mem_cons, not_or] at hbt hnt
  have hc := cyc_and h.1.link h.2.nofree
  simp only [Cyc, List.cons_append, List.chain_cons] at hc
  obtain ⟨_, hnn2, hch⟩ := hc
  have hn2 : m.tag n2 ≠ K.PU_FREE := fun e => hnn2.2 ⟨hn, e⟩
  refine ⟨?_, ?_, ?_, ?_⟩
  · simp [upd_other _ _ (Ne.symm hbs), h.2.sent]
  · simp only [Cyc, List.cons_append, List.chain_cons]
    constructor
    · simp only [NoFreePair, merge_tag, markFree_tag, upd_other _ _ (Ne.symm hbt.1)]
      exact fun e => hn2 e.2
    · apply chain_congr _ _ _ hch
      rintro u hu v hv ⟨hlk, hnf⟩
      have hub : u ≠ b := by
        rintro rfl
        simp only [List.mem_cons] at hu
        rcases hu with e | e
        · exact hbt.1 e
        · exact hbt.2 e
      simp only [NoFreePair, merge_tag, markFree_tag, upd_other _ _ hub]
      by_cases hv' : v = b
      · subst hv'
        rw [← hlk.2.1]
        exact fun e => hp e.1
      · rw [upd_other _ _ hv']; exact hnf
  · intro x hx hxs
    simp only [merge_sentinel, markFree_sentinel] at hxs
    simp only [merge_tag, merge_id, markFree_tag, markFree_id, upd_apply]
    by_cases e : x = b
    · simp [e]
    · simp only [e, if_false]
      exact h.2.ids x (by simp only [List.mem_cons] at hx ⊢; tauto) hxs
  · intro x hx hxs
    simp only [merge_sentinel, markFree_sentinel] at hxs
    simp only [merge_tag, merge_user, markFree_tag, markFree_user, upd_apply]
    by_cases e : x = b
    · simp [e]
    · simp only [e, if_false]
      exact h.2.owner x (by simp only [List.mem_cons] at hx ⊢; tauto) hxs

/-- Freeing a block between two free blocks. -/
theorem free_tt {K : Params} (hK : K.Valid) {m : Mem} {p b n : Int} {t : List Int}
    (h : CInv K m (p :: b :: n :: t)) (hbs : b ≠ sentinel K m)
    (hp : m.tag p = K.PU_FREE) (hn : m.tag n = K.PU_FREE) :
    coalesce K (markFree K m b) b = merge (merge (markFree K m b) p b) p n ∧
      CInv K (merge (merge (markFree K m b) p b) p n) (p :: t) := by
  have hps := sentinel_not_free hK h.2 hp
  have hns := sentinel_not_free hK h.2 hn
  have hl := cyc_head h.1.link
  have hc := cyc_and h.1.link h.2.nofree
  simp only [Cyc, List.cons_append, List.chain_cons] at hc
  obtain ⟨_, hbn, hch⟩ := hc
  have hnd := h.1.nodup
  simp only [List.nodup_cons, List.mem_cons, not_or] at hnd
  obtain ⟨⟨hpb, hpn, hpt⟩, ⟨hbn', hbt⟩, hnt, hnd'⟩ := hnd
  have e1 := coalesce_tt K (markFree K m b) b
    (by simp [hl.2.1, upd_other _ _ hpb, hp]) (by simp [hbn.1.1, upd_other _ _ (Ne.symm hbn'), hn])
  simp only [markFree_prev, markFree_next, hl.2.1, hbn.1.1] at e1
  have s1 := merge_struct hK (markFree_struct h.1 b) (by simpa using hps) (by simpa using hbs)
  have s2 := merge_struct hK s1 (by simpa using hps) (by simpa using hns)
  refine ⟨e1, s2, ?_⟩
  apply @tags_without K m _ (p :: t) b h.2 hbs
  · intro x hx; simp only [List.mem_cons] at hx ⊢; tauto
  · simp only [List.mem_cons, not_or]; exact ⟨fun e => hpb e.symm, hbt⟩
  · have hst : sentinel K m ∈ t := by
      have := h.1.sent
      simp only [List.mem_cons] at this
      rcases this with e | e | e | e
      · exact absurd e.symm hps
      · exact absurd e.symm hbs
      · exact absurd e.symm hns
      · exact e
    obtain ⟨n2, t', rfl⟩ : ∃ n2 t', t = n2 :: t' := by
      cases t with
      | nil => simp at hst
      | cons n2 t' => exact ⟨n2, t', rfl⟩
    simp only [List.cons_append, List.chain_cons] at hch
    simp only [Cyc, List.cons_append, List.chain_cons]
    refine ⟨?_, chain_congr _ _ _ hch.2 (fun u _ v _ huv => huv.2)⟩
    exact fun e => hch.1.2 ⟨hn, e.2⟩
  · simp
  · simp
  · simp
  · simp

/-! ## `Z_Init` -/

/-- After `Z_Init` on a zone that has room for its header and one block header,
the arena is well formed with a single block. -/
theorem init_arena {K : Params} (hK : K.Valid) (m : Mem) (base size : Int)
    (h1 : K.sizeof_memzone_t + K.sizeof_memblock_t ≤ size) (h2 : size < 2147483648) :
    Arena K (Z_Init K m base size) [base + K.sizeof_memzone_t] := by
  obtain ⟨hsf, hsp, _, hh0, hh1, hoff, hmz⟩ := hK
  have hne : base + K.blocklist_offset ≠ base + K.sizeof_memzone_t := by omega
  have hsz : toInt (size - K.sizeof_memzone_t) = size - K.sizeof_memzone_t := by
    apply toInt_eq <;> omega
  unfold Arena CInv
  constructor
  · refine ⟨?_, ?_, ?_, ?_, ?_, ?_, ?_⟩
    · simp [Z_Init, sentinel, hne]
    · simp [Z_Init, sentinel]
    · simp only [Cyc, List.cons_append, List.nil_append, List.chain_cons, List.Chain.nil,
        and_true]
      constructor
      · simp [Link, Z_Init, sentinel, first, upd_apply, hne, hne.symm]
      · simp [Link, Z_Init, sentinel, first, zoneEnd, upd_apply, hne, hne.symm, hsz]
    · intro x hx hxs
      simp only [Z_Init, sentinel, List.mem_cons, List.mem_singleton, List.not_mem_nil,
        or_false] at hx hxs
      rcases hx with rfl | rfl
      · exact absurd rfl hxs
      · simp only [Z_Init, sentinel, first, zoneEnd, upd_same, hsz]
        omega
    · intro x hx y hy hxs hys hxy
      simp only [Z_Init, sentinel, List.mem_cons, List.mem_singleton, List.not_mem_nil,
        or_false] at hx hy hxs hys
      rcases hx with rfl | rfl
      · exact absurd rfl hxs
      · rcases hy with rfl | rfl
        · exact absurd rfl hys
        · omega
    · simp [Z_Init, sentinel]
    · simpa [Z_Init] using h2
  · refine ⟨?_, ?_, ?_, ?_⟩
    · simp [Z_Init, sentinel, upd_apply, hne]
    · simp only [Cyc, List.cons_append, List.nil_append, List.chain_cons, List.Chain.nil,
        and_true]
      constructor
      · simp [NoFreePair, Z_Init, sentinel, upd_apply, hne, hsf]
      · simp [NoFreePair, Z_Init, sentinel, upd_apply, hne, hsf]
    · intro x hx hxs
      simp only [Z_Init, sentinel, List.mem_cons, List.mem_singleton, List.not_mem_nil,
        or_false] at hx hxs
      rcases hx with rfl | rfl
      · exact absurd rfl hxs
      · simp [Z_Init, sentinel, upd_apply]
    · intro x hx hxs
      simp only [Z_Init, sentinel, List.mem_cons, List.mem_singleton, List.not_mem_nil,
        or_false] at hx hxs
      rcases hx with rfl | rfl
      · exact absurd rfl hxs
      · simp [Z_Init, sentinel, upd_apply]

/-! ## `Z_CheckHeap` on a well-formed arena -/

theorem checkheap_loop_ok {K : Params} {m : Mem} :
    ∀ (l : List Int) (b : Int) (fuel : Nat),
      List.Chain (fun u v => Link K m u v ∧ NoFreePair K m u v) b (l ++ [sentinel K m]) →
      (∀ x ∈ b :: l, x ≠ sentinel K m) → l.length < fuel →
      Z_CheckHeap_loop K m fuel b = .ok m ()
  | [], b, fuel, h, _, hf => by
    obtain ⟨f, rfl⟩ : ∃ f, fuel = f + 1 := ⟨fuel - 1, by simp at hf; omega⟩
    simp only [List.nil_append, List.chain_singleton] at h
    simp [Z_CheckHeap_loop, h.1.1]
  | n :: l, b, fuel, h, hne, hf => by
    obtain ⟨f, rfl⟩ : ∃ f, fuel = f + 1 := ⟨fuel - 1, by simp at hf; omega⟩
    simp only [List.cons_append, List.chain_cons] at h
    obtain ⟨⟨hl, hnf⟩, hch⟩ := h
    have hb : b ≠ sentinel K m := hne b (by simp)
    have hn : n ≠ sentinel K m := hne n (by simp)
    have ih := checkheap_loop_ok l n f hch (fun x hx => hne x (List.mem_cons_of_mem _ hx))
      (by simp at hf; omega)
    unfold Z_CheckHeap_loop
    rw [hl.1]
    simp only [hn, if_false, hl.2.1, ne_eq, not_true_eq_false, hl.2.2.2.2 hb hn]
    rw [if_neg hnf]
    exact ih

theorem checkheap_ok {K : Params} {m : Mem} {l : List Int} (h : Arena K m l) (fuel : Nat)
    (hf : l.length ≤ fuel) (hf0 : 0 < fuel) : Z_CheckHeap K fuel m = .ok m () := by
  have hc := cyc_and h.1.link h.2.nofree
  have hnd := h.1.nodup
  cases l with
  | nil =>
    obtain ⟨f, rfl⟩ : ∃ f, fuel = f + 1 := ⟨fuel - 1, by omega⟩
    simp only [Cyc, List.nil_append, List.chain_singleton] at hc
    simp [Z_CheckHeap, Z_CheckHeap_loop, hc.1.1]
  | cons b l =>
    simp only [Cyc, List.cons_append, List.chain_cons] at hc
    unfold Z_CheckHeap
    rw [hc.1.1.1]
    apply checkheap_loop_ok l b fuel hc.2
    · intro x hx e
      rw [List.nodup_cons] at hnd
      exact hnd.1 (e ▸ hx)
    · simpa using hf

/-! ## The scan of `Z_Malloc`, step by step -/

theorem cyc_mid {R : Int → Int → Prop} {P : List Int} {x y : Int} {t : List Int}
    (h : Cyc R (P ++ x :: y :: t)) : R x y := by
  have := cyc_rotate P (x :: y :: t) h
  exact cyc_head this

/-- The last element of a circular list written as `x :: t ++ [q]` precedes `x`. -/
theorem cyc_wrap {R : Int → Int → Prop} {x q : Int} {t : List Int}
    (h : Cyc R (x :: t ++ [q])) : R q x :=
  cyc_last (by simpa using h)

theorem free_shape_ft {K : Params} (hK : K.Valid) {m : Mem} {P : List Int} {b n : Int}
    {T : List Int} (h : CInv K m (P ++ b :: n :: T)) (hbs : b ≠ sentinel K m)
    (hp : m.tag (m.prev b) ≠ K.PU_FREE) (hn : m.tag n = K.PU_FREE) :
    coalesce K (markFree K m b) b = merge (markFree K m b) b n ∧
      CInv K (merge (markFree K m b) b n) (P ++ b :: T) := by
  have h1 := cinv_rotate P (b :: n :: T) h
  obtain ⟨e, h2⟩ := free_ft hK (t := T ++ P) (by simpa using h1) hbs hp hn
  exact ⟨e, by simpa using cinv_rotate (b :: T) P (by simpa using h2)⟩

theorem free_shape_tf {K : Params} (hK : K.Valid) {m : Mem} {P : List Int} {p b : Int}
    {T : List Int} (h : CInv K m (P ++ p :: b :: T)) (hbs : b ≠ sentinel K m)
    (hp : m.tag p = K.PU_FREE) (hn : m.tag (m.next b) ≠ K.PU_FREE) :
    coalesce K (markFree K m b) b = merge (markFree K m b) p b ∧
      CInv K (merge (markFree K m b) p b) (P ++ p :: T) := by
  have h1 := cinv_rotate P (p :: b :: T) h
  obtain ⟨e, h2⟩ := free_tf hK (t := T ++ P) (by simpa using h1) hbs hp hn
  exact ⟨e, by simpa using cinv_rotate (p :: T) P (by simpa using h2)⟩

theorem free_shape_tt {K : Params} (hK : K.Valid) {m : Mem} {P : List Int} {p b n : Int}
    {T : List Int} (h : CInv K m (P ++ p :: b :: n :: T)) (hbs : b ≠ sentinel K m)
    (hp : m.tag p = K.PU_FREE) (hn : m.tag n = K.PU_FREE) :
    coalesce K (markFree K m b) b = merge (merge (markFree K m b) p b) p n ∧
      CInv K (merge (merge (markFree K m b) p b) p n) (P ++ p :: T) := by
  have h1 := cinv_rotate P (p :: b :: n :: T) h
  obtain ⟨e, h2⟩ := free_tt hK (t := T ++ P) (by simpa using h1) hbs hp hn
  exact ⟨e, by simpa using cinv_rotate (p :: T) P (by simpa using h2)⟩

theorem Z_Free_ok (K : Params) (m : Mem) (b : Int) (h : m.id b = ZONEID) :
    Z_Free K m (b + K.sizeof_memblock_t) = .ok (coalesce K (markFree K m b) b) () := by
  simp [Z_Free, h]

theorem body_free (K : Params) (m : Mem) (base r : Int) (h : m.tag r = K.PU_FREE) :
    Z_Malloc_body K m base r = .ok m (base, m.next r) := by
  simp [Z_Malloc_body, h]

theorem body_skip (K : Params) (m : Mem) (base r : Int) (h : Fixed K m r) :
    Z_Malloc_body K m base r = .ok m (m.next r, m.next r) := by
  simp [Z_Malloc_body, h.1, h.2]

theorem body_purge (K : Params) (m : Mem) (base r : Int) (h : Purgable K m r)
    (hid : m.id r = ZONEID) :
    Z_Malloc_body K m base r =
      .ok (coalesce K (markFree K m r) r)
        ((coalesce K (markFree K m r) r).next (m.prev base),
         (coalesce K (markFree K m r) r).next
           ((coalesce K (markFree K m r) r).next (m.prev base))) := by
  simp [Z_Malloc_body, h.1, h.2, Z_Free_ok K m r hid]

theorem purgable_ne_sentinel {K : Params} (hK : K.Valid) {m : Mem} {c : List Int}
    (h : Tags K m c) {x : Int} (hx : Purgable K m x) : x ≠ sentinel K m := by
  rintro rfl
  have := hx.2
  rw [h.sent] at this
  exact this hK.2.1

theorem scan_head {T : List Int} {start : Int} :
    ∃ n rest, T ++ [start] = n :: rest := by
  cases T with
  | nil => exact ⟨start, [], rfl⟩
  | cons a l => exact ⟨a, l ++ [start], rfl⟩

/-- One round of the loop body from a scan state with the rover not yet at
`start`: the body returns, it is one of the six steps, and the new state is a
scan state again. -/
theorem body_step {K : Params} (hK : K.Valid) {start : Int} {m : Mem} {base rover : Int}
    {P T : List Int} (hS : ScanSt K start m base rover P T) (hT : T ≠ []) :
    ∃ m' base' rover' P' T', Z_Malloc_body K m base rover = .ok m' (base', rover') ∧
      Step K m base rover P T m' base' rover' P' T' ∧
      ScanSt K start m' base' rover' P' T' := by
  obtain ⟨r, T1, rfl⟩ : ∃ r T1, T = r :: T1 := by
    cases T with
    | nil => exact absurd rfl hT
    | cons r T1 => exact ⟨r, T1, rfl⟩
  have hr : r = rover := by simpa using hS.rov
  subst hr
  obtain ⟨n, rest, hn⟩ := @scan_head T1 start
  have hinv := hS.inv
  have hc : P ++ r :: T1 ++ [start] = P ++ r :: n :: rest := by simp [hn]
  have hlink : Link K m r n := cyc_mid (hc ▸ hinv.1.link)
  have hnhead : (T1 ++ [start]).head? = some (m.next r) := by rw [hn, hlink.1]; rfl
  have hnd := hinv.1.nodup
  have hrs : r ≠ start := by
    intro e
    rw [e] at hnd
    simp [List.nodup_append] at hnd
  have hrc : r ∈ P ++ r :: T1 ++ [start] := by simp
  by_cases hfree : m.tag r = K.PU_FREE
  · rcases hS.shape with ⟨rfl, _⟩ | ⟨P', rfl, hb⟩
    · exact ⟨m, base, m.next base, P ++ [base], T1, body_free K m base base hfree,
        Step.adv m base P T1 hfree,
        ⟨by simpa using hinv, hnhead, hS.startTag, Or.inr ⟨P, rfl, hfree⟩⟩⟩
    · exfalso
      have : NoFreePair K m base r :=
        cyc_mid (P := P') (t := T1 ++ [start]) (by simpa using hinv.2.nofree)
      exact this ⟨hb, hfree⟩
  · by_cases hfix : m.tag r < K.PU_PURGELEVEL
    · refine ⟨m, m.next r, m.next r, P ++ [r], T1, body_skip K m base r ⟨hfree, hfix⟩,
        Step.skip m base r P T1 ⟨hfree, hfix⟩,
        ⟨by simpa using hinv, hnhead, hS.startTag, Or.inl ⟨rfl, ?_⟩⟩⟩
      intro q hq
      simp at hq
      rw [← hq]; exact hfree
    · have hP : Purgable K m r := ⟨hfree, hfix⟩
      have hrsent := purgable_ne_sentinel hK hinv.2 hP
      have hid := hinv.2.ids r hrc hrsent hfree
      have hbody := body_purge K m base r hP hid
      obtain ⟨hqm, hqr, hqn⟩ := struct_pred hinv.1 hrc hrsent
      have hstart' : ∀ m' : Mem, m'.tag = upd m.tag r K.PU_FREE → m'.tag start ≠ K.PU_FREE := by
        intro m' e
        rw [e, upd_other _ _ (Ne.symm hrs)]
        exact hS.startTag
      rcases hS.shape with ⟨rfl, hlast⟩ | ⟨P0, rfl, hb⟩
      · -- the rover is the base
        have hq : m.tag (m.prev base) ≠ K.PU_FREE := by
          rcases List.eq_nil_or_concat P with e | ⟨P0, q0, e⟩
          · subst e
            have : Link K m start base :=
              cyc_wrap (t := T1) (by simpa using hinv.1.link)
            rw [this.2.1]; exact hS.startTag
          · subst e
            have : Link K m q0 base :=
              cyc_mid (P := P0) (t := T1 ++ [start]) (by simpa using hinv.1.link)
            rw [this.2.1]
            exact hlast q0 (by simp)
        by_cases hnf : m.tag n = K.PU_FREE
        · have hns : n ≠ start := fun e => hS.startTag (e ▸ hnf)
          obtain ⟨T2, rfl⟩ : ∃ T2, T1 = n :: T2 := by
            cases T1 with
            | nil => simp at hn; exact absurd hn.1.symm hns
            | cons a T2 => simp at hn; exact ⟨T2, by rw [hn.1]⟩
          obtain ⟨e, hinv'⟩ := free_shape_ft hK (P := P) (b := base) (n := n)
            (T := T2 ++ [start]) (by simpa using hinv) hrsent hq hnf
          obtain ⟨n2, rest2, hn2⟩ := @scan_head T2 start
          have hl2 : Link K m n n2 :=
            cyc_mid (P := P ++ [base]) (t := rest2) (by simpa [hn2] using hinv.1.link)
          rw [e] at hbody
          have e1 : (merge (markFree K m base) base n).next (m.prev base) = base := by
            simp [upd_other _ _ hqr, hqn]
          have e2 : (merge (markFree K m base) base n).next base = m.next n := by simp
          rw [e1, e2] at hbody
          exact ⟨_, _, _, _, _, hbody, Step.purgeA_merge m base n P T2 hP hq hnf hlink.1,
            ⟨by simpa using hinv', by rw [hn2, hl2.1]; rfl, hstart' _ (by simp),
              Or.inr ⟨P, rfl, by simp⟩⟩⟩
        · have hnf' : m.tag (m.next base) ≠ K.PU_FREE := by rw [hlink.1]; exact hnf
          obtain ⟨e, hinv'⟩ := free_ff hinv hrc hrsent hq hnf'
          rw [e] at hbody
          have e1 : (markFree K m base).next (m.prev base) = base := by simp [hqn]
          have e2 : (markFree K m base).next base = m.next base := by simp
          rw [e1, e2] at hbody
          exact ⟨_, _, _, _, _, hbody, Step.purgeA m base P T1 hP hq hnf',
            ⟨by simpa using hinv', hnhead, hstart' _ (by simp), Or.inr ⟨P, rfl, by simp⟩⟩⟩
      · -- the base is the free block in front of the rover
        have hbr : Link K m base r :=
          cyc_mid (P := P0) (t := T1 ++ [start]) (by simpa using hinv.1.link)
        have hbs := sentinel_not_free hK hinv.2 hb
        have hbr' : base ≠ r := hbr.2.1 ▸ hqr
        have hbc : base ∈ P0 ++ [base] ++ r :: T1 ++ [start] := by simp
        obtain ⟨_, hqb, hqbn⟩ := struct_pred hinv.1 hbc hbs
        by_cases hnf : m.tag n = K.PU_FREE
        · have hns : n ≠ start := fun e => hS.startTag (e ▸ hnf)
          obtain ⟨T2, rfl⟩ : ∃ T2, T1 = n :: T2 := by
            cases T1 with
            | nil => simp at hn; exact absurd hn.1.symm hns
            | cons a T2 => simp at hn; exact ⟨T2, by rw [hn.1]⟩
          obtain ⟨e, hinv'⟩ := free_shape_tt hK (P := P0) (p := base) (b := r) (n := n)
            (T := T2 ++ [start]) (by simpa using hinv) hrsent hb hnf
          obtain ⟨n2, rest2, hn2⟩ := @scan_head T2 start
          have hl2 : Link K m n n2 :=
            cyc_mid (P := P0 ++ [base, r]) (t := rest2) (by simpa [hn2] using hinv.1.link)
          rw [e] at hbody
          have e1 : (merge (merge (markFree K m r) base r) base n).next (m.prev base) = base := by
            simp [upd_other _ _ hqb, hqbn]
          have hnb : n ≠ base := by
            intro e
            rw [e] at hnd
            simp [List.nodup_append] at hnd
          have e2 : (merge (merge (markFree K m r) base r) base n).next base = m.next n := by
            simp [upd_other _ _ hnb]
          rw [e1, e2] at hbody
          exact ⟨_, _, _, _, _, hbody, Step.purgeB_merge m base r n P0 T2 hb hP hnf hlink.1,
            ⟨by simpa using hinv', by rw [hn2, hl2.1]; rfl, hstart' _ (by simp),
              Or.inr ⟨P0, rfl, by simp [upd_other _ _ hbr', hb]⟩⟩⟩
        · have hnf' : m.tag (m.next r) ≠ K.PU_FREE := by rw [hlink.1]; exact hnf
          obtain ⟨e, hinv'⟩ := free_shape_tf hK (P := P0) (p := base) (b := r)
            (T := T1 ++ [start]) (by simpa using hinv) hrsent hb hnf'
          rw [e] at hbody
          have e1 : (merge (markFree K m r) base r).next (m.prev base) = base := by
            simp [upd_other _ _ hqb, hqbn]
          have e2 : (merge (markFree K m r) base r).next base = m.next r := by simp
          rw [e1, e2] at hbody
          exact ⟨_, _, _, _, _, hbody, Step.purgeB m base r P0 T1 hb hP hnf',
            ⟨by simpa using hinv', hnhead, hstart' _ (by simp),
              Or.inr ⟨P0, rfl, by simp [upd_other _ _ hbr', hb]⟩⟩⟩

theorem step_length {K : Params} {m : Mem} {base rover : Int} {P T : List Int} {m' : Mem}
    {base' rover' : Int} {P' T' : List Int}
    (h : Step K m base rover P T m' base' rover' P' T') : T'.length < T.length := by
  cases h <;> simp <;> omega

theorem scanst_rover_ne {K : Params} {start : Int} {m : Mem} {base rover : Int}
    {P T : List Int} (hS : ScanSt K start m base rover P T) (hT : T ≠ []) : rover ≠ start := by
  obtain ⟨r, T1, rfl⟩ : ∃ r T1, T = r :: T1 := by
    cases T with
    | nil => exact absurd rfl hT
    | cons r T1 => exact ⟨r, T1, rfl⟩
  have hr : r = rover := by simpa using hS.rov
  subst hr
  have hnd := hS.inv.1.nodup
  intro e
  rw [e] at hnd
  simp [List.nodup_append] at hnd

/-- Induction along the scan.  `I` is what holds at the head of the loop, `J`
what holds behind the body; the scan ends in the allocation failure with the
rover at `start`, or returns a free `base` that is large enough. -/
theorem scan_rule {K : Params} (hK : K.Valid) (need start : Int)
    (I J : Mem → Int → Int → List Int → List Int → Prop)
    (hIJ : ∀ m base rover P T m' base' rover' P' T', ScanSt K start m base rover P T →
      I m base rover P T → Step K m base rover P T m' base' rover' P' T' →
      ScanSt K start m' base' rover' P' T' → J m' base' rover' P' T')
    (hJI : ∀ m base rover P T, ScanSt K start m base rover P T → J m base rover P T →
      (m.tag base ≠ K.PU_FREE ∨ m.size base < need) → I m base rover P T) :
    ∀ (fuel : Nat) (T : List Int) (m : Mem) (base rover : Int) (P : List Int),
      T.length < fuel → ScanSt K start m base rover P T → I m base rover P T →
      (∃ m' base' P', Z_Malloc_scan K need start fuel m base rover = .fatal m' .malloc_failed ∧
          ScanSt K start m' base' start P' [] ∧ I m' base' start P' []) ∨
      (∃ m' base' rover' P' T', Z_Malloc_scan K need start fuel m base rover = .ok m' base' ∧
          ScanSt K start m' base' rover' P' T' ∧ J m' base' rover' P' T' ∧
          m'.tag base' = K.PU_FREE ∧ need ≤ m'.size base') := by
  intro fuel
  induction fuel with
  | zero => intro T m base rover P hf; omega
  | succ f ih =>
    intro T m base rover P hf hS hI
    by_cases hT : T = []
    · subst hT
      have hr : start = rover := by simpa using hS.rov
      subst hr
      left
      exact ⟨m, base, P, by simp [Z_Malloc_scan], hS, hI⟩
    · have hne := scanst_rover_ne hS hT
      obtain ⟨m', base', rover', P', T', hb, hst, hS'⟩ := body_step hK hS hT
      have hJ := hIJ _ _ _ _ _ _ _ _ _ _ hS hI hst hS'
      have hlen := step_length hst
      unfold Z_Malloc_scan
      rw [if_neg hne, hb]
      dsimp only
      by_cases hc : m'.tag base' ≠ K.PU_FREE ∨ m'.size base' < need
      · rw [if_pos hc]
        exact ih T' m' base' rover' P' (by omega) hS' (hJI _ _ _ _ _ hS' hJ hc)
      · rw [if_neg hc]
        right
        refine ⟨m', base', rover', P', T', rfl, hS', hJ, ?_, ?_⟩
        · by_contra h; exact hc (Or.inl h)
        · by_contra h; exact hc (Or.inr (by omega))

/-! ## Splitting and handing over the block -/

theorem split_no (K : Params) (m : Mem) (x sz : Int)
    (h : ¬ MINFRAGMENT < toInt (m.size x - sz)) : split K m x sz = m := by
  unfold split; simp only [gt_iff_lt]; rw [if_neg h]

theorem split_size (K : Params) (m : Mem) (x sz : Int)
    (h : MINFRAGMENT < toInt (m.size x - sz)) :
    (split K m x sz).size = upd (upd m.size (x + sz) (toInt (m.size x - sz))) x sz := by
  unfold split; simp only [gt_iff_lt]; rw [if_pos h]

theorem split_tag (K : Params) (m : Mem) (x sz : Int)
    (h : MINFRAGMENT < toInt (m.size x - sz)) :
    (split K m x sz).tag = upd m.tag (x + sz) K.PU_FREE := by
  unfold split; simp only [gt_iff_lt]; rw [if_pos h]

theorem split_user (K : Params) (m : Mem) (x sz : Int)
    (h : MINFRAGMENT < toInt (m.size x - sz)) :
    (split K m x sz).user = upd m.user (x + sz) 0 := by
  unfold split; simp only [gt_iff_lt]; rw [if_pos h]

theorem split_next (K : Params) (m : Mem) (x sz : Int)
    (h : MINFRAGMENT < toInt (m.size x - sz)) :
    (split K m x sz).next = upd (upd m.next (x + sz) (m.next x)) x (x + sz) := by
  unfold split; simp only [gt_iff_lt]; rw [if_pos h]

theorem split_prev (K : Params) (m : Mem) (x sz : Int)
    (h : MINFRAGMENT < toInt (m.size x - sz)) :
    (split K m x sz).prev = upd (upd m.prev (x + sz) x) (m.next x) (x + sz) := by
  unfold split; simp only [gt_iff_lt]; rw [if_pos h]; simp

@[simp] theorem split_id (K : Params) (m : Mem) (x sz : Int) : (split K m x sz).id = m.id := by
  unfold split; simp only [gt_iff_lt]; split <;> rfl

@[simp] theorem split_slot (K : Params) (m : Mem) (x sz : Int) :
    (split K m x sz).slot = m.slot := by
  unfold split; simp only [gt_iff_lt]; split <;> rfl

@[simp] theorem split_rover (K : Params) (m : Mem) (x sz : Int) :
    (split K m x sz).rover = m.rover := by
  unfold split; simp only [gt_iff_lt]; split <;> rfl

@[simp] theorem split_mainzone (K : Params) (m : Mem) (x sz : Int) :
    (split K m x sz).mainzone = m.mainzone := by
  unfold split; simp only [gt_iff_lt]; split <;> rfl

@[simp] theorem split_zonesize (K : Params) (m : Mem) (x sz : Int) :
    (split K m x sz).zonesize = m.zonesize := by
  unfold split; simp only [gt_iff_lt]; split <;> rfl

@[simp] theorem split_sentinel (K : Params) (m : Mem) (x sz : Int) :
    sentinel K (split K m x sz) = sentinel K m := by
  simp [sentinel]

@[simp] theorem split_first (K : Params) (m : Mem) (x sz : Int) :
    first K (split K m x sz) = first K m := by
  simp [first]

@[simp] theorem split_zoneEnd (K : Params) (m : Mem) (x sz : Int) :
    zoneEnd (split K m x sz) = zoneEnd m := by
  simp [zoneEnd]

/-- The address of the fragment split off from `x` is not the address of any
block of the list, and not the sentinel. -/
theorem split_fresh {K : Params} (hK : K.Valid) {m : Mem} {c : List Int} (h : Struct K m c)
    {x sz : Int} (hx : x ∈ c) (hxs : x ≠ sentinel K m) (h0 : 0 < sz) (h1 : sz < m.size x) :
    x + sz ∉ c ∧ x + sz ≠ sentinel K m := by
  have hsf := sentinel_lt_first K hK m
  have gx := h.geom x hx hxs
  have hns : x + sz ≠ sentinel K m := by omega
  refine ⟨fun hz => ?_, hns⟩
  rcases lt_trichotomy x (x + sz) with hlt | heq | hgt
  · have := h.sep x hx (x + sz) hz hxs hns hlt
    omega
  · omega
  · omega

/-- Splitting the block `x` keeps pointers and geometry intact, with the
fragment behind `x` in the list. -/
theorem split_struct {K : Params} (hK : K.Valid) {m : Mem} {x : Int} {t : List Int}
    (h : Struct K m (x :: t)) (hx : x ≠ sentinel K m) {sz : Int}
    (hs : MINFRAGMENT < toInt (m.size x - sz)) (h0 : K.sizeof_memblock_t ≤ sz)
    (h1 : sz ≤ m.size x) : Struct K (split K m x sz) (x :: (x + sz) :: t) := by
  have hsf := sentinel_lt_first K hK m
  obtain ⟨_, _, _, hh0, hh1, hoff, hmz⟩ := hK
  have gx := h.geom x (by simp) hx
  have hsm := h.small
  have hex : toInt (m.size x - sz) = m.size x - sz := by
    apply toInt_eq
    · omega
    · unfold first zoneEnd at gx; omega
  rw [hex] at hs
  unfold MINFRAGMENT at hs
  have hexs : MINFRAGMENT < toInt (m.size x - sz) := by rw [hex]; exact hs
  obtain ⟨hfresh, hfs⟩ := split_fresh (K := K) ⟨‹_›, ‹_›, ‹_›, hh0, hh1, hoff, hmz⟩ h
    (show x ∈ x :: t by simp) hx (show 0 < sz by omega) (show sz < m.size x by omega)
  simp only [List.mem_cons, not_or] at hfresh
  have hst : sentinel K m ∈ t := by
    have := h.sent
    simp only [List.mem_cons] at this
    rcases this with e | e
    · exact absurd e.symm hx
    · exact e
  obtain ⟨n, t', rfl⟩ : ∃ n t', t = n :: t' := by
    cases t with
    | nil => simp at hst
    | cons n t' => exact ⟨n, t', rfl⟩
  have hl := h.link
  simp only [Cyc, List.cons_append, List.chain_cons] at hl
  obtain ⟨hxn, hch⟩ := hl
  have hnd := h.nodup
  simp only [List.nodup_cons, List.mem_cons, not_or] at hnd
  obtain ⟨⟨hxn', hxt⟩, hnt, hnd'⟩ := hnd
  simp only [List.mem_cons, not_or] at hfresh
  obtain ⟨hf1, hf2, hf3⟩ := hfresh
  refine ⟨?_, ?_, ?_, ?_, ?_, ?_, ?_⟩
  · simp only [List.nodup_cons, List.mem_cons, not_or]
    exact ⟨⟨fun e => hf1 e.symm, hxn', hxt⟩, ⟨hf2, hf3⟩, hnt, hnd'⟩
  · simp only [split_sentinel]
    exact List.mem_cons_of_mem _ (List.mem_cons_of_mem _ hst)
  · simp only [Cyc, List.cons_append, List.chain_cons]
    refine ⟨?_, ?_, ?_⟩
    · refine ⟨?_, ?_, ?_, ?_, ?_⟩
      · simp [split_next, hexs]
      · rw [split_prev _ _ _ _ hexs, hxn.1, upd_other _ _ hf2, upd_same]
      · intro e; simp only [split_sentinel] at e; exact absurd e hx
      · intro _ e; simp only [split_sentinel] at e; exact absurd e hfs
      · intro _ _; simp [split_size, hexs]
    · refine ⟨?_, ?_, ?_, ?_, ?_⟩
      · rw [split_next _ _ _ _ hexs, upd_other _ _ hf1, upd_same, hxn.1]
      · rw [split_prev _ _ _ _ hexs, hxn.1, upd_same]
      · intro e; simp only [split_sentinel] at e; exact absurd e hfs
      · intro _ e
        simp only [split_sentinel] at e
        rw [split_size _ _ _ _ hexs, upd_other _ _ hf1, upd_same, hex, split_zoneEnd]
        have := hxn.2.2.2.1 hx e
        omega
      · intro _ e
        simp only [split_sentinel] at e
        rw [split_size _ _ _ _ hexs, upd_other _ _ hf1, upd_same, hex]
        have := hxn.2.2.2.2 hx e
        omega
    · apply chain_congr t' n x hch
      intro u hu v hv huv
      have hux : u ≠ x := by
        rintro rfl
        simp only [List.mem_cons] at hu
        rcases hu with e | e
        · exact hxn' e
        · exact hxt e
      have hub : u ≠ x + sz := by
        rintro rfl
        simp only [List.mem_cons] at hu
        rcases hu with e | e
        · exact hf2 e
        · exact hf3 e
      have hvn : v ≠ n := by
        rintro rfl
        simp only [List.mem_append, List.mem_singleton] at hv
        rcases hv with e | e
        · exact hnt e
        · exact hxn' e.symm
      have hvb : v ≠ x + sz := by
        rintro rfl
        simp only [List.mem_append, List.mem_singleton] at hv
        rcases hv with e | e
        · exact hf3 e
        · exact hf1 e
      obtain ⟨a1, a2, a3, a4, a5⟩ := huv
      refine ⟨?_, ?_, ?_, ?_, ?_⟩
      · rw [split_next _ _ _ _ hexs, upd_other _ _ hux, upd_other _ _ hub]; exact a1
      · rw [split_prev _ _ _ _ hexs, hxn.1, upd_other _ _ hvn, upd_other _ _ hvb]; exact a2
      · simpa using a3
      · simpa [split_size _ _ _ _ hexs, upd_other _ _ hux, upd_other _ _ hub] using a4
      · simpa [split_size _ _ _ _ hexs, upd_other _ _ hux, upd_other _ _ hub] using a5
  · intro z hz hzs
    simp only [split_sentinel] at hzs
    simp only [split_first, split_zoneEnd]
    rw [split_size _ _ _ _ hexs]
    by_cases hzx : z = x
    · subst hzx
      simp only [upd_same]
      refine ⟨h0, gx.2.1, by omega⟩
    · rw [upd_other _ _ hzx]
      by_cases hzb : z = x + sz
      · subst hzb
        simp only [upd_same, hex]
        refine ⟨by omega, by omega, by omega⟩
      · rw [upd_other _ _ hzb]
        exact h.geom z (by simp only [List.mem_cons] at hz ⊢; tauto) hzs
  · intro z hz w hw hzs hws hzw
    simp only [split_sentinel] at hzs hws
    rw [split_size _ _ _ _ hexs]
    have hmem : ∀ u, u ∈ x :: (x + sz) :: n :: t' → u ≠ x + sz → u ∈ x :: n :: t' := by
      intro u hu hne
      simp only [List.mem_cons] at hu ⊢; tauto
    by_cases hzx : z = x
    · subst hzx
      simp only [upd_same]
      by_cases hwb : w = z + sz
      · omega
      · have := h.sep z (by simp) w (hmem w hw hwb) hx hws hzw
        omega
    · rw [upd_other _ _ hzx]
      by_cases hzb : z = x + sz
      · subst hzb
        simp only [upd_same, hex]
        have hwx : w ≠ x := by omega
        have hwb : w ≠ x + sz := by omega
        have := h.sep x (by simp) w (hmem w hw hwb) hx hws (by omega)
        omega
      · rw [upd_other _ _ hzb]
        have hz' := hmem z hz hzb
        by_cases hwb : w = x + sz
        · subst hwb
          rcases lt_trichotomy z x with hlt | heq | hgt
          · have := h.sep z hz' x (by simp) hzs hx hlt
            omega
          · exact absurd heq hzx
          · have := h.sep x (by simp) z hz' hx hzs hgt
            omega
        · exact h.sep z hz' w (hmem w hw hwb) hzs hws hzw
  · simp only [split_rover]
    have := h.rover
    simp only [List.mem_cons] at this ⊢; tauto
  · simpa using h.small

@[simp] theorem claimMem_user (K : Params) (m : Mem) (x tag user : Int) :
    (claimMem K m x tag user).user = upd m.user x user := by
  unfold claimMem; dsimp only; split <;> rfl

@[simp] theorem claimMem_tag (K : Params) (m : Mem) (x tag user : Int) :
    (claimMem K m x tag user).tag = upd m.tag x tag := by
  unfold claimMem; dsimp only; split <;> rfl

@[simp] theorem claimMem_id (K : Params) (m : Mem) (x tag user : Int) :
    (claimMem K m x tag user).id = upd m.id x ZONEID := by
  unfold claimMem; dsimp only; split <;> rfl

@[simp] theorem claimMem_rover (K : Params) (m : Mem) (x tag user : Int) :
    (claimMem K m x tag user).rover = m.next x := by
  unfold claimMem; dsimp only; split <;> rfl

theorem claimMem_slot (K : Params) (m : Mem) (x tag user : Int) :
    (claimMem K m x tag user).slot =
      if user ≠ 0 then upd m.slot user (x + K.sizeof_memblock_t) else m.slot := by
  unfold claimMem; dsimp only; simp only [upd_same]; split <;> rfl

@[simp] theorem claimMem_size (K : Params) (m : Mem) (x tag user : Int) :
    (claimMem K m x tag user).size = m.size := by
  unfold claimMem; dsimp only; split <;> rfl

@[simp] theorem claimMem_next (K : Params) (m : Mem) (x tag user : Int) :
    (claimMem K m x tag user).next = m.next := by
  unfold claimMem; dsimp only; split <;> rfl

@[simp] theorem claimMem_prev (K : Params) (m : Mem) (x tag user : Int) :
    (claimMem K m x tag user).prev = m.prev := by
  unfold claimMem; dsimp only; split <;> rfl

@[simp] theorem claimMem_mainzone (K : Params) (m : Mem) (x tag user : Int) :
    (claimMem K m x tag user).mainzone = m.mainzone := by
  unfold claimMem; dsimp only; split <;> rfl

@[simp] theorem claimMem_zonesize (K : Params) (m : Mem) (x tag user : Int) :
    (claimMem K m x tag user).zonesize = m.zonesize := by
  unfold claimMem; dsimp only; split <;> rfl

@[simp] theorem claimMem_sentinel (K : Params) (m : Mem) (x tag user : Int) :
    sentinel K (claimMem K m x tag user) = sentinel K m := by
  simp [sentinel]

theorem struct_congr_rover {K : Params} {m m' : Mem} {c : List Int} (h : Struct K m c)
    (h1 : m'.next = m.next) (h2 : m'.prev = m.prev) (h3 : m'.size = m.size)
    (h4 : m'.rover ∈ c) (h5 : m'.mainzone = m.mainzone) (h6 : m'.zonesize = m.zonesize) :
    Struct K m' c := by
  have hs : sentinel K m' = sentinel K m := by simp [sentinel, h5]
  have hf : first K m' = first K m := by simp [first, h5]
  have he : zoneEnd m' = zoneEnd m := by simp [zoneEnd, h5, h6]
  have hl : Link K m' = Link K m := by
    funext x y; simp only [Link, hs, hf, he, h1, h2, h3]
  exact ⟨h.nodup, hs ▸ h.sent, hl ▸ h.link, by rw [hs, hf, he, h3]; exact h.geom,
    by rw [hs, h3]; exact h.sep, h4, h6 ▸ h.small⟩

theorem claim_struct {K : Params} {m : Mem} {c : List Int} (h : Struct K m c) {x : Int}
    (hx : x ∈ c) (hxs : x ≠ sentinel K m) (tag user : Int) :
    Struct K (claimMem K m x tag user) c :=
  struct_congr_rover h (by simp) (by simp) (by simp)
    (by simpa using (struct_succ h hx hxs).1) (by simp) (by simp)

/-- The end of a successful `Z_Malloc`: the free block `x` found by the scan is
split if more than `MINFRAGMENT` bytes remain, and handed over. -/
theorem finish_cinv {K : Params} (hK : K.Valid) {m : Mem} {x : Int} {t : List Int}
    (h : CInv K m (x :: t)) (hx : m.tag x = K.PU_FREE) {need tag user : Int}
    (htag : tag ≠ K.PU_FREE) (hown : ¬ (user = 0 ∧ tag ≥ K.PU_PURGELEVEL))
    (hneed : MINFRAGMENT < toInt (m.size x - need) →
      K.sizeof_memblock_t ≤ need ∧ need ≤ m.size x) :
    CInv K (claimMem K (split K m x need) x tag user)
      (if MINFRAGMENT < toInt (m.size x - need) then x :: (x + need) :: t else x :: t) := by
  have hxs := sentinel_not_free hK h.2 hx
  have hst : sentinel K m ∈ t := by
    have := h.1.sent
    simp only [List.mem_cons] at this
    rcases this with e | e
    · exact absurd e.symm hxs
    · exact e
  obtain ⟨n, t', rfl⟩ : ∃ n t', t = n :: t' := by
    cases t with
    | nil => simp at hst
    | cons n t' => exact ⟨n, t', rfl⟩
  have hc := cyc_and h.1.link h.2.nofree
  simp only [Cyc, List.cons_append, List.chain_cons] at hc
  obtain ⟨hxn, hch⟩ := hc
  have hnfree : m.tag n ≠ K.PU_FREE := fun e => hxn.2 ⟨hx, e⟩
  have hnd := h.1.nodup
  simp only [List.nodup_cons, List.mem_cons, not_or] at hnd
  obtain ⟨⟨hxn', hxt⟩, hnt, hnd'⟩ := hnd
  by_cases hs : MINFRAGMENT < toInt (m.size x - need)
  · rw [if_pos hs]
    obtain ⟨h0, h1⟩ := hneed hs
    have s1 := split_struct hK h.1 hxs hs h0 h1
    have hex : toInt (m.size x - need) = m.size x - need := by
      have gx := h.1.geom x (by simp) hxs
      have := h.1.small
      obtain ⟨_, _, _, hh0, hh1, hoff, hmz⟩ := hK
      apply toInt_eq
      · omega
      · unfold first zoneEnd at gx; omega
    have hsz : need < m.size x := by
      rw [hex] at hs; unfold MINFRAGMENT at hs; omega
    obtain ⟨hfresh, hfs⟩ := split_fresh hK h.1 (show x ∈ x :: n :: t' by simp) hxs
      (show 0 < need by have := hK.2.2.2.1; omega) hsz
    simp only [List.mem_cons, not_or] at hfresh
    obtain ⟨hf1, hf2, hf3⟩ := hfresh
    refine ⟨claim_struct s1 (by simp) (by simpa using hxs) tag user, ?_, ?_, ?_, ?_⟩
    · simp [split_tag _ _ _ _ hs, upd_other _ _ (Ne.symm hxs), upd_other _ _ (Ne.symm hfs),
        h.2.sent]
    · simp only [Cyc, List.cons_append, List.chain_cons]
      refine ⟨?_, ?_, ?_⟩
      · simp [NoFreePair, htag]
      · have hnx : n ≠ x := fun e => hxn' e.symm
        have hnb : n ≠ x + need := fun e => hf2 e.symm
        simp only [NoFreePair, claimMem_tag, split_tag _ _ _ _ hs, upd_other _ _ hnx,
          upd_other _ _ hnb]
        exact fun e => hnfree e.2
      · apply chain_congr _ _ _ hch
        rintro u hu v hv ⟨_, hnf⟩
        have hux : u ≠ x := by
          rintro rfl
          simp only [List.mem_cons] at hu
          rcases hu with e | e
          · exact hxn' e
          · exact hxt e
        have hub : u ≠ x + need := by
          rintro rfl
          simp only [List.mem_cons] at hu
          rcases hu with e | e
          · exact hf2 e
          · exact hf3 e
        have hvb : v ≠ x + need := by
          rintro rfl
          simp only [List.mem_append, List.mem_singleton] at hv
          rcases hv with e | e
          · exact hf3 e
          · exact hf1 e
        simp only [NoFreePair, claimMem_tag, split_tag _ _ _ _ hs, upd_other _ _ hux,
          upd_other _ _ hub]
        by_cases hvx : v = x
        · subst hvx; simp [htag]
        · rw [upd_other _ _ hvx, upd_other _ _ hvb]; exact hnf
    · intro z hz hzs
      simp only [claimMem_sentinel, split_sentinel] at hzs
      simp only [claimMem_tag, claimMem_id, split_tag _ _ _ _ hs, split_id, upd_apply]
      by_cases e : z = x
      · simp [e]
      · by_cases e' : z = x + need
        · subst e'
          rw [if_neg hf1, if_pos rfl]
          intro hh; exact absurd rfl hh
        · simp only [e, e', if_false]
          exact h.2.ids z (by simp only [List.mem_cons] at hz ⊢; tauto) hzs
    · intro z hz hzs
      simp only [claimMem_sentinel, split_sentinel] at hzs
      simp only [claimMem_tag, claimMem_user, split_tag _ _ _ _ hs, split_user _ _ _ _ hs,
        upd_apply]
      by_cases e : z = x
      · simp only [e, if_true]
        intro _ h2 h3; exact hown ⟨h3, h2⟩
      · by_cases e' : z = x + need
        · subst e'
          rw [if_neg hf1, if_pos rfl]
          intro hh; exact absurd rfl hh
        · simp only [e, e', if_false]
          exact h.2.owner z (by simp only [List.mem_cons] at hz ⊢; tauto) hzs
  · rw [if_neg hs, split_no K m x need hs]
    refine ⟨claim_struct h.1 (by simp) hxs tag user, ?_, ?_, ?_, ?_⟩
    · simp [upd_other _ _ (Ne.symm hxs), h.2.sent]
    · simp only [Cyc, List.cons_append, List.chain_cons]
      refine ⟨?_, ?_⟩
      · simp [NoFreePair, htag]
      · apply chain_congr _ _ _ hch
        rintro u hu v hv ⟨_, hnf⟩
        have hux : u ≠ x := by
          rintro rfl
          simp only [List.mem_cons] at hu
          rcases hu with e | e
          · exact hxn' e
          · exact hxt e
        simp only [NoFreePair, claimMem_tag, upd_other _ _ hux]
        by_cases hvx : v = x
        · subst hvx; simp [htag]
        · rw [upd_other _ _ hvx]; exact hnf
    · intro z hz hzs
      simp only [claimMem_sentinel] at hzs
      simp only [claimMem_tag, claimMem_id, upd_apply]
      by_cases e : z = x
      · simp [e]
      · simp only [e, if_false]
        exact h.2.ids z hz hzs
    · intro z hz hzs
      simp only [claimMem_sentinel] at hzs
      simp only [claimMem_tag, claimMem_user, upd_apply]
      by_cases e : z = x
      · simp only [e, if_true]
        intro _ h2 h3; exact hown ⟨h3, h2⟩
      · simp only [e, if_false]
        exact h.2.owner z hz hzs

/-! ## The size computation of `Z_Malloc` -/

/-- The aligned size is the size rounded up to a multiple of `MEM_ALIGN`, cut to
32 bits. -/
theorem alignSize_round (K : Params) (hK : K.Valid) (size : Int) (h0 : 0 ≤ size)
    (h1 : size < 2147483648) :
    alignSize K size =
      toInt (size + K.MEM_ALIGN - 1 - (size + K.MEM_ALIGN - 1) % K.MEM_ALIGN) := by
  obtain ⟨_, _, hA, _⟩ := hK
  unfold alignSize toSizeT
  rcases hA with hA | hA
  · rw [hA]
    have e := land_mask 2 32 ((size + (4 : Nat) - 1) % ((2 ^ (8 * 4) : Nat) : Int)).toNat
      (by decide) (by omega)
    have e2 : (2 : Nat) ^ (8 * 4) - 1 - (4 - 1) = 2 ^ 32 - 1 - (2 ^ 2 - 1) := by norm_num
    rw [e2, e]
    have e3 : ((size + (4 : Nat) - 1) % ((2 ^ (8 * 4) : Nat) : Int)).toNat
        = (size + (4 : Nat) - 1).toNat := by
      congr 1; norm_num; omega
    rw [e3]
    have e4 : (((size + (4 : Nat) - 1).toNat - (size + (4 : Nat) - 1).toNat % 2 ^ 2 : Nat) : Int)
        = size + (4 : Nat) - 1 - (size + (4 : Nat) - 1) % (4 : Nat) := by
      norm_num; omega
    rw [e4]
  · rw [hA]
    have e := land_mask 3 64 ((size + (8 : Nat) - 1) % ((2 ^ (8 * 8) : Nat) : Int)).toNat
      (by decide) (by omega)
    have e2 : (2 : Nat) ^ (8 * 8) - 1 - (8 - 1) = 2 ^ 64 - 1 - (2 ^ 3 - 1) := by norm_num
    rw [e2, e]
    have e3 : ((size + (8 : Nat) - 1) % ((2 ^ (8 * 8) : Nat) : Int)).toNat
        = (size + (8 : Nat) - 1).toNat := by
      congr 1; norm_num; omega
    rw [e3]
    have e4 : (((size + (8 : Nat) - 1).toNat - (size + (8 : Nat) - 1).toNat % 2 ^ 3 : Nat) : Int)
        = size + (8 : Nat) - 1 - (size + (8 : Nat) - 1) % (8 : Nat) := by
      norm_num; omega
    rw [e4]

/-- The size in bytes that the scan looks for: header plus rounded size when
that fits into an `int`; otherwise a negative number, and then no block is
split. -/
theorem needed_cases (K : Params) (hK : K.Valid) (size : Int) (h0 : 0 ≤ size)
    (h1 : size < 2147483648) :
    (size + K.sizeof_memblock_t ≤ needed K size ∧
        needed K size < size + K.sizeof_memblock_t + K.MEM_ALIGN ∧
        size + K.MEM_ALIGN - 1 - (size + K.MEM_ALIGN - 1) % K.MEM_ALIGN + K.sizeof_memblock_t
          < 2147483648) ∨
    (2147483648 ≤
        size + K.MEM_ALIGN - 1 - (size + K.MEM_ALIGN - 1) % K.MEM_ALIGN + K.sizeof_memblock_t ∧
      ∀ sz, K.sizeof_memblock_t ≤ sz → sz < 2147483648 → toInt (sz - needed K size) < 0) := by
  have hr := alignSize_round K hK size h0 h1
  obtain ⟨_, _, hA, hh0, hh1, _, _⟩ := hK
  unfold needed
  rw [hr]
  by_cases h : size + K.MEM_ALIGN - 1 - (size + K.MEM_ALIGN - 1) % K.MEM_ALIGN
      + K.sizeof_memblock_t < 2147483648
  · left
    refine ⟨?_, ?_, h⟩ <;> unfold toInt <;> rcases hA with hA | hA <;> rw [hA] at h ⊢ <;>
      norm_num at h ⊢ <;> omega
  · right
    refine ⟨by omega, ?_⟩
    intro sz hs1 hs2
    unfold toInt
    rcases hA with hA | hA <;> rw [hA] at h ⊢ <;> norm_num at h ⊢ <;> omega

/-! ## The scan from its initial state -/

/-- Like `struct_pred`, for the sentinel as well. -/
theorem struct_pred' {K : Params} (hK : K.Valid) {m : Mem} {c : List Int} (h : Struct K m c)
    {b : Int} (hb : b ∈ c) : m.prev b ∈ c ∧ m.prev b ≠ b ∧ m.next (m.prev b) = b := by
  by_cases hbs : b = sentinel K m
  · obtain ⟨l1, l2, rfl⟩ := List.append_of_mem hb
    have h' := struct_rotate l1 (b :: l2) h
    rw [List.cons_append] at h'
    obtain ⟨t, q, ht⟩ : ∃ t q, l2 ++ l1 = t ++ [q] := by
      rcases List.eq_nil_or_concat (l2 ++ l1) with e | ⟨t, q, e⟩
      · exfalso
        rw [e] at h'
        have hl := h'.link
        simp only [Cyc, List.nil_append, List.chain_singleton] at hl
        have := hl.2.2.1 hbs
        have := sentinel_lt_first K hK m
        omega
      · exact ⟨t, q, by simpa using e⟩
    rw [ht] at h'
    have hl := cyc_last h'.link
    have hq : q ∈ l1 ++ b :: l2 := by
      have : q ∈ l2 ++ l1 := by rw [ht]; simp
      simp only [List.mem_append, List.mem_cons] at this ⊢; tauto
    have hne : q ≠ b := by
      have := h'.nodup
      simp only [List.nodup_cons, List.mem_append, List.mem_singleton, not_or] at this
      exact fun e => this.1.2 e.symm
    rw [hl.2.1]
    exact ⟨hq, hne, hl.1⟩
  · exact struct_pred h hb hbs

theorem scanBase_mem {K : Params} (hK : K.Valid) {m : Mem} {c : List Int} (h : Struct K m c) :
    scanBase K m ∈ c := by
  unfold scanBase
  split
  · exact (struct_pred' hK h h.rover).1
  · exact h.rover

theorem scanStart_mem {K : Params} (hK : K.Valid) {m : Mem} {c : List Int} (h : Struct K m c) :
    scanStart K m ∈ c :=
  (struct_pred' hK h (scanBase_mem hK h)).1

/-- The state in which the scan of `Z_Malloc` starts. -/
theorem scan_init {K : Params} (hK : K.Valid) {m : Mem} {R : List Int}
    (h : CInv K m (R ++ [scanStart K m])) :
    ScanSt K (scanStart K m) m (scanBase K m) (scanBase K m) [] R := by
  have hbm := scanBase_mem hK h.1
  obtain ⟨_, hne, hnx⟩ := struct_pred' hK h.1 hbm
  obtain ⟨x, R', rfl⟩ : ∃ x R', R = x :: R' := by
    cases R with
    | nil =>
      simp only [List.nil_append, List.mem_singleton] at hbm
      exact absurd hbm.symm hne
    | cons x R' => exact ⟨x, R', rfl⟩
  have hl : Link K m (scanStart K m) x := cyc_wrap (by simpa using h.1.link)
  have hx : x = scanBase K m := by
    rw [← hl.1]; exact hnx
  subst hx
  refine ⟨by simpa using h, by simp, ?_, Or.inl ⟨rfl, by simp⟩⟩
  have hnf : NoFreePair K m (scanStart K m) (scanBase K m) :=
    cyc_wrap (by simpa using h.2.nofree)
  by_cases hp : m.tag (m.prev m.rover) = K.PU_FREE
  · have e : scanBase K m = m.prev m.rover := by unfold scanBase; rw [if_pos hp]
    intro hs
    exact hnf ⟨hs, by rw [e]; exact hp⟩
  · have e : scanBase K m = m.rover := by unfold scanBase; rw [if_neg hp]
    unfold scanStart
    rw [e]; exact hp

/-- Every circular list of a well-formed arena can be turned so that it ends
with the block at which the scan gives up. -/
theorem scan_rotation {K : Params} (hK : K.Valid) {m : Mem} {c : List Int}
    (h : CInv K m c) :
    ∃ R, CInv K m (R ++ [scanStart K m]) ∧ R.length + 1 = c.length ∧
      ∀ z, z ∈ R ++ [scanStart K m] ↔ z ∈ c := by
  obtain ⟨l1, l2, rfl⟩ := List.append_of_mem (scanStart_mem hK h.1)
  refine ⟨l2 ++ l1, ?_, ?_, ?_⟩
  · have := cinv_rotate (l1 ++ [scanStart K m]) l2 (by simpa using h)
    simpa using this
  · simp; omega
  · intro z; simp only [List.mem_append, List.mem_cons, List.mem_singleton, List.not_mem_nil]
    tauto

theorem scanst_base_mem {K : Params} {start : Int} {m : Mem} {base rover : Int}
    {P T : List Int} (hS : ScanSt K start m base rover P T) : base ∈ P ++ T ++ [start] := by
  rcases hS.shape with ⟨rfl, _⟩ | ⟨P', rfl, _⟩
  · have := hS.rov
    have h2 : base ∈ T ++ [start] := List.mem_of_mem_head? this
    simp only [List.mem_append] at h2 ⊢; tauto
  · simp

/-- What a call of `Z_Malloc` comes to, with `I` and `J` as in `scan_rule`: the
allocation failure at the end of a full round, or the split and the hand-over
of the free block that the scan found. -/
theorem malloc_outcome {K : Params} (hK : K.Valid) {start : Int} (size tag user : Int)
    (I J : Mem → Int → Int → List Int → List Int → Prop)
    (hIJ : ∀ m base rover P T m' base' rover' P' T', ScanSt K start m base rover P T →
      I m base rover P T → Step K m base rover P T m' base' rover' P' T' →
      ScanSt K start m' base' rover' P' T' → J m' base' rover' P' T')
    (hJI : ∀ m base rover P T, ScanSt K start m base rover P T → J m base rover P T →
      (m.tag base ≠ K.PU_FREE ∨ m.size base < needed K size) → I m base rover P T)
    {m : Mem} {R : List Int} (hstart : start = scanStart K m)
    (h : CInv K m (R ++ [start]))
    (hI : I m (scanBase K m) (scanBase K m) [] R) (fuel : Nat) (hf : R.length < fuel) :
    (∃ m' base' P', Z_Malloc K fuel m size tag user = .fatal m' .malloc_failed ∧
        ScanSt K start m' base' start P' [] ∧ I m' base' start P' []) ∨
    (∃ ms base rover' P' T', ScanSt K start ms base rover' P' T' ∧ J ms base rover' P' T' ∧
        ms.tag base = K.PU_FREE ∧ needed K size ≤ ms.size base ∧
        Z_Malloc K fuel m size tag user =
          claim K (split K ms base (needed K size)) base tag user) := by
  subst hstart
  have h0 := scan_init hK h
  rcases scan_rule hK (needed K size) (scanStart K m) I J hIJ hJI fuel R m _ _ [] hf h0 hI with
    ⟨m', base', P', e, hS, hI'⟩ | ⟨ms, base, rover', P', T', e, hS, hJ, h1, h2⟩
  · left
    refine ⟨m', base', P', ?_, hS, hI'⟩
    unfold Z_Malloc scanStart at *
    simp only [e]
  · right
    refine ⟨ms, base, rover', P', T', hS, hJ, h1, h2, ?_⟩
    unfold Z_Malloc scanStart at *
    simp only [e]

theorem finish_any {K : Params} (hK : K.Valid) {m : Mem} {c : List Int} {x : Int}
    (h : CInv K m c) (hxc : x ∈ c) (hx : m.tag x = K.PU_FREE) {need tag user : Int}
    (htag : tag ≠ K.PU_FREE) (hown : ¬ (user = 0 ∧ tag ≥ K.PU_PURGELEVEL))
    (hneed : MINFRAGMENT < toInt (m.size x - need) →
      K.sizeof_memblock_t ≤ need ∧ need ≤ m.size x) :
    ∃ c', CInv K (claimMem K (split K m x need) x tag user) c' ∧
      ∀ z, z ∈ c' ↔ (z ∈ c ∨ (MINFRAGMENT < toInt (m.size x - need) ∧ z = x + need)) := by
  obtain ⟨l1, l2, rfl⟩ := List.append_of_mem hxc
  have h' := cinv_rotate l1 (x :: l2) h
  rw [List.cons_append] at h'
  refine ⟨_, finish_cinv hK h' hx htag hown hneed, ?_⟩
  intro z
  split
  · rename_i hs
    simp only [List.mem_cons, List.mem_append, hs, true_and]
    tauto
  · rename_i hs
    simp only [List.mem_cons, List.mem_append, hs, false_and, or_false]
    tauto

/-- The size of a block of the list fits into an `int`. -/
theorem size_lt {K : Params} (hK : K.Valid) {m : Mem} {c : List Int} (h : Struct K m c)
    {x : Int} (hx : x ∈ c) (hxs : x ≠ sentinel K m) :
    K.sizeof_memblock_t ≤ m.size x ∧ m.size x < 2147483648 := by
  have g := h.geom x hx hxs
  have := h.small
  obtain ⟨_, _, _, hh0, hh1, hoff, hmz⟩ := hK
  unfold first zoneEnd at g
  exact ⟨g.1, by omega⟩

/-- For every size that is not negative, the scan's result can be split and
handed over. -/
theorem needed_split {K : Params} (hK : K.Valid) {m : Mem} {c : List Int} (h : Struct K m c)
    {x : Int} (hx : x ∈ c) (hxs : x ≠ sentinel K m) {size : Int} (h0 : 0 ≤ size)
    (h1 : size < 2147483648) (h2 : needed K size ≤ m.size x) :
    MINFRAGMENT < toInt (m.size x - needed K size) →
      K.sizeof_memblock_t ≤ needed K size ∧ needed K size ≤ m.size x := by
  intro hs
  obtain ⟨g1, g2⟩ := size_lt hK h hx hxs
  rcases needed_cases K hK size h0 h1 with ⟨a, _, _⟩ | ⟨_, b⟩
  · exact ⟨by omega, h2⟩
  · have := b (m.size x) g1 g2
    unfold MINFRAGMENT at hs
    omega

/-- `Z_Malloc` on a well-formed arena, with a size that is not negative and a
tag other than `PU_FREE`: it ends in one of its two errors, or it returns and
the arena is well formed again. -/
theorem malloc_cinv {K : Params} (hK : K.Valid) {m : Mem} {c : List Int} (h : CInv K m c)
    {size tag user : Int} (h0 : 0 ≤ size) (h1 : size < 2147483648) (htag : tag ≠ K.PU_FREE)
    (fuel : Nat) (hf : c.length ≤ fuel) :
    (∃ m', Z_Malloc K fuel m size tag user = .fatal m' .malloc_failed) ∨
    (∃ m', Z_Malloc K fuel m size tag user = .fatal m' .malloc_owner_required) ∨
    (∃ m' p c', Z_Malloc K fuel m size tag user = .ok m' p ∧ CInv K m' c') := by
  obtain ⟨R, hR, hlen, _⟩ := scan_rotation hK h
  rcases malloc_outcome hK size tag user (fun _ _ _ _ _ => True) (fun _ _ _ _ _ => True)
    (fun _ _ _ _ _ _ _ _ _ _ _ _ _ _ => trivial) (fun _ _ _ _ _ _ _ _ => trivial) rfl hR trivial
    fuel (by omega) with ⟨m', _, _, e, _, _⟩ | ⟨ms, base, rover', P', T', hS, _, hb, hsz, e⟩
  · exact Or.inl ⟨m', e⟩
  · right
    rw [e]
    unfold claim
    by_cases hown : user = 0 ∧ tag ≥ K.PU_PURGELEVEL
    · left; rw [if_pos hown]; exact ⟨_, rfl⟩
    · right
      rw [if_neg hown]
      have hbm := scanst_base_mem hS
      have hbs := sentinel_not_free hK hS.inv.2 hb
      obtain ⟨c', hc', _⟩ := finish_any hK hS.inv hbm hb htag hown
        (needed_split hK hS.inv.1 hbm hbs h0 h1 hsz)
      exact ⟨_, _, c', rfl, hc'⟩

/-! ## The sweep of `Z_FreeTags` -/

theorem fstep_sentinel {K : Params} {lowtag hightag : Int} {m m' : Mem} {D T D' T' : List Int}
    (h : FStep K lowtag hightag m D T m' D' T') : sentinel K m' = sentinel K m := by
  cases h <;> simp

/-- Induction along the sweep of `Z_FreeTags`: the loop returns, the arena is
well formed again, and whatever each step keeps holds at the end.  The loop
variable is at the first block ahead, or at the header of a block that the last
`Z_Free` merged away, which still says "free" and still points ahead. -/
theorem freetags_rule {K : Params} (hK : K.Valid) (lowtag hightag : Int)
    (I : Mem → List Int → List Int → Prop)
    (hI : ∀ m D T m' D' T', CInv K m (sentinel K m :: (D ++ T)) → I m D T →
      FStep K lowtag hightag m D T m' D' T' → CInv K m' (sentinel K m' :: (D' ++ T')) →
      I m' D' T') :
    ∀ (fuel : Nat) (m : Mem) (block : Int) (D T : List Int) (stale : Bool),
      T.length + (if stale then 1 else 0) < fuel →
      CInv K m (sentinel K m :: (D ++ T)) → I m D T →
      (if stale then block ∉ sentinel K m :: (D ++ T) ∧ m.tag block = K.PU_FREE ∧
          (T ++ [sentinel K m]).head? = some (m.next block)
        else (T ++ [sentinel K m]).head? = some block) →
      ∃ m' D', Z_FreeTags_loop K lowtag hightag fuel m block = .ok m' () ∧
        CInv K m' (sentinel K m' :: D') ∧ I m' D' [] := by
  intro fuel
  induction fuel with
  | zero => intro m block D T stale hf; omega
  | succ f ih =>
    intro m block D T stale hf hinv hIm hpos
    cases stale with
    | true =>
      simp only [if_true] at hpos hf
      obtain ⟨hnm, htag, hnext⟩ := hpos
      have hbs : block ≠ sentinel K m := fun e => hnm (by rw [e]; simp)
      unfold Z_FreeTags_loop
      rw [if_neg hbs]
      simp only [htag, if_true]
      exact ih m (m.next block) D T false (by simp; omega) hinv hIm (by simpa using hnext)
    | false =>
      simp only [Bool.false_eq_true, if_false, add_zero] at hpos hf
      cases T with
      | nil =>
        have hb : sentinel K m = block := by simpa using hpos
        unfold Z_FreeTags_loop
        rw [if_pos hb.symm]
        exact ⟨m, D, rfl, by simpa using hinv, hIm⟩
      | cons b T1 =>
        have hb : b = block := by simpa using hpos
        subst hb
        have hnd := hinv.1.nodup
        have hbs : b ≠ sentinel K m := by
          intro e
          rw [e] at hnd
          simp at hnd
        have hbc : b ∈ sentinel K m :: (D ++ b :: T1) := by simp
        obtain ⟨n, rest, hn⟩ := @scan_head T1 (sentinel K m)
        have hln : Link K m b n := by
          have h1 := cinv_rotate [sentinel K m] (D ++ b :: T1) (by simpa using hinv)
          exact cyc_mid (P := D) (t := rest) (by simpa [hn] using h1.1.link)
        have hnhead : (T1 ++ [sentinel K m]).head? = some (m.next b) := by
          rw [hn, hln.1]; rfl
        unfold Z_FreeTags_loop
        rw [if_neg hbs]
        dsimp only
        by_cases hkeep : m.tag b = K.PU_FREE ∨ ¬ (m.tag b ≥ lowtag ∧ m.tag b ≤ hightag)
        · have hstep := @FStep.keep K lowtag hightag m b D T1 hkeep
          have hinv' : CInv K m (sentinel K m :: (D ++ [b] ++ T1)) := by simpa using hinv
          have hI' := hI _ _ _ _ _ _ hinv hIm hstep hinv'
          have hcall := ih m (m.next b) (D ++ [b]) T1 false (by simp at hf ⊢; omega) hinv' hI'
            (by simpa using hnhead)
          rcases hkeep with hk | hk
          · rw [if_pos hk]; exact hcall
          · by_cases hfr : m.tag b = K.PU_FREE
            · rw [if_pos hfr]; exact hcall
            · rw [if_neg hfr, if_neg hk]; exact hcall
        · simp only [not_or, not_not] at hkeep
          obtain ⟨hfr, hrange⟩ := hkeep
          rw [if_neg hfr, if_pos hrange]
          have hid := hinv.2.ids b hbc hbs hfr
          rw [Z_Free_ok K m b hid]
          dsimp only
          obtain ⟨Q, p, hQ⟩ : ∃ Q p, sentinel K m :: D = Q ++ [p] := by
            rcases List.eq_nil_or_concat (sentinel K m :: D) with e | ⟨Q, p, e⟩
            · simp at e
            · exact ⟨Q, p, by simpa using e⟩
          have hcQ : sentinel K m :: (D ++ b :: T1) = Q ++ p :: b :: T1 := by
            rw [← List.cons_append, hQ]; simp
          have hlp : Link K m p b := cyc_mid (P := Q) (t := T1) (hcQ ▸ hinv.1.link)
          have hDp : m.tag p = K.PU_FREE → ∃ D0, D = D0 ++ [p] ∧ Q = sentinel K m :: D0 := by
            intro hp
            have hps := sentinel_not_free hK hinv.2 hp
            cases Q with
            | nil => simp at hQ; exact absurd hQ.1.symm hps
            | cons q Q' =>
              simp only [List.cons_append, List.cons.injEq] at hQ
              exact ⟨Q', hQ.2, by rw [hQ.1]⟩
          have hT2 : m.tag n = K.PU_FREE → ∃ T2, T1 = n :: T2 := by
            intro hnf
            have hns := sentinel_not_free hK hinv.2 hnf
            cases T1 with
            | nil => simp at hn; exact absurd hn.1.symm hns
            | cons a T2 => simp at hn; exact ⟨T2, by rw [hn.1]⟩
          by_cases hp : m.tag p = K.PU_FREE
          · obtain ⟨D0, rfl, rfl⟩ := hDp hp
            by_cases hnf : m.tag n = K.PU_FREE
            · obtain ⟨T2, rfl⟩ := hT2 hnf
              obtain ⟨e, hinv'⟩ := free_shape_tt hK (P := sentinel K m :: D0) (p := p) (b := b)
                (n := n) (T := T2) (by simpa using hinv) hbs hp hnf
              rw [e]
              have hstep := @FStep.tt K lowtag hightag m p b n D0 T2
                hfr hrange hp hnf
              have hs' := fstep_sentinel hstep
              have hinv'' : CInv K (merge (merge (markFree K m b) p b) p n) (sentinel K (merge (merge (markFree K m b) p b) p n) ::
                  (D0 ++ [p] ++ T2)) := by rw [hs']; simpa using hinv'
              have hI' := hI _ _ _ _ _ _ hinv hIm hstep hinv''
              obtain ⟨n2, rest2, hn2⟩ := @scan_head T2 (sentinel K m)
              have hl2 : Link K m n n2 := by
                have h1 := cinv_rotate [sentinel K m] (D0 ++ [p] ++ b :: n :: T2)
                  (by simpa using hinv)
                exact cyc_mid (P := D0 ++ [p, b]) (t := rest2) (by simpa [hn2] using h1.1.link)
              have hnb : n ≠ b := by
                intro e; rw [e] at hnd; simp [List.nodup_append] at hnd
              have hnp : n ≠ p := by
                intro e; rw [e] at hnd; simp [List.nodup_append] at hnd
              rw [hln.1]
              refine ih _ n (D0 ++ [p]) T2 true (by simp at hf ⊢; omega) hinv'' hI' ?_
              simp only [if_true]
              refine ⟨?_, ?_, ?_⟩
              · rw [hs']
                have h1 : (sentinel K m :: (D0 ++ [p] ++ [b]) ++ n :: T2).Nodup := by
                  simpa using hnd
                have h2 := (List.nodup_cons.1 (List.nodup_middle.1 h1)).1
                intro hmem
                apply h2
                simp only [List.mem_cons, List.mem_append, List.mem_singleton,
                  List.not_mem_nil, or_false] at hmem ⊢
                tauto
              · simp [upd_other _ _ hnb, hnf]
              · rw [hs', hn2]
                simp [upd_other _ _ hnp, hl2.1]
            · have hnf' : m.tag (m.next b) ≠ K.PU_FREE := by rw [hln.1]; exact hnf
              obtain ⟨e, hinv'⟩ := free_shape_tf hK (P := sentinel K m :: D0) (p := p) (b := b)
                (T := T1) (by simpa using hinv) hbs hp hnf'
              rw [e]
              have hstep := @FStep.tf K lowtag hightag m p b D0 T1
                hfr hrange hp hnf'
              have hs' := fstep_sentinel hstep
              have hinv'' : CInv K (merge (markFree K m b) p b) (sentinel K (merge (markFree K m b) p b) ::
                  (D0 ++ [p] ++ T1)) := by rw [hs']; simpa using hinv'
              have hI' := hI _ _ _ _ _ _ hinv hIm hstep hinv''
              refine ih _ (m.next b) (D0 ++ [p]) T1 false (by simp at hf ⊢; omega) hinv'' hI' ?_
              simp only [Bool.false_eq_true, if_false]
              rw [hs']; exact hnhead
          · have hp' : m.tag (m.prev b) ≠ K.PU_FREE := by rw [hlp.2.1]; exact hp
            by_cases hnf : m.tag n = K.PU_FREE
            · obtain ⟨T2, rfl⟩ := hT2 hnf
              obtain ⟨e, hinv'⟩ := free_shape_ft hK (P := sentinel K m :: D) (b := b)
                (n := n) (T := T2) (by simpa using hinv) hbs hp' hnf
              rw [e]
              have hstep := @FStep.ft K lowtag hightag m b n D T2
                hfr hrange hp' hnf
              have hs' := fstep_sentinel hstep
              have hinv'' : CInv K (merge (markFree K m b) b n) (sentinel K (merge (markFree K m b) b n) ::
                  (D ++ [b] ++ T2)) := by rw [hs']; simpa using hinv'
              have hI' := hI _ _ _ _ _ _ hinv hIm hstep hinv''
              obtain ⟨n2, rest2, hn2⟩ := @scan_head T2 (sentinel K m)
              have hl2 : Link K m n n2 := by
                have h1 := cinv_rotate [sentinel K m] (D ++ b :: n :: T2)
                  (by simpa using hinv)
                exact cyc_mid (P := D ++ [b]) (t := rest2) (by simpa [hn2] using h1.1.link)
              have hnb : n ≠ b := by
                intro e; rw [e] at hnd; simp [List.nodup_append] at hnd
              rw [hln.1]
              refine ih _ n (D ++ [b]) T2 true (by simp at hf ⊢; omega) hinv'' hI' ?_
              simp only [if_true]
              refine ⟨?_, ?_, ?_⟩
              · rw [hs']
                have h1 : (sentinel K m :: (D ++ [b]) ++ n :: T2).Nodup := by
                  simpa using hnd
                have h2 := (List.nodup_cons.1 (List.nodup_middle.1 h1)).1
                intro hmem
                apply h2
                simp only [List.mem_cons, List.mem_append, List.mem_singleton,
                  List.not_mem_nil, or_false] at hmem ⊢
                tauto
              · simp [upd_other _ _ hnb, hnf]
              · rw [hs', hn2]
                simp [upd_other _ _ hnb, hl2.1]
            · have hnf' : m.tag (m.next b) ≠ K.PU_FREE := by rw [hln.1]; exact hnf
              obtain ⟨e, hinv'⟩ := free_ff hinv hbc hbs hp' hnf'
              rw [e]
              have hstep := @FStep.ff K lowtag hightag m b D T1
                hfr hrange hp' hnf'
              have hs' := fstep_sentinel hstep
              have hinv'' : CInv K (markFree K m b) (sentinel K (markFree K m b) ::
                  (D ++ [b] ++ T1)) := by rw [hs']; simpa using hinv'
              have hI' := hI _ _ _ _ _ _ hinv hIm hstep hinv''
              refine ih _ (m.next b) (D ++ [b]) T1 false (by simp at hf ⊢; omega) hinv'' hI' ?_
              simp only [Bool.false_eq_true, if_false]
              rw [hs']; exact hnhead

/-! ## Blocks in the list, reachable arenas -/

theorem listed_mem {K : Params} {m : Mem} {l : List Int} (h : Arena K m l) {b : Int}
    (hb : Listed K m b) : b ∈ l := by
  induction hb with
  | head hne =>
    cases l with
    | nil =>
      have hl := h.1.link
      simp only [Cyc, List.nil_append, List.chain_singleton] at hl
      exact absurd hl.1 hne
    | cons x l =>
      have hl := cyc_head h.1.link
      rw [hl.1]; simp
  | next b _ hne ih =>
    have hbs : b ≠ sentinel K m := by
      intro e
      have := h.1.nodup
      rw [List.nodup_cons] at this
      exact this.1 (e ▸ ih)
    have := (struct_succ h.1 (List.mem_cons_of_mem _ ih) hbs).1
    simp only [List.mem_cons] at this
    rcases this with e | e
    · exact absurd e hne
    · exact e

/-- Every circular list of a well-formed arena can be turned so that it starts
with the sentinel. -/
theorem cinv_arena {K : Params} {m : Mem} {c : List Int} (h : CInv K m c) :
    ∃ l, Arena K m l ∧ l.length + 1 = c.length ∧
      ∀ z, z ∈ sentinel K m :: l ↔ z ∈ c := by
  obtain ⟨l1, l2, rfl⟩ := List.append_of_mem h.1.sent
  refine ⟨l2 ++ l1, by simpa using cinv_rotate l1 (sentinel K m :: l2) h, by simp; omega, ?_⟩
  intro z
  simp only [List.mem_cons, List.mem_append]
  tauto

theorem cinv_front {K : Params} {m : Mem} {c : List Int} (h : CInv K m c) {b : Int}
    (hb : b ∈ c) : ∃ t, CInv K m (b :: t) ∧ ∀ z, z ∈ b :: t ↔ z ∈ c := by
  obtain ⟨l1, l2, rfl⟩ := List.append_of_mem hb
  refine ⟨l2 ++ l1, by simpa using cinv_rotate l1 (b :: l2) h, ?_⟩
  intro z
  simp only [List.mem_cons, List.mem_append]
  tauto

theorem cinv_pred_front {K : Params} (hK : K.Valid) {m : Mem} {c : List Int}
    (h : CInv K m c) {b : Int} (hb : b ∈ c) :
    ∃ t, CInv K m (m.prev b :: b :: t) ∧ ∀ z, z ∈ m.prev b :: b :: t ↔ z ∈ c := by
  obtain ⟨t0, h0, hm0⟩ := cinv_front h hb
  obtain ⟨_, hne, _⟩ := struct_pred' hK h.1 hb
  obtain ⟨t, q, rfl⟩ : ∃ t q, t0 = t ++ [q] := by
    rcases List.eq_nil_or_concat t0 with e | ⟨t, q, e⟩
    · subst e
      have := (struct_pred' hK h0.1 (show b ∈ [b] by simp)).1
      simp only [List.mem_singleton] at this
      exact absurd this hne
    · exact ⟨t, q, by simpa using e⟩
  have hl : Link K m q b := cyc_last h0.1.link
  rw [hl.2.1]
  refine ⟨t, by simpa using cinv_rotate (b :: t) [q] (by simpa using h0), ?_⟩
  intro z
  rw [← hm0 z]
  simp only [List.mem_cons, List.mem_append, List.mem_singleton, List.not_mem_nil, or_false]
  tauto

/-- `Z_Free` on a block of the list that carries `ZONEID` keeps the arena well
formed; no block joins the list. -/
theorem free_cinv {K : Params} (hK : K.Valid) {m : Mem} {c : List Int} (h : CInv K m c)
    {b : Int} (hb : b ∈ c) (hbs : b ≠ sentinel K m) :
    ∃ c', CInv K (coalesce K (markFree K m b) b) c' ∧ ∀ z, z ∈ c' → z ∈ c := by
  by_cases hp : m.tag (m.prev b) = K.PU_FREE
  · obtain ⟨t, ht, hmem⟩ := cinv_pred_front hK h hb
    by_cases hn : m.tag (m.next b) = K.PU_FREE
    · have hps := sentinel_not_free hK h.2 hp
      have hst : sentinel K m ∈ t := by
        have := ht.1.sent
        simp only [List.mem_cons] at this
        rcases this with e | e | e
        · exact absurd e.symm hps
        · exact absurd e.symm hbs
        · exact e
      obtain ⟨n, t', rfl⟩ : ∃ n t', t = n :: t' := by
        cases t with
        | nil => simp at hst
        | cons n t' => exact ⟨n, t', rfl⟩
      have hl : Link K m b n := cyc_mid (P := [m.prev b]) (by simpa using ht.1.link)
      rw [hl.1] at hn
      obtain ⟨e, h'⟩ := free_tt hK ht hbs hp hn
      rw [e]
      refine ⟨_, h', fun z hz => (hmem z).1 ?_⟩
      simp only [List.mem_cons] at hz ⊢; tauto
    · obtain ⟨e, h'⟩ := free_tf hK ht hbs hp hn
      rw [e]
      refine ⟨_, h', fun z hz => (hmem z).1 ?_⟩
      simp only [List.mem_cons] at hz ⊢; tauto
  · by_cases hn : m.tag (m.next b) = K.PU_FREE
    · obtain ⟨t, ht, hmem⟩ := cinv_front h hb
      have hst : sentinel K m ∈ t := by
        have := ht.1.sent
        simp only [List.mem_cons] at this
        rcases this with e | e
        · exact absurd e.symm hbs
        · exact e
      obtain ⟨n, t', rfl⟩ : ∃ n t', t = n :: t' := by
        cases t with
        | nil => simp at hst
        | cons n t' => exact ⟨n, t', rfl⟩
      have hl : Link K m b n := cyc_head ht.1.link
      rw [hl.1] at hn
      obtain ⟨e, h'⟩ := free_ft hK ht hbs hp hn
      rw [e]
      refine ⟨_, h', fun z hz => (hmem z).1 ?_⟩
      simp only [List.mem_cons] at hz ⊢; tauto
    · obtain ⟨e, h'⟩ := free_ff h hb hbs hp hn
      rw [e]
      exact ⟨c, h', fun z hz => hz⟩

/-- `Z_ChangeTag2` to a tag other than `PU_FREE` on a block of the list keeps the
arena well formed. -/
theorem changeTag_cinv {K : Params} {m : Mem} {c : List Int} (h : CInv K m c)
    {b tag : Int} (hbs : b ≠ sentinel K m) (htag : tag ≠ K.PU_FREE)
    (hid : m.id b = ZONEID) (hown : ¬ (tag ≥ K.PU_PURGELEVEL ∧ m.user b = 0)) :
    CInv K { m with tag := upd m.tag b tag } c := by
  refine ⟨struct_congr h.1 rfl rfl rfl rfl rfl rfl, ?_, ?_, ?_, ?_⟩
  · show upd m.tag b tag (sentinel K m) = K.PU_STATIC
    rw [upd_other _ _ (Ne.symm hbs)]; exact h.2.sent
  · apply cyc_congr h.2.nofree
    intro u _ v _ hnf
    show ¬ (upd m.tag b tag u = K.PU_FREE ∧ upd m.tag b tag v = K.PU_FREE)
    simp only [upd_apply]
    by_cases hu : u = b
    · simp [hu, htag]
    · by_cases hv : v = b
      · simp [hv, htag]
      · simp only [hu, hv, if_false]; exact hnf
  · intro x hx hxs
    show upd m.tag b tag x ≠ K.PU_FREE → m.id x = ZONEID
    by_cases e : x = b
    · intro _; rw [e]; exact hid
    · rw [upd_other _ _ e]; exact h.2.ids x hx hxs
  · intro x hx hxs
    show upd m.tag b tag x ≠ K.PU_FREE → upd m.tag b tag x ≥ K.PU_PURGELEVEL → m.user x ≠ 0
    by_cases e : x = b
    · rw [e, upd_same]
      intro _ h1 h2; exact hown ⟨h1, h2⟩
    · rw [upd_other _ _ e]; exact h.2.owner x hx hxs

/-! ## More fuel does not change a result -/

theorem scan_fuel_succ (K : Params) (need start : Int) :
    ∀ (fuel : Nat) (m : Mem) (base rover : Int),
      Z_Malloc_scan K need start fuel m base rover ≠ .nofuel →
      Z_Malloc_scan K need start (fuel + 1) m base rover =
        Z_Malloc_scan K need start fuel m base rover := by
  intro fuel
  induction fuel with
  | zero => intro m base rover h; exact absurd rfl h
  | succ f ih =>
    intro m base rover h
    rw [Z_Malloc_scan] at h ⊢
    by_cases hr : rover = start
    · simp only [hr, if_true]
      rw [Z_Malloc_scan]; simp
    · simp only [hr, if_false] at h ⊢
      conv_rhs => rw [Z_Malloc_scan]
      simp only [hr, if_false]
      cases hb : Z_Malloc_body K m base rover with
      | ok m' r =>
        obtain ⟨b', r'⟩ := r
        rw [hb] at h
        dsimp only at h ⊢
        by_cases hc : m'.tag b' ≠ K.PU_FREE ∨ m'.size b' < need
        · simp only [if_pos hc] at h ⊢
          exact ih m' b' r' h
        · simp only [if_neg hc]
      | fatal m' e => rfl
      | nofuel => rfl

theorem scan_fuel_mono (K : Params) (need start : Int) (fuel : Nat) (m : Mem)
    (base rover : Int) (h : Z_Malloc_scan K need start fuel m base rover ≠ .nofuel) (k : Nat) :
    Z_Malloc_scan K need start (fuel + k) m base rover =
      Z_Malloc_scan K need start fuel m base rover := by
  induction k with
  | zero => rfl
  | succ k ih =>
    rw [← Nat.add_assoc, scan_fuel_succ K need start (fuel + k) m base rover (by rw [ih]; exact h),
      ih]

theorem malloc_fuel_mono (K : Params) (fuel : Nat) (m : Mem) (size tag user : Int)
    (h : Z_Malloc K fuel m size tag user ≠ .nofuel) (k : Nat) :
    Z_Malloc K (fuel + k) m size tag user = Z_Malloc K fuel m size tag user := by
  unfold Z_Malloc at h ⊢
  have h1 : Z_Malloc_scan K (needed K size) (m.prev (scanBase K m)) fuel m (scanBase K m)
      (scanBase K m) ≠ .nofuel := by
    intro e; simp only [e] at h; exact h rfl
  simp only [scan_fuel_mono K _ _ fuel m _ _ h1 k]

theorem freetags_fuel_succ (K : Params) (lowtag hightag : Int) :
    ∀ (fuel : Nat) (m : Mem) (block : Int),
      Z_FreeTags_loop K lowtag hightag fuel m block ≠ .nofuel →
      Z_FreeTags_loop K lowtag hightag (fuel + 1) m block =
        Z_FreeTags_loop K lowtag hightag fuel m block := by
  intro fuel
  induction fuel with
  | zero => intro m block h; exact absurd rfl h
  | succ f ih =>
    intro m block h
    rw [Z_FreeTags_loop] at h ⊢
    conv_rhs => rw [Z_FreeTags_loop]
    by_cases hb : block = sentinel K m
    · simp only [hb, if_true]
    · simp only [hb, if_false] at h ⊢
      by_cases hf : m.tag block = K.PU_FREE
      · simp only [hf, if_true] at h ⊢
        exact ih _ _ h
      · simp only [hf, if_false] at h ⊢
        by_cases hr : m.tag block ≥ lowtag ∧ m.tag block ≤ hightag
        · simp only [if_pos hr] at h ⊢
          cases hz : Z_Free K m (block + K.sizeof_memblock_t) with
          | ok m' r =>
            rw [hz] at h
            dsimp only at h ⊢
            exact ih _ _ h
          | fatal m' e => rfl
          | nofuel => rfl
        · simp only [if_neg hr] at h ⊢
          exact ih _ _ h

theorem freetags_fuel_mono (K : Params) (lowtag hightag : Int) (fuel : Nat) (m : Mem)
    (block : Int) (h : Z_FreeTags_loop K lowtag hightag fuel m block ≠ .nofuel) (k : Nat) :
    Z_FreeTags_loop K lowtag hightag (fuel + k) m block =
      Z_FreeTags_loop K lowtag hightag fuel m block := by
  induction k with
  | zero => rfl
  | succ k ih =>
    rw [← Nat.add_assoc,
      freetags_fuel_succ K lowtag hightag (fuel + k) m block (by rw [ih]; exact h), ih]

/-- `Z_FreeTags` on a well-formed arena, with `I` as in `freetags_rule`. -/
theorem freetags_outcome {K : Params} (hK : K.Valid) (lowtag hightag : Int)
    (I : Mem → List Int → List Int → Prop)
    (hI : ∀ m D T m' D' T', CInv K m (sentinel K m :: (D ++ T)) → I m D T →
      FStep K lowtag hightag m D T m' D' T' → CInv K m' (sentinel K m' :: (D' ++ T')) →
      I m' D' T')
    {m : Mem} {l : List Int} (h : Arena K m l) (hI0 : I m [] l) (fuel : Nat)
    (hf : l.length < fuel) :
    ∃ m' l', Z_FreeTags K fuel m lowtag hightag = .ok m' () ∧ Arena K m' l' ∧ I m' l' [] := by
  unfold Z_FreeTags
  have hhead : (l ++ [sentinel K m]).head? = some (m.next (sentinel K m)) := by
    obtain ⟨n, rest, hn⟩ := @scan_head l (sentinel K m)
    have hl : Link K m (sentinel K m) n := by
      have := h.1.link
      cases l with
      | nil =>
        simp only [List.nil_append, List.cons.injEq] at hn
        rw [← hn.1]
        simpa [Cyc] using this
      | cons a l' =>
        simp only [List.cons_append, List.cons.injEq] at hn
        rw [← hn.1]
        exact cyc_head this
    rw [hn, hl.1]; rfl
  exact freetags_rule hK lowtag hightag I hI fuel m _ [] l false (by simpa using hf)
    (by simpa using h) hI0 (by simpa using hhead)

/-- Every reachable arena is well formed. -/
theorem reach_arena {K : Params} (hK : K.Valid) {m : Mem} (h : Reach K m) :
    ∃ l, Arena K m l := by
  induction h with
  | init m base size h1 h2 => exact ⟨_, init_arena hK m base size h1 h2⟩
  | malloc m fuel size tag user m' p _ h0 h1 htag hz ih =>
    obtain ⟨l, hl⟩ := ih
    have hmono := malloc_fuel_mono K fuel m size tag user (by rw [hz]; exact fun e => nomatch e)
      (sentinel K m :: l).length
    rw [hz] at hmono
    rcases @malloc_cinv K hK m _ hl size tag user h0 h1 htag (fuel + (sentinel K m :: l).length)
      (by omega) with ⟨_, e⟩ | ⟨_, e⟩ | ⟨m'', p', c', e, hc'⟩
    · rw [hmono] at e; exact nomatch e
    · rw [hmono] at e; exact nomatch e
    · rw [hmono] at e
      injection e with e1 e2
      subst e1
      obtain ⟨l', hl', _⟩ := cinv_arena hc'
      exact ⟨l', hl'⟩
  | free m ptr m' _ hb hz ih =>
    obtain ⟨l, hl⟩ := ih
    have hbl := listed_mem hl hb
    have hbs : ptr - K.sizeof_memblock_t ≠ sentinel K m := by
      intro e
      have := hl.1.nodup
      rw [List.nodup_cons] at this
      exact this.1 (e ▸ hbl)
    unfold Z_Free at hz
    dsimp only at hz
    split at hz
    · exact nomatch hz
    · injection hz with e1 _
      subst e1
      obtain ⟨c', hc', _⟩ := free_cinv hK hl (List.mem_cons_of_mem _ hbl) hbs
      obtain ⟨l', hl', _⟩ := cinv_arena hc'
      exact ⟨l', hl'⟩
  | freeTags m fuel lowtag hightag m' _ hz ih =>
    obtain ⟨l, hl⟩ := ih
    have hmono := freetags_fuel_mono K lowtag hightag fuel m (m.next (sentinel K m))
      (by unfold Z_FreeTags at hz; rw [hz]; exact fun e => nomatch e) (l.length + 1)
    obtain ⟨m'', l', e, hl', _⟩ := freetags_outcome hK lowtag hightag (fun _ _ _ => True)
      (fun _ _ _ _ _ _ _ _ _ _ => trivial) hl trivial (fuel + (l.length + 1)) (by omega)
    unfold Z_FreeTags at hz e
    rw [hmono, hz] at e
    injection e with e1 _
    subst e1
    exact ⟨l', hl'⟩
  | changeTag m ptr tag m' _ hb htag hz ih =>
    obtain ⟨l, hl⟩ := ih
    have hbl := listed_mem hl hb
    have hbs : ptr - K.sizeof_memblock_t ≠ sentinel K m := by
      intro e
      have := hl.1.nodup
      rw [List.nodup_cons] at this
      exact this.1 (e ▸ hbl)
    unfold Z_ChangeTag2 at hz
    dsimp only at hz
    split at hz
    · exact nomatch hz
    · rename_i hid
      split at hz
      · exact nomatch hz
      · rename_i hown
        injection hz with e1 _
        subst e1
        exact ⟨l, changeTag_cinv hl hbs htag (by simpa using hid) hown⟩

/-! ## Ids and errors -/

theorem coalesce_id (K : Params) (m : Mem) (b : Int) : (coalesce K m b).id = m.id := by
  unfold coalesce; dsimp only; split <;> split <;> simp

theorem coalesce_tag (K : Params) (m : Mem) (b : Int) : (coalesce K m b).tag = m.tag := by
  unfold coalesce; dsimp only; split <;> split <;> simp

theorem coalesce_user (K : Params) (m : Mem) (b : Int) : (coalesce K m b).user = m.user := by
  unfold coalesce; dsimp only; split <;> split <;> simp

theorem coalesce_slot (K : Params) (m : Mem) (b : Int) : (coalesce K m b).slot = m.slot := by
  unfold coalesce; dsimp only; split <;> split <;> simp

theorem coalesce_mainzone (K : Params) (m : Mem) (b : Int) :
    (coalesce K m b).mainzone = m.mainzone := by
  unfold coalesce; dsimp only; split <;> split <;> simp

/-- What `Z_Free` does when it returns. -/
theorem Z_Free_cases (K : Params) (m : Mem) (ptr : Int) :
    (m.id (ptr - K.sizeof_memblock_t) ≠ ZONEID ∧
      Z_Free K m ptr = .fatal m .free_without_zoneid) ∨
    (m.id (ptr - K.sizeof_memblock_t) = ZONEID ∧
      Z_Free K m ptr = .ok (coalesce K (markFree K m (ptr - K.sizeof_memblock_t))
        (ptr - K.sizeof_memblock_t)) ()) := by
  unfold Z_Free
  dsimp only
  by_cases h : m.id (ptr - K.sizeof_memblock_t) = ZONEID
  · right; exact ⟨h, by rw [if_neg (by simpa using h)]⟩
  · left; exact ⟨h, by rw [if_pos h]⟩

/-- `Z_Free` writes no id other than `0`. -/
theorem Z_Free_id_zero (K : Params) (m : Mem) (ptr : Int) (m' : Mem)
    (h : Z_Free K m ptr = .ok m' ()) (x : Int) (hx : m.id x = 0) : m'.id x = 0 := by
  rcases Z_Free_cases K m ptr with ⟨_, e⟩ | ⟨_, e⟩
  · rw [e] at h; exact nomatch h
  · rw [e] at h
    injection h with e1 _
    subst e1
    rw [coalesce_id, markFree_id, upd_apply]
    split
    · rfl
    · exact hx

theorem freetags_id_zero (K : Params) (lowtag hightag : Int) :
    ∀ (fuel : Nat) (m : Mem) (block : Int) (m' : Mem),
      Z_FreeTags_loop K lowtag hightag fuel m block = .ok m' () →
      ∀ x, m.id x = 0 → m'.id x = 0 := by
  intro fuel
  induction fuel with
  | zero => intro m block m' h; exact nomatch h
  | succ f ih =>
    intro m block m' h x hx
    rw [Z_FreeTags_loop] at h
    split at h
    · injection h with e1 _; subst e1; exact hx
    · dsimp only at h
      split at h
      · exact ih _ _ _ h x hx
      · split at h
        · split at h
          · rename_i m1 _ hz
            exact ih _ _ _ h x (Z_Free_id_zero K m _ m1 hz x hx)
          · exact nomatch h
          · exact nomatch h
        · exact ih _ _ _ h x hx

/-- No call other than `Z_Malloc` writes an id other than `0`. -/
theorem freeStep_id_zero {K : Params} {m m' : Mem} (h : Relation.ReflTransGen (FreeStep K) m m')
    (x : Int) (hx : m.id x = 0) : m'.id x = 0 := by
  induction h with
  | refl => exact hx
  | tail _ hstep ih =>
    cases hstep with
    | free ptr _ hz => exact Z_Free_id_zero K _ ptr _ hz x ih
    | freeTags fuel lowtag hightag _ hz =>
      exact freetags_id_zero K lowtag hightag fuel _ _ _ hz x ih
    | changeTag ptr tag _ hz =>
      unfold Z_ChangeTag2 at hz
      dsimp only at hz
      split at hz
      · exact nomatch hz
      · split at hz
        · exact nomatch hz
        · injection hz with e1 _
          subst e1
          exact ih

/-- The scan of `Z_Malloc` ends in no error but the allocation failure and the
error of `Z_Free`. -/
theorem scan_fatal_kind (K : Params) (need start : Int) :
    ∀ (fuel : Nat) (m : Mem) (base rover : Int) (m' : Mem) (e : Fatal),
      Z_Malloc_scan K need start fuel m base rover = .fatal m' e →
      e = .malloc_failed ∨ e = .free_without_zoneid := by
  intro fuel
  induction fuel with
  | zero => intro m base rover m' e h; exact nomatch h
  | succ f ih =>
    intro m base rover m' e h
    rw [Z_Malloc_scan] at h
    split at h
    · injection h with _ e2; exact Or.inl e2.symm
    · split at h
      · split at h
        · exact ih _ _ _ _ _ h
        · exact nomatch h
      · rename_i m1 e1 hb
        injection h with _ e2
        subst e2
        right
        unfold Z_Malloc_body at hb
        split at hb
        · split at hb
          · exact nomatch hb
          · dsimp only at hb
            split at hb
            · exact nomatch hb
            · rename_i m2 e2 hz
              injection hb with _ e3
              subst e3
              rcases Z_Free_cases K m (rover + K.sizeof_memblock_t) with ⟨_, ez⟩ | ⟨_, ez⟩
              · rw [ez] at hz; injection hz with _ e4; exact e4.symm
              · rw [ez] at hz; exact nomatch hz
            · exact nomatch hb
        · exact nomatch hb
      · exact nomatch h

/-! ## Deciding the invariant on a concrete arena -/

theorem freeDelta_markFree (K : Params) (m : Mem) (b : Int) :
    FreeDelta K m b (markFree K m b) :=
  ⟨by simp, by simp, by simp, markFree_slot K m b, fun _ _ _ => by simp, by simp⟩

theorem freeDelta_merge (K : Params) (m : Mem) (b : Int) {m' : Mem} (h : FreeDelta K m b m')
    (x y : Int) (hx : x = b ∨ m.tag x = K.PU_FREE) : FreeDelta K m b (merge m' x y) := by
  refine ⟨by simp [h.tag], by simp [h.user], by simp [h.id], by simp [h.slot], ?_,
    by simp [h.mainzone]⟩
  intro z hz1 hz2
  have hzx : z ≠ x := by
    rintro rfl
    rcases hx with e | e
    · exact hz1 e
    · exact hz2 e
  rw [merge_size, upd_other _ _ hzx]
  exact h.size z hz1 hz2

theorem freeDelta_slot_zero {K : Params} {m m' : Mem} {b : Int} (h : FreeDelta K m b m')
    (u : Int) (hu : m.slot u = 0) : m'.slot u = 0 := by
  rw [h.slot]
  split
  · rw [upd_apply]; split
    · rfl
    · exact hu
  · exact hu

/-- A step of the sweep that frees the block `b`, and with it takes the free
blocks `Tm` behind `b` out of the list, keeps `FTInv`. -/
theorem ftinv_free {K : Params} {lowtag hightag : Int} {m0 : Mem} {l0 : List Int}
    (hl0 : l0.Nodup) {m : Mem} {D : List Int} {b : Int} {Tm T' : List Int} {m' : Mem}
    {D' : List Int} (hnd : (D ++ b :: (Tm ++ T')).Nodup)
    (hI : FTInv K lowtag hightag m0 l0 m D (b :: (Tm ++ T'))) (hd : FreeDelta K m b m')
    (hfr : m.tag b ≠ K.PU_FREE) (hr : m.tag b ≥ lowtag ∧ m.tag b ≤ hightag)
    (hTm : ∀ x ∈ Tm, m.tag x = K.PU_FREE) (hD1 : ∀ x ∈ D, x ∈ D')
    (hD2 : ∀ x ∈ D', x ∈ D ∨ x = b) : FTInv K lowtag hightag m0 l0 m' D' T' := by
  obtain ⟨h1, h2, Q, hQ, h3, h4⟩ := hI
  have hbD : ∀ x ∈ D, x ≠ b := by
    intro x hx e
    rw [List.nodup_middle, List.nodup_cons] at hnd
    exact hnd.1 (by rw [← e]; simp [hx])
  have hbT : ∀ x ∈ Tm ++ T', x ≠ b := by
    intro x hx e
    rw [List.nodup_middle, List.nodup_cons] at hnd
    exact hnd.1 (by rw [← e]; simp only [List.mem_append] at hx ⊢; exact Or.inr hx)
  have hbQ : ∀ x ∈ Q, x ≠ b := by
    intro x hx e
    rw [hQ, List.nodup_middle, List.nodup_cons] at hl0
    exact hl0.1 (by rw [← e]; simp [hx])
  have hb := h2 b (by simp)
  refine ⟨?_, ?_, Q ++ b :: Tm, by simp [hQ], ?_, ?_⟩
  · intro x hx
    rcases hD2 x hx with hx | rfl
    · rw [hd.tag, upd_other _ _ (hbD x hx)]; exact h1 x hx
    · intro hf; rw [hd.tag, upd_same] at hf; exact absurd rfl hf
  · intro x hx
    have hxb := hbT x (by simp [hx])
    have hx2 := h2 x (by simp [hx])
    rw [hd.tag, hd.user, upd_other _ _ hxb, upd_other _ _ hxb]
    exact ⟨hx2.1, hx2.2.1, fun hf => (hd.size x hxb hf).trans (hx2.2.2 hf)⟩
  · intro x hx hf hrange
    simp only [List.mem_append, List.mem_cons] at hx
    rcases hx with hx | rfl | hx
    · have hxb := hbQ x hx
      obtain ⟨a, c⟩ := h3 x hx hf hrange
      rw [hd.tag, upd_other _ _ hxb]
      exact ⟨a, fun hu => freeDelta_slot_zero hd _ (c hu)⟩
    · refine ⟨by rw [hd.tag, upd_same], fun hu => ?_⟩
      rw [hd.slot, ← hb.2.1, if_pos ⟨hfr, by rw [hb.2.1]; exact hu⟩, upd_same]
    · have := h2 x (by simp [hx])
      rw [← this.1] at hf
      exact absurd (hTm x hx) hf
  · intro x hx hf hrange
    simp only [List.mem_append, List.mem_cons] at hx
    rcases hx with hx | rfl | hx
    · have hxb := hbQ x hx
      obtain ⟨a, c, d, e⟩ := h4 x hx hf hrange
      rw [hd.tag, hd.user, upd_other _ _ hxb, upd_other _ _ hxb]
      refine ⟨hD1 x a, ?_, d, e⟩
      rw [hd.size x hxb (by rw [d]; exact hf)]; exact c
    · rw [← hb.1] at hrange
      exact absurd hr hrange
    · have := h2 x (by simp [hx])
      rw [← this.1] at hf
      exact absurd (hTm x hx) hf

/-- Each step of the sweep keeps `FTInv`. -/
theorem ftinv_step {K : Params} {lowtag hightag : Int} {m0 : Mem} {l0 : List Int}
    (hl0 : l0.Nodup) {m : Mem} {D T : List Int} {m' : Mem} {D' T' : List Int}
    (hinv : CInv K m (sentinel K m :: (D ++ T))) (hI : FTInv K lowtag hightag m0 l0 m D T)
    (hstep : FStep K lowtag hightag m D T m' D' T') :
    FTInv K lowtag hightag m0 l0 m' D' T' := by
  obtain ⟨h1, h2, Q, hQ, h3, h4⟩ := hI
  have hnd := hinv.1.nodup
  cases hstep with
  | keep b D T hk =>
    have hb := h2 b (by simp)
    refine ⟨?_, fun x hx => h2 x (List.mem_cons_of_mem _ hx), Q ++ [b], by simp [hQ], ?_, ?_⟩
    · intro x hx
      simp only [List.mem_append, List.mem_singleton] at hx
      rcases hx with hx | rfl
      · exact h1 x hx
      · intro hf
        rcases hk with e | e
        · exact absurd e hf
        · exact e
    · intro x hx
      simp only [List.mem_append, List.mem_singleton] at hx
      rcases hx with hx | rfl
      · exact h3 x hx
      · intro hf hr
        rw [← hb.1] at hf hr
        rcases hk with e | e
        · exact absurd e hf
        · exact absurd hr e
    · intro x hx
      simp only [List.mem_append, List.mem_singleton] at hx
      rcases hx with hx | rfl
      · intro hf hr
        obtain ⟨a, b', c, d⟩ := h4 x hx hf hr
        exact ⟨by simp [a], b', c, d⟩
      · intro hf hr
        rw [← hb.1] at hf
        exact ⟨by simp, (hb.2.2 hf).symm ▸ rfl, hb.1, hb.2.1⟩
  | ff b D T a1 a2 a3 a4 =>
    exact @ftinv_free K lowtag hightag m0 l0 hl0 m _ b [] _ _ _
      (by rw [List.nodup_cons] at hnd; simpa using hnd.2) ⟨h1, h2, Q, hQ, h3, h4⟩
      (freeDelta_markFree K m b) a1 a2 (by simp) (fun x hx => by simp [hx])
      (fun x hx => by simpa using hx)
  | ft b n D T a1 a2 a3 a4 =>
    exact @ftinv_free K lowtag hightag m0 l0 hl0 m _ b [n] _ _ _
      (by rw [List.nodup_cons] at hnd; simpa using hnd.2) ⟨h1, h2, Q, hQ, h3, h4⟩
      (freeDelta_merge K m b (freeDelta_markFree K m b) b n (Or.inl rfl)) a1 a2
      (by simpa using a4) (fun x hx => by simp [hx]) (fun x hx => by simpa using hx)
  | tf p b D T a1 a2 a3 a4 =>
    exact @ftinv_free K lowtag hightag m0 l0 hl0 m _ b [] _ _ _
      (by rw [List.nodup_cons] at hnd; simpa using hnd.2) ⟨h1, h2, Q, hQ, h3, h4⟩
      (freeDelta_merge K m b (freeDelta_markFree K m b) p b (Or.inr a3)) a1 a2
      (by simp) (fun x hx => hx) (fun x hx => Or.inl hx)
  | tt p b n D T a1 a2 a3 a4 =>
    exact @ftinv_free K lowtag hightag m0 l0 hl0 m _ b [n] _ _ _
      (by rw [List.nodup_cons] at hnd; simpa using hnd.2) ⟨h1, h2, Q, hQ, h3, h4⟩
      (freeDelta_merge K m b (freeDelta_merge K m b (freeDelta_markFree K m b) p b (Or.inr a3))
        p n (Or.inr a3)) a1 a2
      (by simpa using a4) (fun x hx => hx) (fun x hx => Or.inl hx)

/-! ## Runs of free or purgable blocks -/

@[simp] theorem total_nil (m : Mem) : total m [] = 0 := rfl

@[simp] theorem total_cons (m : Mem) (x : Int) (l : List Int) :
    total m (x :: l) = m.size x + total m l := by
  simp [total]

@[simp] theorem total_append (m : Mem) (l1 l2 : List Int) :
    total m (l1 ++ l2) = total m l1 + total m l2 := by
  simp [total]

theorem total_congr {m m' : Mem} {l : List Int} (h : ∀ x ∈ l, m'.size x = m.size x) :
    total m' l = total m l := by
  induction l with
  | nil => rfl
  | cons a l ih =>
    rw [total_cons, total_cons, h a (by simp), ih (fun x hx => h x (List.mem_cons_of_mem _ hx))]

theorem total_nonneg {m : Mem} {l : List Int} (h : ∀ x ∈ l, 0 ≤ m.size x) : 0 ≤ total m l := by
  induction l with
  | nil => simp
  | cons a l ih =>
    rw [total_cons]
    have := h a (by simp)
    have := ih (fun x hx => h x (List.mem_cons_of_mem _ hx))
    omega

theorem fits_cons_elig {K : Params} {m : Mem} {need acc x : Int} {l : List Int}
    (h : Eligible K m x) : fits K m need acc (x :: l) ↔ fits K m need (acc + m.size x) l := by
  rw [fits]
  exact ⟨fun hh => hh.1 h, fun hh => ⟨fun _ => hh, fun hn => absurd h hn⟩⟩

theorem fits_cons_not {K : Params} {m : Mem} {need acc x : Int} {l : List Int}
    (h : ¬ Eligible K m x) : fits K m need acc (x :: l) ↔ (need ≤ acc ∨ fits K m need 0 l) := by
  rw [fits]
  exact ⟨fun hh => hh.2 h, fun hh => ⟨fun he => absurd he h, fun _ => hh⟩⟩

theorem fits_of_le {K : Params} {m : Mem} {need : Int} :
    ∀ (l : List Int) (acc : Int), need ≤ acc → (∀ x ∈ l, Eligible K m x → 0 ≤ m.size x) →
      fits K m need acc l
  | [], acc, h, _ => by rw [fits]; exact h
  | x :: l, acc, h, hs => by
    rw [fits]
    refine ⟨fun he => fits_of_le l _ ?_ (fun y hy => hs y (List.mem_cons_of_mem _ hy)),
      fun _ => Or.inl h⟩
    have := hs x (by simp) he
    omega

/-- Free or purgable blocks at the head of the list add their sizes. -/
theorem fits_append_elig {K : Params} {m : Mem} {need : Int} :
    ∀ (l1 : List Int) (acc : Int) (l2 : List Int), (∀ x ∈ l1, Eligible K m x) →
      (fits K m need acc (l1 ++ l2) ↔ fits K m need (acc + total m l1) l2)
  | [], acc, l2, _ => by simp
  | x :: l1, acc, l2, h => by
    rw [List.cons_append, fits_cons_elig (h x (by simp)),
      fits_append_elig l1 _ l2 (fun y hy => h y (List.mem_cons_of_mem _ hy)), total_cons,
      Int.add_assoc]

theorem hasRun_cons {K : Params} {m : Mem} {need : Int} {x : Int} {R : List Int}
    (h : HasRun K m need R) : HasRun K m need (x :: R) := by
  obtain ⟨l1, sp, l2, e, h1, h2⟩ := h
  exact ⟨x :: l1, sp, l2, by simp [e], h1, h2⟩

/-- The fold finds a run exactly when there is one: in the list, or made of
the size collected so far and the blocks at the head of the list. -/
theorem fits_iff {K : Params} {m : Mem} {need : Int} (hneed : 0 < need) :
    ∀ (R : List Int) (acc : Int), 0 ≤ acc → (∀ x ∈ R, Eligible K m x → 0 ≤ m.size x) →
      (fits K m need acc R ↔
        ((∃ sp l2, R = sp ++ l2 ∧ (∀ x ∈ sp, Eligible K m x) ∧ need ≤ acc + total m sp) ∨
          HasRun K m need R))
  | [], acc, _, _ => by
    rw [fits]
    constructor
    · intro h; exact Or.inl ⟨[], [], rfl, by simp, by simpa using h⟩
    · rintro (⟨sp, l2, e, _, h⟩ | ⟨l1, sp, l2, e, _, h⟩)
      · have : sp = [] := by
          cases sp with
          | nil => rfl
          | cons a l => simp at e
        subst this; simpa using h
      · have : sp = [] := by
          cases sp with
          | nil => rfl
          | cons a l => simp at e
        subst this
        simp at h; omega
  | x :: R, acc, hacc, hs => by
    have hs' : ∀ y ∈ R, Eligible K m y → 0 ≤ m.size y :=
      fun y hy => hs y (List.mem_cons_of_mem _ hy)
    by_cases he : Eligible K m x
    · have hx := hs x (by simp) he
      rw [fits_cons_elig he, fits_iff hneed R (acc + m.size x) (by omega) hs']
      constructor
      · rintro (⟨sp, l2, e, h1, h2⟩ | h)
        · left
          refine ⟨x :: sp, l2, by simp [e], ?_, by rw [total_cons]; omega⟩
          intro y hy
          simp only [List.mem_cons] at hy
          rcases hy with rfl | hy
          · exact he
          · exact h1 y hy
        · exact Or.inr (hasRun_cons h)
      · rintro (⟨sp, l2, e, h1, h2⟩ | ⟨l1, sp, l2, e, h1, h2⟩)
        · cases sp with
          | nil =>
            left
            exact ⟨[], R, rfl, by simp, by simp at h2 ⊢; omega⟩
          | cons a sp' =>
            simp only [List.cons_append, List.cons.injEq] at e
            left
            refine ⟨sp', l2, e.2, fun y hy => h1 y (List.mem_cons_of_mem _ hy), ?_⟩
            rw [total_cons, ← e.1] at h2; omega
        · cases l1 with
          | nil =>
            cases sp with
            | nil => simp at h2; omega
            | cons a sp' =>
              simp only [List.nil_append, List.cons_append, List.cons.injEq] at e
              left
              refine ⟨sp', l2, e.2, fun y hy => h1 y (List.mem_cons_of_mem _ hy), ?_⟩
              rw [total_cons, ← e.1] at h2; omega
          | cons a l1' =>
            simp only [List.cons_append, List.cons.injEq] at e
            exact Or.inr ⟨l1', sp, l2, by simpa using e.2, h1, h2⟩
    · rw [fits_cons_not he, fits_iff hneed R 0 (by omega) hs']
      constructor
      · rintro (h | ⟨sp, l2, e, h1, h2⟩ | h)
        · exact Or.inl ⟨[], x :: R, rfl, by simp, by simpa using h⟩
        · exact Or.inr ⟨[x], sp, l2, by simp [e], h1, by omega⟩
        · exact Or.inr (hasRun_cons h)
      · rintro (⟨sp, l2, e, h1, h2⟩ | ⟨l1, sp, l2, e, h1, h2⟩)
        · cases sp with
          | nil => left; simpa using h2
          | cons a sp' =>
            simp only [List.cons_append, List.cons.injEq] at e
            exact absurd (h1 a (by simp)) (e.1 ▸ he)
        · cases l1 with
          | nil =>
            cases sp with
            | nil => simp at h2; omega
            | cons a sp' =>
              simp only [List.nil_append, List.cons_append, List.cons.injEq] at e
              exact absurd (h1 a (by simp)) (e.1 ▸ he)
          | cons a l1' =>
            simp only [List.cons_append, List.cons.injEq] at e
            exact Or.inr (Or.inr ⟨l1', sp, l2, by simpa using e.2, h1, h2⟩)

/-- From an empty run, the fold finds a run exactly when the list has one. -/
theorem fits_zero_iff {K : Params} {m : Mem} {need : Int} (hneed : 0 < need) (R : List Int)
    (hs : ∀ x ∈ R, Eligible K m x → 0 ≤ m.size x) :
    fits K m need 0 R ↔ HasRun K m need R := by
  rw [fits_iff hneed R 0 (by omega) hs]
  constructor
  · rintro (⟨sp, l2, e, h1, h2⟩ | h)
    · exact ⟨[], sp, l2, by simpa using e, h1, by omega⟩
    · exact h
  · exact Or.inr

/-! ## The history of a scan -/

/-- How a list that ends with `r :: Tm` can be cut in front of one of its
elements. -/
theorem cut_cases {span : List Int} {r : Int} {Tm sp : List Int} {r' : Int} {tl : List Int}
    (h : span ++ r :: Tm = sp ++ r' :: tl) :
    (∃ tl', span = sp ++ r' :: tl') ∨ (sp = span ∧ r' = r) ∨ r' ∈ Tm := by
  rw [List.append_eq_append_iff] at h
  rcases h with ⟨a, e1, e2⟩ | ⟨c, e1, e2⟩
  · cases a with
    | nil =>
      simp only [List.nil_append, List.cons.injEq] at e2
      right; left
      exact ⟨by simpa using e1, e2.1.symm⟩
    | cons x a' =>
      simp only [List.cons_append, List.cons.injEq] at e2
      right; right
      rw [e2.2]; simp
  · cases c with
    | nil =>
      simp only [List.nil_append, List.cons.injEq] at e2
      right; left
      exact ⟨by simpa using e1.symm, e2.1⟩
    | cons x c' =>
      simp only [List.cons_append, List.cons.injEq] at e2
      left
      exact ⟨c', by rw [e1, e2.1]⟩

/-- The step of the scan that frees the purgable block `r` at the rover, and
with it merges the free blocks `Tm` behind it, extends the current run by
`r :: Tm`. -/
theorem hist_purge {K : Params} {need : Int} {m0 : Mem} {R0 : List Int} {start : Int}
    {m : Mem} {base r : Int} {P Tm T' Q span : List Int} {m' : Mem} {base' rover' : Int}
    {P' : List Int}
    (hH : Hist K need m0 R0 start m base r P (r :: (Tm ++ T')) Q span)
    (hnd : (P ++ r :: (Tm ++ T' ++ [start])).Nodup)
    (hd : FreeDelta K m r m') (hP : Purgable K m r) (hTm : ∀ x ∈ Tm, m.tag x = K.PU_FREE)
    (hzs : m'.zonesize = m.zonesize)
    (hb' : base' = if base = r then r else base) (hbf : base ≠ r → m.tag base = K.PU_FREE)
    (hsz : ∀ x, x ≠ base' → m'.size x = m.size x)
    (hsize : m'.size base' = (if base = r then 0 else m.size base) + m.size r + total m Tm)
    (hcond : base ≠ r → m.size base < need) (hne : base' ≠ rover')
    (hbT : base' ∉ T' ++ [start])
    (hsub : ∀ x ∈ P' ++ T' ++ [start], x ∈ P ++ r :: (Tm ++ T') ++ [start])
    (hlive : ∀ x ∈ P ++ r :: (Tm ++ T') ++ [start], x ≠ r → x ∉ Tm → x ∈ P' ++ T' ++ [start]) :
    Hist K need m0 R0 start m' base' rover' P' T' Q (span ++ r :: Tm) := by
  have har := hH.ahead r (by simp)
  have haTm : ∀ x ∈ Tm, m.tag x = m0.tag x ∧ m.size x = m0.size x := fun x hx =>
    ⟨(hH.ahead x (by simp [hx])).1, (hH.ahead x (by simp [hx])).2.2.2⟩
  have hP0 : Purgable K m0 r := by
    unfold Purgable at hP ⊢; rw [← har.1]; exact hP
  have hrR0 : r ∈ R0 := by rw [hH.split]; simp
  have hrT : ∀ x ∈ T' ++ [start], x ≠ r := by
    intro x hx e
    rw [List.nodup_middle, List.nodup_cons] at hnd
    apply hnd.1
    rw [← e]
    simp only [List.mem_append, List.mem_singleton] at hx ⊢
    rcases hx with hx | hx
    · exact Or.inr (Or.inl (Or.inr hx))
    · exact Or.inr (Or.inr hx)
  have hbfree : m'.tag base' = K.PU_FREE := by
    rw [hd.tag, hb']
    split
    · rw [upd_same]
    · rename_i e; rw [upd_other _ _ e]; exact hbf e
  have htot : total m Tm = total m0 Tm := total_congr (fun x hx => (haTm x hx).2)
  have hspan : (if base = r then 0 else m.size base) = total m0 span := by
    split
    · rename_i e; rw [hH.shapeA e]; rfl
    · rename_i e; exact (hH.shapeB e).2
  have helig : ∀ x ∈ span ++ r :: Tm, Eligible K m0 x := by
    intro x hx
    simp only [List.mem_append, List.mem_cons] at hx
    rcases hx with hx | rfl | hx
    · exact hH.elig x hx
    · exact Or.inr (by have := hP0.2; omega)
    · exact Or.inl (by rw [← (haTm x hx).1]; exact hTm x hx)
  refine ⟨by simp [hH.split], fun e => absurd e hne, fun _ => ⟨?_, ?_⟩, helig, ?_, hH.behind,
    ?_, ?_, ?_, ?_, ?_, ?_, ?_, fun x hx => hH.sub x (hsub x hx), ?_⟩
  · -- the run starts at the base
    rw [hb']
    split
    · rename_i e; rw [hH.shapeA e]; rfl
    · rename_i e
      have := (hH.shapeB e).1
      cases hspn : span with
      | nil => rw [hspn] at this; simp at this
      | cons a l => rw [hspn] at this; simpa using this
  · -- the size of the base is the size of the run
    rw [hsize, hspan, htot, har.2.2.2]
    simp [Int.add_assoc]
  · -- no purgable block was freed before the run in front of it was too small
    intro hneed sp r' tl hcut hr'
    rcases cut_cases hcut with ⟨tl', e⟩ | ⟨e1, _⟩ | hmem
    · exact hH.minimal hneed sp r' tl' e hr'
    · rw [e1, ← hspan]
      split
      · exact hneed
      · rename_i e; exact hcond e
    · exact absurd (by rw [← (haTm r' hmem).1]; exact hTm r' hmem) hr'.1
  · -- the purgable blocks of the run and behind it are free now
    intro x hx _
    rw [hd.tag, upd_apply]
    split
    · rfl
    · simp only [List.mem_append, List.mem_cons] at hx
      rcases hx with hx | hx | rfl | hx
      · exact hH.evicted x (by simp [hx]) ‹_›
      · exact hH.evicted x (by simp [hx]) ‹_›
      · exact absurd rfl ‹_›
      · exact hTm x hx
  · -- the blocks ahead are as they were
    intro x hx
    have hxr := hrT x hx
    have hxb : x ≠ base' := fun e => hbT (e ▸ hx)
    have := hH.ahead x (by
      simp only [List.mem_append, List.mem_cons, List.mem_singleton] at hx ⊢
      rcases hx with hx | hx
      · exact Or.inl (Or.inr (Or.inr hx))
      · exact Or.inr hx)
    rw [hd.tag, hd.user, hd.id, upd_other _ _ hxr, upd_other _ _ hxr, upd_other _ _ hxr,
      hsz x hxb]
    exact this
  · -- runs
    intro hneed
    rw [hH.run hneed, fits_cons_elig (helig r (by simp)),
      fits_append_elig Tm _ T' (fun x hx => helig x (by simp [hx]))]
    simp [Int.add_assoc]
  · -- tags change from purgable to free only
    intro x
    rw [hd.tag, upd_apply]
    split
    · rename_i e; right; rw [e]; exact ⟨hP0, hrR0, rfl⟩
    · exact hH.tags x
  · -- blocks in use are as they were
    intro x hx
    have hxr : x ≠ r := by
      intro e; rw [e, hd.tag, upd_same] at hx; exact hx rfl
    have hxb : x ≠ base' := by
      intro e; rw [e] at hx; exact hx hbfree
    rw [hd.tag, upd_other _ _ hxr] at hx
    rw [hd.tag, hd.user, hd.id, upd_other _ _ hxr, upd_other _ _ hxr, upd_other _ _ hxr,
      hsz x hxb]
    exact hH.keep x hx
  · -- blocks in use are in the list
    intro x hx hf
    have hxr : x ≠ r := by
      intro e; rw [e, hd.tag, upd_same] at hf; exact hf rfl
    rw [hd.tag, upd_other _ _ hxr] at hf
    exact hlive x (hH.live x hx hf) hxr (fun hm => hf (hTm x hm))
  · -- owner slots
    intro u
    rw [hd.slot]
    split
    · rename_i hc
      rw [upd_apply]
      split
      · rename_i e
        exact Or.inr ⟨rfl, r, hrR0, hP0, by rw [← har.2.1]; exact e.symm⟩
      · exact hH.slots u
    · exact hH.slots u
  · exact ⟨hd.mainzone.trans hH.zone.1, hzs.trans hH.zone.2⟩

/-- The step of the scan over a free block: the run begins with it. -/
theorem hist_adv {K : Params} {need : Int} {m0 : Mem} {R0 : List Int} {start : Int}
    {m : Mem} {r : Int} {P T Q span : List Int} {rover' : Int}
    (hH : Hist K need m0 R0 start m r r P (r :: T) Q span) (hf : m.tag r = K.PU_FREE)
    (hne : r ≠ rover') : Hist K need m0 R0 start m r rover' (P ++ [r]) T Q [r] := by
  have hsp := hH.shapeA rfl
  subst hsp
  have har := hH.ahead r (by simp)
  have hf0 : m0.tag r = K.PU_FREE := by rw [← har.1]; exact hf
  have hnp : ¬ Purgable K m0 r := fun h => h.1 hf0
  refine ⟨by simp [hH.split], fun e => absurd e hne, fun _ => ⟨rfl, by simp [total, har.2.2.2]⟩,
    ?_, ?_, hH.behind, ?_, fun x hx => hH.ahead x (by
      simp only [List.mem_append, List.mem_cons, List.mem_singleton] at hx ⊢
      rcases hx with hx | hx
      · exact Or.inl (Or.inr hx)
      · exact Or.inr hx), ?_, hH.tags, hH.keep, ?_, hH.slots, ?_, hH.zone⟩
  · intro x hx
    simp only [List.mem_singleton] at hx
    rw [hx]; exact Or.inl hf0
  · intro _ sp r' tl hcut hr'
    have hmem : r' ∈ [r] := by rw [hcut]; simp
    simp only [List.mem_singleton] at hmem
    rw [hmem] at hr'
    exact absurd hr' hnp
  · intro x hx hp
    simp only [List.mem_append, List.mem_singleton] at hx
    rcases hx with hx | hx
    · exact hH.evicted x (by simp [hx]) hp
    · rw [hx] at hp; exact absurd hp hnp
  · intro hneed
    rw [hH.run hneed, fits_cons_elig (Or.inl hf0)]
    simp [total]
  · intro x hx hxf
    have := hH.live x hx hxf
    simpa using this
  · intro x hx
    exact hH.sub x (by simpa using hx)

/-- The step of the scan past a block that cannot be purged: the run is given
up, the next one begins behind the block. -/
theorem hist_skip {K : Params} {need : Int} {m0 : Mem} {R0 : List Int} {start : Int}
    {m : Mem} {base r : Int} {P T Q span : List Int} {nx : Int}
    (hH : Hist K need m0 R0 start m base r P (r :: T) Q span) (hf : Fixed K m r)
    (hcond : base ≠ r → m.size base < need) :
    Hist K need m0 R0 start m nx nx (P ++ [r]) T (Q ++ span ++ [r]) [] := by
  have har := hH.ahead r (by simp)
  have hf0 : Fixed K m0 r := by unfold Fixed at hf ⊢; rw [← har.1]; exact hf
  have hne : ¬ Eligible K m0 r := by
    rintro (h | h)
    · exact hf0.1 h
    · have := hf0.2; omega
  have hnp : ¬ Purgable K m0 r := fun h => h.2 hf0.2
  refine ⟨by simp [hH.split], fun _ => rfl, fun e => absurd rfl e, by simp, ?_,
    Or.inr ⟨Q ++ span, r, rfl, hf0⟩, ?_, fun x hx => hH.ahead x (by
      simp only [List.mem_append, List.mem_cons, List.mem_singleton] at hx ⊢
      rcases hx with hx | hx
      · exact Or.inl (Or.inr hx)
      · exact Or.inr hx), ?_, hH.tags, hH.keep, ?_, hH.slots, ?_, hH.zone⟩
  · intro _ sp r' tl hcut
    simp at hcut
  · intro x hx hp
    simp only [List.mem_append, List.mem_singleton, List.append_nil] at hx
    rcases hx with (hx | hx) | hx
    · exact hH.evicted x (by simp [hx]) hp
    · exact hH.evicted x (by simp [hx]) hp
    · rw [hx] at hp; exact absurd hp hnp
  · intro hneed
    rw [hH.run hneed, fits_cons_not hne]
    have hlt : total m0 span < need := by
      by_cases e : base = r
      · rw [hH.shapeA e]; simpa [total] using hneed
      · rw [← (hH.shapeB e).2]; exact hcond e
    simp only [total, List.map_nil, List.sum_nil]
    constructor
    · rintro (h | h)
      · exact absurd h (by unfold total at hlt; omega)
      · exact h
    · exact fun h => Or.inr h
  · intro x hx hxf
    have := hH.live x hx hxf
    simpa using this
  · intro x hx
    exact hH.sub x (by simpa using hx)

/-- The block `base` behind the rover is none of the blocks ahead. -/
theorem scanst_behind {K : Params} {start : Int} {m : Mem} {base rover : Int}
    {P T : List Int} (hS : ScanSt K start m base rover P T) {x : Int} (hx : x ∈ P) :
    x ∉ T ++ [start] := by
  have hnd := hS.inv.1.nodup
  rw [List.append_assoc, List.nodup_append] at hnd
  exact fun h => hnd.2.2 hx h

theorem scanst_base_ne {K : Params} {start : Int} {m : Mem} {base rover : Int}
    {P T : List Int} (hS : ScanSt K start m base rover P T) (hx : base ∈ P) :
    base ≠ rover := by
  intro e
  apply scanst_behind hS hx
  rw [e]
  exact List.mem_of_mem_head? hS.rov

/-- The bytes from the start of a block to the end of a block behind it fit in
an `int`. -/
theorem span_bound {K : Params} (hK : K.Valid) {m : Mem} {c : List Int} (h : Struct K m c)
    {x y : Int} (hx : x ∈ c) (hy : y ∈ c) (hxs : x ≠ sentinel K m) (hys : y ≠ sentinel K m)
    (hxy : x ≤ y) : toInt (y + m.size y - x) = y + m.size y - x := by
  obtain ⟨_, _, _, h1, _, h3, h2⟩ := hK
  have gx := h.geom x hx hxs
  have gy := h.geom y hy hys
  have hs := h.small
  unfold first zoneEnd at gx gy
  apply toInt_eq <;> omega

/-- Merging two neighbours does not overflow the size. -/
theorem pair_size {K : Params} (hK : K.Valid) {m : Mem} {c : List Int} (h : Struct K m c)
    {x y : Int} (hx : x ∈ c) (hy : y ∈ c) (hxs : x ≠ sentinel K m) (hys : y ≠ sentinel K m)
    (hl : Link K m x y) : toInt (m.size x + m.size y) = m.size x + m.size y := by
  have e := hl.2.2.2.2 hxs hys
  have gx := h.geom x hx hxs
  have := span_bound hK h hx hy hxs hys (by have := hK.2.2.2.1; omega)
  have e2 : m.size x + m.size y = y + m.size y - x := by omega
  rw [e2]; exact this

/-- Merging three neighbours does not overflow the size. -/
theorem triple_size {K : Params} (hK : K.Valid) {m : Mem} {c : List Int} (h : Struct K m c)
    {x y z : Int} (hx : x ∈ c) (hy : y ∈ c) (hz : z ∈ c) (hxs : x ≠ sentinel K m)
    (hys : y ≠ sentinel K m) (hzs : z ≠ sentinel K m) (hl : Link K m x y) (hl2 : Link K m y z) :
    toInt (toInt (m.size x + m.size y) + m.size z) = m.size x + m.size y + m.size z := by
  rw [pair_size hK h hx hy hxs hys hl]
  have e := hl.2.2.2.2 hxs hys
  have e' := hl2.2.2.2.2 hys hzs
  have gx := h.geom x hx hxs
  have gy := h.geom y hy hys
  have := span_bound hK h hx hz hxs hzs (by have := hK.2.2.2.1; omega)
  have e2 : m.size x + m.size y + m.size z = z + m.size z - x := by omega
  rw [e2]; exact this

/-- One round of the loop body keeps the history of the scan. -/
theorem hist_step {K : Params} (hK : K.Valid) {need : Int} {m0 : Mem} {R0 : List Int}
    {start : Int} {m : Mem} {base rover : Int} {P T : List Int} {m' : Mem}
    {base' rover' : Int} {P' T' : List Int} (hS : ScanSt K start m base rover P T)
    (hI : ∃ Q span, Hist K need m0 R0 start m base rover P T Q span ∧
      (base ≠ rover → m.size base < need))
    (hst : Step K m base rover P T m' base' rover' P' T')
    (hS' : ScanSt K start m' base' rover' P' T') :
    ∃ Q span, Hist K need m0 R0 start m' base' rover' P' T' Q span := by
  obtain ⟨Q, span, hH, hc⟩ := hI
  have hne' : base' ∈ P' → base' ≠ rover' := scanst_base_ne hS'
  have hbT' : base' ∈ P' → base' ∉ T' ++ [start] := scanst_behind hS'
  have hst0 := hS.inv.1
  cases hst
  case adv =>
    rename_i hf
    exact ⟨Q, [base], hist_adv hH hf (hne' (by simp))⟩
  case skip =>
    rename_i hf
    exact ⟨_, [], hist_skip hH hf hc⟩
  case purgeA =>
    rename_i hp h1 h2
    refine ⟨Q, span ++ base :: [], @hist_purge K need m0 R0 start m base base P [] T' Q span _ base _ _ hH
      (by simpa using hst0.nodup) (freeDelta_markFree K m base) hp (by simp) (by simp) (by simp)
      (fun e => absurd rfl e) (fun x _ => by simp) (by simp [total]) hc (hne' (by simp))
      (hbT' (by simp)) ?_ ?_⟩
    · intro x hx; simpa using hx
    · intro x hx _ _; simpa using hx
  case purgeA_merge =>
    rename_i n hp h1 h2 h3
    have hl : Cyc (Link K m) (P ++ base :: n :: (T' ++ [start])) := by simpa using hst0.link
    have hrn := cyc_mid hl
    have hrs := purgable_ne_sentinel hK hS.inv.2 hp
    have hns := sentinel_not_free hK hS.inv.2 h2
    have hsz := pair_size hK hst0 (by simp) (by simp) hrs hns hrn
    refine ⟨Q, span ++ base :: [n], @hist_purge K need m0 R0 start m base base P [n] T' Q span _ base _ _ hH
      (by simpa using hst0.nodup)
      (freeDelta_merge K m base (freeDelta_markFree K m base) base n (Or.inl rfl)) hp
      (by simpa using h2) (by simp) (by simp)
      (fun e => absurd rfl e) (fun x hx => by simp [upd_other _ _ hx])
      (by simp [total, hsz]) hc (hne' (by simp)) (hbT' (by simp)) ?_ ?_⟩
    · intro x hx
      simp only [List.mem_append, List.mem_cons, List.mem_singleton, List.not_mem_nil, or_assoc,
        or_false] at hx ⊢
      rcases hx with h | h | h | h <;> simp [h]
    · intro x hx h4 h5
      simp only [List.mem_append, List.mem_cons, List.mem_singleton, List.not_mem_nil, or_assoc,
        or_false] at hx h5 ⊢
      rcases hx with h | h | h | h | h <;> simp_all
  case purgeB =>
    rename_i P0 hf hp h2
    have hl : Cyc (Link K m) (P0 ++ base :: rover :: (T' ++ [start])) := by simpa using hst0.link
    have hbr := cyc_mid hl
    have hrs := purgable_ne_sentinel hK hS.inv.2 hp
    have hbs := sentinel_not_free hK hS.inv.2 hf
    have hsz := pair_size hK hst0 (by simp) (by simp) hbs hrs hbr
    have hne : base ≠ rover := fun e => hp.1 (e ▸ hf)
    refine ⟨Q, span ++ rover :: [], @hist_purge K need m0 R0 start m base rover (P0 ++ [base]) [] T' Q span
      _ base _ _ hH (by simpa using hst0.nodup)
      (freeDelta_merge K m rover (freeDelta_markFree K m rover) base rover (Or.inr hf)) hp
      (by simp) (by simp) (by simp [hne])
      (fun _ => hf) (fun x hx => by simp [upd_other _ _ hx])
      (by simp [total, hsz, hne]) hc (hne' (by simp)) (hbT' (by simp)) ?_ ?_⟩
    · intro x hx
      simp only [List.mem_append, List.mem_cons, List.mem_singleton, List.not_mem_nil, or_assoc,
        or_false] at hx ⊢
      rcases hx with h | h | h | h <;> simp [h]
    · intro x hx h4 h5
      simp only [List.mem_append, List.mem_cons, List.mem_singleton, List.not_mem_nil, or_assoc,
        or_false] at hx h5 ⊢
      rcases hx with h | h | h | h | h <;> simp_all
  case purgeB_merge =>
    rename_i n P0 hf h2 hp h3
    have hl : Cyc (Link K m) (P0 ++ base :: rover :: n :: (T' ++ [start])) := by
      simpa using hst0.link
    have hbr := cyc_mid hl
    have hl2 : Cyc (Link K m) ((P0 ++ [base]) ++ rover :: n :: (T' ++ [start])) := by
      simpa using hst0.link
    have hrn := cyc_mid hl2
    have hrs := purgable_ne_sentinel hK hS.inv.2 hp
    have hbs := sentinel_not_free hK hS.inv.2 hf
    have hns := sentinel_not_free hK hS.inv.2 h2
    have hsz := triple_size hK hst0 (by simp) (by simp) (by simp) hbs hrs hns hbr hrn
    have hne : base ≠ rover := fun e => hp.1 (e ▸ hf)
    have hnb : n ≠ base := by
      intro e
      have hnd := hst0.nodup
      rw [e] at hnd
      simp [List.nodup_append] at hnd
    refine ⟨Q, span ++ rover :: [n], @hist_purge K need m0 R0 start m base rover (P0 ++ [base]) [n] T' Q
      span _ base _ _ hH (by simpa using hst0.nodup)
      (freeDelta_merge K m rover
        (freeDelta_merge K m rover (freeDelta_markFree K m rover) base rover (Or.inr hf)) base n (Or.inr hf))
      hp (by simpa using h2) (by simp) (by simp [hne])
      (fun _ => hf) (fun x hx => by simp [upd_other _ _ hx])
      (by simp [total, hsz, hne, upd_other _ _ hnb]) hc (hne' (by simp)) (hbT' (by simp)) ?_ ?_⟩
    · intro x hx
      simp only [List.mem_append, List.mem_cons, List.mem_singleton, List.not_mem_nil, or_assoc,
        or_false] at hx ⊢
      rcases hx with h | h | h | h <;> simp [h]
    · intro x hx h4 h5
      simp only [List.mem_append, List.mem_cons, List.mem_singleton, List.not_mem_nil, or_assoc,
        or_false] at hx h5 ⊢
      rcases hx with h | h | h | h | h | h <;> simp_all

/-- A free or purgable block of the list is a proper block, not the sentinel. -/
theorem elig_block {K : Params} (hK : K.Valid) {m : Mem} {c : List Int} (h : CInv K m c)
    {x : Int} (hx : x ∈ c) (he : Eligible K m x) :
    x ≠ sentinel K m ∧ K.sizeof_memblock_t ≤ m.size x := by
  have hxs : x ≠ sentinel K m := by
    rintro rfl
    rcases he with e | e
    · rw [h.2.sent] at e; exact hK.1 e
    · rw [h.2.sent] at e; have := hK.2.1; omega
  exact ⟨hxs, (h.1.geom x hx hxs).1⟩

/-- The history of a scan that has not begun. -/
theorem hist_init {K : Params} (hK : K.Valid) (need : Int) {m : Mem} {R : List Int}
    {start : Int} (h : CInv K m (R ++ [start])) (b : Int) :
    Hist K need m R start m b b [] R [] [] := by
  refine ⟨by simp, fun _ => rfl, fun e => absurd rfl e, by simp, ?_, Or.inl rfl, by simp,
    fun _ _ => ⟨rfl, rfl, rfl, rfl⟩, ?_, fun _ => Or.inl rfl, fun _ _ => ⟨rfl, rfl, rfl, rfl⟩,
    ?_, fun _ => Or.inl rfl, ?_, rfl, rfl⟩
  · intro _ sp r tl e; simp at e
  · intro hneed
    have hs : ∀ x ∈ R, Eligible K m x → 0 ≤ m.size x := by
      intro x hx he
      have := (elig_block hK h (by simp [hx]) he).2
      have := hK.2.2.2.1
      omega
    simpa [total] using (fits_zero_iff hneed R hs).symm
  · intro x hx _; simpa using hx
  · intro x hx; simpa using hx

/-- What a call of `Z_Malloc` comes to, with the history of its scan: the
allocation failure at the end of a full round, or the split and the hand-over
of the free block that the scan found. -/
theorem malloc_hist {K : Params} (hK : K.Valid) (size tag user : Int) {m : Mem} {R : List Int}
    (h : CInv K m (R ++ [scanStart K m])) (fuel : Nat) (hf : R.length < fuel) :
    (∃ m' base' P' Q span, Z_Malloc K fuel m size tag user = .fatal m' .malloc_failed ∧
        ScanSt K (scanStart K m) m' base' (scanStart K m) P' [] ∧
        Hist K (needed K size) m R (scanStart K m) m' base' (scanStart K m) P' [] Q span ∧
        (base' ≠ scanStart K m → m'.size base' < needed K size)) ∨
    (∃ ms base rover' P' T' Q span, ScanSt K (scanStart K m) ms base rover' P' T' ∧
        Hist K (needed K size) m R (scanStart K m) ms base rover' P' T' Q span ∧
        ms.tag base = K.PU_FREE ∧ needed K size ≤ ms.size base ∧
        Z_Malloc K fuel m size tag user =
          claim K (split K ms base (needed K size)) base tag user) := by
  rcases malloc_outcome hK size tag user
    (fun m' base rover P T => ∃ Q span,
      Hist K (needed K size) m R (scanStart K m) m' base rover P T Q span ∧
        (base ≠ rover → m'.size base < needed K size))
    (fun m' base rover P T => ∃ Q span,
      Hist K (needed K size) m R (scanStart K m) m' base rover P T Q span)
    (fun _ _ _ _ _ _ _ _ _ _ hS hI hst hS' => hist_step hK hS hI hst hS')
    (fun m' base rover P T hS hJ hc => by
      obtain ⟨Q, span, hH⟩ := hJ
      refine ⟨Q, span, hH, fun hne => ?_⟩
      rcases hS.shape with ⟨e, _⟩ | ⟨_, _, hfree⟩
      · exact absurd e hne
      · rcases hc with hc | hc
        · exact absurd hfree hc
        · exact hc)
    rfl h ⟨[], [], hist_init hK _ h _, fun e => absurd rfl e⟩ fuel hf with
    ⟨m', base', P', e, hS, Q, span, hH, hc⟩ | ⟨ms, base, rover', P', T', hS, ⟨Q, span, hH⟩, h1, h2, e⟩
  · exact Or.inl ⟨m', base', P', Q, span, e, hS, hH, hc⟩
  · exact Or.inr ⟨ms, base, rover', P', T', Q, span, hS, hH, h1, h2, e⟩

/-- A block of the circular list other than the sentinel is met on the walk
from the sentinel. -/
theorem mem_listed {K : Params} {m : Mem} {c : List Int} (h : Struct K m c) {b : Int}
    (hb : b ∈ c) (hbs : b ≠ sentinel K m) : Listed K m b := by
  obtain ⟨l1, l2, e⟩ := List.append_of_mem h.sent
  rw [e] at h hb
  have h' := struct_rotate l1 (sentinel K m :: l2) h
  rw [List.cons_append] at h'
  have hb' : b ∈ l2 ++ l1 := by
    simp only [List.mem_append, List.mem_cons] at hb ⊢
    rcases hb with hb | hb | hb
    · exact Or.inr hb
    · exact absurd hb hbs
    · exact Or.inl hb
  generalize l2 ++ l1 = l at h' hb'
  have key : ∀ (p : List Int) (x : Int) (q : List Int), l = p ++ x :: q → Listed K m x := by
    intro p
    induction p using List.reverseRecOn with
    | nil =>
      intro x q e
      rw [e] at h'
      have hl := cyc_head h'.link
      have hnd := h'.nodup
      simp only [List.nil_append, List.nodup_cons, List.mem_cons, not_or] at hnd
      rw [← hl.1]
      exact Listed.head (by rw [hl.1]; exact fun e => hnd.1.1 e.symm)
    | append_singleton p a ih =>
      intro x q e
      have ha := ih a (x :: q) (by simpa using e)
      rw [e] at h'
      have hl : Link K m a x :=
        @cyc_mid (Link K m) (sentinel K m :: p) a x q (by simpa using h'.link)
      have hnd := h'.nodup
      have hxs : x ≠ sentinel K m := by
        intro e2
        rw [e2] at hnd
        simp at hnd
      rw [← hl.1]
      exact Listed.next a ha (by rw [hl.1]; exact hxs)
  obtain ⟨p, q, e⟩ := List.append_of_mem hb'
  exact key p b q e

/-- Without overflow the size that the scan looks for covers the request and
the header. -/
theorem noOverflow_needed {K : Params} (hK : K.Valid) {size : Int} (h : NoOverflow K size) :
    size < 2147483648 ∧ size + K.sizeof_memblock_t ≤ needed K size ∧ 0 < needed K size := by
  obtain ⟨h0, h1⟩ := h
  have hh := hK.2.2.2.1
  have hlt : size < 2147483648 := by
    rcases hK.2.2.1 with hA | hA <;> rw [hA] at h1 <;> omega
  rcases needed_cases K hK size h0 hlt with ⟨a, _, _⟩ | ⟨b, _⟩
  · exact ⟨hlt, a, by omega⟩
  · omega

/-- Where the split happens, the fragment is a proper part of the block. -/
theorem split_room {K : Params} (hK : K.Valid) {m : Mem} {c : List Int} (h : Struct K m c)
    {x : Int} (hx : x ∈ c) (hxs : x ≠ sentinel K m) {need : Int}
    (hs : MINFRAGMENT < toInt (m.size x - need)) (h0 : K.sizeof_memblock_t ≤ need)
    (h1 : need ≤ m.size x) : need < m.size x := by
  have gx := h.geom x hx hxs
  have := h.small
  obtain ⟨_, _, _, hh0, hh1, hoff, hmz⟩ := hK
  have hex : toInt (m.size x - need) = m.size x - need := by
    apply toInt_eq
    · omega
    · unfold first zoneEnd at gx; omega
  rw [hex] at hs; unfold MINFRAGMENT at hs; omega

/-- The split leaves the headers of the other blocks of the list as they are. -/
theorem split_frame {K : Params} (hK : K.Valid) {m : Mem} {c : List Int} (h : Struct K m c)
    {x : Int} (hx : x ∈ c) (hxs : x ≠ sentinel K m) {need : Int}
    (hneed : MINFRAGMENT < toInt (m.size x - need) →
      K.sizeof_memblock_t ≤ need ∧ need ≤ m.size x) {z : Int} (hz : z ∈ c) (hzx : z ≠ x) :
    (split K m x need).tag z = m.tag z ∧ (split K m x need).user z = m.user z ∧
      (split K m x need).size z = m.size z := by
  by_cases hs : MINFRAGMENT < toInt (m.size x - need)
  · obtain ⟨h0, h1⟩ := hneed hs
    have hlt := split_room hK h hx hxs hs h0 h1
    obtain ⟨hfresh, _⟩ := split_fresh hK h hx hxs (by have := hK.2.2.2.1; omega) hlt
    have hzn : z ≠ x + need := fun e => hfresh (e ▸ hz)
    rw [split_tag _ _ _ _ hs, split_user _ _ _ _ hs, split_size _ _ _ _ hs,
      upd_other _ _ hzn, upd_other _ _ hzn, upd_other _ _ hzx, upd_other _ _ hzn]
    exact ⟨rfl, rfl, rfl⟩
  · rw [split_no K m x need hs]
    exact ⟨rfl, rfl, rfl⟩

/-- Pointers and geometry behind the split, whether it happens or not. -/
theorem split_struct_any {K : Params} (hK : K.Valid) {m : Mem} {c : List Int}
    (h : Struct K m c) {x : Int} (hx : x ∈ c) (hxs : x ≠ sentinel K m) {need : Int}
    (hneed : MINFRAGMENT < toInt (m.size x - need) →
      K.sizeof_memblock_t ≤ need ∧ need ≤ m.size x) :
    ∃ c', Struct K (split K m x need) c' ∧ ∀ z ∈ c, z ∈ c' := by
  by_cases hs : MINFRAGMENT < toInt (m.size x - need)
  · obtain ⟨h0, h1⟩ := hneed hs
    obtain ⟨l1, l2, rfl⟩ := List.append_of_mem hx
    have h' := struct_rotate l1 (x :: l2) h
    rw [List.cons_append] at h'
    refine ⟨_, split_struct hK h' hxs hs h0 h1, ?_⟩
    intro z hz
    simp only [List.mem_append, List.mem_cons] at hz ⊢
    rcases hz with hz | hz | hz
    · exact Or.inr (Or.inr (Or.inr hz))
    · exact Or.inl hz
    · exact Or.inr (Or.inr (Or.inl hz))
  · rw [split_no K m x need hs]
    exact ⟨c, h, fun _ hz => hz⟩

/-- A header that says "free" says so behind the split. -/
theorem split_tag_free (K : Params) (m : Mem) (x need : Int) {z : Int}
    (h : m.tag z = K.PU_FREE) : (split K m x need).tag z = K.PU_FREE := by
  by_cases hs : MINFRAGMENT < toInt (m.size x - need)
  · rw [split_tag _ _ _ _ hs, upd_apply]
    split
    · rfl
    · exact h
  · rw [split_no K m x need hs]; exact h

/-- The block that is handed over has at least the size that was looked for. -/
theorem split_size_base (K : Params) (m : Mem) (x need : Int) (h : need ≤ m.size x) :
    need ≤ (split K m x need).size x := by
  by_cases hs : MINFRAGMENT < toInt (m.size x - need)
  · rw [split_size _ _ _ _ hs, upd_same]
  · rw [split_no K m x need hs]; exact h

/-- The two ways in which `Z_Malloc` ends behind a scan that found its block. -/
theorem claim_cases (K : Params) (m : Mem) (base tag user : Int) :
    (user = 0 ∧ tag ≥ K.PU_PURGELEVEL ∧
      claim K m base tag user = .fatal m .malloc_owner_required) ∨
    (¬ (user = 0 ∧ tag ≥ K.PU_PURGELEVEL) ∧
      claim K m base tag user =
        .ok (claimMem K m base tag user) (base + K.sizeof_memblock_t)) := by
  unfold claim
  by_cases h : user = 0 ∧ tag ≥ K.PU_PURGELEVEL
  · exact Or.inl ⟨h.1, h.2, by rw [if_pos h]⟩
  · exact Or.inr ⟨h, by rw [if_neg h]⟩

/-! ## Concrete arenas -/

/-- Where the scan of `Z_Malloc` agrees with the search for a run: with `R` the
blocks in the order of the scan, all blocks except the one in front of the
scan's first block, the call ends in the allocation failure exactly when `R`
holds no run of free or purgable blocks that is large enough. -/
theorem malloc_fails_iff {K : Params} (hK : K.Valid) {m : Mem} {R : List Int}
    (h : CInv K m (R ++ [scanStart K m])) {size : Int} (tag user : Int)
    (hs : NoOverflow K size) (fuel : Nat) (hf : R.length < fuel) :
    (∃ m', Z_Malloc K fuel m size tag user = .fatal m' .malloc_failed) ↔
      ¬ HasRun K m (needed K size) R := by
  obtain ⟨_, _, hpos⟩ := noOverflow_needed hK hs
  have hsz0 : ∀ x ∈ R, Eligible K m x → 0 ≤ m.size x := by
    intro x hx he
    have := (elig_block hK h (by simp [hx]) he).2
    have := hK.2.2.2.1
    omega
  rcases malloc_hist hK size tag user h fuel hf with
    ⟨ms, base, P, Q, span, e, hS, hH, hc⟩ | ⟨ms, base, rover, P, T, Q, span, hS, hH, hfree, hsz, e⟩
  · refine ⟨fun _ => ?_, fun _ => ⟨ms, e⟩⟩
    rw [hH.run hpos, fits]
    by_cases hb : base = scanStart K m
    · rw [hH.shapeA hb]; simp only [total, List.map_nil, List.sum_nil]; omega
    · rw [← (hH.shapeB hb).2]; have := hc hb; omega
  · have hrun : HasRun K m (needed K size) R := by
      rw [hH.run hpos]
      have hT : ∀ x ∈ T, Eligible K m x → 0 ≤ m.size x := fun x hx =>
        hsz0 x (by rw [hH.split]; simp [hx])
      by_cases hbr : base = rover
      · rw [hH.shapeA hbr]
        cases T with
        | nil =>
          have := hS.rov
          simp only [List.nil_append, List.head?_cons, Option.some.injEq] at this
          exact absurd (by rw [hbr, ← this] at hfree; exact hfree) hS.startTag
        | cons a T1 =>
          have hr := hS.rov
          simp only [List.cons_append, List.head?_cons, Option.some.injEq] at hr
          have hab := hH.ahead a (by simp)
          rw [hr, ← hbr] at hab
          rw [hr, ← hbr] at hT
          rw [hr, ← hbr, fits_cons_elig (Or.inl (by rw [← hab.1]; exact hfree))]
          apply fits_of_le
          · simp only [total, List.map_nil, List.sum_nil]; rw [← hab.2.2.2]; omega
          · exact fun x hx => hT x (List.mem_cons_of_mem _ hx)
      · apply fits_of_le
        · rw [← (hH.shapeB hbr).2]; exact hsz
        · exact hT
    refine ⟨fun ⟨m', e'⟩ => ?_, fun hn => absurd hrun hn⟩
    rw [e] at e'
    rcases claim_cases K (split K ms base (needed K size)) base tag user with
      ⟨_, _, e2⟩ | ⟨_, e2⟩
    · rw [e2] at e'; injection e' with _ e3; exact nomatch e3
    · rw [e2] at e'; exact nomatch e'

/-- The effect of a successful `Z_Free` on the fields that `FreeDelta` describes,
whatever the state of the list. -/
theorem freeDelta_coalesce (K : Params) (m : Mem) (b : Int) :
    FreeDelta K m b (coalesce K (markFree K m b) b) := by
  have h0 := freeDelta_markFree K m b
  unfold coalesce
  dsimp only
  by_cases hp : (markFree K m b).tag ((markFree K m b).prev b) = K.PU_FREE
  · rw [if_pos hp]
    dsimp only
    have hx : (markFree K m b).prev b = b ∨ m.tag ((markFree K m b).prev b) = K.PU_FREE := by
      by_cases e : (markFree K m b).prev b = b
      · exact Or.inl e
      · right
        rw [markFree_tag, upd_other _ _ e] at hp
        exact hp
    have h1 := freeDelta_merge K m b h0 ((markFree K m b).prev b) b hx
    split
    · exact freeDelta_merge K m b h1 _ _ hx
    · exact h1
  · rw [if_neg hp]
    dsimp only
    split
    · exact freeDelta_merge K m b h0 b _ (Or.inl rfl)
    · exact h0

/-- `Z_Free` on a block of the list keeps the arena well formed; no block joins
the list, and the other blocks in use stay in it. -/
theorem free_cinv_live {K : Params} (hK : K.Valid) {m : Mem} {c : List Int} (h : CInv K m c)
    {b : Int} (hb : b ∈ c) (hbs : b ≠ sentinel K m) :
    ∃ c', CInv K (coalesce K (markFree K m b) b) c' ∧ (∀ z, z ∈ c' → z ∈ c) ∧
      ∀ z ∈ c, z ≠ b → m.tag z ≠ K.PU_FREE → z ∈ c' := by
  by_cases hp : m.tag (m.prev b) = K.PU_FREE
  · obtain ⟨t, ht, hmem⟩ := cinv_pred_front hK h hb
    by_cases hn : m.tag (m.next b) = K.PU_FREE
    · have hps := sentinel_not_free hK h.2 hp
      have hst : sentinel K m ∈ t := by
        have := ht.1.sent
        simp only [List.mem_cons] at this
        rcases this with e | e | e
        · exact absurd e.symm hps
        · exact absurd e.symm hbs
        · exact e
      obtain ⟨n, t', rfl⟩ : ∃ n t', t = n :: t' := by
        cases t with
        | nil => simp at hst
        | cons n t' => exact ⟨n, t', rfl⟩
      have hl : Link K m b n := cyc_mid (P := [m.prev b]) (by simpa using ht.1.link)
      rw [hl.1] at hn
      obtain ⟨e, h'⟩ := free_tt hK ht hbs hp hn
      rw [e]
      refine ⟨_, h', fun z hz => (hmem z).1 ?_, fun z hz hzb hzf => ?_⟩
      · simp only [List.mem_cons] at hz ⊢
        rcases hz with hz | hz
        · exact Or.inl hz
        · exact Or.inr (Or.inr (Or.inr hz))
      · have := (hmem z).2 hz
        simp only [List.mem_cons] at this ⊢
        rcases this with e1 | e1 | e1 | e1
        · exact Or.inl e1
        · exact absurd e1 hzb
        · exact absurd (e1 ▸ hn) hzf
        · exact Or.inr e1
    · obtain ⟨e, h'⟩ := free_tf hK ht hbs hp hn
      rw [e]
      refine ⟨_, h', fun z hz => (hmem z).1 ?_, fun z hz hzb hzf => ?_⟩
      · simp only [List.mem_cons] at hz ⊢
        rcases hz with hz | hz
        · exact Or.inl hz
        · exact Or.inr (Or.inr hz)
      · have := (hmem z).2 hz
        simp only [List.mem_cons] at this ⊢
        rcases this with e1 | e1 | e1
        · exact Or.inl e1
        · exact absurd e1 hzb
        · exact Or.inr e1
  · by_cases hn : m.tag (m.next b) = K.PU_FREE
    · obtain ⟨t, ht, hmem⟩ := cinv_front h hb
      have hst : sentinel K m ∈ t := by
        have := ht.1.sent
        simp only [List.mem_cons] at this
        rcases this with e | e
        · exact absurd e.symm hbs
        · exact e
      obtain ⟨n, t', rfl⟩ : ∃ n t', t = n :: t' := by
        cases t with
        | nil => simp at hst
        | cons n t' => exact ⟨n, t', rfl⟩
      have hl : Link K m b n := cyc_head ht.1.link
      rw [hl.1] at hn
      obtain ⟨e, h'⟩ := free_ft hK ht hbs hp hn
      rw [e]
      refine ⟨_, h', fun z hz => (hmem z).1 ?_, fun z hz hzb hzf => ?_⟩
      · simp only [List.mem_cons] at hz ⊢
        rcases hz with hz | hz
        · exact Or.inl hz
        · exact Or.inr (Or.inr hz)
      · have := (hmem z).2 hz
        simp only [List.mem_cons] at this ⊢
        rcases this with e1 | e1 | e1
        · exact absurd e1 hzb
        · exact absurd (e1 ▸ hn) hzf
        · exact Or.inr e1
    · obtain ⟨e, h'⟩ := free_ff h hb hbs hp hn
      rw [e]
      exact ⟨c, h', fun z hz => hz, fun z hz _ _ => hz⟩

/-- A step of the scan that changes nothing and passes a block that was not
purgable keeps `Cleared`. -/
theorem cleared_pass {K : Params} {m0 : Mem} {R0 : List Int} {m : Mem} {r : Int}
    {T' : List Int} (hC : Cleared K m0 R0 m (r :: T')) (hr : ¬ Purgable K m0 r) :
    Cleared K m0 R0 m T' := by
  intro x hx hxT hp hu
  by_cases e : x = r
  · rw [e] at hp; exact absurd hp hr
  · exact hC x hx (by simp [e, hxT]) hp hu

/-- A step of the scan that frees the purgable block `r` and merges the free
blocks `Tm` behind it keeps `Cleared`. -/
theorem cleared_free {K : Params} {m0 : Mem} {R0 : List Int} {m : Mem} {r : Int}
    {Tm T' : List Int} {m' : Mem} (hC : Cleared K m0 R0 m (r :: (Tm ++ T')))
    (hd : FreeDelta K m r m') (hp : Purgable K m r) (hu : m.user r = m0.user r)
    (hTm : ∀ x ∈ Tm, ¬ Purgable K m0 x) : Cleared K m0 R0 m' T' := by
  intro x hx hxT hpx hux
  by_cases e : x = r
  · rw [e] at hux ⊢
    rw [hd.slot, if_pos ⟨hp.1, by rw [hu]; exact hux⟩, hu, upd_same]
  · by_cases hm : x ∈ Tm
    · exact absurd hpx (hTm x hm)
    · exact freeDelta_slot_zero hd _ (hC x hx (by simp [e, hm, hxT]) hpx hux)

/-- One round of the loop body keeps `Cleared`. -/
theorem cleared_step {K : Params} {need : Int} {m0 : Mem} {R0 : List Int} {start : Int}
    {m : Mem} {base rover : Int} {P T : List Int} {m' : Mem} {base' rover' : Int}
    {P' T' Q span : List Int} (hH : Hist K need m0 R0 start m base rover P T Q span)
    (hC : Cleared K m0 R0 m T) (hst : Step K m base rover P T m' base' rover' P' T') :
    Cleared K m0 R0 m' T' := by
  have hfree : ∀ x ∈ T ++ [start], m.tag x = K.PU_FREE → ¬ Purgable K m0 x := by
    intro x hx hf hp
    rw [(hH.ahead x hx).1] at hf
    exact hp.1 hf
  cases hst
  case adv =>
    rename_i hf
    exact cleared_pass hC (hfree _ (by simp) hf)
  case skip =>
    rename_i hf
    refine cleared_pass hC (fun hp => ?_)
    have := (hH.ahead rover (by simp)).1
    rw [Fixed, this] at hf
    exact hp.2 hf.2
  case purgeA =>
    rename_i hp h1 h2
    exact @cleared_free K m0 R0 m base [] T' _ hC (freeDelta_markFree K m base) hp
      (hH.ahead base (by simp)).2.1 (by simp)
  case purgeA_merge =>
    rename_i n hp h1 h2 h3
    refine @cleared_free K m0 R0 m base [n] T' _ hC
      (freeDelta_merge K m base (freeDelta_markFree K m base) base n (Or.inl rfl)) hp
      (hH.ahead base (by simp)).2.1 ?_
    intro x hx
    simp only [List.mem_singleton] at hx
    rw [hx]
    exact hfree n (by simp) h2
  case purgeB =>
    rename_i P0 hf hp h2
    exact @cleared_free K m0 R0 m rover [] T' _ hC
      (freeDelta_merge K m rover (freeDelta_markFree K m rover) base rover (Or.inr hf)) hp
      (hH.ahead rover (by simp)).2.1 (by simp)
  case purgeB_merge =>
    rename_i n P0 hf h2 hp h3
    refine @cleared_free K m0 R0 m rover [n] T' _ hC
      (freeDelta_merge K m rover
        (freeDelta_merge K m rover (freeDelta_markFree K m rover) base rover (Or.inr hf))
        base n (Or.inr hf)) hp (hH.ahead rover (by simp)).2.1 ?_
    intro x hx
    simp only [List.mem_singleton] at hx
    rw [hx]
    exact hfree n (by simp) h2

/-- What a call of `Z_Malloc` comes to, as in `malloc_hist`, with the owner
slots of the purged blocks cleared. -/
theorem malloc_hist_cleared {K : Params} (hK : K.Valid) (size tag user : Int) {m : Mem}
    {R : List Int} (h : CInv K m (R ++ [scanStart K m])) (fuel : Nat) (hf : R.length < fuel) :
    (∃ m' base' P' Q span, Z_Malloc K fuel m size tag user = .fatal m' .malloc_failed ∧
        ScanSt K (scanStart K m) m' base' (scanStart K m) P' [] ∧
        Hist K (needed K size) m R (scanStart K m) m' base' (scanStart K m) P' [] Q span ∧
        Cleared K m R m' []) ∨
    (∃ ms base rover' P' T' Q span, ScanSt K (scanStart K m) ms base rover' P' T' ∧
        Hist K (needed K size) m R (scanStart K m) ms base rover' P' T' Q span ∧
        Cleared K m R ms T' ∧
        ms.tag base = K.PU_FREE ∧ needed K size ≤ ms.size base ∧
        Z_Malloc K fuel m size tag user =
          claim K (split K ms base (needed K size)) base tag user) := by
  rcases malloc_outcome hK size tag user
    (fun m' base rover P T => (∃ Q span,
      Hist K (needed K size) m R (scanStart K m) m' base rover P T Q span ∧
        (base ≠ rover → m'.size base < needed K size)) ∧ Cleared K m R m' T)
    (fun m' base rover P T => (∃ Q span,
      Hist K (needed K size) m R (scanStart K m) m' base rover P T Q span) ∧
        Cleared K m R m' T)
    (fun _ _ _ _ _ _ _ _ _ _ hS hI hst hS' => by
      obtain ⟨⟨Q, span, hH, hc⟩, hC⟩ := hI
      exact ⟨hist_step hK hS ⟨Q, span, hH, hc⟩ hst hS', cleared_step hH hC hst⟩)
    (fun m' base rover P T hS hJ hc => by
      obtain ⟨⟨Q, span, hH⟩, hC⟩ := hJ
      refine ⟨⟨Q, span, hH, fun hne => ?_⟩, hC⟩
      rcases hS.shape with ⟨e, _⟩ | ⟨_, _, hfree⟩
      · exact absurd e hne
      · rcases hc with hc | hc
        · exact absurd hfree hc
        · exact hc)
    rfl h ⟨⟨[], [], hist_init hK _ h _, fun e => absurd rfl e⟩,
      fun x hx hxT => absurd hx hxT⟩ fuel hf with
    ⟨m', base', P', e, hS, ⟨Q, span, hH, _⟩, hC⟩ |
    ⟨ms, base, rover', P', T', hS, ⟨⟨Q, span, hH⟩, hC⟩, h1, h2, e⟩
  · exact Or.inl ⟨m', base', P', Q, span, e, hS, hH, hC⟩
  · exact Or.inr ⟨ms, base, rover', P', T', Q, span, hS, hH, hC, h1, h2, e⟩

/-! ## Arenas reached with any tags -/

theorem weak_of_cinv {K : Params} {m : Mem} {c : List Int} (h : CInv K m c) : Weak K m c :=
  ⟨h.1, h.2.sent, h.2.ids, h.2.owner⟩

theorem struct_front {K : Params} {m : Mem} {c : List Int} (h : Struct K m c) {b : Int}
    (hb : b ∈ c) : ∃ t, Struct K m (b :: t) ∧ ∀ z, z ∈ b :: t ↔ z ∈ c := by
  obtain ⟨l1, l2, rfl⟩ := List.append_of_mem hb
  refine ⟨l2 ++ l1, by simpa using struct_rotate l1 (b :: l2) h, ?_⟩
  intro z
  simp only [List.mem_cons, List.mem_append]
  tauto

theorem struct_pred_front {K : Params} (hK : K.Valid) {m : Mem} {c : List Int}
    (h : Struct K m c) {b : Int} (hb : b ∈ c) :
    ∃ t, Struct K m (m.prev b :: b :: t) ∧ ∀ z, z ∈ m.prev b :: b :: t ↔ z ∈ c := by
  obtain ⟨t0, h0, hm0⟩ := struct_front h hb
  obtain ⟨_, hne, _⟩ := struct_pred' hK h hb
  obtain ⟨t, q, rfl⟩ : ∃ t q, t0 = t ++ [q] := by
    rcases List.eq_nil_or_concat t0 with e | ⟨t, q, e⟩
    · subst e
      have := (struct_pred' hK h0 (show b ∈ [b] by simp)).1
      simp only [List.mem_singleton] at this
      exact absurd this hne
    · exact ⟨t, q, by simpa using e⟩
  have hl : Link K m q b := cyc_last h0.link
  rw [hl.2.1]
  refine ⟨t, by simpa using struct_rotate (b :: t) [q] (by simpa using h0), ?_⟩
  intro z
  rw [← hm0 z]
  simp only [List.mem_cons, List.mem_append, List.mem_singleton, List.not_mem_nil, or_false]
  tauto

/-- The sizes of the blocks of a well-formed list add up to the room behind the
zone header. -/
theorem chain_total {K : Params} {m : Mem} :
    ∀ (t : List Int) (x : Int), List.Chain (Link K m) x (t ++ [sentinel K m]) →
      x ≠ sentinel K m → (∀ y ∈ t, y ≠ sentinel K m) → total m (x :: t) = zoneEnd m - x := by
  intro t
  induction t with
  | nil =>
    intro x h hx _
    simp only [List.nil_append, List.chain_cons] at h
    have := h.1.2.2.2.1 hx rfl
    simp only [total, List.map_cons, List.map_nil, List.sum_cons, List.sum_nil]
    omega
  | cons y t ih =>
    intro x h hx ht
    simp only [List.cons_append, List.chain_cons] at h
    have hy : y ≠ sentinel K m := ht y (by simp)
    have e := h.1.2.2.2.2 hx hy
    have := ih y h.2 hy (fun z hz => ht z (by simp [hz]))
    simp only [total, List.map_cons, List.sum_cons] at this ⊢
    omega

theorem struct_total {K : Params} (hK : K.Valid) {m : Mem} {l : List Int}
    (h : Struct K m (sentinel K m :: l)) :
    total m l = m.zonesize - K.sizeof_memzone_t := by
  have hnd := h.nodup
  rw [List.nodup_cons] at hnd
  have hl := h.link
  cases l with
  | nil =>
    simp only [Cyc, List.nil_append, List.chain_cons] at hl
    have h2 := hl.1.2.2.1 rfl
    have := sentinel_lt_first K hK m
    omega
  | cons x t =>
    simp only [Cyc, List.cons_append, List.chain_cons] at hl
    have hx : x ≠ sentinel K m := fun e => hnd.1 (by simp [e])
    have e := hl.1.2.2.1 rfl
    have := chain_total t x hl.2 hx (fun y hy e => hnd.1 (by simp [← e, hy]))
    rw [this, e]
    simp only [zoneEnd, first]
    omega

/-- In a well-formed list a block is followed by the sentinel or by a block at
a higher address. -/
theorem struct_next_gt {K : Params} (hK : K.Valid) {m : Mem} {c : List Int} (h : Struct K m c)
    {b : Int} (hb : b ∈ c) (hbs : b ≠ sentinel K m) :
    m.next b = sentinel K m ∨ b < m.next b := by
  obtain ⟨t, ht, _⟩ := struct_front h hb
  have hst : sentinel K m ∈ t := by
    have := ht.sent
    simp only [List.mem_cons] at this
    rcases this with e | e
    · exact absurd e.symm hbs
    · exact e
  obtain ⟨n, t', rfl⟩ : ∃ n t', t = n :: t' := by
    cases t with
    | nil => simp at hst
    | cons n t' => exact ⟨n, t', rfl⟩
  have hl : Link K m b n := cyc_head ht.link
  rw [hl.1]
  by_cases hn : n = sentinel K m
  · exact Or.inl hn
  · right
    have := hl.2.2.2.2 hbs hn
    have hg := (h.geom b hb hbs).1
    have := hK.2.2.2.1
    omega

/-- `Z_Free` on a block of the list, whatever the tags of its neighbours: the
list stays well formed, it loses the blocks that are merged away, the rover moves
from a block that is merged away to the block that absorbs it, and the `prev`
pointers change only behind the merged blocks. -/
theorem free_weak {K : Params} (hK : K.Valid) {m : Mem} {c : List Int} (h : Weak K m c)
    {b : Int} (hb : b ∈ c) (hbs : b ≠ sentinel K m) :
    ∃ c', Weak K (coalesce K (markFree K m b) b) c' ∧
      (∀ z, z ∈ c' ↔ z ∈ c ∧ ¬ (z = b ∧ m.tag (m.prev b) = K.PU_FREE) ∧
        ¬ (z = m.next b ∧ m.tag (m.next b) = K.PU_FREE)) ∧
      (coalesce K (markFree K m b) b).rover =
        (if (m.rover = b ∧ m.tag (m.prev b) = K.PU_FREE) ∨
            (m.rover = m.next b ∧ m.tag (m.next b) = K.PU_FREE)
          then (if m.tag (m.prev b) = K.PU_FREE then m.prev b else b) else m.rover) ∧
      (∀ z, ¬ (m.tag (m.prev b) = K.PU_FREE ∧ z = m.next b) →
        ¬ (m.tag (m.next b) = K.PU_FREE ∧ z = m.next (m.next b)) →
        (coalesce K (markFree K m b) b).prev z = m.prev z) ∧
      (∀ z, z ≠ b → z ≠ m.prev b →
        (coalesce K (markFree K m b) b).next z = m.next z) := by
  have hnf : ∀ x, m.tag x = K.PU_FREE → x ≠ sentinel K m := by
    rintro x hx rfl
    rw [h.sent] at hx
    exact hK.1 hx
  obtain ⟨hpm, hpb, hpn⟩ := struct_pred h.struct hb hbs
  obtain ⟨hnm, hnb, hnp⟩ := struct_succ h.struct hb hbs
  -- tags, users and the sentinel after the call
  have hweak : ∀ c', Struct K (coalesce K (markFree K m b) b) c' → (∀ z, z ∈ c' → z ∈ c) →
      Weak K (coalesce K (markFree K m b) b) c' := by
    intro c' hs hsub
    have hsen : sentinel K (coalesce K (markFree K m b) b) = sentinel K m := by
      simp [sentinel, coalesce_mainzone]
    refine ⟨hs, ?_, ?_, ?_⟩
    · rw [hsen, coalesce_tag, markFree_tag, upd_other _ _ (Ne.symm hbs)]
      exact h.sent
    · intro x hx hxs
      rw [hsen] at hxs
      rw [coalesce_tag, coalesce_id, markFree_tag, markFree_id]
      by_cases e : x = b
      · subst e; simp
      · rw [upd_other _ _ e, upd_other _ _ e]
        exact h.ids x (hsub x hx) hxs
    · intro x hx hxs
      rw [hsen] at hxs
      rw [coalesce_tag, coalesce_user, markFree_tag, markFree_user]
      by_cases e : x = b
      · subst e; simp
      · rw [upd_other _ _ e, upd_other _ _ e]
        exact h.owner x (hsub x hx) hxs
  have htp : (markFree K m b).tag ((markFree K m b).prev b) = m.tag (m.prev b) := by
    simp [upd_other _ _ hpb]
  have htn : (markFree K m b).tag ((markFree K m b).next b) = m.tag (m.next b) := by
    simp [upd_other _ _ hnb]
  by_cases hp : m.tag (m.prev b) = K.PU_FREE
  · obtain ⟨t, ht, hmem⟩ := struct_pred_front hK h.struct hb
    have hps := hnf _ hp
    have hst : sentinel K m ∈ t := by
      have := ht.sent
      simp only [List.mem_cons] at this
      rcases this with e | e | e
      · exact absurd e.symm hps
      · exact absurd e.symm hbs
      · exact e
    obtain ⟨n, t', rfl⟩ : ∃ n t', t = n :: t' := by
      cases t with
      | nil => simp at hst
      | cons n t' => exact ⟨n, t', rfl⟩
    have hl : Link K m b n := cyc_mid (P := [m.prev b]) (by simpa using ht.link)
    have hnd := ht.nodup
    simp only [List.nodup_cons, List.mem_cons, not_or] at hnd
    obtain ⟨⟨hpb', hpn', hpt⟩, ⟨hbn, hbt⟩, hnt, hnd'⟩ := hnd
    have hs1 : Struct K (merge (markFree K m b) (m.prev b) b) (m.prev b :: n :: t') :=
      merge_struct hK (markFree_struct ht b) (by simpa using hps) (by simpa using hbs)
    by_cases hn : m.tag (m.next b) = K.PU_FREE
    · have hns := hnf _ hn
      rw [hl.1] at hns
      have e := coalesce_tt K (markFree K m b) b (by rw [htp]; exact hp) (by rw [htn]; exact hn)
      simp only [markFree_prev, markFree_next] at e
      have hs2 : Struct K (merge (merge (markFree K m b) (m.prev b) b) (m.prev b) n)
          (m.prev b :: t') :=
        merge_struct hK hs1 (by simpa using hps) (by simpa using hns)
      rw [hl.1] at e hn
      rw [e, hl.1]
      rw [e] at hweak
      refine ⟨m.prev b :: t', hweak _ hs2 ?_, ?_, ?_, ?_, ?_⟩
      · intro z hz
        refine (hmem z).1 ?_
        simp only [List.mem_cons] at hz ⊢; tauto
      · intro z
        rw [← hmem z]
        simp only [List.mem_cons, hp, hn, and_true]
        constructor
        · rintro (e | e)
          · subst e; exact ⟨Or.inl rfl, hpb', hpn'⟩
          · exact ⟨Or.inr (Or.inr (Or.inr e)), fun e' => hbt (e' ▸ e), fun e' => hnt (e' ▸ e)⟩
        · rintro ⟨e | e | e | e, h1, h2⟩
          · exact Or.inl e
          · exact absurd e h1
          · exact absurd e h2
          · exact Or.inr e
      · simp only [merge_rover, markFree_rover, hp, hn, and_true, if_true]
        by_cases e1 : b = m.rover
        · rw [if_pos e1, if_neg (Ne.symm hpn'), if_pos (Or.inl e1.symm)]
        · rw [if_neg e1]
          by_cases e2 : n = m.rover
          · rw [if_pos e2, if_pos (Or.inr e2.symm)]
          · rw [if_neg e2, if_neg]
            rintro (e | e)
            · exact e1 e.symm
            · exact e2 e.symm
      · intro z hz1 hz2
        simp only [hp, hn, true_and] at hz1 hz2
        simp only [merge_prev, merge_next, markFree_prev, markFree_next, hl.1]
        rw [upd_other _ _ (Ne.symm hpn')]
        rw [upd_other _ _ hz2, upd_other _ _ hz1]
      · intro z hz1 hz2
        simp only [merge_next, markFree_next]
        rw [upd_other _ _ hz2, upd_other _ _ hz2]
    · have e := coalesce_tf K (markFree K m b) b (by rw [htp]; exact hp) (by rw [htn]; exact hn)
      simp only [markFree_prev] at e
      rw [hl.1] at hn
      rw [e, hl.1]
      rw [e] at hweak
      refine ⟨m.prev b :: n :: t', hweak _ hs1 ?_, ?_, ?_, ?_, ?_⟩
      · intro z hz
        refine (hmem z).1 ?_
        simp only [List.mem_cons] at hz ⊢; tauto
      · intro z
        rw [← hmem z]
        simp only [List.mem_cons, hp, hn, and_true, and_false, not_false_eq_true]
        constructor
        · rintro (e | e | e)
          · subst e; exact ⟨Or.inl rfl, hpb'⟩
          · subst e; exact ⟨Or.inr (Or.inr (Or.inl rfl)), fun e' => hbn e'.symm⟩
          · exact ⟨Or.inr (Or.inr (Or.inr e)), fun e' => hbt (e' ▸ e)⟩
        · rintro ⟨e | e | e | e, h1⟩
          · exact Or.inl e
          · exact absurd e h1
          · exact Or.inr (Or.inl e)
          · exact Or.inr (Or.inr e)
      · simp only [merge_rover, markFree_rover, hp, hn, and_true, and_false, or_false, if_true]
        by_cases e1 : b = m.rover
        · rw [if_pos e1, if_pos e1.symm]
        · rw [if_neg e1, if_neg (fun e => e1 e.symm)]
      · intro z hz1 _
        simp only [hp, true_and] at hz1
        simp only [merge_prev, markFree_prev, markFree_next, hl.1]
        rw [upd_other _ _ hz1]
      · intro z _ hz2
        simp only [merge_next, markFree_next]
        rw [upd_other _ _ hz2]
  · by_cases hn : m.tag (m.next b) = K.PU_FREE
    · obtain ⟨t, ht, hmem⟩ := struct_front h.struct hb
      have hst : sentinel K m ∈ t := by
        have := ht.sent
        simp only [List.mem_cons] at this
        rcases this with e | e
        · exact absurd e.symm hbs
        · exact e
      obtain ⟨n, t', rfl⟩ : ∃ n t', t = n :: t' := by
        cases t with
        | nil => simp at hst
        | cons n t' => exact ⟨n, t', rfl⟩
      have hl : Link K m b n := cyc_head ht.link
      have hns := hnf _ hn
      rw [hl.1] at hns
      have hnd := ht.nodup
      simp only [List.nodup_cons, List.mem_cons, not_or] at hnd
      obtain ⟨⟨hbn, hbt⟩, hnt, hnd'⟩ := hnd
      have e := coalesce_ft K (markFree K m b) b (by rw [htp]; exact hp) (by rw [htn]; exact hn)
      simp only [markFree_next] at e
      have hs1 : Struct K (merge (markFree K m b) b n) (b :: t') :=
        merge_struct hK (markFree_struct ht b) (by simpa using hbs) (by simpa using hns)
      rw [hl.1] at e hn
      rw [e, hl.1]
      rw [e] at hweak
      refine ⟨b :: t', hweak _ hs1 ?_, ?_, ?_, ?_, ?_⟩
      · intro z hz
        refine (hmem z).1 ?_
        simp only [List.mem_cons] at hz ⊢; tauto
      · intro z
        rw [← hmem z]
        simp only [List.mem_cons, hp, hn, and_true, and_false, not_false_eq_true, true_and]
        constructor
        · rintro (e | e)
          · subst e; exact ⟨Or.inl rfl, hbn⟩
          · exact ⟨Or.inr (Or.inr e), fun e' => hnt (e' ▸ e)⟩
        · rintro ⟨e | e | e, h1⟩
          · exact Or.inl e
          · exact absurd e h1
          · exact Or.inr e
      · simp only [merge_rover, markFree_rover, hp, hn, and_true, and_false, false_or,
          if_false]
        by_cases e1 : n = m.rover
        · rw [if_pos e1, if_pos e1.symm]
        · rw [if_neg e1, if_neg (fun e => e1 e.symm)]
      · intro z _ hz2
        simp only [hn, true_and] at hz2
        simp only [merge_prev, markFree_prev, markFree_next]
        rw [upd_other _ _ hz2]
      · intro z hz1 _
        simp only [merge_next, markFree_next]
        rw [upd_other _ _ hz1]
    · have e := coalesce_ff K (markFree K m b) b (by rw [htp]; exact hp) (by rw [htn]; exact hn)
      rw [e]
      rw [e] at hweak
      refine ⟨c, hweak _ (markFree_struct h.struct b) (fun z hz => hz), ?_, ?_, ?_, ?_⟩
      · intro z
        simp only [hp, hn, and_false, not_false_eq_true, and_true]
      · simp only [markFree_rover, hp, hn, and_false, or_false, if_false]
      · intro z _ _
        simp only [markFree_prev]
      · intro z _ _
        simp only [markFree_next]

theorem struct_succ' {K : Params} (hK : K.Valid) {m : Mem} {c : List Int} (h : Struct K m c)
    {b : Int} (hb : b ∈ c) : m.next b ∈ c ∧ m.next b ≠ b ∧ m.prev (m.next b) = b := by
  by_cases hbs : b = sentinel K m
  · obtain ⟨t, ht, hmem⟩ := struct_front h hb
    cases t with
    | nil =>
      exfalso
      have hl := ht.link
      simp only [Cyc, List.nil_append, List.chain_singleton] at hl
      have := hl.2.2.1 hbs
      have := sentinel_lt_first K hK m
      omega
    | cons n t' =>
      have hl := cyc_head ht.link
      have hnd := ht.nodup
      simp only [List.nodup_cons, List.mem_cons, not_or] at hnd
      rw [hl.1]
      exact ⟨(hmem n).1 (by simp), fun e => hnd.1.1 e.symm, hl.2.1⟩
  · exact struct_succ h hb hbs

theorem weak_not_free {K : Params} (hK : K.Valid) {m : Mem} {c : List Int} (h : Weak K m c)
    {x : Int} (hx : m.tag x = K.PU_FREE) : x ≠ sentinel K m := by
  rintro rfl
  rw [h.sent] at hx
  exact hK.1 hx

theorem weak_not_purgable {K : Params} (hK : K.Valid) {m : Mem} {c : List Int}
    (h : Weak K m c) {x : Int} (hx : ¬ m.tag x < K.PU_PURGELEVEL) : x ≠ sentinel K m := by
  rintro rfl
  rw [h.sent] at hx
  exact hx hK.2.1

/-- One round of the loop body of `Z_Malloc` that returns keeps the list well
formed and the scan in order, whatever the tags in the arena. -/
theorem body_weak {K : Params} (hK : K.Valid) {m : Mem} {c : List Int} {base rover : Int}
    (h : WScan K m c base rover) {m' : Mem} {base' rover' : Int}
    (e : Z_Malloc_body K m base rover = .ok m' (base', rover')) :
    ∃ c', WScan K m' c' base' rover' := by
  by_cases hf : m.tag rover = K.PU_FREE
  · rw [body_free K m base rover hf] at e
    injection e with e1 e2
    injection e2 with e2 e3
    subst e1 e2 e3
    have hrs := weak_not_free hK h.weak hf
    obtain ⟨hnm, hnb, _⟩ := struct_succ h.weak.struct h.rmem hrs
    have hgt := struct_next_gt hK h.weak.struct h.rmem hrs
    refine ⟨c, h.weak, h.bmem, hnm, Or.inr ?_⟩
    rcases h.order with ⟨e, _⟩ | ⟨hne, hbs, ho⟩
    · subst e
      exact ⟨Ne.symm hnb, hrs, hgt⟩
    · rcases ho with ho | ho
      · exact absurd ho hrs
      · refine ⟨?_, hbs, ?_⟩
        · intro e
          rcases hgt with g | g
          · exact hbs (e.trans g)
          · omega
        · rcases hgt with g | g
          · exact Or.inl g
          · right; omega
  · by_cases hl : m.tag rover < K.PU_PURGELEVEL
    · rw [body_skip K m base rover ⟨hf, hl⟩] at e
      injection e with e1 e2
      injection e2 with e2 e3
      subst e1 e2 e3
      obtain ⟨hnm, _, hnp⟩ := struct_succ' hK h.weak.struct h.rmem
      exact ⟨c, h.weak, hnm, hnm, Or.inl ⟨rfl, fun _ => by rw [hnp]; exact hf⟩⟩
    · have hrs := weak_not_purgable hK h.weak hl
      rcases Z_Free_cases K m (rover + K.sizeof_memblock_t) with ⟨_, ef⟩ | ⟨hid, ef⟩
      · unfold Z_Malloc_body at e
        simp only [hf, hl, ne_eq, not_false_eq_true, if_true, if_false, ef] at e
        cases e
      · simp only [add_sub_cancel_right] at hid ef
        rw [body_purge K m base rover ⟨hf, hl⟩ hid] at e
        injection e with e1 e2
        injection e2 with e2 e3
        obtain ⟨c', hw, hmem, _, hprev, _⟩ := free_weak hK h.weak h.rmem hrs
        rw [e1] at hw hprev e2 e3
        have hgt := struct_next_gt hK h.weak.struct h.rmem hrs
        obtain ⟨hnm, hnb, _⟩ := struct_succ h.weak.struct h.rmem hrs
        -- the base is not at or behind the block after the rover
        have hbn : base ≠ m.next rover := by
          rcases h.order with ⟨e, _⟩ | ⟨hne, hbs, ho⟩
          · rw [e]; exact Ne.symm hnb
          · intro e
            rcases ho with ho | ho
            · exact hrs ho
            · rcases hgt with g | g
              · exact hbs (e.trans g)
              · omega
        have hbs : base ≠ sentinel K m := by
          rcases h.order with ⟨e, _⟩ | ⟨_, hbs, _⟩
          · rw [e]; exact hrs
          · exact hbs
        have hbr : base ≤ rover := by
          rcases h.order with ⟨e, _⟩ | ⟨_, _, ho | ho⟩
          · omega
          · exact absurd ho hrs
          · omega
        have hbnn : m.tag (m.next rover) = K.PU_FREE → base ≠ m.next (m.next rover) := by
          intro hn e
          have hns := weak_not_free hK h.weak hn
          have hgt2 := struct_next_gt hK h.weak.struct hnm hns
          rcases hgt with g | g
          · exact hns g
          · rcases hgt2 with g2 | g2
            · exact hbs (e.trans g2)
            · omega
        have hbc : base ∈ c' := by
          rw [hmem]
          refine ⟨h.bmem, ?_, fun hh => hbn hh.1⟩
          rintro ⟨e, hp⟩
          rcases h.order with ⟨_, hj⟩ | ⟨hne, _⟩
          · rw [e] at hj; exact hj hf hp
          · exact hne e
        have hpb : m'.prev base = m.prev base :=
          hprev base (fun hh => hbn hh.2) (fun hh => hbnn hh.1 hh.2)
        have hs' : sentinel K m' = sentinel K m := by
          rw [← e1]; simp [sentinel, coalesce_mainzone]
        have hbs' : base ≠ sentinel K m' := by rw [hs']; exact hbs
        have hb' : base' = base := by
          rw [← e2, ← hpb]
          exact (struct_pred hw.struct hbc hbs').2.2
        rw [e2, hb'] at e3
        obtain ⟨hnm', hnb', _⟩ := struct_succ hw.struct hbc hbs'
        have hgt' := struct_next_gt hK hw.struct hbc hbs'
        rw [e3] at hnm' hnb' hgt'
        rw [hb']
        exact ⟨c', hw, hbc, hnm', Or.inr ⟨Ne.symm hnb', hbs', hgt'⟩⟩

/-- A scan of `Z_Malloc` that returns, whatever the tags in the arena: the list
is well formed, and the block found is in it, free and large enough. -/
theorem scan_weak {K : Params} (hK : K.Valid) (need start : Int) :
    ∀ (fuel : Nat) (m : Mem) (c : List Int) (base rover : Int), WScan K m c base rover →
      ∀ (m' : Mem) (b : Int), Z_Malloc_scan K need start fuel m base rover = .ok m' b →
        ∃ c', Weak K m' c' ∧ b ∈ c' ∧ m'.tag b = K.PU_FREE ∧ need ≤ m'.size b := by
  intro fuel
  induction fuel with
  | zero => intro m c base rover _ m' b e; simp [Z_Malloc_scan] at e
  | succ fuel ih =>
    intro m c base rover h m' b e
    unfold Z_Malloc_scan at e
    by_cases hr : rover = start
    · rw [if_pos hr] at e; cases e
    · rw [if_neg hr] at e
      cases hb : Z_Malloc_body K m base rover with
      | ok m1 r =>
        obtain ⟨base1, rover1⟩ := r
        rw [hb] at e
        dsimp only at e
        obtain ⟨c1, h1⟩ := body_weak hK h hb
        by_cases hc : m1.tag base1 ≠ K.PU_FREE ∨ m1.size base1 < need
        · rw [if_pos hc] at e
          exact ih m1 c1 base1 rover1 h1 m' b e
        · rw [if_neg hc] at e
          injection e with e1 e2
          subst e1 e2
          simp only [not_or, not_not, not_lt] at hc
          exact ⟨c1, h1.weak, h1.bmem, hc.1, hc.2⟩
      | fatal m1 f => rw [hb] at e; cases e
      | nofuel => rw [hb] at e; cases e

/-- The end of a `Z_Malloc` that returns, whatever the tag that is passed: the
list stays well formed, with the fragment that is split off in it. -/
theorem finish_weak {K : Params} (hK : K.Valid) {m : Mem} {c : List Int} {x : Int}
    (h : Weak K m c) (hxc : x ∈ c) (hx : m.tag x = K.PU_FREE) {need tag user : Int}
    (hown : ¬ (user = 0 ∧ tag ≥ K.PU_PURGELEVEL))
    (hneed : MINFRAGMENT < toInt (m.size x - need) →
      K.sizeof_memblock_t ≤ need ∧ need ≤ m.size x) :
    ∃ c', Weak K (claimMem K (split K m x need) x tag user) c' ∧ x ∈ c' ∧
      ∀ z, z ∈ c' ↔ (z ∈ c ∨ (MINFRAGMENT < toInt (m.size x - need) ∧ z = x + need)) := by
  have hxs := weak_not_free hK h hx
  obtain ⟨t, ht, hmem⟩ := struct_front h.struct hxc
  have hnd := ht.nodup
  rw [List.nodup_cons] at hnd
  have hown' : ∀ z, z = x → (claimMem K (split K m x need) x tag user).tag z ≥ K.PU_PURGELEVEL →
      (claimMem K (split K m x need) x tag user).user z ≠ 0 := by
    intro z ez hz
    subst ez
    rw [claimMem_tag, upd_same] at hz
    rw [claimMem_user, upd_same]
    exact fun e => hown ⟨e, hz⟩
  by_cases hs : MINFRAGMENT < toInt (m.size x - need)
  · obtain ⟨h0, h1⟩ := hneed hs
    have hlt := split_room hK h.struct hxc hxs hs h0 h1
    obtain ⟨hfresh, hfs⟩ := split_fresh hK h.struct hxc hxs (by have := hK.2.2.2.1; omega) hlt
    have hs1 := split_struct hK ht hxs hs h0 h1
    have hxn : x + need ≠ x := by have := hK.2.2.2.1; omega
    refine ⟨x :: (x + need) :: t,
      ⟨claim_struct hs1 (by simp) (by simpa using hxs) tag user, ?_, ?_, ?_⟩, by simp, ?_⟩
    · rw [claimMem_sentinel, split_sentinel, claimMem_tag, split_tag _ _ _ _ hs,
        upd_other _ _ (Ne.symm hxs), upd_other _ _ (Ne.symm hfs)]
      exact h.sent
    · intro z hz hzs
      rw [claimMem_sentinel, split_sentinel] at hzs
      by_cases ez : z = x
      · rw [ez, claimMem_id, upd_same]; exact fun _ => rfl
      · rw [claimMem_tag, claimMem_id, upd_other _ _ ez, upd_other _ _ ez,
          split_tag _ _ _ _ hs, split_id]
        by_cases en : z = x + need
        · rw [en, upd_same]; exact fun e => absurd rfl e
        · rw [upd_other _ _ en]
          refine h.ids z ((hmem z).1 ?_) hzs
          simp only [List.mem_cons] at hz ⊢
          tauto
    · intro z hz hzs
      rw [claimMem_sentinel, split_sentinel] at hzs
      by_cases ez : z = x
      · exact fun _ => hown' z ez
      · rw [claimMem_tag, claimMem_user, upd_other _ _ ez, upd_other _ _ ez,
          split_tag _ _ _ _ hs, split_user _ _ _ _ hs]
        by_cases en : z = x + need
        · rw [en, upd_same]; exact fun e => absurd rfl e
        · rw [upd_other _ _ en, upd_other _ _ en]
          refine h.owner z ((hmem z).1 ?_) hzs
          simp only [List.mem_cons] at hz ⊢
          tauto
    · intro z
      rw [← hmem z]
      simp only [List.mem_cons, hs, true_and]
      tauto
  · rw [split_no K m x need hs]
    refine ⟨c, ⟨claim_struct h.struct hxc hxs tag user, ?_, ?_, ?_⟩, hxc, ?_⟩
    · rw [claimMem_sentinel, claimMem_tag, upd_other _ _ (Ne.symm hxs)]
      exact h.sent
    · intro z hz hzs
      rw [claimMem_sentinel] at hzs
      by_cases ez : z = x
      · rw [ez, claimMem_id, upd_same]; exact fun _ => rfl
      · rw [claimMem_tag, claimMem_id, upd_other _ _ ez, upd_other _ _ ez]
        exact h.ids z hz hzs
    · intro z hz hzs
      rw [claimMem_sentinel] at hzs
      by_cases ez : z = x
      · have := hown' z ez
        rw [split_no K m x need hs] at this
        exact fun _ => this
      · rw [claimMem_tag, claimMem_user, upd_other _ _ ez, upd_other _ _ ez]
        exact h.owner z hz hzs
    · intro z
      simp only [hs, false_and, or_false]

/-- The state in which the scan of `Z_Malloc` starts, whatever the tags in the
arena. -/
theorem wscan_init {K : Params} (hK : K.Valid) {m : Mem} {c : List Int} (h : Weak K m c) :
    WScan K m c (scanBase K m) (scanBase K m) := by
  refine ⟨h, scanBase_mem hK h.struct, scanBase_mem hK h.struct, Or.inl ⟨rfl, ?_⟩⟩
  unfold scanBase
  split
  · rename_i hp
    exact fun hh => absurd hp hh
  · rename_i hp
    exact fun _ => hp

/-- A `Z_Malloc` that returns, with a size that is not negative and any tag:
the list stays well formed, the block handed over is in it, and the rover is
the block behind it. -/
theorem malloc_weak {K : Params} (hK : K.Valid) {m : Mem} {c : List Int} (h : Weak K m c)
    {size tag user : Int} (h0 : 0 ≤ size) (h1 : size < 2147483648) {fuel : Nat} {m' : Mem}
    {p : Int} (e : Z_Malloc K fuel m size tag user = .ok m' p) :
    ∃ c', Weak K m' c' ∧ p - K.sizeof_memblock_t ∈ c' ∧
      p - K.sizeof_memblock_t ≠ sentinel K m' ∧
      m'.rover = m'.next (p - K.sizeof_memblock_t) ∧
      m'.tag (p - K.sizeof_memblock_t) = tag ∧ m'.user (p - K.sizeof_memblock_t) = user := by
  unfold Z_Malloc at e
  dsimp only at e
  cases hsc : Z_Malloc_scan K (needed K size) (m.prev (scanBase K m)) fuel m (scanBase K m)
      (scanBase K m) with
  | ok ms base =>
    rw [hsc] at e
    dsimp only at e
    obtain ⟨cs, hws, hbm, hbt, hbsz⟩ := scan_weak hK _ _ fuel m c _ _ (wscan_init hK h) ms base hsc
    have hbs := weak_not_free hK hws hbt
    rcases claim_cases K (split K ms base (needed K size)) base tag user with
      ⟨_, _, ec⟩ | ⟨hown, ec⟩
    · rw [ec] at e; cases e
    · rw [ec] at e
      injection e with e1 e2
      subst e1 e2
      obtain ⟨c', hw', hbc', _⟩ := finish_weak hK hws hbm hbt hown
        (needed_split hK hws.struct hbm hbs h0 h1 hbsz)
      simp only [add_sub_cancel_right]
      refine ⟨c', hw', hbc', ?_, ?_, ?_, ?_⟩
      · rw [claimMem_sentinel, split_sentinel]; exact hbs
      · rw [claimMem_rover, claimMem_next]
      · rw [claimMem_tag, upd_same]
      · rw [claimMem_user, upd_same]
  | fatal m1 f => rw [hsc] at e; cases e
  | nofuel => rw [hsc] at e; cases e

theorem weak_front {K : Params} {m : Mem} {c : List Int} (h : Weak K m c) :
    ∃ l, Weak K m (sentinel K m :: l) ∧ ∀ z, z ∈ sentinel K m :: l ↔ z ∈ c := by
  obtain ⟨l, hl, hmem⟩ := struct_front h.struct h.struct.sent
  exact ⟨l, ⟨hl, h.sent, fun x hx => h.ids x ((hmem x).1 hx),
    fun x hx => h.owner x ((hmem x).1 hx)⟩, hmem⟩

/-- The blocks reached from the sentinel along `next` are the blocks of the
list. -/
theorem listed_in {K : Params} {m : Mem} {l : List Int}
    (h : Struct K m (sentinel K m :: l)) {b : Int} (hb : Listed K m b) : b ∈ l := by
  induction hb with
  | head hne =>
    cases l with
    | nil =>
      have hl := h.link
      simp only [Cyc, List.nil_append, List.chain_singleton] at hl
      exact absurd hl.1 hne
    | cons x l =>
      have hl := cyc_head h.link
      rw [hl.1]; simp
  | next b _ hne ih =>
    have hbs : b ≠ sentinel K m := by
      intro e
      have := h.nodup
      rw [List.nodup_cons] at this
      exact this.1 (e ▸ ih)
    have := (struct_succ h (List.mem_cons_of_mem _ ih) hbs).1
    simp only [List.mem_cons] at this
    rcases this with e | e
    · exact absurd e hne
    · exact e

theorem listed_weak {K : Params} {m : Mem} {c : List Int} (h : Weak K m c) {b : Int}
    (hb : Listed K m b) : b ∈ c ∧ b ≠ sentinel K m := by
  obtain ⟨l, hl, hmem⟩ := weak_front h
  have hbl := listed_in hl.struct hb
  have hnd := hl.struct.nodup
  rw [List.nodup_cons] at hnd
  exact ⟨(hmem b).1 (List.mem_cons_of_mem _ hbl), fun e => hnd.1 (e ▸ hbl)⟩

/-- `Z_ChangeTag2` that returns on a block of the list, whatever the tag. -/
theorem changeTag_weak {K : Params} {m : Mem} {c : List Int} (h : Weak K m c) {ptr tag : Int}
    (hbs : ptr - K.sizeof_memblock_t ≠ sentinel K m) {m' : Mem}
    (e : Z_ChangeTag2 K m ptr tag = .ok m' ()) : Weak K m' c := by
  unfold Z_ChangeTag2 at e
  dsimp only at e
  split at e
  · cases e
  · split at e
    · cases e
    · rename_i hid hown
      injection e with e1 _
      subst e1
      refine ⟨struct_congr h.struct rfl rfl rfl rfl rfl rfl, ?_, ?_, ?_⟩
      · show upd m.tag _ tag (sentinel K m) = _
        rw [upd_other _ _ (Ne.symm hbs)]
        exact h.sent
      · intro x hx hxs
        show upd m.tag _ tag x ≠ _ → m.id x = ZONEID
        by_cases ex : x = ptr - K.sizeof_memblock_t
        · rw [ex]
          exact fun _ => not_not.1 hid
        · rw [upd_other _ _ ex]
          exact h.ids x hx hxs
      · intro x hx hxs
        show upd m.tag _ tag x ≠ _ → upd m.tag _ tag x ≥ _ → m.user x ≠ 0
        by_cases ex : x = ptr - K.sizeof_memblock_t
        · rw [ex, upd_same]
          exact fun _ ht hu => hown ⟨ht, hu⟩
        · rw [upd_other _ _ ex]
          exact h.owner x hx hxs

/-- The sweep of `Z_FreeTags`, whatever the tags in the arena: it stands at a
block of the list, or at the header of a free block that was just merged away,
whose `next` still points into the list. -/
theorem freetags_weak {K : Params} (hK : K.Valid) (lowtag hightag : Int) :
    ∀ (fuel : Nat) (m : Mem) (c : List Int) (block : Int), Weak K m c →
      (block ∈ c ∨ (m.tag block = K.PU_FREE ∧ m.next block ∈ c)) →
      ∀ m', Z_FreeTags_loop K lowtag hightag fuel m block = .ok m' () → ∃ c', Weak K m' c' := by
  intro fuel
  induction fuel with
  | zero => intro m c block _ _ m' e; simp [Z_FreeTags_loop] at e
  | succ fuel ih =>
    intro m c block h hb m' e
    unfold Z_FreeTags_loop at e
    by_cases hs : block = sentinel K m
    · rw [if_pos hs] at e
      injection e with e1 _
      subst e1
      exact ⟨c, h⟩
    · rw [if_neg hs] at e
      dsimp only at e
      by_cases hf : m.tag block = K.PU_FREE
      · rw [if_pos hf] at e
        refine ih m c _ h (Or.inl ?_) m' e
        rcases hb with hb | hb
        · exact (struct_succ h.struct hb hs).1
        · exact hb.2
      · rw [if_neg hf] at e
        have hbc : block ∈ c := by
          rcases hb with hb | hb
          · exact hb
          · exact absurd hb.1 hf
        obtain ⟨hnm, hnb, _⟩ := struct_succ h.struct hbc hs
        by_cases hr : m.tag block ≥ lowtag ∧ m.tag block ≤ hightag
        · rw [if_pos hr] at e
          rcases Z_Free_cases K m (block + K.sizeof_memblock_t) with ⟨_, ef⟩ | ⟨_, ef⟩
          · rw [ef] at e; cases e
          · simp only [add_sub_cancel_right] at ef
            rw [ef] at e
            dsimp only at e
            obtain ⟨c1, hw, hmem, _, _, hnext⟩ := free_weak hK h hbc hs
            refine ih _ c1 _ hw ?_ m' e
            by_cases hn : m.tag (m.next block) = K.PU_FREE
            · right
              have hns := weak_not_free hK h hn
              have hgt := struct_next_gt hK h.struct hbc hs
              have hgt2 := struct_next_gt hK h.struct hnm hns
              obtain ⟨hnnm, hnnb, _⟩ := struct_succ h.struct hnm hns
              have hlt : block < m.next block := by
                rcases hgt with g | g
                · exact absurd g hns
                · exact g
              have hnn : m.next (m.next block) ≠ block := by
                intro e'
                rcases hgt2 with g | g
                · exact hs (e'.symm.trans g)
                · omega
              have hnp : m.next block ≠ m.prev block := by
                intro e'
                have := (struct_pred h.struct hbc hs).2.2
                rw [← e'] at this
                exact hnn this
              refine ⟨?_, ?_⟩
              · rw [coalesce_tag, markFree_tag, upd_other _ _ hnb]
                exact hn
              · rw [hnext _ hnb hnp, hmem]
                exact ⟨hnnm, fun hh => hnn hh.1, fun hh => hnnb hh.1⟩
            · left
              rw [hmem]
              exact ⟨hnm, fun hh => hnb hh.1, fun hh => hn hh.2⟩
        · rw [if_neg hr] at e
          exact ih m c _ h (Or.inl hnm) m' e

/-- Every arena that arises from `Z_Init` by calls that return has a well-formed
list, whatever the tags that were passed. -/
theorem returns_weak {K : Params} (hK : K.Valid) {m : Mem} (h : Returns K m) :
    ∃ l, Weak K m (sentinel K m :: l) := by
  induction h with
  | init m base size h1 h2 => exact ⟨_, weak_of_cinv (init_arena hK m base size h1 h2)⟩
  | malloc m fuel size tag user m' p _ h0 h1 hz ih =>
    obtain ⟨l, hl⟩ := ih
    obtain ⟨c', hw, _⟩ := malloc_weak hK hl h0 h1 hz
    obtain ⟨l', hl', _⟩ := weak_front hw
    exact ⟨l', hl'⟩
  | free m ptr m' _ hb hz ih =>
    obtain ⟨l, hl⟩ := ih
    obtain ⟨hbc, hbs⟩ := listed_weak hl hb
    rcases Z_Free_cases K m ptr with ⟨_, ef⟩ | ⟨_, ef⟩
    · rw [ef] at hz; cases hz
    · rw [ef] at hz
      injection hz with e1 _
      subst e1
      obtain ⟨c', hw, _⟩ := free_weak hK hl hbc hbs
      obtain ⟨l', hl', _⟩ := weak_front hw
      exact ⟨l', hl'⟩
  | freeTags m fuel lowtag hightag m' _ hz ih =>
    obtain ⟨l, hl⟩ := ih
    obtain ⟨c', hw⟩ := freetags_weak hK lowtag hightag fuel m _ _ hl
      (Or.inl (struct_succ' hK hl.struct (by simp)).1) m' hz
    obtain ⟨l', hl', _⟩ := weak_front hw
    exact ⟨l', hl'⟩
  | changeTag m ptr tag m' _ hb hz ih =>
    obtain ⟨l, hl⟩ := ih
    obtain ⟨_, hbs⟩ := listed_weak hl hb
    have hw := changeTag_weak hl hbs hz
    have hs : sentinel K m' = sentinel K m := by
      unfold Z_ChangeTag2 at hz
      dsimp only at hz
      split at hz
      · cases hz
      · split at hz
        · cases hz
        · injection hz with e1 _
          subst e1
          rfl
    exact ⟨l, hs ▸ hw⟩

theorem demoCache_returns : Returns lp64 demoCache :=
  Returns.malloc demoInit 4 100 8 5000 demoCache 1096
    (Returns.init zeroMem 1000 1056 (by decide) (by decide)) (by decide) (by decide) rfl

theorem reach_returns {K : Params} {m : Mem} (h : Reach K m) : Returns K m := by
  induction h with
  | init m base size h1 h2 => exact Returns.init m base size h1 h2
  | malloc m fuel size tag user m' p _ h0 h1 _ hz ih =>
    exact Returns.malloc m fuel size tag user m' p ih h0 h1 hz
  | free m ptr m' _ hb hz ih => exact Returns.free m ptr m' ih hb hz
  | freeTags m fuel lowtag hightag m' _ hz ih =>
    exact Returns.freeTags m fuel lowtag hightag m' ih hz
  | changeTag m ptr tag m' _ hb _ hz ih => exact Returns.changeTag m ptr tag m' ih hb hz

/-! ## The claims about `zone.c` -/

/-- C1, as stated, fails: after `Z_Init` on a zone of 1056 bytes, `Z_Malloc(100,
PU_STATIC, NULL)` and `Z_ChangeTag2` of the returned pointer to `PU_FREE` both
return, and then `Z_CheckHeap` stops with "two consecutive free blocks". -/
theorem C1_counterexample :
    ∃ m1 p m2, Z_Malloc lp64 4 (Z_Init lp64 zeroMem 1000 1056) 100 lp64.PU_STATIC 0 = .ok m1 p ∧
      Z_ChangeTag2 lp64 m1 p lp64.PU_FREE = .ok m2 () ∧
      Z_CheckHeap lp64 4 m2 = .fatal m2 .checkheap_two_free :=
  ⟨_, _, _, rfl, rfl, rfl⟩

/-- C1, amended: in every arena reached from `Z_Init` (on a zone with room for
the zone header and one block header) by calls that return, where `Z_Malloc` is
called with a size that is not negative and a tag other than `PU_FREE`, and
`Z_Free` and `Z_ChangeTag2` (to a tag other than `PU_FREE`) with the payload
pointer of a block in the list, `Z_CheckHeap` runs through without an error:
every block ends where its successor begins, every successor points back, and
no two consecutive blocks are free. -/
theorem C1_heap_check (K : Params) (hK : K.Valid) (m : Mem) (h : Reach K m) :
    ∃ n, ∀ fuel, n ≤ fuel → Z_CheckHeap K fuel m = .ok m () := by
  obtain ⟨l, hl⟩ := reach_arena hK h
  exact ⟨l.length + 1, fun fuel hf => checkheap_ok hl fuel (by omega) (by omega)⟩

theorem C1_heap_check_witness :
    ∃ n, ∀ fuel, n ≤ fuel →
      Z_CheckHeap lp64 fuel (Z_Init lp64 zeroMem 1000 1056) = .ok (Z_Init lp64 zeroMem 1000 1056) () :=
  C1_heap_check lp64 (by decide) (Z_Init lp64 zeroMem 1000 1056)
    (Reach.init zeroMem 1000 1056 (by decide) (by decide))

/-- C2, at the failing input: in the arena `demoBehind`, reached from `Z_Init`
by three calls of `Z_Malloc` and one of `Z_Free`, the purgable block at 1056 is
by itself a run that is large enough for 300 bytes with the header, and yet
`Z_Malloc(300, PU_STATIC, NULL)` ends in the allocation failure: the scan
starts behind that block and stops in front of it. -/
theorem C2_start_block_missed :
    Reach lp64 demoBehind ∧ Arena lp64 demoBehind [1056, 1496, 1936] ∧
      demoBehind.rover = 1496 ∧ Purgable lp64 demoBehind 1056 ∧
      HasRun lp64 demoBehind (needed lp64 300) [1056, 1496, 1936] ∧
      Z_Malloc lp64 8 demoBehind 300 1 0 =
        .fatal (memOf (Z_Malloc lp64 8 demoBehind 300 1 0)) .malloc_failed := by
  refine ⟨?_, by decide, by decide, by decide, ?_, rfl⟩
  · have r0 : Reach lp64 demoInit := Reach.init zeroMem 1000 1056 (by decide) (by decide)
    have r1 := Reach.malloc demoInit 4 400 1 0 _ 1096 r0 (by decide) (by decide) (by decide) rfl
    have r2 := Reach.malloc _ 4 400 1 0 _ 1536 r1 (by decide) (by decide) (by decide) rfl
    have r3 := Reach.free _ 1096 _ r2 (Listed.head (by decide)) rfl
    exact Reach.malloc _ 6 400 8 5000 _ 1096 r3 (by decide) (by decide) (by decide) rfl
  · refine ⟨[], [1056], [1496, 1936], rfl, ?_, by decide⟩
    intro x hx
    simp only [List.mem_singleton] at hx
    subst hx
    exact Or.inr (by decide)

/-- C3 (as stated) fails where the rounded size overflows: on the fresh zone
`demoInit` the call `Z_Malloc(2147483647, PU_STATIC, NULL)` returns the payload
of the block at 1056, which has 1000 bytes with its header. -/
theorem C3_counterexample :
    Arena lp64 demoInit [1056] ∧
      Z_Malloc lp64 4 demoInit 2147483647 1 0 =
        .ok (memOf (Z_Malloc lp64 4 demoInit 2147483647 1 0)) 1096 ∧
      (memOf (Z_Malloc lp64 4 demoInit 2147483647 1 0)).size (1096 - lp64.sizeof_memblock_t)
        = 1000 ∧
      ¬ ((2147483647 : Int) ≤ 1000 - lp64.sizeof_memblock_t) :=
  ⟨by decide, rfl, by decide, by decide⟩

/-- C3 (as amended): on a well-formed arena, for every size that is not
negative and whose rounded size with the header stays below `2^31`, a
successful `Z_Malloc(size, tag, user)` returns the payload of a block in the
list whose size minus the header is at least `size`, whose tag is `tag`, whose
owner is `user` and whose id is `ZONEID`; when `user` is not null the returned
pointer is stored into `*user`. -/
theorem C3_malloc_result {K : Params} (hK : K.Valid) {m : Mem} {l : List Int}
    (h : Arena K m l) {size tag user : Int} (hs : NoOverflow K size) {fuel : Nat} {m' : Mem}
    {p : Int} (hz : Z_Malloc K fuel m size tag user = .ok m' p) :
    Listed K m' (p - K.sizeof_memblock_t) ∧
      size ≤ m'.size (p - K.sizeof_memblock_t) - K.sizeof_memblock_t ∧
      m'.tag (p - K.sizeof_memblock_t) = tag ∧ m'.user (p - K.sizeof_memblock_t) = user ∧
      m'.id (p - K.sizeof_memblock_t) = ZONEID ∧ (user ≠ 0 → m'.slot user = p) := by
  obtain ⟨hlt, hn, _⟩ := noOverflow_needed hK hs
  obtain ⟨R, hR, _, _⟩ := scan_rotation hK h
  have hz' := malloc_fuel_mono K fuel m size tag user (by rw [hz]; exact fun e => nomatch e)
    (R.length + 1)
  rw [hz] at hz'
  rcases malloc_hist hK size tag user hR (fuel + (R.length + 1)) (by omega) with
    ⟨_, _, _, _, _, e, _⟩ | ⟨ms, base, rover', P', T', Q, span, hS, hH, hfree, hsz, e⟩
  · rw [hz'] at e; exact nomatch e
  · rw [hz'] at e
    have hbm := scanst_base_mem hS
    have hbs := sentinel_not_free hK hS.inv.2 hfree
    have hneed := needed_split hK hS.inv.1 hbm hbs hs.1 hlt hsz
    rcases claim_cases K (split K ms base (needed K size)) base tag user with
      ⟨_, _, e2⟩ | ⟨_, e2⟩
    · rw [e2] at e; exact nomatch e
    · rw [e2] at e
      injection e with e3 e4
      subst e3 e4
      have hp : base + K.sizeof_memblock_t - K.sizeof_memblock_t = base := by omega
      rw [hp]
      obtain ⟨c', hc', hsub⟩ := split_struct_any hK hS.inv.1 hbm hbs hneed
      have hst := claim_struct hc' (hsub base hbm) (by simpa using hbs) tag user
      refine ⟨mem_listed hst (hsub base hbm) (by simpa using hbs), ?_, by simp, by simp,
        by simp, ?_⟩
      · have := split_size_base K ms base (needed K size) hsz
        simp only [claimMem_size]
        omega
      · intro hu
        rw [claimMem_slot, if_pos hu, upd_same]

theorem C3_malloc_result_witness :
    Listed lp64 demoOwned (1096 - lp64.sizeof_memblock_t) ∧
      100 ≤ demoOwned.size (1096 - lp64.sizeof_memblock_t) - lp64.sizeof_memblock_t ∧
      demoOwned.tag (1096 - lp64.sizeof_memblock_t) = 8 ∧
      demoOwned.user (1096 - lp64.sizeof_memblock_t) = 5000 ∧
      demoOwned.id (1096 - lp64.sizeof_memblock_t) = ZONEID ∧
      ((5000 : Int) ≠ 0 → demoOwned.slot 5000 = 1096) :=
  C3_malloc_result (by decide : lp64.Valid)
    (init_arena (by decide) zeroMem 1000 1056 (by decide) (by decide)) (by decide)
    (show Z_Malloc lp64 4 (Z_Init lp64 zeroMem 1000 1056) 100 8 5000 = .ok demoOwned 1096
      from rfl)

/-- C4: `Z_Free` on the payload pointer of a block in use (tag other than
`PU_FREE`) that carries `ZONEID` and has an owner returns, and afterwards the
owner slot holds `NULL` and the block header is tagged `PU_FREE` with no
owner. -/
theorem C4_free_clears_owner (K : Params) (m : Mem) (ptr : Int)
    (htag : m.tag (ptr - K.sizeof_memblock_t) ≠ K.PU_FREE)
    (hid : m.id (ptr - K.sizeof_memblock_t) = ZONEID)
    (huser : m.user (ptr - K.sizeof_memblock_t) ≠ 0) :
    ∃ m', Z_Free K m ptr = .ok m' () ∧
      m'.slot (m.user (ptr - K.sizeof_memblock_t)) = 0 ∧
      m'.tag (ptr - K.sizeof_memblock_t) = K.PU_FREE ∧
      m'.user (ptr - K.sizeof_memblock_t) = 0 := by
  refine ⟨coalesce K (markFree K m (ptr - K.sizeof_memblock_t)) (ptr - K.sizeof_memblock_t),
    by simp [Z_Free, hid], ?_, ?_, ?_⟩
  · unfold coalesce
    dsimp only
    split <;> split <;> simp [markFree_slot, htag, huser]
  · unfold coalesce
    dsimp only
    split <;> split <;> simp
  · unfold coalesce
    dsimp only
    split <;> split <;> simp

theorem C4_free_clears_owner_witness :
    ∃ m', Z_Free lp64 demoOwned 1096 = .ok m' () ∧
      m'.slot (demoOwned.user (1096 - lp64.sizeof_memblock_t)) = 0 ∧
      m'.tag (1096 - lp64.sizeof_memblock_t) = lp64.PU_FREE ∧
      m'.user (1096 - lp64.sizeof_memblock_t) = 0 :=
  C4_free_clears_owner lp64 demoOwned 1096 (by decide) (by decide) (by decide)

/-- C5 (as stated) fails where owner slots are shared: the block at 1056 of
`demoStatic` is in use with the tag `PU_STATIC` and the owner slot 5000, and a
second `Z_Malloc` with the same owner writes its result into that slot. -/
theorem C5_counterexample :
    Arena lp64 demoStatic [1056, 1200] ∧ Fixed lp64 demoStatic 1056 ∧
      demoStatic.user 1056 = 5000 ∧ demoStatic.slot 5000 = 1096 ∧
      Z_Malloc lp64 4 demoStatic 100 1 5000 =
        .ok (memOf (Z_Malloc lp64 4 demoStatic 100 1 5000)) 1240 ∧
      (memOf (Z_Malloc lp64 4 demoStatic 100 1 5000)).slot 5000 = 1240 :=
  ⟨by decide, by decide, by decide, by decide, rfl, by decide⟩

/-- C5 (as amended): `Z_Malloc` with a size that is not negative, on a
well-formed arena, ends (successfully or not) with every block in use whose tag
is below `PU_PURGELEVEL` still in the list, at the same address, with the same
size, tag, owner and id; the owner slot of such a block is not written unless
it is also the owner slot passed to the call or the owner slot of a purgable
block of the list. -/
theorem C5_fixed_blocks_kept {K : Params} (hK : K.Valid) {m : Mem} {l : List Int}
    (h : Arena K m l) {size tag user : Int} (h0 : 0 ≤ size) (h1 : size < 2147483648)
    {b : Int} (hb : b ∈ l) (hf : Fixed K m b) {fuel : Nat} (hfuel : l.length < fuel) :
    ∃ m', ((∃ p, Z_Malloc K fuel m size tag user = .ok m' p) ∨
        (∃ e, Z_Malloc K fuel m size tag user = .fatal m' e)) ∧
      Listed K m' b ∧ m'.size b = m.size b ∧ m'.tag b = m.tag b ∧ m'.user b = m.user b ∧
      m'.id b = m.id b ∧
      (m'.slot (m.user b) = m.slot (m.user b) ∨ m.user b = user ∨
        ∃ x ∈ l, Purgable K m x ∧ m.user x = m.user b) := by
  obtain ⟨R, hR, hlen, hmem⟩ := scan_rotation hK h
  have hbs : b ≠ sentinel K m := by
    have := h.1.nodup
    simp only [List.nodup_cons] at this
    exact fun e => this.1 (e ▸ hb)
  have hbR : b ∈ R ++ [scanStart K m] := (hmem b).2 (by simp [hb])
  have hpl : ∀ x ∈ R, Purgable K m x → x ∈ l := by
    intro x hx hp
    have := (hmem x).1 (by simp [hx])
    simp only [List.mem_cons] at this
    rcases this with e | e
    · exact absurd e (purgable_ne_sentinel hK h.2 hp)
    · exact e
  have key : ∀ {ms : Mem} {base rover : Int} {P T Q span : List Int},
      Hist K (needed K size) m R (scanStart K m) ms base rover P T Q span →
      ms.tag b ≠ K.PU_FREE ∧ (ms.tag b = m.tag b ∧ ms.user b = m.user b ∧ ms.id b = m.id b ∧
        ms.size b = m.size b) ∧ b ∈ P ++ T ++ [scanStart K m] ∧ b ≠ sentinel K ms ∧
      (ms.slot (m.user b) = m.slot (m.user b) ∨
        ∃ x ∈ l, Purgable K m x ∧ m.user x = m.user b) := by
    intro ms base rover P T Q span hH
    have htag : ms.tag b ≠ K.PU_FREE := by
      rcases hH.tags b with e | ⟨hp, _⟩
      · rw [e]; exact hf.1
      · exact absurd hf.2 hp.2
    refine ⟨htag, hH.keep b htag, hH.live b hbR htag, ?_, ?_⟩
    · simpa [sentinel, hH.zone.1] using hbs
    · rcases hH.slots (m.user b) with e | ⟨_, x, hx, hp, e⟩
      · exact Or.inl e
      · exact Or.inr ⟨x, hpl x hx hp, hp, e⟩
  rcases malloc_hist hK size tag user hR fuel (by simp at hlen; omega) with
    ⟨ms, base, P, Q, span, e, hS, hH, _⟩ | ⟨ms, base, rover, P, T, Q, span, hS, hH, hfree, hsz, e⟩
  · obtain ⟨_, hk, hbm, hbs', hsl⟩ := key hH
    refine ⟨ms, Or.inr ⟨_, e⟩, mem_listed hS.inv.1 hbm hbs', hk.2.2.2, hk.1, hk.2.1, hk.2.2.1, ?_⟩
    rcases hsl with e | e
    · exact Or.inl e
    · exact Or.inr (Or.inr e)
  · obtain ⟨htag, hk, hbm, hbs', hsl⟩ := key hH
    have hbase := scanst_base_mem hS
    have hbases := sentinel_not_free hK hS.inv.2 hfree
    have hneed := needed_split hK hS.inv.1 hbase hbases h0 h1 hsz
    have hne : b ≠ base := fun e => htag (e ▸ hfree)
    obtain ⟨f1, f2, f3⟩ := split_frame hK hS.inv.1 hbase hbases hneed hbm hne
    obtain ⟨c', hc', hsub⟩ := split_struct_any hK hS.inv.1 hbase hbases hneed
    rcases claim_cases K (split K ms base (needed K size)) base tag user with
      ⟨_, _, e2⟩ | ⟨_, e2⟩
    · refine ⟨_, Or.inr ⟨_, e.trans e2⟩, mem_listed hc' (hsub b hbm) (by simpa using hbs'),
        by rw [f3]; exact hk.2.2.2, by rw [f1]; exact hk.1, by rw [f2]; exact hk.2.1,
        by rw [split_id]; exact hk.2.2.1, ?_⟩
      rw [split_slot]
      rcases hsl with e | e
      · exact Or.inl e
      · exact Or.inr (Or.inr e)
    · have hst := claim_struct hc' (hsub base hbase) (by simpa using hbases) tag user
      refine ⟨_, Or.inl ⟨_, e.trans e2⟩, mem_listed hst (hsub b hbm) (by simpa using hbs'),
        by rw [claimMem_size, f3]; exact hk.2.2.2,
        by rw [claimMem_tag, upd_other _ _ hne, f1]; exact hk.1,
        by rw [claimMem_user, upd_other _ _ hne, f2]; exact hk.2.1,
        by rw [claimMem_id, upd_other _ _ hne, split_id]; exact hk.2.2.1, ?_⟩
      by_cases hu : m.user b = user
      · exact Or.inr (Or.inl hu)
      · rw [claimMem_slot, split_slot]
        split
        · rw [upd_other _ _ hu]
          rcases hsl with e | e
          · exact Or.inl e
          · exact Or.inr (Or.inr e)
        · rcases hsl with e | e
          · exact Or.inl e
          · exact Or.inr (Or.inr e)

theorem C5_fixed_blocks_kept_witness :
    Arena lp64 demoStatic [1056, 1200] ∧ Fixed lp64 demoStatic 1056 ∧
    ∃ m', ((∃ p, Z_Malloc lp64 4 demoStatic 300 8 5008 = .ok m' p) ∨
        (∃ e, Z_Malloc lp64 4 demoStatic 300 8 5008 = .fatal m' e)) ∧
      Listed lp64 m' 1056 ∧ m'.size 1056 = demoStatic.size 1056 ∧
      m'.tag 1056 = demoStatic.tag 1056 ∧ m'.user 1056 = demoStatic.user 1056 ∧
      m'.id 1056 = demoStatic.id 1056 ∧
      (m'.slot (demoStatic.user 1056) = demoStatic.slot (demoStatic.user 1056) ∨
        demoStatic.user 1056 = 5008 ∨
        ∃ x ∈ [1056, 1200], Purgable lp64 demoStatic x ∧
          demoStatic.user x = demoStatic.user 1056) :=
  ⟨by decide, by decide,
    C5_fixed_blocks_kept (by decide : lp64.Valid)
      (show Arena lp64 demoStatic [1056, 1200] from by decide) (by decide) (by decide)
      (by decide) (by decide) (by decide)⟩

/-- C6 (as stated) fails where a purgable block lies in front of a block that
cannot be purged: in `demoFull`, where nothing is free, `Z_Malloc(300, 1, NULL)`
returns the payload of the block at 1344, carved from the purgable block
there, and has freed the purgable block at 1056 as well, which is separated
from it by the block at 1200 that stays in use. -/
theorem C6_counterexample :
    Arena lp64 demoFull [1056, 1200, 1344, 1784] ∧
      (∀ x ∈ [1056, 1200, 1344, 1784], demoFull.tag x ≠ lp64.PU_FREE) ∧
      Z_Malloc lp64 8 demoFull 300 1 0 = .ok (memOf (Z_Malloc lp64 8 demoFull 300 1 0)) 1384 ∧
      Purgable lp64 demoFull 1056 ∧
      (memOf (Z_Malloc lp64 8 demoFull 300 1 0)).tag 1056 = lp64.PU_FREE ∧
      Fixed lp64 demoFull 1200 ∧ Fixed lp64 (memOf (Z_Malloc lp64 8 demoFull 300 1 0)) 1200 ∧
      (1056 : Int) < 1200 ∧ (1200 : Int) < 1384 - lp64.sizeof_memblock_t :=
  ⟨by decide, by decide, rfl, by decide, by decide, by decide, by decide, by decide, by decide⟩

/-- C6 (as amended): a successful `Z_Malloc` on a well-formed arena, with `R`
the blocks in the order of the scan, frees the purgable blocks in that order up
to the end of the span from which the returned block is carved.  The span is a
run of free and purgable blocks that begins at the returned block, right behind
a block that cannot be purged or at the start of the scan; it is large enough,
and no purgable block in it was freed unless the blocks of the span before it
were too small.  Every purgable block in front of the span (in the order of the
scan) and in it is freed, and the blocks behind the span are as they were. -/
theorem C6_purge_order {K : Params} (hK : K.Valid) {m : Mem} {R : List Int}
    (h : CInv K m (R ++ [scanStart K m])) {size tag user : Int} (hs : NoOverflow K size)
    {fuel : Nat} {m' : Mem} {p : Int} (hz : Z_Malloc K fuel m size tag user = .ok m' p) :
    ∃ Q span T, R = Q ++ span ++ T ∧ span.head? = some (p - K.sizeof_memblock_t) ∧
      (∀ x ∈ span, Eligible K m x) ∧ needed K size ≤ total m span ∧
      (∀ sp r tl, span = sp ++ r :: tl → Purgable K m r → total m sp < needed K size) ∧
      (Q = [] ∨ ∃ Q' q, Q = Q' ++ [q] ∧ Fixed K m q) ∧
      (∀ x ∈ Q ++ span, Purgable K m x →
        x = p - K.sizeof_memblock_t ∨ m'.tag x = K.PU_FREE) ∧
      (∀ x ∈ T ++ [scanStart K m], m'.tag x = m.tag x ∧ m'.user x = m.user x ∧
        m'.id x = m.id x ∧ m'.size x = m.size x) := by
  obtain ⟨hlt, _, hpos⟩ := noOverflow_needed hK hs
  have hz' := malloc_fuel_mono K fuel m size tag user (by rw [hz]; exact fun e => nomatch e)
    (R.length + 1)
  rw [hz] at hz'
  rcases malloc_hist hK size tag user h (fuel + (R.length + 1)) (by omega) with
    ⟨_, _, _, _, _, e, _⟩ | ⟨ms, base, rover, P, T, Q, span, hS, hH, hfree, hsz, e⟩
  · rw [hz'] at e; exact nomatch e
  rw [hz'] at e
  have hbase := scanst_base_mem hS
  have hbases := sentinel_not_free hK hS.inv.2 hfree
  have hneed := needed_split hK hS.inv.1 hbase hbases hs.1 hlt hsz
  rcases claim_cases K (split K ms base (needed K size)) base tag user with ⟨_, _, e2⟩ | ⟨_, e2⟩
  · rw [e2] at e; exact nomatch e
  rw [e2] at e
  injection e with e3 e4
  subst e3 e4
  have hp : base + K.sizeof_memblock_t - K.sizeof_memblock_t = base := by omega
  rw [hp]
  -- a header that says "free" says so at the end
  have hfin : ∀ x, x ≠ base → ms.tag x = K.PU_FREE →
      (claimMem K (split K ms base (needed K size)) base tag user).tag x = K.PU_FREE := by
    intro x hx hxf
    rw [claimMem_tag, upd_other _ _ hx]
    exact split_tag_free K ms base (needed K size) hxf
  -- the other blocks of the list are as the scan left them
  have hrest : ∀ x ∈ P ++ T ++ [scanStart K m], x ≠ base →
      (claimMem K (split K ms base (needed K size)) base tag user).tag x = ms.tag x ∧
      (claimMem K (split K ms base (needed K size)) base tag user).user x = ms.user x ∧
      (claimMem K (split K ms base (needed K size)) base tag user).id x = ms.id x ∧
      (claimMem K (split K ms base (needed K size)) base tag user).size x = ms.size x := by
    intro x hx hxb
    obtain ⟨f1, f2, f3⟩ := split_frame hK hS.inv.1 hbase hbases hneed hx hxb
    rw [claimMem_tag, claimMem_user, claimMem_id, claimMem_size, upd_other _ _ hxb,
      upd_other _ _ hxb, upd_other _ _ hxb, split_id]
    exact ⟨f1, f2, rfl, f3⟩
  by_cases hbr : base = rover
  · -- the scan has just moved to a free block that is large enough
    have hsp := hH.shapeA hbr
    subst hsp
    obtain ⟨T1, rfl⟩ : ∃ T1, T = base :: T1 := by
      cases T with
      | nil =>
        have := hS.rov
        simp only [List.nil_append, List.head?_cons, Option.some.injEq] at this
        exact absurd (by rw [hbr, ← this] at hfree; exact hfree) hS.startTag
      | cons a T1 =>
        have := hS.rov
        simp only [List.cons_append, List.head?_cons, Option.some.injEq] at this
        exact ⟨T1, by rw [hbr, this]⟩
    have hab := hH.ahead base (by simp)
    have hf0 : m.tag base = K.PU_FREE := by rw [← hab.1]; exact hfree
    have hnd := hS.inv.1.nodup
    refine ⟨Q, [base], T1, by simp [hH.split], rfl, ?_, ?_, ?_, hH.behind, ?_, ?_⟩
    · intro x hx
      simp only [List.mem_singleton] at hx
      rw [hx]; exact Or.inl hf0
    · simpa [total, ← hab.2.2.2] using hsz
    · intro sp r tl hcut hr
      have hmem : r ∈ [base] := by rw [hcut]; simp
      simp only [List.mem_singleton] at hmem
      rw [hmem] at hr
      exact absurd hf0 hr.1
    · intro x hx hpx
      by_cases hxb : x = base
      · exact Or.inl hxb
      · right
        simp only [List.mem_append, List.mem_singleton] at hx
        rcases hx with hx | hx
        · exact hfin x hxb (hH.evicted x (by simp [hx]) hpx)
        · exact absurd hx hxb
    · intro x hx
      have hxl : x ∈ P ++ base :: T1 ++ [scanStart K m] := by
        simp only [List.mem_append, List.mem_cons, List.mem_singleton] at hx ⊢
        rcases hx with hx | hx
        · exact Or.inl (Or.inr (Or.inr hx))
        · exact Or.inr hx
      have hxb : x ≠ base := by
        intro e
        rw [List.append_assoc, List.cons_append, List.nodup_middle, List.nodup_cons] at hnd
        apply hnd.1
        rw [← e]
        simp only [List.mem_append, List.mem_singleton] at hx ⊢
        rcases hx with hx | hx
        · exact Or.inr (Or.inl hx)
        · exact Or.inr (Or.inr hx)
      obtain ⟨g1, g2, g3, g4⟩ := hrest x hxl hxb
      have ha := hH.ahead x (by
        simp only [List.mem_append, List.mem_cons, List.mem_singleton] at hx ⊢
        rcases hx with hx | hx
        · exact Or.inl (Or.inr hx)
        · exact Or.inr hx)
      exact ⟨g1.trans ha.1, g2.trans ha.2.1, g3.trans ha.2.2.1, g4.trans ha.2.2.2⟩
  · -- the scan has collected the span in `base`
    obtain ⟨hhead, hsize⟩ := hH.shapeB hbr
    have hbP : base ∈ P := by
      rcases hS.shape with ⟨e, _⟩ | ⟨P0, e, _⟩
      · exact absurd e hbr
      · rw [e]; simp
    refine ⟨Q, span, T, hH.split, hhead, hH.elig, by rw [← hsize]; exact hsz,
      hH.minimal hpos, hH.behind, ?_, ?_⟩
    · intro x hx hpx
      by_cases hxb : x = base
      · exact Or.inl hxb
      · exact Or.inr (hfin x hxb (hH.evicted x hx hpx))
    · intro x hx
      have hxb : x ≠ base := fun e => scanst_behind hS hbP (e ▸ hx)
      obtain ⟨g1, g2, g3, g4⟩ := hrest x (by
        simp only [List.mem_append, List.mem_singleton] at hx ⊢
        rcases hx with hx | hx
        · exact Or.inl (Or.inr hx)
        · exact Or.inr hx) hxb
      have ha := hH.ahead x hx
      exact ⟨g1.trans ha.1, g2.trans ha.2.1, g3.trans ha.2.2.1, g4.trans ha.2.2.2⟩

theorem C6_purge_order_witness :
    CInv lp64 demoFull ([1008, 1056, 1200, 1344] ++ [scanStart lp64 demoFull]) ∧
    NoOverflow lp64 300 ∧
    ∃ Q span T, [1008, 1056, 1200, 1344] = Q ++ span ++ T ∧
      span.head? = some (1384 - lp64.sizeof_memblock_t) ∧
      (∀ x ∈ span, Eligible lp64 demoFull x) ∧ needed lp64 300 ≤ total demoFull span ∧
      (∀ sp r tl, span = sp ++ r :: tl → Purgable lp64 demoFull r →
        total demoFull sp < needed lp64 300) ∧
      (Q = [] ∨ ∃ Q' q, Q = Q' ++ [q] ∧ Fixed lp64 demoFull q) ∧
      (∀ x ∈ Q ++ span, Purgable lp64 demoFull x →
        x = 1384 - lp64.sizeof_memblock_t ∨
          (memOf (Z_Malloc lp64 8 demoFull 300 1 0)).tag x = lp64.PU_FREE) ∧
      (∀ x ∈ T ++ [scanStart lp64 demoFull],
        (memOf (Z_Malloc lp64 8 demoFull 300 1 0)).tag x = demoFull.tag x ∧
        (memOf (Z_Malloc lp64 8 demoFull 300 1 0)).user x = demoFull.user x ∧
        (memOf (Z_Malloc lp64 8 demoFull 300 1 0)).id x = demoFull.id x ∧
        (memOf (Z_Malloc lp64 8 demoFull 300 1 0)).size x = demoFull.size x) :=
  ⟨by decide, by decide,
    C6_purge_order (by decide : lp64.Valid)
      (show CInv lp64 demoFull ([1008, 1056, 1200, 1344] ++ [scanStart lp64 demoFull])
        from by decide) (by decide)
      (show Z_Malloc lp64 8 demoFull 300 1 0 =
        .ok (memOf (Z_Malloc lp64 8 demoFull 300 1 0)) 1384 from rfl)⟩

/-- C7: with a `NULL` user and a tag at or above `PU_PURGELEVEL`, `Z_Malloc`
never returns, whatever the size and the memory, and on a well-formed arena it
ends in a fatal error; with a tag below `PU_PURGELEVEL` a `NULL` user never
raises the owner error, and on a well-formed arena the call returns unless the
scan ends in the allocation failure. -/
theorem C7_owner_required (K : Params) (hK : K.Valid) (m : Mem) (l : List Int)
    (h : Arena K m l) (size tag : Int) :
    (K.PU_PURGELEVEL ≤ tag →
      (∀ fuel m' p, Z_Malloc K fuel m size tag 0 ≠ .ok m' p) ∧
      ∃ n, ∀ fuel, n ≤ fuel → ∃ m' e, Z_Malloc K fuel m size tag 0 = .fatal m' e) ∧
    (tag < K.PU_PURGELEVEL →
      (∀ fuel m', Z_Malloc K fuel m size tag 0 ≠ .fatal m' .malloc_owner_required) ∧
      ∃ n, ∀ fuel, n ≤ fuel →
        (∃ m', Z_Malloc K fuel m size tag 0 = .fatal m' .malloc_failed) ∨
        (∃ m' p, Z_Malloc K fuel m size tag 0 = .ok m' p)) := by
  obtain ⟨R, hR, hlen, _⟩ := scan_rotation hK h
  have hout := fun fuel (hf : R.length < fuel) =>
    malloc_outcome hK size tag 0 (fun _ _ _ _ _ => True) (fun _ _ _ _ _ => True)
      (fun _ _ _ _ _ _ _ _ _ _ _ _ _ _ => trivial) (fun _ _ _ _ _ _ _ _ => trivial) rfl hR
      trivial fuel hf
  constructor
  · intro htag
    constructor
    · intro fuel m' p e
      unfold Z_Malloc at e
      dsimp only at e
      split at e
      · unfold claim at e
        rw [if_pos ⟨rfl, htag⟩] at e
        exact nomatch e
      · exact nomatch e
      · exact nomatch e
    · refine ⟨R.length + 1, fun fuel hf => ?_⟩
      rcases hout fuel (by omega) with ⟨m', _, _, e, _, _⟩ | ⟨ms, base, _, _, _, _, _, _, _, e⟩
      · exact ⟨m', _, e⟩
      · rw [e]
        unfold claim
        rw [if_pos ⟨rfl, htag⟩]
        exact ⟨_, _, rfl⟩
  · intro htag
    have hno : ¬ ((0 : Int) = 0 ∧ tag ≥ K.PU_PURGELEVEL) := fun hh => by omega
    constructor
    · intro fuel m' e
      unfold Z_Malloc at e
      dsimp only at e
      split at e
      · unfold claim at e
        rw [if_neg hno] at e
        exact nomatch e
      · rename_i m1 e1 hs
        injection e with _ e2
        subst e2
        rcases scan_fatal_kind K _ _ _ _ _ _ _ _ hs with e3 | e3 <;> exact nomatch e3
      · exact nomatch e
    · refine ⟨R.length + 1, fun fuel hf => ?_⟩
      rcases hout fuel (by omega) with ⟨m', _, _, e, _, _⟩ | ⟨ms, base, _, _, _, _, _, _, _, e⟩
      · exact Or.inl ⟨m', e⟩
      · right
        rw [e]
        unfold claim
        rw [if_neg hno]
        exact ⟨_, _, rfl⟩

theorem C7_owner_required_witness :
    (lp64.PU_PURGELEVEL ≤ 8 →
      (∀ fuel m' p, Z_Malloc lp64 fuel (Z_Init lp64 zeroMem 1000 1056) 100 8 0 ≠ .ok m' p) ∧
      ∃ n, ∀ fuel, n ≤ fuel →
        ∃ m' e, Z_Malloc lp64 fuel (Z_Init lp64 zeroMem 1000 1056) 100 8 0 = .fatal m' e) ∧
    ((8 : Int) < lp64.PU_PURGELEVEL →
      (∀ fuel m', Z_Malloc lp64 fuel (Z_Init lp64 zeroMem 1000 1056) 100 8 0
        ≠ .fatal m' .malloc_owner_required) ∧
      ∃ n, ∀ fuel, n ≤ fuel →
        (∃ m', Z_Malloc lp64 fuel (Z_Init lp64 zeroMem 1000 1056) 100 8 0
          = .fatal m' .malloc_failed) ∨
        (∃ m' p, Z_Malloc lp64 fuel (Z_Init lp64 zeroMem 1000 1056) 100 8 0 = .ok m' p)) :=
  C7_owner_required lp64 (by decide) (Z_Init lp64 zeroMem 1000 1056) [1000 + lp64.sizeof_memzone_t]
    (init_arena (by decide) zeroMem 1000 1056 (by decide) (by decide)) 100 8

/-- C8: `Z_Free` ends in its fatal error, with the memory untouched, exactly
when the header in front of the pointer does not carry `ZONEID`; otherwise it
returns with that id reset to 0, and then `Z_Free` of the same pointer ends in
the fatal error, also behind any number of calls of `Z_Free`, `Z_FreeTags` and
`Z_ChangeTag2` that return. -/
theorem C8_free_checks_id (K : Params) (m : Mem) (ptr : Int) :
    ((∃ m' e, Z_Free K m ptr = .fatal m' e) ↔ m.id (ptr - K.sizeof_memblock_t) ≠ ZONEID) ∧
    (∀ m' e, Z_Free K m ptr = .fatal m' e → m' = m ∧ e = .free_without_zoneid) ∧
    (∀ m', Z_Free K m ptr = .ok m' () → m'.id (ptr - K.sizeof_memblock_t) = 0 ∧
      ∀ m'', Relation.ReflTransGen (FreeStep K) m' m'' →
        Z_Free K m'' ptr = .fatal m'' .free_without_zoneid) := by
  rcases Z_Free_cases K m ptr with ⟨hid, e⟩ | ⟨hid, e⟩
  · refine ⟨⟨fun _ => hid, fun _ => ⟨_, _, e⟩⟩, ?_, ?_⟩
    · intro m' e' he
      rw [e] at he
      injection he with e1 e2
      exact ⟨e1.symm, e2.symm⟩
    · intro m' he
      rw [e] at he; exact nomatch he
  · refine ⟨⟨fun ⟨_, _, he⟩ => ?_, fun hne => absurd hid hne⟩, ?_, ?_⟩
    · rw [e] at he; exact nomatch he
    · intro m' e' he
      rw [e] at he; exact nomatch he
    · intro m' he
      rw [e] at he
      injection he with e1 _
      subst e1
      have h0 : (coalesce K (markFree K m (ptr - K.sizeof_memblock_t))
          (ptr - K.sizeof_memblock_t)).id (ptr - K.sizeof_memblock_t) = 0 := by
        rw [coalesce_id, markFree_id, upd_same]
      refine ⟨h0, fun m'' hsteps => ?_⟩
      have h1 := freeStep_id_zero hsteps _ h0
      rcases Z_Free_cases K m'' ptr with ⟨_, e2⟩ | ⟨hid2, _⟩
      · exact e2
      · rw [h1] at hid2
        exact absurd hid2 (by decide)

/-- C9: on a well-formed arena `Z_FreeTags` returns, the arena is well formed
again, and afterwards no block in use has a tag in `[lowtag, hightag]`; every
block that was in use with a tag in the range is freed and its owner slot, if
it had an owner, holds `NULL`; every block that was in use with a tag outside
the range is still in the list with the same size, tag and owner. -/
theorem C9_free_tags (K : Params) (hK : K.Valid) (m : Mem) (l : List Int)
    (h : Arena K m l) (lowtag hightag : Int) :
    ∃ n, ∀ fuel, n ≤ fuel → ∃ m' l', Z_FreeTags K fuel m lowtag hightag = .ok m' () ∧
      Arena K m' l' ∧
      (∀ x ∈ l', m'.tag x ≠ K.PU_FREE → ¬ (m'.tag x ≥ lowtag ∧ m'.tag x ≤ hightag)) ∧
      (∀ b ∈ l, m.tag b ≠ K.PU_FREE → (m.tag b ≥ lowtag ∧ m.tag b ≤ hightag) →
        m'.tag b = K.PU_FREE ∧ (m.user b ≠ 0 → m'.slot (m.user b) = 0)) ∧
      (∀ b ∈ l, m.tag b ≠ K.PU_FREE → ¬ (m.tag b ≥ lowtag ∧ m.tag b ≤ hightag) →
        b ∈ l' ∧ m'.size b = m.size b ∧ m'.tag b = m.tag b ∧ m'.user b = m.user b) := by
  have hnd : l.Nodup := (List.nodup_cons.1 h.1.nodup).2
  refine ⟨l.length + 1, fun fuel hf => ?_⟩
  obtain ⟨m', l', e, hl', h1, _, Q, hQ, h3, h4⟩ :=
    freetags_outcome hK lowtag hightag (FTInv K lowtag hightag m l)
      (fun _ _ _ _ _ _ hinv hI hstep _ => ftinv_step hnd hinv hI hstep) h
      ⟨by simp, fun _ _ => ⟨rfl, rfl, fun _ => rfl⟩, [], by simp, by simp, by simp⟩
      fuel (by omega)
  have hQl : Q = l := by simpa using hQ.symm
  subst hQl
  exact ⟨m', l', e, hl', h1, h3, h4⟩

theorem C9_free_tags_witness :
    ∃ n, ∀ fuel, n ≤ fuel → ∃ m' l', Z_FreeTags lp64 fuel demoOwned 7 8 = .ok m' () ∧
      Arena lp64 m' l' ∧
      (∀ x ∈ l', m'.tag x ≠ lp64.PU_FREE → ¬ (m'.tag x ≥ 7 ∧ m'.tag x ≤ 8)) ∧
      (∀ b ∈ [1056, 1200], demoOwned.tag b ≠ lp64.PU_FREE →
        (demoOwned.tag b ≥ 7 ∧ demoOwned.tag b ≤ 8) →
        m'.tag b = lp64.PU_FREE ∧ (demoOwned.user b ≠ 0 → m'.slot (demoOwned.user b) = 0)) ∧
      (∀ b ∈ [1056, 1200], demoOwned.tag b ≠ lp64.PU_FREE →
        ¬ (demoOwned.tag b ≥ 7 ∧ demoOwned.tag b ≤ 8) →
        b ∈ l' ∧ m'.size b = demoOwned.size b ∧ m'.tag b = demoOwned.tag b ∧
          m'.user b = demoOwned.user b) :=
  C9_free_tags lp64 (by decide) demoOwned [1056, 1200] (by decide) 7 8

/-- C10: `Z_ChangeTag2` ends in a fatal error, with the memory untouched, exactly
when the block's id is not `ZONEID` or the tag is at or above `PU_PURGELEVEL`
and the block has no owner; otherwise it returns, the tag of that block is the
new tag, and nothing else has changed: no other tag, no size, owner, id or link
of any block, no owner slot, not the rover. -/
theorem C10_change_tag (K : Params) (m : Mem) (ptr tag : Int) :
    ((∃ m' e, Z_ChangeTag2 K m ptr tag = .fatal m' e) ↔
      (m.id (ptr - K.sizeof_memblock_t) ≠ ZONEID ∨
        (tag ≥ K.PU_PURGELEVEL ∧ m.user (ptr - K.sizeof_memblock_t) = 0))) ∧
    (∀ m' e, Z_ChangeTag2 K m ptr tag = .fatal m' e → m' = m) ∧
    (¬ (m.id (ptr - K.sizeof_memblock_t) ≠ ZONEID ∨
        (tag ≥ K.PU_PURGELEVEL ∧ m.user (ptr - K.sizeof_memblock_t) = 0)) →
      ∃ m', Z_ChangeTag2 K m ptr tag = .ok m' () ∧
        m'.tag (ptr - K.sizeof_memblock_t) = tag ∧
        (∀ x, x ≠ ptr - K.sizeof_memblock_t → m'.tag x = m.tag x) ∧
        m'.size = m.size ∧ m'.user = m.user ∧ m'.id = m.id ∧ m'.next = m.next ∧
        m'.prev = m.prev ∧ m'.slot = m.slot ∧ m'.rover = m.rover ∧
        m'.mainzone = m.mainzone ∧ m'.zonesize = m.zonesize) := by
  unfold Z_ChangeTag2
  dsimp only
  by_cases hid : m.id (ptr - K.sizeof_memblock_t) ≠ ZONEID
  · rw [if_pos hid]
    refine ⟨⟨fun _ => Or.inl hid, fun _ => ⟨_, _, rfl⟩⟩, ?_, fun hn => absurd (Or.inl hid) hn⟩
    intro m' e he
    injection he with e1 _
    exact e1.symm
  · rw [if_neg hid]
    by_cases hown : tag ≥ K.PU_PURGELEVEL ∧ m.user (ptr - K.sizeof_memblock_t) = 0
    · rw [if_pos hown]
      refine ⟨⟨fun _ => Or.inr hown, fun _ => ⟨_, _, rfl⟩⟩, ?_, fun hn => absurd (Or.inr hown) hn⟩
      intro m' e he
      injection he with e1 _
      exact e1.symm
    · rw [if_neg hown]
      refine ⟨⟨fun h => ?_, fun hh => ?_⟩, ?_, fun _ => ?_⟩
      · obtain ⟨_, _, he⟩ := h
        exact nomatch he
      · rcases hh with hh | hh
        · exact absurd hh hid
        · exact absurd hh hown
      · intro _ _ he
        exact nomatch he
      · exact ⟨_, rfl, upd_same _ _ _, fun x hx => upd_other _ _ hx, rfl, rfl, rfl, rfl, rfl,
          rfl, rfl, rfl, rfl⟩

/-- C11: after `Z_Init` on a zone of `size` bytes (an `int`, with
`size - sizeof(memzone_t)` an `int` as well) the list holds exactly one block,
the one right behind the zone header; it is tagged `PU_FREE`, has the size
`size - sizeof(memzone_t)`, is linked on both sides to the sentinel, and the
rover points at it. -/
theorem C11_init_single_block (K : Params) (hK : K.Valid) (m : Mem) (base size : Int)
    (h1 : size < 2147483648) (h2 : K.sizeof_memzone_t - 2147483648 ≤ size) :
    (∀ b, Listed K (Z_Init K m base size) b ↔ b = base + K.sizeof_memzone_t) ∧
      (Z_Init K m base size).tag (base + K.sizeof_memzone_t) = K.PU_FREE ∧
      (Z_Init K m base size).size (base + K.sizeof_memzone_t) = size - K.sizeof_memzone_t ∧
      (Z_Init K m base size).next (sentinel K (Z_Init K m base size))
        = base + K.sizeof_memzone_t ∧
      (Z_Init K m base size).prev (sentinel K (Z_Init K m base size))
        = base + K.sizeof_memzone_t ∧
      (Z_Init K m base size).next (base + K.sizeof_memzone_t)
        = sentinel K (Z_Init K m base size) ∧
      (Z_Init K m base size).prev (base + K.sizeof_memzone_t)
        = sentinel K (Z_Init K m base size) ∧
      (Z_Init K m base size).rover = base + K.sizeof_memzone_t := by
  obtain ⟨_, _, _, hh0, _, hoff, hmz⟩ := hK
  have hne : base + K.blocklist_offset ≠ base + K.sizeof_memzone_t := by omega
  have hsz : toInt (size - K.sizeof_memzone_t) = size - K.sizeof_memzone_t := by
    apply toInt_eq <;> omega
  have hs : sentinel K (Z_Init K m base size) = base + K.blocklist_offset := by
    simp [Z_Init, sentinel]
  have hn1 : (Z_Init K m base size).next (base + K.blocklist_offset)
      = base + K.sizeof_memzone_t := by
    simp [Z_Init, sentinel, upd_other _ _ hne]
  have hn2 : (Z_Init K m base size).next (base + K.sizeof_memzone_t)
      = base + K.blocklist_offset := by
    simp [Z_Init, sentinel]
  rw [hs]
  refine ⟨fun b => ⟨fun hb => ?_, fun hb => ?_⟩, by simp [Z_Init], by simp [Z_Init, hsz], hn1,
    by simp [Z_Init, sentinel, upd_other _ _ hne], hn2, by simp [Z_Init, sentinel],
    by simp [Z_Init]⟩
  · induction hb with
    | head _ => rw [hs]; exact hn1
    | next b' _ hnx ih =>
      rw [ih, hn2, hs] at hnx
      exact absurd rfl hnx
  · have := @Listed.head K (Z_Init K m base size) (by rw [hs, hn1]; exact fun e => hne e.symm)
    rw [hs, hn1] at this
    rw [hb]; exact this

theorem C11_init_single_block_witness :
    (∀ b, Listed lp64 demoInit b ↔ b = 1000 + lp64.sizeof_memzone_t) ∧
      demoInit.tag (1000 + lp64.sizeof_memzone_t) = lp64.PU_FREE ∧
      demoInit.size (1000 + lp64.sizeof_memzone_t) = 1056 - lp64.sizeof_memzone_t ∧
      demoInit.next (sentinel lp64 demoInit) = 1000 + lp64.sizeof_memzone_t ∧
      demoInit.prev (sentinel lp64 demoInit) = 1000 + lp64.sizeof_memzone_t ∧
      demoInit.next (1000 + lp64.sizeof_memzone_t) = sentinel lp64 demoInit ∧
      demoInit.prev (1000 + lp64.sizeof_memzone_t) = sentinel lp64 demoInit ∧
      demoInit.rover = 1000 + lp64.sizeof_memzone_t :=
  C11_init_single_block lp64 (by decide) zeroMem 1000 1056 (by decide) (by decide)

/-- C12: `Z_Free` on the payload pointer of a block of a well-formed arena ends
(with its result or its fatal error) with every other block in use still in the
list, at the same address, with the same size, tag, owner and id; no owner slot
is written but the one of the freed block, and none at all when the freed block
has no owner. -/
theorem C12_free_frame {K : Params} (hK : K.Valid) {m : Mem} {l : List Int}
    (h : Arena K m l) {ptr : Int} (hb : ptr - K.sizeof_memblock_t ∈ l) :
    ∃ m', (Z_Free K m ptr = .ok m' () ∨ ∃ e, Z_Free K m ptr = .fatal m' e) ∧
      (∀ z ∈ l, z ≠ ptr - K.sizeof_memblock_t → m.tag z ≠ K.PU_FREE →
        Listed K m' z ∧ m'.size z = m.size z ∧ m'.tag z = m.tag z ∧ m'.user z = m.user z ∧
          m'.id z = m.id z) ∧
      (∀ u, u ≠ m.user (ptr - K.sizeof_memblock_t) → m'.slot u = m.slot u) ∧
      (m.user (ptr - K.sizeof_memblock_t) = 0 → m'.slot = m.slot) := by
  have hnd := h.1.nodup
  simp only [List.nodup_cons] at hnd
  have hns : ∀ z ∈ l, z ≠ sentinel K m := fun z hz e => hnd.1 (e ▸ hz)
  rcases Z_Free_cases K m ptr with ⟨_, e⟩ | ⟨_, e⟩
  · exact ⟨m, Or.inr ⟨_, e⟩,
      fun z hz _ _ => ⟨mem_listed h.1 (by simp [hz]) (hns z hz), rfl, rfl, rfl, rfl⟩,
      fun _ _ => rfl, fun _ => rfl⟩
  · obtain ⟨c', hc', _, hlive⟩ :=
      free_cinv_live hK h (show ptr - K.sizeof_memblock_t ∈ sentinel K m :: l by simp [hb])
        (hns _ hb)
    have hd := freeDelta_coalesce K m (ptr - K.sizeof_memblock_t)
    refine ⟨_, Or.inl e, fun z hz hzb hzf => ?_, fun u hu => ?_, fun hu => ?_⟩
    · refine ⟨mem_listed hc'.1 (hlive z (by simp [hz]) hzb hzf) ?_, hd.size z hzb hzf, ?_, ?_, ?_⟩
      · simpa [sentinel, hd.mainzone] using hns z hz
      · rw [hd.tag, upd_other _ _ hzb]
      · rw [hd.user, upd_other _ _ hzb]
      · rw [hd.id, upd_other _ _ hzb]
    · rw [hd.slot]
      split
      · rw [upd_other _ _ hu]
      · rfl
    · rw [hd.slot, if_neg (fun hc => hc.2 hu)]

theorem C12_free_frame_witness :
    ∃ m', (Z_Free lp64 demoFull 1384 = .ok m' () ∨ ∃ e, Z_Free lp64 demoFull 1384 = .fatal m' e) ∧
      (∀ z ∈ [1056, 1200, 1344, 1784], z ≠ 1384 - lp64.sizeof_memblock_t →
        demoFull.tag z ≠ lp64.PU_FREE →
        Listed lp64 m' z ∧ m'.size z = demoFull.size z ∧ m'.tag z = demoFull.tag z ∧
          m'.user z = demoFull.user z ∧ m'.id z = demoFull.id z) ∧
      (∀ u, u ≠ demoFull.user (1384 - lp64.sizeof_memblock_t) → m'.slot u = demoFull.slot u) ∧
      (demoFull.user (1384 - lp64.sizeof_memblock_t) = 0 → m'.slot = demoFull.slot) :=
  C12_free_frame (by decide : lp64.Valid)
    (show Arena lp64 demoFull [1056, 1200, 1344, 1784] from by decide) (by decide)

/-- C13: when `Z_Malloc` returns on a well-formed arena (size not negative),
every purgable block that it has evicted (a block of the list that was
purgable before the call, and is now the returned block or tagged `PU_FREE`)
has `NULL` in its owner slot, unless that slot is the `user` of the call, which
then holds the returned pointer. -/
theorem C13_purge_clears_owner {K : Params} (hK : K.Valid) {m : Mem} {l : List Int}
    (h : Arena K m l) {size tag user : Int} (h0 : 0 ≤ size) (h1 : size < 2147483648)
    {fuel : Nat} {m' : Mem} {p : Int} (hz : Z_Malloc K fuel m size tag user = .ok m' p) :
    ∀ x ∈ l, Purgable K m x → (x = p - K.sizeof_memblock_t ∨ m'.tag x = K.PU_FREE) →
      m'.slot (m.user x) = if m.user x = user then p else 0 := by
  obtain ⟨R, hR, _, hmem⟩ := scan_rotation hK h
  have hz' := malloc_fuel_mono K fuel m size tag user (by rw [hz]; exact fun e => nomatch e)
    (R.length + 1)
  rw [hz] at hz'
  rcases malloc_hist_cleared hK size tag user hR (fuel + (R.length + 1)) (by omega) with
    ⟨_, _, _, _, _, e, _⟩ | ⟨ms, base, rover, P, T, Q, span, hS, hH, hC, hfree, hsz, e⟩
  · rw [hz'] at e; exact nomatch e
  rw [hz'] at e
  have hbase := scanst_base_mem hS
  have hbases := sentinel_not_free hK hS.inv.2 hfree
  have hneed := needed_split hK hS.inv.1 hbase hbases h0 h1 hsz
  rcases claim_cases K (split K ms base (needed K size)) base tag user with ⟨_, _, e2⟩ | ⟨_, e2⟩
  · rw [e2] at e; exact nomatch e
  rw [e2] at e
  injection e with e3 e4
  subst e3 e4
  have hp : base + K.sizeof_memblock_t - K.sizeof_memblock_t = base := by omega
  rw [hp]
  intro x hx hpx hev
  have hxs := purgable_ne_sentinel hK h.2 hpx
  have hux : m.user x ≠ 0 := h.2.owner x (by simp [hx]) hxs hpx.1 (by have := hpx.2; omega)
  have hxR : x ∈ R ++ [scanStart K m] := (hmem x).2 (by simp [hx])
  have hnot : x ∉ T ++ [scanStart K m] := by
    intro hxT
    have ha := hH.ahead x hxT
    have hxl : x ∈ P ++ T ++ [scanStart K m] := by
      simp only [List.mem_append, List.mem_singleton] at hxT ⊢
      rcases hxT with hxT | hxT
      · exact Or.inl (Or.inr hxT)
      · exact Or.inr hxT
    have hxb : x ≠ base := by
      intro e5
      rw [e5, hfree] at ha
      exact hpx.1 (e5 ▸ ha.1.symm)
    obtain ⟨f1, _, _⟩ := split_frame hK hS.inv.1 hbase hbases hneed hxl hxb
    rcases hev with hev | hev
    · exact hxb hev
    · rw [claimMem_tag, upd_other _ _ hxb, f1, ha.1] at hev
      exact hpx.1 hev
  have hxR' : x ∈ R ∧ x ∉ T := by
    simp only [List.mem_append, List.mem_singleton, not_or] at hxR hnot
    rcases hxR with hxR | hxR
    · exact ⟨hxR, hnot.1⟩
    · exact absurd hxR hnot.2
  have hzero := hC x hxR'.1 hxR'.2 hpx hux
  rw [claimMem_slot, split_slot]
  by_cases hu : m.user x = user
  · rw [if_pos hu, if_pos (by rw [← hu]; exact hux), ← hu, upd_same]
  · rw [if_neg hu]
    split
    · rw [upd_other _ _ hu]; exact hzero
    · exact hzero

theorem C13_purge_clears_owner_witness :
    Purgable lp64 demoFull 1344 ∧
      (memOf (Z_Malloc lp64 8 demoFull 300 1 0)).slot (demoFull.user 1344)
        = if demoFull.user 1344 = 0 then 1384 else 0 :=
  ⟨by decide,
    C13_purge_clears_owner (by decide : lp64.Valid)
      (show Arena lp64 demoFull [1056, 1200, 1344, 1784] from by decide) (by decide) (by decide)
      (show Z_Malloc lp64 8 demoFull 300 1 0 =
        .ok (memOf (Z_Malloc lp64 8 demoFull 300 1 0)) 1384 from rfl)
      1344 (by decide) (by decide) (Or.inl (by decide))⟩

/-- C24: in every arena that arises from `Z_Init` by calls that return (with any
tags; `Z_Malloc` with a size that is not negative, `Z_Free` and `Z_ChangeTag2`
on the payload pointer of a block in the list), the rover is the sentinel or a
block in the list.  When `Z_Free` returns on the block `b`, with `p` before it
and `n` behind it: `b` is merged away if `p` is tagged `PU_FREE`, `n` is merged
away if it is tagged `PU_FREE`, the block that absorbs them is `p` if `p` is
free and `b` otherwise; a rover that pointed at a block merged away points at
the absorbing block, which is in the list while the blocks merged away are not,
and any other rover is unchanged.  When `Z_Malloc` returns, the block handed
over is in the list and the rover is its successor. -/
theorem C24_rover_in_list (K : Params) (hK : K.Valid) (m : Mem) (h : Returns K m) :
    (m.rover = sentinel K m ∨ Listed K m m.rover) ∧
    (∀ (ptr : Int) (m' : Mem), Listed K m (ptr - K.sizeof_memblock_t) →
      Z_Free K m ptr = .ok m' () →
      m'.rover =
        (if (m.rover = ptr - K.sizeof_memblock_t ∧
              m.tag (m.prev (ptr - K.sizeof_memblock_t)) = K.PU_FREE) ∨
            (m.rover = m.next (ptr - K.sizeof_memblock_t) ∧
              m.tag (m.next (ptr - K.sizeof_memblock_t)) = K.PU_FREE)
          then (if m.tag (m.prev (ptr - K.sizeof_memblock_t)) = K.PU_FREE
            then m.prev (ptr - K.sizeof_memblock_t) else ptr - K.sizeof_memblock_t)
          else m.rover) ∧
      Listed K m' (if m.tag (m.prev (ptr - K.sizeof_memblock_t)) = K.PU_FREE
        then m.prev (ptr - K.sizeof_memblock_t) else ptr - K.sizeof_memblock_t) ∧
      (m.tag (m.prev (ptr - K.sizeof_memblock_t)) = K.PU_FREE →
        ¬ Listed K m' (ptr - K.sizeof_memblock_t)) ∧
      (m.tag (m.next (ptr - K.sizeof_memblock_t)) = K.PU_FREE →
        ¬ Listed K m' (m.next (ptr - K.sizeof_memblock_t)))) ∧
    (∀ (fuel : Nat) (size tag user : Int) (m' : Mem) (p : Int), 0 ≤ size →
      size < 2147483648 → Z_Malloc K fuel m size tag user = .ok m' p →
      Listed K m' (p - K.sizeof_memblock_t) ∧ m'.rover = m'.next (p - K.sizeof_memblock_t)) := by
  obtain ⟨l, hl⟩ := returns_weak hK h
  refine ⟨?_, ?_, ?_⟩
  · have hr := hl.struct.rover
    by_cases e : m.rover = sentinel K m
    · exact Or.inl e
    · exact Or.inr (mem_listed hl.struct hr e)
  · intro ptr m' hb hz
    obtain ⟨hbc, hbs⟩ := listed_weak hl hb
    rcases Z_Free_cases K m ptr with ⟨_, ef⟩ | ⟨_, ef⟩
    · rw [ef] at hz; cases hz
    rw [ef] at hz
    injection hz with e1 _
    subst e1
    obtain ⟨c', hw, hmem, hrov, _, _⟩ := free_weak hK hl hbc hbs
    have hs' : sentinel K (coalesce K (markFree K m (ptr - K.sizeof_memblock_t))
        (ptr - K.sizeof_memblock_t)) = sentinel K m := by
      simp [sentinel, coalesce_mainzone]
    obtain ⟨hpm, hpb, hpn⟩ := struct_pred hl.struct hbc hbs
    obtain ⟨hnm, hnb, _⟩ := struct_succ hl.struct hbc hbs
    refine ⟨hrov, ?_, ?_, ?_⟩
    · by_cases hp : m.tag (m.prev (ptr - K.sizeof_memblock_t)) = K.PU_FREE
      · rw [if_pos hp]
        have hps := weak_not_free hK hl hp
        refine mem_listed hw.struct ((hmem _).2 ⟨hpm, fun hh => hpb hh.1, ?_⟩) (by rw [hs']; exact hps)
        rintro ⟨e, hn⟩
        have hns := weak_not_free hK hl hn
        have g1 := struct_next_gt hK hl.struct hbc hbs
        have g2 := struct_next_gt hK hl.struct hpm hps
        rw [hpn] at g2
        rcases g1 with g1 | g1
        · exact hns g1
        · rcases g2 with g2 | g2
          · exact hbs g2
          · omega
      · rw [if_neg hp]
        exact mem_listed hw.struct
          ((hmem _).2 ⟨hbc, fun hh => hp hh.2, fun hh => hnb hh.1.symm⟩) (by rw [hs']; exact hbs)
    · intro hp hlist
      exact ((hmem _).1 (listed_weak hw hlist).1).2.1 ⟨rfl, hp⟩
    · intro hn hlist
      exact ((hmem _).1 (listed_weak hw hlist).1).2.2 ⟨rfl, hn⟩
  · intro fuel size tag user m' p h0 h1 hz
    obtain ⟨c', hw, hbc, hbs, hrov, _⟩ := malloc_weak hK hl h0 h1 hz
    exact ⟨mem_listed hw.struct hbc hbs, hrov⟩

theorem C24_rover_in_list_witness :
    (demoCache.rover = sentinel lp64 demoCache ∨ Listed lp64 demoCache demoCache.rover) ∧
    (∀ (ptr : Int) (m' : Mem), Listed lp64 demoCache (ptr - lp64.sizeof_memblock_t) →
      Z_Free lp64 demoCache ptr = .ok m' () →
      m'.rover =
        (if (demoCache.rover = ptr - lp64.sizeof_memblock_t ∧
              demoCache.tag (demoCache.prev (ptr - lp64.sizeof_memblock_t)) = lp64.PU_FREE) ∨
            (demoCache.rover = demoCache.next (ptr - lp64.sizeof_memblock_t) ∧
              demoCache.tag (demoCache.next (ptr - lp64.sizeof_memblock_t)) = lp64.PU_FREE)
          then (if demoCache.tag (demoCache.prev (ptr - lp64.sizeof_memblock_t)) = lp64.PU_FREE
            then demoCache.prev (ptr - lp64.sizeof_memblock_t) else ptr - lp64.sizeof_memblock_t)
          else demoCache.rover) ∧
      Listed lp64 m' (if demoCache.tag (demoCache.prev (ptr - lp64.sizeof_memblock_t)) = lp64.PU_FREE
        then demoCache.prev (ptr - lp64.sizeof_memblock_t) else ptr - lp64.sizeof_memblock_t) ∧
      (demoCache.tag (demoCache.prev (ptr - lp64.sizeof_memblock_t)) = lp64.PU_FREE →
        ¬ Listed lp64 m' (ptr - lp64.sizeof_memblock_t)) ∧
      (demoCache.tag (demoCache.next (ptr - lp64.sizeof_memblock_t)) = lp64.PU_FREE →
        ¬ Listed lp64 m' (demoCache.next (ptr - lp64.sizeof_memblock_t)))) ∧
    (∀ (fuel : Nat) (size tag user : Int) (m' : Mem) (p : Int), 0 ≤ size →
      size < 2147483648 → Z_Malloc lp64 fuel demoCache size tag user = .ok m' p →
      Listed lp64 m' (p - lp64.sizeof_memblock_t) ∧
        m'.rover = m'.next (p - lp64.sizeof_memblock_t)) :=
  C24_rover_in_list lp64 (by decide) demoCache demoCache_returns

/-- C27: in every arena that arises from `Z_Init` by calls that return (with any
tags; `Z_Malloc` with a size that is not negative, `Z_Free` and `Z_ChangeTag2`
on the payload pointer of a block in the list), where `PU_FREE` is below
`PU_PURGELEVEL`, every block of the list with a tag at or above `PU_PURGELEVEL`
has an owner that is not `NULL`; it carries `ZONEID`, so that `Z_Free` on it
returns, and afterwards its owner slot holds `NULL`. -/
theorem C27_purgable_has_owner (K : Params) (hK : K.Valid)
    (hF : K.PU_FREE < K.PU_PURGELEVEL) (m : Mem) (h : Returns K m) (b : Int)
    (hb : Listed K m b) (hp : m.tag b ≥ K.PU_PURGELEVEL) :
    m.user b ≠ 0 ∧
      ∃ m', Z_Free K m (b + K.sizeof_memblock_t) = .ok m' () ∧ m'.slot (m.user b) = 0 := by
  obtain ⟨l, hl⟩ := returns_weak hK h
  obtain ⟨hbc, hbs⟩ := listed_weak hl hb
  have hnf : m.tag b ≠ K.PU_FREE := by omega
  have hu := hl.owner b hbc hbs hnf hp
  have hid := hl.ids b hbc hbs hnf
  refine ⟨hu, _, Z_Free_ok K m b hid, ?_⟩
  rw [coalesce_slot, markFree_slot, if_pos ⟨hnf, hu⟩, upd_same]

theorem C27_purgable_has_owner_witness :
    Listed lp64 demoCache 1056 ∧ demoCache.tag 1056 ≥ lp64.PU_PURGELEVEL ∧
      demoCache.user 1056 ≠ 0 ∧
      ∃ m', Z_Free lp64 demoCache (1056 + lp64.sizeof_memblock_t) = .ok m' () ∧
        m'.slot (demoCache.user 1056) = 0 :=
  ⟨Listed.head (by decide), by decide,
    C27_purgable_has_owner lp64 (by decide) (by decide) demoCache demoCache_returns 1056
      (Listed.head (by decide)) (by decide)⟩

/-- C28: in every arena that arises from `Z_Init` on a zone of `size` bytes (then
`mainzone->size` is `size`) by calls that return (with any tags; `Z_Malloc`
with a size that is not negative, `Z_Free` and `Z_ChangeTag2` on the payload
pointer of a block in the list), the blocks reached from the sentinel along
`next` form a list without repetition whose `size` fields add up to
`mainzone->size - sizeof(memzone_t)`. -/
theorem C28_sizes_add_up (K : Params) (hK : K.Valid) (m : Mem) (h : Returns K m) :
    ∃ l : List Int, l.Nodup ∧ (∀ b, Listed K m b ↔ b ∈ l) ∧
      total m l = m.zonesize - K.sizeof_memzone_t := by
  obtain ⟨l, hl⟩ := returns_weak hK h
  have hnd := hl.struct.nodup
  rw [List.nodup_cons] at hnd
  refine ⟨l, hnd.2, fun b => ⟨fun hb => listed_in hl.struct hb, fun hb => ?_⟩,
    struct_total hK hl.struct⟩
  exact mem_listed hl.struct (List.mem_cons_of_mem _ hb) (fun e => hnd.1 (e ▸ hb))

theorem C28_sizes_add_up_witness :
    ∃ l : List Int, l.Nodup ∧ (∀ b, Listed lp64 demoCache b ↔ b ∈ l) ∧
      total demoCache l = demoCache.zonesize - lp64.sizeof_memzone_t :=
  C28_sizes_add_up lp64 (by decide) demoCache demoCache_returns

end Zone

namespace Query

open query_target_type_t query_target_state_t

/-! ## Arrays of targets -/

theorem onTarget_length (f : query_target_t → query_target_t) :
    ∀ (i : Nat) (l : List query_target_t), (onTarget f i l).length = l.length
  | _, [] => by simp [onTarget]
  | 0, _ :: _ => by simp [onTarget]
  | i + 1, _ :: ts => by simp [onTarget, onTarget_length f i ts]

theorem onTarget_get (f : query_target_t → query_target_t) :
    ∀ (i : Nat) (l : List query_target_t) (j : Nat),
      (onTarget f i l)[j]? = if j = i then (l[j]?).map f else l[j]?
  | _, [], j => by simp [onTarget]
  | 0, t :: ts, j => by
    cases j with
    | zero => simp [onTarget]
    | succ j => simp [onTarget]
  | i + 1, t :: ts, j => by
    cases j with
    | zero => simp [onTarget]
    | succ j => simp [onTarget, onTarget_get f i ts j]

theorem firstIndex_none (p : query_target_t → Bool) :
    ∀ (l : List query_target_t) (k : Nat), firstIndex p l k = none ↔ ∀ t ∈ l, p t = false
  | [], k => by simp [firstIndex]
  | t :: ts, k => by
    rw [firstIndex]
    by_cases h : p t
    · simp [h]
    · simp [h, firstIndex_none p ts (k + 1)]

theorem firstIndex_some (p : query_target_t → Bool) :
    ∀ (l : List query_target_t) (k i : Nat), firstIndex p l k = some i →
      k ≤ i ∧ ∃ t, l[i - k]? = some t ∧ p t = true ∧
        ∀ j t', j < i - k → l[j]? = some t' → p t' = false
  | [], k, i, h => by simp [firstIndex] at h
  | t :: ts, k, i, h => by
    rw [firstIndex] at h
    by_cases hp : p t
    · rw [if_pos hp] at h
      injection h with h
      subst h
      refine ⟨le_refl _, t, by simp, hp, fun j t' hj => by omega⟩
    · rw [if_neg hp] at h
      obtain ⟨h1, t1, h2, h3, h4⟩ := firstIndex_some p ts (k + 1) i h
      refine ⟨by omega, t1, ?_, h3, fun j t' hj hjt => ?_⟩
      · have e : i - k = (i - (k + 1)) + 1 := by omega
        rw [e]; simpa using h2
      · cases j with
        | zero =>
          simp only [List.getElem?_cons_zero, Option.some.injEq] at hjt
          rw [← hjt]; simpa using hp
        | succ j =>
          simp only [List.getElem?_cons_succ] at hjt
          exact h4 j t' (by omega) hjt

theorem target_eq (st : State) (i : Nat) (t : query_target_t) (h : st.targets[i]? = some t) :
    st.target i = t := by
  simp [State.target, List.getD, h]

/-! ## `unsigned int` arithmetic -/

theorem u32_sub {a b : Nat} (h : b ≤ a) (ha : a < 4294967296) :
    u32 ((a : Int) - (b : Int)) = a - b := by
  unfold u32; omega

theorem u32_sub_i32 {a b : Nat} (h : b ≤ a) (ha : a < 4294967296) :
    u32 ((a : Int) - i32 (b : Int)) = a - b := by
  unfold u32 i32; omega

/-! ## `net_get_target_for_addr` -/

/-- The search without `create`: nothing changes; the result is the first
target with the address. -/
theorem lookup_cases (st : State) (addr : Nat) :
    (net_get_target_for_addr st addr false = (st, none) ∧ ∀ t ∈ st.targets, t.addr ≠ addr) ∨
    (∃ i t, net_get_target_for_addr st addr false = (st, some i) ∧ st.targets[i]? = some t ∧
      t.addr = addr ∧ ∀ j t', j < i → st.targets[j]? = some t' → t'.addr ≠ addr) := by
  unfold net_get_target_for_addr
  cases h : firstIndex (fun t => t.addr = addr) st.targets 0 with
  | none =>
    left
    refine ⟨by simp, fun t ht => ?_⟩
    have := (firstIndex_none _ _ _).1 h t ht
    simpa using this
  | some i =>
    right
    obtain ⟨_, t, h2, h3, h4⟩ := firstIndex_some _ _ _ _ h
    refine ⟨i, t, rfl, by simpa using h2, by simpa using h3, fun j t' hj hjt => ?_⟩
    have := h4 j t' (by simpa using hj) hjt
    simpa using this

/-- The search with `create`: the first target with the address, or a new last
entry. -/
theorem create_cases (st : State) (addr : Nat) :
    (∃ i t, net_get_target_for_addr st addr true = (st, some i) ∧ st.targets[i]? = some t ∧
      t.addr = addr) ∨
    ((∀ t ∈ st.targets, t.addr ≠ addr) ∧
      net_get_target_for_addr st addr true =
        ({ st with targets := st.targets ++ [newTarget st addr] }, some st.targets.length)) := by
  unfold net_get_target_for_addr
  cases h : firstIndex (fun t => t.addr = addr) st.targets 0 with
  | none =>
    right
    refine ⟨fun t ht => ?_, by simp [newTarget]⟩
    have := (firstIndex_none _ _ _).1 h t ht
    simpa using this
  | some i =>
    left
    obtain ⟨_, t, h2, h3, _⟩ := firstIndex_some _ _ _ _ h
    exact ⟨i, t, rfl, by simpa using h2, by simpa using h3⟩

theorem lookup_eq_create (st : State) (addr : Nat) (i : Nat)
    (h : net_get_target_for_addr st addr false = (st, some i)) :
    net_get_target_for_addr st addr true = (st, some i) := by
  unfold net_get_target_for_addr at h ⊢
  cases hf : firstIndex (fun t => t.addr = addr) st.targets 0 with
  | none => rw [hf] at h; simp at h
  | some j => rw [hf] at h; simpa using h

theorem onTarget_last (f : query_target_t → query_target_t) (t : query_target_t) :
    ∀ (l : List query_target_t), onTarget f l.length (l ++ [t]) = l ++ [f t]
  | [] => rfl
  | a :: l => by simp [onTarget, onTarget_last f t l]

theorem getD_append_left (l : List query_target_t) (t : query_target_t) (i : Nat)
    (a : query_target_t) (h : l[i]? = some a) : (l ++ [t]).getD i default = a := by
  have hi : i < l.length := by
    by_contra hc
    rw [List.getElem?_eq_none (by omega)] at h
    exact nomatch h
  simp [List.getD, List.getElem?_append_left hi, h]

theorem mem_of_get {l : List query_target_t} {i : Nat} {t : query_target_t}
    (h : l[i]? = some t) : t ∈ l := by
  rw [List.getElem?_eq_some] at h
  obtain ⟨hi, e⟩ := h
  rw [← e]
  exact List.getElem_mem hi

/-! ## `net_query_ParseResponse` -/

/-- A packet that is not a readable query response changes nothing. -/
theorem parse_invalid (K : Consts) (st : State) (addr : Nat) (packet : net_packet_t)
    (callback : net_query_callback_t) (now : Nat) (h : ¬ ValidResponse K packet) :
    net_query_ParseResponse K st addr packet callback now = st := by
  unfold net_query_ParseResponse
  unfold ValidResponse at h
  cases hh : packet.header with
  | none => rfl
  | some pt =>
    dsimp only
    by_cases hp : pt ≠ K.NET_PACKET_TYPE_QUERY_RESPONSE
    · rw [if_pos hp]
    · rw [if_neg hp]
      cases hq : packet.querydata with
      | none => rfl
      | some qd =>
        exfalso
        apply h
        rw [hh, hq]
        exact ⟨by simpa using hp, by simp⟩

/-- A query response from the address of a target: the target is marked as
having responded, unless it is marked so already. -/
theorem parse_known (K : Consts) (st : State) (addr : Nat) (packet : net_packet_t)
    (callback : net_query_callback_t) (now : Nat) {qd : Nat}
    (hh : packet.header = some K.NET_PACKET_TYPE_QUERY_RESPONSE) (hq : packet.querydata = some qd)
    {i : Nat} {t : query_target_t}
    (hl : net_get_target_for_addr st addr false = (st, some i)) (ht : st.targets[i]? = some t) :
    net_query_ParseResponse K st addr packet callback now =
      if t.state ≠ QUERY_TARGET_RESPONDED then
        callback addr qd (u32 (now - t.query_time))
          { st with targets := (onTarget (fun t' =>
              { t' with state := QUERY_TARGET_RESPONDED, data := qd,
                        ping_time := u32 (now - t.query_time) }) i st.targets) }
      else st := by
  unfold net_query_ParseResponse
  rw [hh]
  dsimp only
  rw [if_neg (by simp), hq]
  dsimp only
  rw [hl]
  dsimp only
  rw [target_eq st i t ht]

/-- A query response from an address without a target: a target is created and
marked as having responded if the first target with the address `NULL` is in
the state `QUERIED`; otherwise nothing changes. -/
theorem parse_unknown (K : Consts) (st : State) (addr : Nat) (packet : net_packet_t)
    (callback : net_query_callback_t) (now : Nat) {qd : Nat}
    (hh : packet.header = some K.NET_PACKET_TYPE_QUERY_RESPONSE) (hq : packet.querydata = some qd)
    (hl : ∀ t ∈ st.targets, t.addr ≠ addr) :
    (net_get_target_for_addr st 0 false = (st, none) ∧
      net_query_ParseResponse K st addr packet callback now = st) ∨
    (∃ b bt, net_get_target_for_addr st 0 false = (st, some b) ∧ st.targets[b]? = some bt ∧
      net_query_ParseResponse K st addr packet callback now =
        if bt.state ≠ QUERY_TARGET_QUERIED then st
        else callback addr qd (u32 (now - bt.query_time))
          { st with targets := st.targets ++
              [{ newTarget st addr with state := QUERY_TARGET_RESPONDED,
                                        query_time := bt.query_time, data := qd,
                                        ping_time := u32 (now - bt.query_time) }] }) := by
  have hno : net_get_target_for_addr st addr false = (st, none) := by
    rcases lookup_cases st addr with ⟨e, _⟩ | ⟨i, t, _, ht, hta, _⟩
    · exact e
    · exact absurd hta (hl t (mem_of_get ht))
  have hcr : net_get_target_for_addr st addr true =
      ({ st with targets := st.targets ++ [newTarget st addr] }, some st.targets.length) := by
    rcases create_cases st addr with ⟨i, t, _, ht, hta⟩ | ⟨_, e⟩
    · exact absurd hta (hl t (mem_of_get ht))
    · exact e
  unfold net_query_ParseResponse
  rw [hh]
  dsimp only
  rw [if_neg (by simp), hq]
  dsimp only
  rw [hno]
  dsimp only
  rcases lookup_cases st 0 with ⟨e, _⟩ | ⟨b, bt, e, hbt, _, _⟩
  · left
    rw [e]
    exact ⟨rfl, rfl⟩
  · right
    refine ⟨b, bt, e, hbt, ?_⟩
    rw [e]
    dsimp only
    rw [target_eq st b bt hbt]
    by_cases hs : bt.state ≠ QUERY_TARGET_QUERIED
    · rw [if_pos hs, if_pos hs]
    · rw [if_neg hs, if_neg hs, hcr]
      dsimp only
      rw [onTarget_last]
      simp only [State.target, getD_append_left st.targets _ b bt hbt]
      simp [List.getD, newTarget, onTarget_last]

/-! ## `net_all_targets_done`, `net_send_one_query`, `net_check_target_timeouts` -/

theorem all_done_iff (st : State) :
    net_all_targets_done st = true ↔
      ∀ t ∈ st.targets, t.state = QUERY_TARGET_RESPONDED ∨ t.state = QUERY_TARGET_NO_RESPONSE := by
  unfold net_all_targets_done
  rw [List.all_eq_true]
  constructor
  · intro h t ht
    have := h t ht
    simp only [ne_eq, decide_not, Bool.not_eq_true', decide_eq_false_iff_not, not_and,
      Decidable.not_not, decide_eq_true_eq] at this
    by_cases e : t.state = QUERY_TARGET_RESPONDED
    · exact Or.inl e
    · exact Or.inr (this e)
  · intro h t ht
    simp only [ne_eq, decide_not, Bool.not_eq_true', decide_eq_false_iff_not, not_and,
      Decidable.not_not, decide_eq_true_eq]
    intro e
    rcases h t ht with h1 | h1
    · exact absurd h1 e
    · exact h1

theorem state_cases (s : query_target_state_t) :
    s = QUERY_TARGET_QUEUED ∨ s = QUERY_TARGET_QUERIED ∨ s = QUERY_TARGET_RESPONDED ∨
      s = QUERY_TARGET_NO_RESPONSE := by
  cases s <;> simp

/-- The target can be queried at the clock reading `now`: it is queued, or its
last query is more than `QUERY_TIMEOUT_SECS` seconds old. -/
theorem send_cases (st : State) (now : Nat) :
    (net_send_one_query st now = st ∧
      (u32 (now - st.last_query_time) < 50 ∨
        ∀ t ∈ st.targets, ¬ (t.state = QUERY_TARGET_QUEUED ∨
          (t.state = QUERY_TARGET_QUERIED ∧
            u32 (now - t.query_time) > QUERY_TIMEOUT_SECS * 1000)))) ∨
    (∃ i t, 50 ≤ u32 (now - st.last_query_time) ∧ st.targets[i]? = some t ∧
      (t.state = QUERY_TARGET_QUEUED ∨
        (t.state = QUERY_TARGET_QUERIED ∧
          u32 (now - t.query_time) > QUERY_TIMEOUT_SECS * 1000)) ∧
      (∀ j t', j < i → st.targets[j]? = some t' → ¬ (t'.state = QUERY_TARGET_QUEUED ∨
          (t'.state = QUERY_TARGET_QUERIED ∧
            u32 (now - t'.query_time) > QUERY_TIMEOUT_SECS * 1000))) ∧
      net_send_one_query st now =
        { st with
          targets := (onTarget (fun t =>
            { t with state := QUERY_TARGET_QUERIED, query_time := now,
                     query_attempts := u32 (t.query_attempts + 1) }) i st.targets),
          sent := st.sent ++ [(now, i)],
          last_query_time := i32 now }) := by
  unfold net_send_one_query
  by_cases hr : u32 (now - st.last_query_time) < 50
  · left
    rw [if_pos hr]
    exact ⟨rfl, Or.inl hr⟩
  · rw [if_neg hr]
    cases h : firstIndex (fun t => t.state = QUERY_TARGET_QUEUED ∨
        (t.state = QUERY_TARGET_QUERIED ∧
          u32 (now - t.query_time) > QUERY_TIMEOUT_SECS * 1000)) st.targets 0 with
    | none =>
      left
      refine ⟨rfl, Or.inr (fun t ht => ?_)⟩
      have := (firstIndex_none _ _ _).1 h t ht
      simpa using this
    | some i =>
      right
      obtain ⟨_, t, h2, h3, h4⟩ := firstIndex_some _ _ _ _ h
      refine ⟨i, t, by omega, by simpa using h2, by simpa using h3, fun j t' hj hjt => ?_, rfl⟩
      have := h4 j t' (by simpa using hj) hjt
      simpa using this

theorem check_get (st : State) (now : Nat) (i : Nat) :
    (net_check_target_timeouts st now).targets[i]? = (st.targets[i]?).map (fun t =>
      if t.state = QUERY_TARGET_QUERIED ∧ t.query_attempts ≥ QUERY_MAX_ATTEMPTS ∧
          u32 (now - t.query_time) > QUERY_TIMEOUT_SECS * 1000 then
        { t with state := QUERY_TARGET_NO_RESPONSE }
      else t) := by
  simp [net_check_target_timeouts]

/-! ## The effect of a received packet -/

theorem received_refl (t : query_target_t) : Received t t := Or.inl rfl

theorem received_trans {a b c : query_target_t} (h1 : Received a b) (h2 : Received b c) :
    Received a c := by
  rcases h1 with rfl | ⟨d, p, rfl⟩
  · exact h2
  · rcases h2 with rfl | ⟨d', p', rfl⟩
    · exact Or.inr ⟨d, p, rfl⟩
    · exact Or.inr ⟨d', p', rfl⟩

theorem created_received {a b : query_target_t} (h1 : Created a) (h2 : Received a b) :
    Created b := by
  rcases h2 with rfl | ⟨d, p, rfl⟩
  · exact h1
  · exact ⟨h1.1, h1.2.1, Or.inr rfl⟩

theorem forall2_refl : ∀ (l : List query_target_t), List.Forall₂ Received l l
  | [] => List.Forall₂.nil
  | t :: l => List.Forall₂.cons (received_refl t) (forall2_refl l)

theorem forall2_trans : ∀ {a b c : List query_target_t}, List.Forall₂ Received a b →
    List.Forall₂ Received b c → List.Forall₂ Received a c
  | _, _, _, List.Forall₂.nil, List.Forall₂.nil => List.Forall₂.nil
  | _, _, _, List.Forall₂.cons h1 t1, List.Forall₂.cons h2 t2 =>
    List.Forall₂.cons (received_trans h1 h2) (forall2_trans t1 t2)

theorem forall2_onTarget {R : query_target_t → query_target_t → Prop}
    (f : query_target_t → query_target_t) (hR : ∀ t, R t t) (hf : ∀ t, R t (f t)) :
    ∀ (i : Nat) (l : List query_target_t), List.Forall₂ R l (onTarget f i l)
  | _, [] => by simp [onTarget]
  | 0, t :: l => by
    simp only [onTarget]
    exact List.Forall₂.cons (hf t) (List.forall₂_same.2 (fun x _ => hR x))
  | i + 1, t :: l => by
    simp only [onTarget]
    exact List.Forall₂.cons (hR t) (forall2_onTarget f hR hf i l)

theorem grows_refl (st : State) : Grows st st :=
  ⟨st.targets, [], by simp, forall2_refl _, by simp, rfl, rfl, rfl⟩

/-- A list that is related to `mid ++ extra` entry by entry splits in the same
way. -/
theorem forall2_split {R : query_target_t → query_target_t → Prop} :
    ∀ {mid extra l : List query_target_t}, List.Forall₂ R (mid ++ extra) l →
      ∃ l1 l2, l = l1 ++ l2 ∧ List.Forall₂ R mid l1 ∧ List.Forall₂ R extra l2
  | [], extra, l, h => ⟨[], l, rfl, List.Forall₂.nil, h⟩
  | a :: mid, extra, l, h => by
    cases h with
    | cons h1 t1 =>
      obtain ⟨l1, l2, e, h2, h3⟩ := forall2_split t1
      exact ⟨_ :: l1, l2, by rw [e]; rfl, List.Forall₂.cons h1 h2, h3⟩

theorem forall2_created : ∀ {a b : List query_target_t}, List.Forall₂ Received a b →
    (∀ t ∈ a, Created t) → ∀ t ∈ b, Created t
  | _, _, List.Forall₂.nil, _ => by simp
  | _, _, List.Forall₂.cons h1 t1, h => by
    intro t ht
    simp only [List.mem_cons] at ht
    rcases ht with rfl | ht
    · exact created_received (h _ (by simp)) h1
    · exact forall2_created t1 (fun x hx => h x (List.mem_cons_of_mem _ hx)) t ht

theorem grows_trans {a b c : State} (h1 : Grows a b) (h2 : Grows b c) : Grows a c := by
  obtain ⟨m1, e1, ht1, hf1, hc1, hs1, hl1, hr1⟩ := h1
  obtain ⟨m2, e2, ht2, hf2, hc2, hs2, hl2, hr2⟩ := h2
  rw [ht1] at hf2
  obtain ⟨l1, l2, e, g1, g2⟩ := forall2_split hf2
  refine ⟨l1, l2 ++ e2, by rw [ht2, e, List.append_assoc], forall2_trans hf1 g1, ?_,
    hs2.trans hs1, hl2.trans hl1, hr2.trans hr1⟩
  intro t ht
  simp only [List.mem_append] at ht
  rcases ht with ht | ht
  · exact forall2_created g2 hc1 t ht
  · exact hc2 t ht

/-- A change of one target that marks it as having responded. -/
theorem grows_onTarget (st : State) (f : query_target_t → query_target_t)
    (hf : ∀ t, Received t (f t)) (i : Nat) :
    Grows st { st with targets := (onTarget f i st.targets) } :=
  ⟨onTarget f i st.targets, [], by simp, forall2_onTarget f received_refl hf i _, by simp,
    rfl, rfl, rfl⟩

theorem grows_create (st : State) (addr : Nat) :
    Grows st (net_get_target_for_addr st addr true).1 := by
  rcases create_cases st addr with ⟨i, t, e, _, _⟩ | ⟨_, e⟩
  · rw [e]; exact grows_refl st
  · rw [e]
    refine ⟨st.targets, [newTarget st addr], rfl, forall2_refl _, ?_, rfl, rfl, rfl⟩
    intro t ht
    simp only [List.mem_singleton] at ht
    rw [ht]
    exact ⟨rfl, rfl, Or.inl rfl⟩

theorem grows_lookup (st : State) (addr : Nat) :
    (net_get_target_for_addr st addr false).1 = st := by
  rcases lookup_cases st addr with ⟨e, _⟩ | ⟨i, t, e, _, _⟩ <;> rw [e]

theorem grows_addMaster : ∀ (l : List Nat) (st : State), Grows st (addMasterTargets st l)
  | [], st => grows_refl st
  | a :: l, st => by
    rw [addMasterTargets]
    split
    · exact grows_trans (grows_create st a) (grows_addMaster l _)
    · exact grows_addMaster l st

theorem grows_callback {callback : net_query_callback_t} (hcb : CallbackOk callback)
    (addr data ping : Nat) (st : State) : Grows st (callback addr data ping st) := by
  obtain ⟨h1, h2, h3, h4⟩ := hcb addr data ping st
  exact ⟨st.targets, [], by simp [h1], forall2_refl _, by simp, h3, h2, h4⟩

theorem grows_parseResponse (K : Consts) {callback : net_query_callback_t}
    (hcb : CallbackOk callback) (st : State) (addr : Nat) (packet : net_packet_t) (now : Nat) :
    Grows st (net_query_ParseResponse K st addr packet callback now) := by
  by_cases hv : ValidResponse K packet
  · obtain ⟨hh, hq⟩ := hv
    obtain ⟨qd, hq⟩ : ∃ qd, packet.querydata = some qd := by
      cases h : packet.querydata with
      | none => exact absurd h hq
      | some qd => exact ⟨qd, rfl⟩
    rcases lookup_cases st addr with ⟨_, hl⟩ | ⟨i, t, e, ht, _, _⟩
    · rcases parse_unknown K st addr packet callback now hh hq hl with ⟨_, e⟩ | ⟨b, bt, _, _, e⟩
      · rw [e]; exact grows_refl st
      · rw [e]
        split
        · exact grows_refl st
        · refine grows_trans ?_ (grows_callback hcb _ _ _ _)
          refine ⟨st.targets, _, rfl, forall2_refl _, ?_, rfl, rfl, rfl⟩
          intro t ht
          simp only [List.mem_singleton] at ht
          rw [ht]
          exact ⟨rfl, rfl, Or.inr rfl⟩
    · rw [parse_known K st addr packet callback now hh hq e ht]
      split
      · refine grows_trans (grows_onTarget st _ (fun t' => Or.inr ⟨_, _, rfl⟩) i)
          (grows_callback hcb _ _ _ _)
      · exact grows_refl st
  · rw [parse_invalid K st addr packet callback now hv]
    exact grows_refl st

theorem grows_master (K : Consts) (st : State) (addr : Nat) (packet : net_packet_t) :
    Grows st (net_query_parse_master_response K st addr packet) := by
  unfold net_query_parse_master_response
  cases packet.header with
  | none => exact grows_refl st
  | some pt =>
    dsimp only
    split
    · exact grows_refl st
    · have h1 := grows_addMaster packet.addrs st
      have h2 := grows_create (addMasterTargets st packet.addrs) addr
      generalize net_get_target_for_addr (addMasterTargets st packet.addrs) addr true = r at h2
      obtain ⟨s2, o⟩ := r
      cases o with
      | none => exact grows_trans h1 h2
      | some i =>
        exact grows_trans h1 (grows_trans h2
          (grows_onTarget s2 _ (fun t => Or.inr ⟨t.data, t.ping_time, rfl⟩) i))

theorem grows_get_response (K : Consts) {callback : net_query_callback_t}
    (hcb : CallbackOk callback) (st : State) (recv : Option (Nat × net_packet_t)) (now : Nat) :
    Grows st (net_query_get_response K st recv callback now) := by
  unfold net_query_get_response
  cases recv with
  | none => exact grows_refl st
  | some r =>
    obtain ⟨addr, packet⟩ := r
    dsimp only
    unfold net_query_parse_packet
    have h0 := grows_lookup st addr
    generalize net_get_target_for_addr st addr false = r at h0
    obtain ⟨s2, o⟩ := r
    dsimp only at h0
    subst h0
    cases o with
    | none => exact grows_parseResponse K hcb _ addr packet now
    | some i =>
      dsimp only
      split
      · exact grows_master K _ addr packet
      · exact grows_parseResponse K hcb _ addr packet now

/-! ## The record of the queries sent -/

theorem check_sent (st : State) (now : Nat) :
    (net_check_target_timeouts st now).sent = st.sent ∧
      (net_check_target_timeouts st now).last_query_time = st.last_query_time ∧
      (net_check_target_timeouts st now).fresh = st.fresh ∧
      (net_check_target_timeouts st now).query_loop_running = st.query_loop_running :=
  ⟨rfl, rfl, rfl, rfl⟩

/-- What `net_query_Poll` does to the record of the queries sent: nothing, or
one query is added, at least 50 ms after the last one. -/
theorem poll_sent (K : Consts) {callback : net_query_callback_t} (hcb : CallbackOk callback)
    (st : State) (inp : PollInput) :
    ((net_query_Poll K st callback inp).1.sent = st.sent ∧
      (net_query_Poll K st callback inp).1.last_query_time = st.last_query_time) ∨
    (∃ i, 50 ≤ u32 (inp.t_send - st.last_query_time) ∧
      (net_query_Poll K st callback inp).1.sent = st.sent ++ [(inp.t_send, i)] ∧
      (net_query_Poll K st callback inp).1.last_query_time = i32 inp.t_send) := by
  obtain ⟨_, _, _, _, _, hs, hl, _⟩ := grows_get_response K hcb
    (net_send_one_query (net_check_target_timeouts st inp.t_check) inp.t_send) inp.recv
    inp.t_recv
  have e : (net_query_Poll K st callback inp).1 = net_query_get_response K
      (net_send_one_query (net_check_target_timeouts st inp.t_check) inp.t_send)
      inp.recv callback inp.t_recv := rfl
  rw [e, hs, hl]
  rcases send_cases (net_check_target_timeouts st inp.t_check) inp.t_send with
    ⟨e1, _⟩ | ⟨i, t, h50, _, _, _, e1⟩
  · left; rw [e1]; exact ⟨rfl, rfl⟩
  · right; rw [e1]; exact ⟨i, h50, rfl, rfl⟩

/-- Along a sequence of polls with non-decreasing clock readings in
`net_send_one_query`, the queries stay 50 ms apart. -/
theorem polls_spaced (K : Consts) {callback : net_query_callback_t}
    (hcb : CallbackOk callback) :
    ∀ (ins : List PollInput) (st : State),
      (ins.map (fun i => i.t_send)).Pairwise (fun a b => a ≤ b) →
      (∀ i ∈ ins, i.t_send < 4294967296) →
      (st.sent.map Prod.fst).Chain' (fun a b => a + 50 ≤ b) →
      (∀ x, st.sent.getLast? = some x →
        st.last_query_time = i32 x.1 ∧ ∀ i ∈ ins, x.1 ≤ i.t_send) →
      ((polls K callback st ins).sent.map Prod.fst).Chain' (fun a b => a + 50 ≤ b)
  | [], st, _, _, hc, _ => hc
  | inp :: rest, st, hm, hb, hc, hl => by
    rw [polls]
    simp only [List.map_cons, List.pairwise_cons] at hm
    apply polls_spaced K hcb rest _ hm.2 (fun i hi => hb i (List.mem_cons_of_mem _ hi))
    · rcases poll_sent K hcb st inp with ⟨e, _⟩ | ⟨i, h50, e, _⟩
      · rw [e]; exact hc
      · rw [e, List.map_append, List.chain'_append]
        refine ⟨hc, by simp, ?_⟩
        intro x hx y hy
        simp only [List.map_cons, List.map_nil, List.head?_cons, Option.mem_def,
          Option.some.injEq] at hy
        subst hy
        rw [List.getLast?_map] at hx
        simp only [Option.mem_def, Option.map_eq_some'] at hx
        obtain ⟨z, hz, rfl⟩ := hx
        obtain ⟨h1, h2⟩ := hl z hz
        have h3 := h2 inp (by simp)
        have h4 := hb inp (by simp)
        rw [h1, u32_sub_i32 h3 h4] at h50
        omega
    · intro x hx
      rcases poll_sent K hcb st inp with ⟨e, e2⟩ | ⟨i, _, e, e2⟩
      · rw [e] at hx
        rw [e2]
        obtain ⟨h1, h2⟩ := hl x hx
        exact ⟨h1, fun i hi => h2 i (List.mem_cons_of_mem _ hi)⟩
      · rw [e] at hx
        rw [List.getLast?_concat] at hx
        injection hx with hx
        subst hx
        refine ⟨e2, fun i hi => ?_⟩
        exact hm.1 i.t_send (List.mem_map_of_mem _ hi)

/-! ## Steps of the life cycle -/

theorem forall2_onTarget_at {R : query_target_t → query_target_t → Prop}
    (f : query_target_t → query_target_t) (hR : ∀ t, R t t) :
    ∀ (i : Nat) (l : List query_target_t) (t : query_target_t), l[i]? = some t → R t (f t) →
      List.Forall₂ R l (onTarget f i l)
  | _, [], _, h, _ => by simp at h
  | 0, a :: l, t, h, hf => by
    simp only [List.getElem?_cons_zero, Option.some.injEq] at h
    subst h
    simp only [onTarget]
    exact List.Forall₂.cons hf (List.forall₂_same.2 (fun x _ => hR x))
  | i + 1, a :: l, t, h, hf => by
    simp only [List.getElem?_cons_succ] at h
    simp only [onTarget]
    exact List.Forall₂.cons (hR a) (forall2_onTarget_at f hR i l t h hf)

theorem forall2_get {R : query_target_t → query_target_t → Prop} :
    ∀ {l l' : List query_target_t}, List.Forall₂ R l l' → ∀ (i : Nat) (t' : query_target_t),
      l'[i]? = some t' → ∃ t, l[i]? = some t ∧ R t t'
  | _, _, List.Forall₂.nil, i, t', h => by simp at h
  | _, _, List.Forall₂.cons h1 t1, i, t', h => by
    cases i with
    | zero =>
      simp only [List.getElem?_cons_zero, Option.some.injEq] at h
      subst h
      exact ⟨_, by simp, h1⟩
    | succ i =>
      simp only [List.getElem?_cons_succ] at h ⊢
      exact forall2_get t1 i t' h

theorem forall2_mono {R S : query_target_t → query_target_t → Prop} (h : ∀ a b, R a b → S a b) :
    ∀ {l l' : List query_target_t}, List.Forall₂ R l l' → List.Forall₂ S l l'
  | _, _, List.Forall₂.nil => List.Forall₂.nil
  | _, _, List.Forall₂.cons h1 t1 => List.Forall₂.cons (h _ _ h1) (forall2_mono h t1)

/-- `net_send_one_query` keeps the targets in place; a target changes only from
queued or queried to queried. -/
theorem send_forall2 (st : State) (now : Nat) :
    List.Forall₂ (fun t t' => t' = t ∨ (t'.state = QUERY_TARGET_QUERIED ∧
        (t.state = QUERY_TARGET_QUEUED ∨ t.state = QUERY_TARGET_QUERIED) ∧
        t'.type = t.type ∧ t'.addr = t.addr))
      st.targets (net_send_one_query st now).targets := by
  rcases send_cases st now with ⟨e, _⟩ | ⟨i, t, _, ht, hq, _, e⟩
  · rw [e]
    exact List.forall₂_same.2 (fun x _ => Or.inl rfl)
  · rw [e]
    refine forall2_onTarget_at _ (fun x => Or.inl rfl) i st.targets t ht (Or.inr ⟨rfl, ?_, rfl, rfl⟩)
    rcases hq with hq | hq
    · exact Or.inl hq
    · exact Or.inr hq.1

/-- `net_check_target_timeouts` keeps the targets in place; a target changes only
from queried to "no response", when it has timed out. -/
theorem check_forall2 (st : State) (now : Nat) :
    List.Forall₂ (fun t t' => (¬ TimedOut t now ∧ t' = t) ∨
        (TimedOut t now ∧ t' = { t with state := QUERY_TARGET_NO_RESPONSE }))
      st.targets (net_check_target_timeouts st now).targets := by
  unfold net_check_target_timeouts
  dsimp only
  rw [List.forall₂_map_right_iff]
  apply List.forall₂_same.2
  intro t _
  by_cases h : TimedOut t now
  · right
    refine ⟨h, ?_⟩
    unfold TimedOut at h
    rw [if_pos h]
  · left
    refine ⟨h, ?_⟩
    unfold TimedOut at h
    rw [if_neg h]

theorem lifecycle_of_grows {st st' : State} (h : Grows st st') :
    Lifecycle st.targets st'.targets := by
  obtain ⟨mid, extra, e, hf, hc, _⟩ := h
  refine ⟨mid, extra, e, forall2_mono (fun a b hab => ?_) hf, fun t ht => (hc t ht).2.2⟩
  rcases hab with rfl | ⟨d, p, rfl⟩
  · exact Or.inl rfl
  · exact Or.inr (Or.inr (Or.inr rfl))

/-! ## Polls in which nothing is received -/

theorem poll_quiet (K : Consts) (st : State) (callback : net_query_callback_t)
    (inp : PollInput) (h : inp.recv = none) :
    (net_query_Poll K st callback inp).1 =
      net_send_one_query (net_check_target_timeouts st inp.t_check) inp.t_send := by
  unfold net_query_Poll net_query_get_response
  rw [h]

theorem send_running (st : State) (now : Nat) :
    (net_send_one_query st now).query_loop_running = st.query_loop_running := by
  rcases send_cases st now with ⟨e, _⟩ | ⟨_, _, _, _, _, _, e⟩ <;> rw [e]

theorem poll_ret (K : Consts) (st : State) (callback : net_query_callback_t)
    (inp : PollInput) :
    (net_query_Poll K st callback inp).2 =
      if net_all_targets_done (net_query_Poll K st callback inp).1 then 0 else 1 := rfl

/-- When every target is done and nothing is received, a poll changes
nothing. -/
theorem poll_quiet_done (K : Consts) (st : State) (callback : net_query_callback_t)
    (inp : PollInput) (h : inp.recv = none) (hd : net_all_targets_done st = true) :
    (net_query_Poll K st callback inp).1 = st := by
  rw [all_done_iff] at hd
  rw [poll_quiet K st callback inp h]
  have h1 : net_check_target_timeouts st inp.t_check = st := by
    unfold net_check_target_timeouts
    have : st.targets.map (fun t =>
        if t.state = QUERY_TARGET_QUERIED ∧ t.query_attempts ≥ QUERY_MAX_ATTEMPTS ∧
            u32 (inp.t_check - t.query_time) > QUERY_TIMEOUT_SECS * 1000 then
          { t with state := QUERY_TARGET_NO_RESPONSE }
        else t) = st.targets := by
      conv => rhs; rw [← List.map_id st.targets]
      apply List.map_congr_left
      intro t ht
      rw [if_neg, id]
      intro hc
      rcases hd t ht with e | e <;> rw [hc.1] at e <;> exact nomatch e
    rw [this]
  rw [h1]
  rcases send_cases st inp.t_send with ⟨e, _⟩ | ⟨i, t, _, ht, hq, _, _⟩
  · exact e
  · exfalso
    rcases hd t (mem_of_get ht) with e | e <;> rcases hq with hq | hq
    · rw [e] at hq; exact nomatch hq
    · rw [e] at hq; exact nomatch hq.1
    · rw [e] at hq; exact nomatch hq
    · rw [e] at hq; exact nomatch hq.1

theorem polls_quiet_done (K : Consts) (callback : net_query_callback_t) :
    ∀ (ins : List PollInput) (st : State), (∀ i ∈ ins, i.recv = none) →
      net_all_targets_done st = true → polls K callback st ins = st
  | [], _, _, _ => rfl
  | inp :: rest, st, h, hd => by
    rw [polls, poll_quiet_done K st callback inp (h inp (by simp)) hd]
    exact polls_quiet_done K callback rest st (fun i hi => h i (List.mem_cons_of_mem _ hi)) hd

/-- As long as some target is not done and nothing is received, the loop of
`net_query_QueryLoop` goes on. -/
theorem queryLoop_quiet (K : Consts) (callback : net_query_callback_t) (rest : List PollInput) :
    ∀ (pre : List PollInput) (st : State), st.query_loop_running = true →
      (∀ i ∈ pre, i.recv = none) → net_all_targets_done (polls K callback st pre) = false →
      queryLoop K callback st (pre ++ rest) = queryLoop K callback (polls K callback st pre) rest ∧
        (polls K callback st pre).query_loop_running = true
  | [], st, hr, _, _ => ⟨rfl, hr⟩
  | inp :: pre, st, hr, hq, hnd => by
    have hq1 := hq inp (by simp)
    have hr' : (net_query_Poll K st callback inp).1.query_loop_running = true := by
      rw [poll_quiet K st callback inp hq1, send_running]
      exact hr
    have hne : (net_query_Poll K st callback inp).2 ≠ 0 := by
      rw [poll_ret]
      split
      · rename_i hd
        rw [polls, polls_quiet_done K callback pre _
          (fun i hi => hq i (List.mem_cons_of_mem _ hi)) hd, hd] at hnd
        exact nomatch hnd
      · decide
    rw [List.cons_append, queryLoop, if_pos hr, if_pos hne, polls]
    exact queryLoop_quiet K callback rest pre _ hr'
      (fun i hi => hq i (List.mem_cons_of_mem _ hi)) (by rw [polls] at hnd; exact hnd)

/-- The poll in which the only target times out ends the loop. -/
theorem poll_timeout (K : Consts) (st : State) (callback : net_query_callback_t)
    (inp : PollInput) (h : inp.recv = none) {t : query_target_t} (ht : st.targets = [t])
    (hto : TimedOut t inp.t_check) :
    (net_query_Poll K st callback inp).2 = 0 ∧
      (net_query_Poll K st callback inp).1 =
        { st with targets := [{ t with state := QUERY_TARGET_NO_RESPONSE }] } := by
  have h1 : net_check_target_timeouts st inp.t_check =
      { st with targets := [{ t with state := QUERY_TARGET_NO_RESPONSE }] } := by
    unfold net_check_target_timeouts
    unfold TimedOut at hto
    rw [ht]
    simp only [List.map_cons, List.map_nil]
    rw [if_pos hto]
  have h2 : (net_query_Poll K st callback inp).1 =
      { st with targets := [{ t with state := QUERY_TARGET_NO_RESPONSE }] } := by
    rw [poll_quiet K st callback inp h, h1]
    rcases send_cases { st with targets := [{ t with state := QUERY_TARGET_NO_RESPONSE }] }
      inp.t_send with ⟨e, _⟩ | ⟨i, t', _, ht', hq, _, _⟩
    · exact e
    · exfalso
      have hm := mem_of_get ht'
      simp only [List.mem_singleton] at hm
      subst hm
      rcases hq with hq | hq
      · exact nomatch hq
      · exact nomatch hq.1
  refine ⟨?_, h2⟩
  rw [poll_ret, h2, if_pos]
  rw [all_done_iff]
  intro x hx
  simp only [List.mem_singleton] at hx
  subst hx
  exact Or.inr rfl

theorem queryStart_targets (st : State) (addr : Nat) :
    net_get_target_for_addr (net_query_Init st) addr true =
      ({ net_query_Init st with targets := [newTarget (net_query_Init st) addr] }, some 0) := by
  rcases create_cases (net_query_Init st) addr with ⟨i, t, _, ht, _⟩ | ⟨_, e⟩
  · simp [net_query_Init] at ht
  · rw [e]; rfl

/-! ## A LAN query -/

theorem forall2_eq_of {R : query_target_t → query_target_t → Prop} :
    ∀ {l l' : List query_target_t}, List.Forall₂ R l l' →
      (∀ a ∈ l, ∀ b, R a b → b = a) → l' = l
  | _, _, List.Forall₂.nil, _ => rfl
  | _, _, List.Forall₂.cons h1 t1, h => by
    rw [h _ (List.mem_cons_self _ _) _ h1,
      forall2_eq_of t1 (fun a ha b hb => h a (List.mem_cons_of_mem _ ha) b hb)]

theorem lan_start (st : State) : LanInv (net_start_lan_query st) [] := by
  unfold net_start_lan_query
  dsimp only
  rw [queryStart_targets]
  dsimp only
  exact ⟨{ newTarget (net_query_Init st) 0 with type := QUERY_TARGET_BROADCAST }, [],
    by simp [onTarget], rfl, rfl, by simp, rfl, List.nodup_nil⟩

/-- The timeout check and the send step keep the shape of a LAN query; only the
broadcast target changes. -/
theorem lan_check_send {st : State} {S : List Nat} (h : LanInv st S) (t1 t2 : Nat) :
    LanInv (net_send_one_query (net_check_target_timeouts st t1) t2) S := by
  obtain ⟨bt, rest, e, ha, hty, hrest, hS, hnd⟩ := h
  have h1 := check_forall2 st t1
  have h2 := send_forall2 (net_check_target_timeouts st t1) t2
  unfold LanInv
  generalize (net_send_one_query (net_check_target_timeouts st t1) t2).targets = l2 at h2
  generalize (net_check_target_timeouts st t1).targets = l1 at h1 h2
  rw [e] at h1
  cases h1 with
  | cons hb1 hr1 =>
    rename_i b1 r1
    cases h2 with
    | cons hb2 hr2 =>
      rename_i b2 r2
      have hr1' : r1 = rest := by
        refine forall2_eq_of hr1 (fun a ha' b hm => ?_)
        rcases hm with ⟨_, e1⟩ | ⟨hto, _⟩
        · exact e1
        · have := (hrest a ha').2.1
          rw [hto.1] at this; exact nomatch this
      subst hr1'
      have hr2' : r2 = r1 := by
        refine forall2_eq_of hr2 (fun a ha' b hm => ?_)
        rcases hm with e1 | ⟨_, hq, _⟩
        · exact e1
        · have := (hrest a ha').2.1
          rcases hq with hq | hq <;> rw [this] at hq <;> exact nomatch hq
      subst hr2'
      have hb : b2.addr = b1.addr ∧ b2.type = b1.type := by
        rcases hb2 with rfl | ⟨_, _, e2, e3⟩
        · exact ⟨rfl, rfl⟩
        · exact ⟨e3, e2⟩
      have hb' : b1.addr = bt.addr ∧ b1.type = bt.type := by
        rcases hb1 with ⟨_, rfl⟩ | ⟨_, rfl⟩ <;> exact ⟨rfl, rfl⟩
      exact ⟨b2, r2, rfl, by rw [hb.1, hb'.1, ha], by rw [hb.2, hb'.2, hty], hrest, hS, hnd⟩

/-- In a LAN query the lookup of the broadcast address finds the first
target. -/
theorem lan_lookup {st : State} {bt : query_target_t} {rest : List query_target_t}
    (e : st.targets = bt :: rest) (hba : bt.addr = 0) :
    net_get_target_for_addr st 0 false = (st, some 0) := by
  rcases lookup_cases st 0 with ⟨_, hno⟩ | ⟨i, t, el, _, _, hfirst⟩
  · exact absurd hba (hno bt (by rw [e]; exact List.mem_cons_self _ _))
  · cases i with
    | zero => exact el
    | succ i => exact absurd hba (hfirst 0 bt (Nat.succ_pos _) (by rw [e]; simp))

theorem lan_broadcastQueried {st : State} {bt : query_target_t} {rest : List query_target_t}
    (e : st.targets = bt :: rest) (hty : bt.type = QUERY_TARGET_BROADCAST)
    (hrest : ∀ t ∈ rest, t.type = QUERY_TARGET_SERVER ∧ t.state = QUERY_TARGET_RESPONDED ∧
      t.addr ≠ 0) :
    broadcastQueried st ↔ bt.state = QUERY_TARGET_QUERIED := by
  unfold broadcastQueried
  rw [e]
  constructor
  · rintro ⟨t, ht, h1, h2⟩
    rcases List.mem_cons.1 ht with rfl | ht
    · exact h2
    · rw [(hrest t ht).1] at h1; exact nomatch h1
  · intro h
    exact ⟨bt, List.mem_cons_self _ _, hty, h⟩

/-- The receipt of a packet in a LAN query: a valid response from a new address,
while the broadcast target is queried, adds a server that has responded;
nothing else changes the targets. -/
theorem lan_receive (K : Consts) {st : State} {S : List Nat} (a : Nat) (p : net_packet_t)
    {callback : net_query_callback_t} (now : Nat) (hcb : CallbackOk callback)
    (h : LanInv st S) (ha : a ≠ 0) :
    ∃ S', LanInv (net_query_parse_packet K st a p callback now) S' ∧
      ∀ x, x ∈ S' ↔ x ∈ S ∨ (x = a ∧ ValidResponse K p ∧ broadcastQueried st) := by
  have h0 := h
  obtain ⟨bt, rest, e, hba, hty, hrest, hS, hnd⟩ := h
  have hbq := lan_broadcastQueried e hty hrest
  unfold net_query_parse_packet
  rcases lookup_cases st a with ⟨el, hno⟩ | ⟨i, t, el, ht, hta, _⟩
  · rw [el]
    dsimp only
    by_cases hv : ValidResponse K p
    · obtain ⟨hh, hq⟩ := hv
      obtain ⟨qd, hq⟩ := Option.ne_none_iff_exists'.1 hq
      rcases parse_unknown K st a p callback now hh hq hno with ⟨el0, _⟩ | ⟨b, bt', el0, hb, epr⟩
      · rw [lan_lookup e hba] at el0
        exact nomatch el0
      · rw [lan_lookup e hba] at el0
        injection el0 with _ e2
        injection e2 with e2
        subst e2
        rw [e] at hb
        simp only [List.getElem?_cons_zero, Option.some.injEq] at hb
        subst hb
        rw [epr]
        by_cases hs : bt.state = QUERY_TARGET_QUERIED
        · rw [if_neg (by simpa using hs)]
          refine ⟨S ++ [a], ⟨bt, rest ++
            [{ newTarget st a with
                state := QUERY_TARGET_RESPONDED, query_time := bt.query_time, data := qd,
                ping_time := u32 (now - bt.query_time) }], ?_, hba, hty, ?_, ?_, ?_⟩, ?_⟩
          · rw [(hcb _ _ _ _).1]
            dsimp only
            rw [e]
            rfl
          · intro t ht
            rcases List.mem_append.1 ht with ht | ht
            · exact hrest t ht
            · rw [List.mem_singleton] at ht
              subst ht
              exact ⟨rfl, rfl, ha⟩
          · rw [List.map_append, hS]
            rfl
          · rw [List.nodup_append]
            refine ⟨hnd, List.nodup_singleton _, ?_⟩
            intro x hx hx'
            rw [List.mem_singleton] at hx'
            subst hx'
            rw [← hS, List.mem_map] at hx
            obtain ⟨t, ht, hta⟩ := hx
            exact hno t (by rw [e]; exact List.mem_cons_of_mem _ ht) hta
          · intro x
            rw [List.mem_append, List.mem_singleton]
            constructor
            · rintro (hx | hx)
              · exact Or.inl hx
              · exact Or.inr ⟨hx, ⟨hh, by rw [hq]; simp⟩, hbq.2 hs⟩
            · rintro (hx | ⟨hx, _⟩)
              · exact Or.inl hx
              · exact Or.inr hx
        · rw [if_pos (by simpa using hs)]
          refine ⟨S, h0, fun x => ⟨Or.inl, ?_⟩⟩
          rintro (hx | ⟨_, _, hx⟩)
          · exact hx
          · exact absurd (hbq.1 hx) hs
    · rw [parse_invalid K st a p callback now hv]
      refine ⟨S, h0, fun x => ⟨Or.inl, ?_⟩⟩
      rintro (hx | ⟨_, hx, _⟩)
      · exact hx
      · exact absurd hx hv
  · rw [el]
    dsimp only
    rw [target_eq st i t ht]
    have htr : t ∈ rest := by
      have := mem_of_get ht
      rw [e] at this
      rcases List.mem_cons.1 this with rfl | h'
      · exact absurd (hta.symm.trans hba) ha
      · exact h'
    rw [if_neg (by rw [(hrest t htr).1]; simp)]
    have hres : net_query_ParseResponse K st a p callback now = st := by
      by_cases hv : ValidResponse K p
      · obtain ⟨hh, hq⟩ := hv
        obtain ⟨qd, hq⟩ := Option.ne_none_iff_exists'.1 hq
        rw [parse_known K st a p callback now hh hq el ht, if_neg (by rw [(hrest t htr).2.1]; simp)]
      · exact parse_invalid K st a p callback now hv
    rw [hres]
    refine ⟨S, h0, fun x => ⟨Or.inl, ?_⟩⟩
    rintro (hx | ⟨hx, _⟩)
    · exact hx
    · rw [hx, ← hS, List.mem_map]
      exact ⟨t, htr, hta⟩

/-- `GetNumResponses` counts the servers that are marked as having responded
(as long as the count fits an `int`). -/
theorem getNum_loop : ∀ (l : List query_target_t) (r : Int), 0 ≤ r →
    r + l.length < 2147483648 →
    GetNumResponses_loop l r = r + (l.countP (fun t =>
      decide (t.type = QUERY_TARGET_SERVER ∧ t.state = QUERY_TARGET_RESPONDED)) : Nat)
  | [], r, _, _ => by simp [GetNumResponses_loop]
  | t :: l, r, h0, h => by
    have hl : ((t :: l).length : Int) = l.length + 1 := by simp
    rw [hl] at h
    unfold GetNumResponses_loop
    by_cases ht : t.type = QUERY_TARGET_SERVER ∧ t.state = QUERY_TARGET_RESPONDED
    · have e : i32 (r + 1) = r + 1 := by unfold i32; omega
      rw [if_pos ht, e, getNum_loop l (r + 1) (by omega) (by omega),
        List.countP_cons_of_pos _ _ (by simpa using ht)]
      push_cast
      omega
    · rw [if_neg ht, getNum_loop l r h0 (by omega),
        List.countP_cons_of_neg _ _ (by simpa using ht)]

theorem lan_count {st : State} {S : List Nat} (h : LanInv st S) :
    st.targets.length = S.length + 1 ∧
    st.targets.countP (fun t =>
      decide (t.type = QUERY_TARGET_SERVER ∧ t.state = QUERY_TARGET_RESPONDED)) = S.length := by
  obtain ⟨bt, rest, e, _, hty, hrest, hS, _⟩ := h
  rw [e, ← hS]
  refine ⟨by simp, ?_⟩
  rw [List.countP_cons_of_neg _ _ (by rw [hty]; simp), List.length_map,
    List.countP_eq_length]
  intro t ht
  simpa using ⟨(hrest t ht).1, (hrest t ht).2.1⟩

theorem lanResponders_length (K : Consts) (callback : net_query_callback_t) :
    ∀ (ins : List PollInput) (st : State), (lanResponders K callback st ins).length ≤ ins.length
  | [], _ => by simp [lanResponders]
  | inp :: rest, st => by
    have := lanResponders_length K callback rest (net_query_Poll K st callback inp).1
    unfold lanResponders
    rw [List.length_append, List.length_cons]
    cases inp.recv with
    | none => simp only [List.length_nil]; omega
    | some ap =>
      obtain ⟨a, p⟩ := ap
      dsimp only
      split <;> simp only [List.length_nil, List.length_singleton] <;> omega

/-- Along the polls of a LAN query the targets are the broadcast target and one
server, marked as having responded, for each address in `lanResponders`. -/
theorem lan_polls (K : Consts) {callback : net_query_callback_t} (hcb : CallbackOk callback) :
    ∀ (ins : List PollInput) (st : State) (S Acc : List Nat), LanInv st S →
      (∀ x, x ∈ S ↔ x ∈ Acc) →
      (∀ inp ∈ ins, ∀ a p, inp.recv = some (a, p) → a ≠ 0) →
      ∃ S', LanInv (polls K callback st ins) S' ∧
        ∀ x, x ∈ S' ↔ x ∈ Acc ++ lanResponders K callback st ins
  | [], st, S, Acc, h, hS, _ => ⟨S, h, by simpa [lanResponders] using hS⟩
  | inp :: rest, st, S, Acc, h, hS, ha => by
    have h1 := lan_check_send h inp.t_check inp.t_send
    have hrec : ∀ inp' ∈ rest, ∀ a p, inp'.recv = some (a, p) → a ≠ 0 :=
      fun i hi => ha i (List.mem_cons_of_mem _ hi)
    have ha0 := ha inp (List.mem_cons_self _ _)
    unfold polls lanResponders
    rw [← List.append_assoc]
    have hp : (net_query_Poll K st callback inp).1 =
        net_query_get_response K
          (net_send_one_query (net_check_target_timeouts st inp.t_check) inp.t_send)
          inp.recv callback inp.t_recv := rfl
    cases hr : inp.recv with
    | none =>
      rw [hr] at hp
      have h2 : LanInv (net_query_Poll K st callback inp).1 S := by rw [hp]; exact h1
      obtain ⟨S', hS', hm⟩ := lan_polls K hcb rest _ S Acc h2 hS hrec
      exact ⟨S', hS', by simpa using hm⟩
    | some ap =>
      obtain ⟨a, p⟩ := ap
      rw [hr] at hp
      obtain ⟨S1, hS1, hm1⟩ := lan_receive K a p inp.t_recv hcb h1 (ha0 a p hr)
      have h2 : LanInv (net_query_Poll K st callback inp).1 S1 := by rw [hp]; exact hS1
      refine lan_polls K hcb rest _ S1 _ h2 (fun x => ?_) hrec
      rw [hm1 x, List.mem_append, hS x]
      dsimp only
      split
      · rename_i hc
        simp [hc]
      · rename_i hc
        simp only [List.not_mem_nil, or_false, or_iff_left_iff_imp]
        rintro ⟨_, h3⟩
        exact absurd h3 hc

/-! ## Targets that a packet does not concern -/

theorem create_keeps (st : State) (addr : Nat) (create : Bool) {i : Nat} {t : query_target_t}
    (h : st.targets[i]? = some t) :
    (net_get_target_for_addr st addr create).1.targets[i]? = some t := by
  have hi : i < st.targets.length := by
    by_contra hc
    rw [List.getElem?_eq_none (by omega)] at h
    exact nomatch h
  unfold net_get_target_for_addr
  cases firstIndex (fun t => t.addr = addr) st.targets 0 with
  | some j => exact h
  | none =>
    dsimp only
    split
    · exact h
    · dsimp only
      rw [List.getElem?_append_left hi]
      exact h

theorem addMaster_keeps : ∀ (l : List Nat) (st : State) {i : Nat} {t : query_target_t},
    st.targets[i]? = some t → (addMasterTargets st l).targets[i]? = some t
  | [], _, _, _, h => h
  | a :: l, st, i, t, h => by
    rw [addMasterTargets]
    split
    · exact addMaster_keeps l _ (create_keeps st a true h)
    · exact addMaster_keeps l st h

/-- The index that `net_get_target_for_addr` yields is not the index of a
target with another address. -/
theorem create_index (st : State) (addr : Nat) {i j : Nat} {t : query_target_t} {st' : State}
    (h : st.targets[i]? = some t) (hne : t.addr ≠ addr)
    (e : net_get_target_for_addr st addr true = (st', some j)) : i ≠ j := by
  rcases create_cases st addr with ⟨k, t', e', ht', hta⟩ | ⟨_, e'⟩
  · rw [e'] at e
    injection e with _ e2
    injection e2 with e2
    subst e2
    intro hik
    subst hik
    rw [h] at ht'
    injection ht' with ht'
    subst ht'
    exact hne hta
  · rw [e'] at e
    injection e with _ e2
    injection e2 with e2
    subst e2
    intro hik
    subst hik
    rw [List.getElem?_eq_none (le_refl _)] at h
    exact nomatch h

theorem master_keeps (K : Consts) (st : State) (addr : Nat) (packet : net_packet_t)
    {i : Nat} {t : query_target_t} (h : st.targets[i]? = some t) (hne : t.addr ≠ addr) :
    (net_query_parse_master_response K st addr packet).targets[i]? = some t := by
  unfold net_query_parse_master_response
  cases packet.header with
  | none => exact h
  | some pt =>
    dsimp only
    split
    · exact h
    · have h1 := addMaster_keeps packet.addrs st h
      have h2 := create_keeps (addMasterTargets st packet.addrs) addr true h1
      have h3 := @create_index (addMasterTargets st packet.addrs) addr i
      generalize net_get_target_for_addr (addMasterTargets st packet.addrs) addr true = r at h2 h3
      obtain ⟨st2, o⟩ := r
      cases o with
      | none => exact h2
      | some j =>
        dsimp only
        rw [onTarget_get, if_neg (h3 h1 hne rfl)]
        exact h2

theorem parseResponse_keeps (K : Consts) (st : State) (addr : Nat) (packet : net_packet_t)
    {callback : net_query_callback_t} (hcb : CallbackOk callback) (now : Nat)
    {i : Nat} {t : query_target_t} (h : st.targets[i]? = some t) (hne : t.addr ≠ addr) :
    (net_query_ParseResponse K st addr packet callback now).targets[i]? = some t := by
  have hi : i < st.targets.length := by
    by_contra hc
    rw [List.getElem?_eq_none (by omega)] at h
    exact nomatch h
  by_cases hv : ValidResponse K packet
  · obtain ⟨hh, hq⟩ := hv
    obtain ⟨qd, hq⟩ := Option.ne_none_iff_exists'.1 hq
    rcases lookup_cases st addr with ⟨_, hno⟩ | ⟨j, t', el, ht', hta, _⟩
    · rcases parse_unknown K st addr packet callback now hh hq hno with ⟨_, e⟩ | ⟨b, bt, _, _, e⟩
      · rw [e]; exact h
      · rw [e]
        split
        · exact h
        · rw [(hcb _ _ _ _).1]
          dsimp only
          rw [List.getElem?_append_left hi]
          exact h
    · rw [parse_known K st addr packet callback now hh hq el ht']
      split
      · rw [(hcb _ _ _ _).1]
        dsimp only
        have hij : i ≠ j := by
          intro hij
          subst hij
          rw [h] at ht'
          injection ht' with ht'
          subst ht'
          exact hne hta
        rw [onTarget_get, if_neg hij]
        exact h
      · exact h
  · rw [parse_invalid K st addr packet callback now hv]
    exact h

/-- The receipt of a packet leaves every target with another address as it
is. -/
theorem get_response_keeps (K : Consts) (st : State) (recv : Option (Nat × net_packet_t))
    {callback : net_query_callback_t} (hcb : CallbackOk callback) (now : Nat)
    {i : Nat} {t : query_target_t} (h : st.targets[i]? = some t)
    (hne : ∀ a p, recv = some (a, p) → t.addr ≠ a) :
    (net_query_get_response K st recv callback now).targets[i]? = some t := by
  unfold net_query_get_response
  cases recv with
  | none => exact h
  | some ap =>
    obtain ⟨a, p⟩ := ap
    dsimp only
    have hne' := hne a p rfl
    unfold net_query_parse_packet
    rcases lookup_cases st a with ⟨el, _⟩ | ⟨j, t', el, _, _, _⟩
    · rw [el]
      exact parseResponse_keeps K st a p hcb now h hne'
    · rw [el]
      dsimp only
      split
      · exact master_keeps K st a p h hne'
      · exact parseResponse_keeps K st a p hcb now h hne'

/-! ## The number of queries when a poll reads the clock once -/

theorem forall2_mem {R : query_target_t → query_target_t → Prop} :
    ∀ {l l' : List query_target_t}, List.Forall₂ R l l' → ∀ t' ∈ l', ∃ t ∈ l, R t t'
  | _, _, List.Forall₂.nil, t', h => nomatch h
  | _, _, List.Forall₂.cons h1 t1, t', h => by
    rcases List.mem_cons.1 h with rfl | h
    · exact ⟨_, List.mem_cons_self _ _, h1⟩
    · obtain ⟨t, ht, hR⟩ := forall2_mem t1 t' h
      exact ⟨t, List.mem_cons_of_mem _ ht, hR⟩

theorem mem_onTarget (f : query_target_t → query_target_t) :
    ∀ (i : Nat) (l : List query_target_t) (t' : query_target_t), t' ∈ onTarget f i l →
      t' ∈ l ∨ ∃ t, l[i]? = some t ∧ t' = f t
  | _, [], t', h => by simp [onTarget] at h
  | 0, a :: l, t', h => by
    simp only [onTarget, List.mem_cons] at h
    rcases h with h | h
    · exact Or.inr ⟨a, by simp, h⟩
    · exact Or.inl (List.mem_cons_of_mem _ h)
  | i + 1, a :: l, t', h => by
    simp only [onTarget, List.mem_cons] at h
    rcases h with h | h
    · exact Or.inl (h ▸ List.mem_cons_self _ _)
    · rcases mem_onTarget f i l t' h with h | ⟨t, ht, e⟩
      · exact Or.inl (List.mem_cons_of_mem _ h)
      · exact Or.inr ⟨t, by simpa using ht, e⟩

/-- One poll that reads the same clock value in the timeout check and in the
send step keeps the bound on the queries sent to each target. -/
theorem poll_attempts (K : Consts) {callback : net_query_callback_t} (hcb : CallbackOk callback)
    (st : State) (inp : PollInput) (hclk : inp.t_send = inp.t_check)
    (h : ∀ t ∈ st.targets, AttemptsOk t) :
    ∀ t ∈ (net_query_Poll K st callback inp).1.targets, AttemptsOk t := by
  have h1 : ∀ t ∈ (net_check_target_timeouts st inp.t_check).targets,
      AttemptsOk t ∧ ¬ TimedOut t inp.t_check := by
    intro t' ht'
    obtain ⟨t, ht, hR⟩ := forall2_mem (check_forall2 st inp.t_check) t' ht'
    rcases hR with ⟨hn, e⟩ | ⟨_, e⟩
    · rw [e]; exact ⟨h t ht, hn⟩
    · rw [e]; exact ⟨⟨(h t ht).1, fun e => nomatch e⟩, fun e => nomatch e.1⟩
  have h2 : ∀ t ∈ (net_send_one_query (net_check_target_timeouts st inp.t_check)
      inp.t_send).targets, AttemptsOk t := by
    intro t' ht'
    rcases send_cases (net_check_target_timeouts st inp.t_check) inp.t_send with
      ⟨e, _⟩ | ⟨i, t, _, ht, hq, _, e⟩
    · rw [e] at ht'
      exact (h1 t' ht').1
    · rw [e] at ht'
      rcases mem_onTarget _ i _ t' ht' with hm | ⟨t0, ht0, e0⟩
      · exact (h1 t' hm).1
      · rw [ht] at ht0
        rw [← Option.some.inj ht0] at e0
        obtain ⟨⟨hle, hz⟩, hnt⟩ := h1 t (mem_of_get ht)
        have hlt : t.query_attempts < 3 := by
          rcases hq with hq | hq
          · rw [hz hq]; decide
          · rw [hclk] at hq
            unfold TimedOut QUERY_MAX_ATTEMPTS at hnt
            by_contra hc
            exact hnt ⟨hq.1, by omega, hq.2⟩
        subst e0
        refine ⟨?_, fun e => nomatch e⟩
        show u32 (t.query_attempts + 1) ≤ QUERY_MAX_ATTEMPTS
        unfold u32 QUERY_MAX_ATTEMPTS
        omega
  intro t' ht'
  obtain ⟨mid, extra, e, hf, hc, _⟩ := grows_get_response K hcb
    (net_send_one_query (net_check_target_timeouts st inp.t_check) inp.t_send) inp.recv inp.t_recv
  have ht2 : t' ∈ mid ++ extra := by rw [← e]; exact ht'
  rcases List.mem_append.1 ht2 with hm | hm
  · obtain ⟨t, ht, hR⟩ := forall2_mem hf t' hm
    rcases hR with e1 | ⟨d, p, e1⟩
    · rw [e1]; exact h2 _ ht
    · rw [e1]; exact ⟨(h2 t ht).1, fun e => nomatch e⟩
  · obtain ⟨_, h0, _⟩ := hc t' hm
    exact ⟨by rw [h0]; decide, fun _ => h0⟩

/-- When every poll reads the same clock value in the timeout check and in the
send step, no target is sent more than `QUERY_MAX_ATTEMPTS` queries. -/
theorem attempts_bounded_same_clock (K : Consts) {callback : net_query_callback_t}
    (hcb : CallbackOk callback) :
    ∀ (ins : List PollInput) (st : State), (∀ inp ∈ ins, inp.t_send = inp.t_check) →
      (∀ t ∈ st.targets, AttemptsOk t) →
      ∀ t ∈ (polls K callback st ins).targets, t.query_attempts ≤ QUERY_MAX_ATTEMPTS
  | [], _, _, h => fun t ht => (h t ht).1
  | inp :: rest, st, hclk, h =>
    attempts_bounded_same_clock K hcb rest _ (fun i hi => hclk i (List.mem_cons_of_mem _ hi))
      (poll_attempts K hcb st inp (hclk inp (List.mem_cons_self _ _)) h)

/-! ## Targets that have responded -/

theorem stays_refl (l : List query_target_t) : Stays l l :=
  fun _ t h => ⟨t, h, rfl, id⟩

theorem stays_trans {a b c : List query_target_t} (h1 : Stays a b) (h2 : Stays b c) :
    Stays a c := by
  intro i t ht
  obtain ⟨t1, e1, a1, s1⟩ := h1 i t ht
  obtain ⟨t2, e2, a2, s2⟩ := h2 i t1 e1
  exact ⟨t2, e2, a2.trans a1, fun h => s2 (s1 h)⟩

theorem forall2_stays {R : query_target_t → query_target_t → Prop}
    (hR : ∀ a b, R a b → b.addr = a.addr ∧
      (a.state = QUERY_TARGET_RESPONDED → b.state = QUERY_TARGET_RESPONDED)) :
    ∀ {l mid : List query_target_t}, List.Forall₂ R l mid → ∀ extra, Stays l (mid ++ extra)
  | _, _, List.Forall₂.nil, _ => fun i t h => by simp at h
  | _, _, List.Forall₂.cons h1 t1, extra => by
    intro i t h
    cases i with
    | zero =>
      simp only [List.getElem?_cons_zero, Option.some.injEq] at h
      subst h
      exact ⟨_, by simp, (hR _ _ h1).1, (hR _ _ h1).2⟩
    | succ i =>
      simp only [List.getElem?_cons_succ] at h
      obtain ⟨t', e, h2⟩ := forall2_stays hR t1 extra i t h
      exact ⟨t', by simpa using e, h2⟩

theorem stays_check (st : State) (now : Nat) :
    Stays st.targets (net_check_target_timeouts st now).targets := by
  have h := forall2_stays (fun a b hab => ?_) (check_forall2 st now) []
  · rwa [List.append_nil] at h
  · rcases hab with ⟨_, rfl⟩ | ⟨h1, rfl⟩
    · exact ⟨rfl, id⟩
    · refine ⟨rfl, fun h2 => ?_⟩
      rw [h1.1] at h2
      exact nomatch h2

theorem stays_send (st : State) (now : Nat) :
    Stays st.targets (net_send_one_query st now).targets := by
  have h := forall2_stays (fun a b hab => ?_) (send_forall2 st now) []
  · rwa [List.append_nil] at h
  · rcases hab with rfl | ⟨_, h1, _, h2⟩
    · exact ⟨rfl, id⟩
    · refine ⟨h2, fun h3 => ?_⟩
      rcases h1 with h1 | h1 <;> rw [h3] at h1 <;> exact nomatch h1

theorem stays_grows {st st' : State} (h : Grows st st') : Stays st.targets st'.targets := by
  obtain ⟨mid, extra, e, hf, _⟩ := h
  rw [e]
  refine forall2_stays (fun a b hab => ?_) hf extra
  rcases hab with rfl | ⟨d, p, rfl⟩
  · exact ⟨rfl, id⟩
  · exact ⟨rfl, fun _ => rfl⟩

theorem stays_poll (K : Consts) {callback : net_query_callback_t} (hcb : CallbackOk callback)
    (st : State) (inp : PollInput) :
    Stays st.targets (net_query_Poll K st callback inp).1.targets :=
  stays_trans (stays_check st inp.t_check)
    (stays_trans (stays_send _ inp.t_send) (stays_grows (grows_get_response K hcb _ _ _)))

theorem stays_polls (K : Consts) {callback : net_query_callback_t} (hcb : CallbackOk callback) :
    ∀ (ins : List PollInput) (st : State), Stays st.targets (polls K callback st ins).targets
  | [], _ => stays_refl _
  | inp :: rest, st => stays_trans (stays_poll K hcb st inp) (stays_polls K hcb rest _)

/-- A target that has responded is still the target for its address, and still
marked so, wherever the targets stay in place. -/
theorem respondedAt_stays {st st' : State} (h : Stays st.targets st'.targets) {addr : Nat}
    (hr : respondedAt st addr) : respondedAt st' addr := by
  obtain ⟨i, t, ⟨ht, hta, hfirst⟩, hs⟩ := hr
  obtain ⟨t', e, a', s'⟩ := h i t ht
  refine ⟨i, t', ⟨e, a'.trans hta, fun j tj hj hjt => ?_⟩, s' hs⟩
  have hi : i < st.targets.length := by
    by_contra hc
    rw [List.getElem?_eq_none (by omega)] at ht
    exact nomatch ht
  obtain ⟨tj', ej, aj, _⟩ := h j _ (List.getElem?_eq_getElem (show j < st.targets.length by omega))
  rw [hjt] at ej
  injection ej with ej
  subst ej
  rw [aj]
  exact hfirst j _ hj (List.getElem?_eq_getElem (show j < st.targets.length by omega))

theorem targetAt_unique {st : State} {addr i j : Nat} {t t' : query_target_t}
    (h1 : TargetAt st addr i t) (h2 : TargetAt st addr j t') : i = j ∧ t = t' := by
  have hij : i = j := by
    rcases Nat.lt_trichotomy i j with h | h | h
    · exact absurd h1.2.1 (h2.2.2 i t h h1.1)
    · exact h
    · exact absurd h2.2.1 (h1.2.2 j t' h h2.1)
  subst hij
  have := h1.1.symm.trans h2.1
  injection this with this
  exact ⟨rfl, this⟩

/-- A response from an address whose target has responded changes nothing,
whatever the callback is. -/
theorem parse_responded (K : Consts) (st : State) (addr : Nat) (packet : net_packet_t)
    (callback : net_query_callback_t) (now : Nat) (hr : respondedAt st addr) :
    net_query_ParseResponse K st addr packet callback now = st := by
  obtain ⟨i, t, hT, hs⟩ := hr
  by_cases hv : ValidResponse K packet
  · obtain ⟨hh, hq⟩ := hv
    obtain ⟨qd, hq⟩ := Option.ne_none_iff_exists'.1 hq
    rcases lookup_cases st addr with ⟨_, hno⟩ | ⟨j, t', el, ht', hta, hf⟩
    · exact absurd hT.2.1 (hno t (mem_of_get hT.1))
    · obtain ⟨rfl, rfl⟩ := targetAt_unique hT ⟨ht', hta, hf⟩
      rw [parse_known K st addr packet callback now hh hq el ht', if_neg (by simp [hs])]
  · exact parse_invalid K st addr packet callback now hv

theorem lookup_targetAt {st : State} {addr i : Nat}
    (el : net_get_target_for_addr st addr false = (st, some i)) {t : query_target_t}
    (ht : st.targets[i]? = some t) : TargetAt st addr i t := by
  rcases lookup_cases st addr with ⟨e2, _⟩ | ⟨i2, t2, e2, h2, h3, h4⟩
  · rw [el] at e2; exact nomatch e2
  · rw [el] at e2
    injection e2 with _ e2
    injection e2 with e2
    subst e2
    rw [ht] at h2
    injection h2 with h2
    subst h2
    exact ⟨ht, h3, h4⟩

theorem lookup_of_targetAt {st : State} {addr i : Nat} {t : query_target_t}
    (h : TargetAt st addr i t) : net_get_target_for_addr st addr false = (st, some i) := by
  rcases lookup_cases st addr with ⟨_, hno⟩ | ⟨i2, t2, e2, h2, h3, h4⟩
  · exact absurd h.2.1 (hno t (mem_of_get h.1))
  · rw [e2, (targetAt_unique h ⟨h2, h3, h4⟩).1]

/-! ## The claims about `query.c` -/

/-- C14: `net_check_target_timeouts` moves a target to `NO_RESPONSE` exactly when
it is in the state `QUERIED`, has been sent at least `QUERY_MAX_ATTEMPTS`
queries and more than `QUERY_TIMEOUT_SECS * 1000` ms have passed since its last
query (`TimedOut`), and leaves every other target as it is; neither
`net_send_one_query` nor the receipt of a packet moves a target to
`NO_RESPONSE`; and when the target of `net_queryAddress` has received nothing
up to the poll in which it times out, `net_queryAddress` ends in the error
"No response". -/
theorem C14_no_response (K : Consts) :
    (∀ (st : State) (now i : Nat) (t : query_target_t), st.targets[i]? = some t →
      (net_check_target_timeouts st now).targets[i]? =
        some (if TimedOut t now then { t with state := QUERY_TARGET_NO_RESPONSE } else t)) ∧
    (∀ (t : query_target_t) (now : Nat), t.query_time ≤ now → now < 4294967296 →
      (TimedOut t now ↔ t.state = QUERY_TARGET_QUERIED ∧
        t.query_attempts ≥ QUERY_MAX_ATTEMPTS ∧
        now - t.query_time > QUERY_TIMEOUT_SECS * 1000)) ∧
    (∀ (st : State) (now i : Nat) (t' : query_target_t),
      (net_send_one_query st now).targets[i]? = some t' →
      t'.state = QUERY_TARGET_NO_RESPONSE →
      ∃ t, st.targets[i]? = some t ∧ t.state = QUERY_TARGET_NO_RESPONSE) ∧
    (∀ (callback : net_query_callback_t), CallbackOk callback →
      ∀ (st : State) (recv : Option (Nat × net_packet_t)) (now i : Nat) (t' : query_target_t),
      (net_query_get_response K st recv callback now).targets[i]? = some t' →
      t'.state = QUERY_TARGET_NO_RESPONSE →
      ∃ t, st.targets[i]? = some t ∧ t.state = QUERY_TARGET_NO_RESPONSE) ∧
    (∀ (st : State) (addr : Nat) (pre : List PollInput) (inp : PollInput)
      (post : List PollInput) (t : query_target_t), addr ≠ 0 →
      (∀ i ∈ pre, i.recv = none) → inp.recv = none →
      (polls K net_query_ExitCallback (queryStart st addr) pre).targets = [t] →
      TimedOut t inp.t_check →
      ∃ st', net_queryAddress K st addr (pre ++ inp :: post) = .fatal st' .no_response ∧
        st'.targets = [{ t with state := QUERY_TARGET_NO_RESPONSE }]) := by
  refine ⟨fun st now i t ht => ?_, fun t now h1 h2 => ?_, fun st now i t' ht' hs => ?_,
    fun callback hcb st recv now i t' ht' hs => ?_,
    fun st addr pre inp post t ha hpre hinp ht hto => ?_⟩
  · rw [check_get, ht]
    unfold TimedOut
    rfl
  · unfold TimedOut
    rw [u32_sub h1 h2]
  · obtain ⟨t, ht, hR⟩ := forall2_get (send_forall2 st now) i t' ht'
    refine ⟨t, ht, ?_⟩
    rcases hR with rfl | ⟨h1, _⟩
    · exact hs
    · rw [h1] at hs; exact nomatch hs
  · obtain ⟨mid, extra, e, hf, hc, _⟩ := grows_get_response K hcb st recv now
    rw [e] at ht'
    by_cases hi : i < mid.length
    · rw [List.getElem?_append_left hi] at ht'
      obtain ⟨t, ht, hR⟩ := forall2_get hf i t' ht'
      refine ⟨t, ht, ?_⟩
      rcases hR with rfl | ⟨d, p, rfl⟩
      · exact hs
      · exact nomatch hs
    · rw [List.getElem?_append_right (by omega)] at ht'
      have := (hc t' (mem_of_get ht')).2.2
      rcases this with h1 | h1 <;> rw [h1] at hs <;> exact nomatch hs
  · have hnd : net_all_targets_done
        (polls K net_query_ExitCallback (queryStart st addr) pre) = false := by
      rw [Bool.eq_false_iff, Ne, all_done_iff, ht]
      intro hc
      rcases hc t (by simp) with e | e <;> rw [hto.1] at e <;> exact nomatch e
    obtain ⟨e1, hrun⟩ := queryLoop_quiet K net_query_ExitCallback (inp :: post) pre
      (queryStart st addr) rfl hpre hnd
    obtain ⟨e2, e3⟩ := poll_timeout K _ net_query_ExitCallback inp hinp ht hto
    refine ⟨{ polls K net_query_ExitCallback (queryStart st addr) pre with
      targets := [{ t with state := QUERY_TARGET_NO_RESPONSE }] }, ?_, rfl⟩
    unfold net_queryAddress
    dsimp only
    rw [if_neg ha, queryStart_targets]
    dsimp only
    unfold net_query_QueryLoop
    have e0 : ({ ({ net_query_Init st with
        targets := [newTarget (net_query_Init st) addr] } : State) with
        query_loop_running := true } : State) = queryStart st addr := by
      unfold queryStart
      rw [queryStart_targets]
    rw [e0, e1, queryLoop, if_pos hrun, if_neg (by rw [e2]; simp), e3]
    dsimp only
    rw [if_neg]
    simp [State.target]

theorem C14_no_response_witness :
    ∃ st', net_queryAddress demoConsts initState 7
        ([quiet 50, quiet 2051, quiet 4052, quiet 6052] ++ quiet 6053 :: []) =
          .fatal st' .no_response ∧
      st'.targets = [{ (⟨QUERY_TARGET_SERVER, QUERY_TARGET_QUERIED, 7, 0, 0, 4052, 3, false⟩ :
        query_target_t) with state := QUERY_TARGET_NO_RESPONSE }] :=
  (C14_no_response demoConsts).2.2.2.2 initState 7 [quiet 50, quiet 2051, quiet 4052, quiet 6052]
    (quiet 6053) [] _ (by decide) (by decide) rfl (by decide) (by decide)

/-- C15 (as stated) fails: in the LAN query `demoLan` two servers have
responded to the first broadcast; when the response of a third server is
processed, `GetNumResponses` is 3, but the broadcast target is still `QUERIED`
(one query sent), `net_all_targets_done` is false and `net_query_Poll` returns
1. With nothing more received the polls return 1 until the broadcast target
has been sent its third query and that one has timed out. -/
theorem C15_counterexample :
    GetNumResponses (net_query_Poll demoConsts demoLan net_queryPrintCallback
      (answer 80 13)).1 = 3 ∧
    (net_query_Poll demoConsts demoLan net_queryPrintCallback (answer 80 13)).1.targets.map
      (fun t => (t.type, t.state, t.query_attempts)) =
      [(QUERY_TARGET_BROADCAST, QUERY_TARGET_QUERIED, 1),
       (QUERY_TARGET_SERVER, QUERY_TARGET_RESPONDED, 0),
       (QUERY_TARGET_SERVER, QUERY_TARGET_RESPONDED, 0),
       (QUERY_TARGET_SERVER, QUERY_TARGET_RESPONDED, 0)] ∧
    net_all_targets_done (net_query_Poll demoConsts demoLan net_queryPrintCallback
      (answer 80 13)).1 = false ∧
    (net_query_Poll demoConsts demoLan net_queryPrintCallback (answer 80 13)).2 = 1 ∧
    pollResults demoConsts net_queryPrintCallback demoLan
      [answer 80 13, quiet 90, quiet 2051, quiet 4052, quiet 6052, quiet 6053] =
      [1, 1, 1, 1, 1, 0] := by
  decide

/-- C15 (as amended): the responses of servers do not complete a broadcast
query. As long as the broadcast target (a target with the address `NULL`) is
`QUEUED` or `QUERIED` and the timeout check of the poll does not give it up
(fewer than `QUERY_MAX_ATTEMPTS` queries sent, or the last query not older than
the timeout), `net_all_targets_done` is false after the poll and
`net_query_Poll` returns 1, whatever is received from a server; the broadcast
target is still `QUEUED` or `QUERIED` afterwards. -/
theorem C15_broadcast_pending (K : Consts) (callback : net_query_callback_t)
    (hcb : CallbackOk callback) (st : State) (inp : PollInput) (b : Nat) (bt : query_target_t)
    (hb : st.targets[b]? = some bt) (ha : bt.addr = 0)
    (hs : bt.state = QUERY_TARGET_QUEUED ∨ bt.state = QUERY_TARGET_QUERIED)
    (hto : ¬ TimedOut bt inp.t_check)
    (hrecv : ∀ a p, inp.recv = some (a, p) → a ≠ 0) :
    (net_query_Poll K st callback inp).2 = 1 ∧
    net_all_targets_done (net_query_Poll K st callback inp).1 = false ∧
    ∃ bt', (net_query_Poll K st callback inp).1.targets[b]? = some bt' ∧ bt'.addr = 0 ∧
      bt'.type = bt.type ∧
      (bt'.state = QUERY_TARGET_QUEUED ∨ bt'.state = QUERY_TARGET_QUERIED) := by
  have h1 : (net_check_target_timeouts st inp.t_check).targets[b]? = some bt := by
    rw [check_get, hb]
    unfold TimedOut at hto
    simp only [Option.map_some', if_neg hto]
  have h2 := send_forall2 (net_check_target_timeouts st inp.t_check) inp.t_send
  have hlen := List.Forall₂.length_eq h2
  have hbl : b < (net_check_target_timeouts st inp.t_check).targets.length := by
    by_contra hc
    rw [List.getElem?_eq_none (by omega)] at h1
    exact nomatch h1
  obtain ⟨t, ht, hR⟩ := forall2_get h2 b _ (List.getElem?_eq_getElem (hlen ▸ hbl))
  rw [h1] at ht
  injection ht with ht
  subst ht
  generalize hbt' : (net_send_one_query (net_check_target_timeouts st inp.t_check)
    inp.t_send).targets[b] = bt' at hR
  have h3 : (net_send_one_query (net_check_target_timeouts st inp.t_check)
      inp.t_send).targets[b]? = some bt' := by
    rw [← hbt']
    exact List.getElem?_eq_getElem (hlen ▸ hbl)
  have hprop : bt'.addr = 0 ∧ bt'.type = bt.type ∧
      (bt'.state = QUERY_TARGET_QUEUED ∨ bt'.state = QUERY_TARGET_QUERIED) := by
    rcases hR with rfl | ⟨e1, _, e2, e3⟩
    · exact ⟨ha, rfl, hs⟩
    · exact ⟨e3.trans ha, e2, Or.inr e1⟩
  have h4 : (net_query_Poll K st callback inp).1.targets[b]? = some bt' :=
    get_response_keeps K _ inp.recv hcb inp.t_recv h3
      (fun a p hr => by rw [hprop.1]; exact (hrecv a p hr).symm)
  have h5 : net_all_targets_done (net_query_Poll K st callback inp).1 = false := by
    rw [← Bool.not_eq_true, all_done_iff]
    intro hall
    have hst := hprop.2.2
    rcases hall bt' (mem_of_get h4) with e | e <;> rw [e] at hst <;>
      rcases hst with hst | hst <;> exact nomatch hst
  refine ⟨?_, h5, bt', h4, hprop.1, hprop.2.1, hprop.2.2⟩
  rw [poll_ret, h5]
  rfl

theorem C15_broadcast_pending_witness :
    (net_query_Poll demoConsts demoLan net_queryPrintCallback (answer 2000 13)).2 = 1 :=
  (C15_broadcast_pending demoConsts net_queryPrintCallback (fun _ _ _ _ => ⟨rfl, rfl, rfl, rfl⟩)
    demoLan (answer 2000 13) 0 (demoLan.target 0) (by decide) (by decide) (by decide)
    (by decide)
    (by
      intro a p hr
      simp [answer] at hr
      omega)).1

/-- C16: after any sequence of polls of a LAN query (started by
`net_start_lan_query`, packets coming from resolved addresses) `GetNumResponses`
returns the number of distinct addresses from which a valid query response
arrived while the broadcast target was `QUERIED`, however often each of them
responded; and `GetNumResponses` counts exactly the targets of type
`QUERY_TARGET_SERVER` that are `RESPONDED`, never a broadcast or master
target. -/
theorem C16_lan_responses (K : Consts) (callback : net_query_callback_t)
    (hcb : CallbackOk callback) (st : State) (ins : List PollInput)
    (hlen : ins.length < 2147483647)
    (haddr : ∀ inp ∈ ins, ∀ a p, inp.recv = some (a, p) → a ≠ 0) :
    GetNumResponses (polls K callback (net_start_lan_query st) ins) =
      ((lanResponders K callback (net_start_lan_query st) ins).dedup.length : Nat) ∧
    (∀ st' : State, (st'.targets.length : Int) < 2147483648 →
      GetNumResponses st' = (st'.targets.countP (fun t =>
        decide (t.type = QUERY_TARGET_SERVER ∧ t.state = QUERY_TARGET_RESPONDED)) : Nat)) := by
  have hgen : ∀ st' : State, (st'.targets.length : Int) < 2147483648 →
      GetNumResponses st' = (st'.targets.countP (fun t =>
        decide (t.type = QUERY_TARGET_SERVER ∧ t.state = QUERY_TARGET_RESPONDED)) : Nat) := by
    intro st' h
    unfold GetNumResponses
    rw [getNum_loop st'.targets 0 (le_refl 0) (by omega)]
    omega
  refine ⟨?_, hgen⟩
  obtain ⟨S, hS, hm⟩ := lan_polls K hcb ins (net_start_lan_query st) [] [] (lan_start st)
    (fun _ => Iff.rfl) haddr
  have hc := lan_count hS
  have hnd : S.Nodup := by
    obtain ⟨_, _, _, _, _, _, _, hnd⟩ := hS
    exact hnd
  have hlen2 : S.length =
      (lanResponders K callback (net_start_lan_query st) ins).dedup.length := by
    rw [← List.toFinset_card_of_nodup hnd, ← List.card_toFinset]
    congr 1
    ext x
    rw [List.mem_toFinset, List.mem_toFinset, hm x, List.nil_append]
  have hle := lanResponders_length K callback ins (net_start_lan_query st)
  have hd := List.Sublist.length_le
    (List.dedup_sublist (lanResponders K callback (net_start_lan_query st) ins))
  rw [hgen _ (by rw [hc.1]; omega), hc.2, hlen2]

theorem C16_lan_responses_witness :
    GetNumResponses (polls demoConsts net_queryPrintCallback (net_start_lan_query initState)
      [quiet 50, answer 60 11, answer 70 12, answer 75 11, answer 80 13]) = 3 :=
  (C16_lan_responses demoConsts net_queryPrintCallback (fun _ _ _ _ => ⟨rfl, rfl, rfl, rfl⟩)
    initState [quiet 50, answer 60 11, answer 70 12, answer 75 11, answer 80 13] (by decide)
    (by
      intro inp hi a p hr
      simp only [List.mem_cons, List.mem_singleton, List.not_mem_nil, or_false] at hi
      rcases hi with rfl | rfl | rfl | rfl | rfl <;> simp [quiet, answer] at hr <;> omega)).1.trans
    (by decide)

/-- C17: `net_query_Poll` runs the timeout check, the send step and the receive
step, and returns zero if and only if every target is then in the state
`RESPONDED` or `NO_RESPONSE`; it returns non-zero if and only if some target is
still `QUEUED` or `QUERIED`. -/
theorem C17_poll_result (K : Consts) (st : State) (callback : net_query_callback_t)
    (inp : PollInput) :
    (net_query_Poll K st callback inp).1 =
      net_query_get_response K
        (net_send_one_query (net_check_target_timeouts st inp.t_check) inp.t_send)
        inp.recv callback inp.t_recv ∧
    ((net_query_Poll K st callback inp).2 = 0 ↔
      ∀ t ∈ (net_query_Poll K st callback inp).1.targets,
        t.state = QUERY_TARGET_RESPONDED ∨ t.state = QUERY_TARGET_NO_RESPONSE) ∧
    ((net_query_Poll K st callback inp).2 ≠ 0 ↔
      ∃ t ∈ (net_query_Poll K st callback inp).1.targets,
        t.state = QUERY_TARGET_QUEUED ∨ t.state = QUERY_TARGET_QUERIED) := by
  have key : (net_query_Poll K st callback inp).2 = 0 ↔
      net_all_targets_done (net_query_Poll K st callback inp).1 = true := by
    unfold net_query_Poll
    dsimp only
    split
    · rename_i h; simp [h]
    · rename_i h; simp [h]
  refine ⟨rfl, by rw [key, all_done_iff], ?_⟩
  rw [Ne, key, all_done_iff]
  constructor
  · intro h
    by_contra hc
    apply h
    intro t ht
    rcases state_cases t.state with e | e | e | e
    · exact absurd ⟨t, ht, Or.inl e⟩ hc
    · exact absurd ⟨t, ht, Or.inr e⟩ hc
    · exact Or.inl e
    · exact Or.inr e
  · rintro ⟨t, ht, e⟩ h
    rcases h t ht with h1 | h1 <;> rcases e with e | e <;> rw [h1] at e <;> exact nomatch e

/-- C18: a call of `net_send_one_query` changes nothing, or it queries exactly
one target (the query is recorded, the target is marked as queried at the
clock reading, its attempts are counted up); it changes nothing when fewer
than 50 ms have passed since the last query; and along every sequence of calls
of `net_query_Poll` with non-decreasing clock readings any two consecutive
queries are at least 50 ms apart. -/
theorem C18_rate_limit (K : Consts) (callback : net_query_callback_t)
    (hcb : CallbackOk callback) :
    (∀ st now, net_send_one_query st now = st ∨
      ∃ i, net_send_one_query st now =
        { st with
          targets := (onTarget (fun t =>
            { t with state := QUERY_TARGET_QUERIED, query_time := now,
                     query_attempts := u32 (t.query_attempts + 1) }) i st.targets),
          sent := st.sent ++ [(now, i)],
          last_query_time := i32 now }) ∧
    (∀ (st : State) (now prev : Nat), st.last_query_time = i32 prev → prev ≤ now →
      now < 4294967296 → now - prev < 50 → net_send_one_query st now = st) ∧
    (∀ (st : State) (ins : List PollInput), st.sent = [] →
      (ins.map (fun i => i.t_send)).Chain' (fun a b => a ≤ b) →
      (∀ i ∈ ins, i.t_send < 4294967296) →
      ((polls K callback st ins).sent.map Prod.fst).Chain' (fun a b => a + 50 ≤ b)) := by
  refine ⟨fun st now => ?_, fun st now prev h1 h2 h3 h4 => ?_, fun st ins h1 h2 h3 => ?_⟩
  · rcases send_cases st now with ⟨e, _⟩ | ⟨i, _, _, _, _, _, e⟩
    · exact Or.inl e
    · exact Or.inr ⟨i, e⟩
  · unfold net_send_one_query
    rw [if_pos (by rw [h1, u32_sub_i32 h2 h3]; exact h4)]
  · refine polls_spaced K hcb ins st (List.chain'_iff_pairwise.1 h2) h3 (by simp [h1]) ?_
    intro x hx
    rw [h1] at hx
    exact nomatch hx

theorem C18_rate_limit_witness :
    ((polls demoConsts net_queryPrintCallback (net_start_lan_query initState)
      [quiet 10, quiet 50, quiet 60, quiet 2051]).sent.map Prod.fst).Chain'
        (fun a b => a + 50 ≤ b) :=
  (C18_rate_limit demoConsts net_queryPrintCallback
    (fun _ _ _ _ => ⟨rfl, rfl, rfl, rfl⟩)).2.2 (net_start_lan_query initState)
    [quiet 10, quiet 50, quiet 60, quiet 2051] rfl (by simp [quiet]) (by decide)

/-- C19 (as stated) fails for a late response: the target of `demoTimedOut`
has been given up (`NO_RESPONSE`) after three queries, and a query response
from its address moves it to `RESPONDED`. -/
theorem C19_counterexample :
    demoTimedOut.targets.map (fun t => t.state) = [QUERY_TARGET_NO_RESPONSE] ∧
      (net_query_ParseResponse demoConsts demoTimedOut 7 demoResponse net_query_ExitCallback
        7000).targets.map (fun t => t.state) = [QUERY_TARGET_RESPONDED] := by
  decide

/-- C19 (as amended): a new target starts `QUEUED`, and every change of a
target's state by `net_send_one_query`, `net_check_target_timeouts`,
`net_query_ParseResponse` and `net_query_parse_master_response` is a step of
`Follows`: only a queued or queried target becomes queried, only a queried
target becomes "no response", a target in any state is marked as having
responded when its response arrives, and `RESPONDED` is never left. -/
theorem C19_lifecycle (K : Consts) (callback : net_query_callback_t)
    (hcb : CallbackOk callback) :
    (∀ st addr, (net_get_target_for_addr st addr true).1.targets = st.targets ∨
      ∃ t, (net_get_target_for_addr st addr true).1.targets = st.targets ++ [t] ∧
        t.state = QUERY_TARGET_QUEUED) ∧
    (∀ st now, Lifecycle st.targets (net_send_one_query st now).targets) ∧
    (∀ st now, Lifecycle st.targets (net_check_target_timeouts st now).targets) ∧
    (∀ st addr packet now,
      Lifecycle st.targets (net_query_ParseResponse K st addr packet callback now).targets) ∧
    (∀ st addr packet,
      Lifecycle st.targets (net_query_parse_master_response K st addr packet).targets) ∧
    (∀ s s', Follows s s' → s = QUERY_TARGET_RESPONDED → s' = QUERY_TARGET_RESPONDED) := by
  refine ⟨fun st addr => ?_, fun st now => ?_, fun st now => ?_,
    fun st addr packet now => lifecycle_of_grows (grows_parseResponse K hcb st addr packet now),
    fun st addr packet => lifecycle_of_grows (grows_master K st addr packet), ?_⟩
  · rcases create_cases st addr with ⟨i, t, e, _, _⟩ | ⟨_, e⟩
    · rw [e]; exact Or.inl rfl
    · rw [e]; exact Or.inr ⟨_, rfl, rfl⟩
  · refine ⟨_, [], by simp, forall2_mono (fun a b hab => ?_) (send_forall2 st now), by simp⟩
    rcases hab with rfl | ⟨h1, h2, _⟩
    · exact Or.inl rfl
    · exact Or.inr (Or.inl ⟨h1, h2⟩)
  · refine ⟨_, [], by simp, forall2_mono (fun a b hab => ?_) (check_forall2 st now), by simp⟩
    rcases hab with ⟨_, rfl⟩ | ⟨h1, rfl⟩
    · exact Or.inl rfl
    · exact Or.inr (Or.inr (Or.inl ⟨rfl, h1.1⟩))
  · intro s s' h hs
    subst hs
    rcases h with h | ⟨_, h | h⟩ | ⟨_, h⟩ | h
    · exact h
    · exact nomatch h
    · exact nomatch h
    · exact nomatch h
    · exact h

theorem C19_lifecycle_witness :
    Lifecycle demoTimedOut.targets
      (net_query_ParseResponse demoConsts demoTimedOut 7 demoResponse net_query_ExitCallback
        7000).targets :=
  (C19_lifecycle demoConsts net_query_ExitCallback
    (fun _ _ _ _ => ⟨rfl, rfl, rfl, rfl⟩)).2.2.2.1 demoTimedOut 7 demoResponse 7000

/-- C20: the bound fails when the clock advances between the timeout check and
the send step of one poll. The target of `demoDirect` is queried at 50, 2051
and 4052 ms; in the fourth poll `net_check_target_timeouts` reads 6052 (the
third query is 2000 ms old, not yet timed out) and `net_send_one_query` reads
6053 (2001 ms, timed out), so a fourth query is sent: `query_attempts` is 4,
above `QUERY_MAX_ATTEMPTS`. With one clock reading for the whole poll the
target is given up instead, after three queries. -/
theorem C20_fourth_query :
    QUERY_MAX_ATTEMPTS = 3 ∧
    (polls demoConsts net_query_ExitCallback demoDirect
      [quiet 50, quiet 2051, quiet 4052,
       { t_check := 6052, t_send := 6053, t_recv := 6053, recv := none }]).targets.map
      (fun t => (t.state, t.query_attempts)) = [(QUERY_TARGET_QUERIED, 4)] ∧
    (polls demoConsts net_query_ExitCallback demoDirect
      [quiet 50, quiet 2051, quiet 4052,
       { t_check := 6052, t_send := 6053, t_recv := 6053, recv := none }]).sent =
      [(50, 0), (2051, 0), (4052, 0), (6053, 0)] ∧
    (polls demoConsts net_query_ExitCallback demoDirect
      [quiet 50, quiet 2051, quiet 4052, quiet 6053]).targets.map
      (fun t => (t.state, t.query_attempts)) = [(QUERY_TARGET_NO_RESPONSE, 3)] := by
  decide

/-- C29: a call of `net_query_ParseResponse` either changes nothing, whatever
the callback is (the callback is not invoked, no data is recorded, no target is
created), or it invokes the callback once, on a state in which the target for
the address has just been marked `RESPONDED` with the query data and the ping
time, and this target had not responded before. Once the target for an address
has responded, no response from that address invokes the callback or changes
anything for the rest of the round (along every sequence of polls). A valid
response from an address that is not a target is ignored, and no target is
created, unless the broadcast target (the target with the address `NULL`) is
`QUERIED`, in which case a target for the address is added. -/
theorem C29_callback_once (K : Consts) :
    (∀ st addr packet now,
      (∀ callback, net_query_ParseResponse K st addr packet callback now = st) ∨
      (∃ qd ping st1, packet.querydata = some qd ∧
        (∀ callback, net_query_ParseResponse K st addr packet callback now =
          callback addr qd ping st1) ∧
        ¬ respondedAt st addr ∧
        ∃ i t, TargetAt st1 addr i t ∧ t.state = QUERY_TARGET_RESPONDED ∧ t.data = qd ∧
          t.ping_time = ping)) ∧
    (∀ callback, CallbackOk callback → ∀ st addr ins packet callback' now,
      respondedAt st addr →
      net_query_ParseResponse K (polls K callback st ins) addr packet callback' now =
        polls K callback st ins) ∧
    (∀ st addr packet callback now, (∀ t ∈ st.targets, t.addr ≠ addr) →
      (¬ ∃ b bt, TargetAt st 0 b bt ∧ bt.state = QUERY_TARGET_QUERIED) →
      net_query_ParseResponse K st addr packet callback now = st) ∧
    (∀ st addr packet callback now b bt, CallbackOk callback → ValidResponse K packet →
      (∀ t ∈ st.targets, t.addr ≠ addr) → TargetAt st 0 b bt →
      bt.state = QUERY_TARGET_QUERIED →
      ∃ t, (net_query_ParseResponse K st addr packet callback now).targets =
          st.targets ++ [t] ∧ t.addr = addr ∧ t.state = QUERY_TARGET_RESPONDED) := by
  have unknown : ∀ (st : State) (addr : Nat) (packet : net_packet_t)
      (callback : net_query_callback_t) (now qd : Nat),
      packet.header = some K.NET_PACKET_TYPE_QUERY_RESPONSE → packet.querydata = some qd →
      (∀ t ∈ st.targets, t.addr ≠ addr) →
      ((¬ ∃ b bt, TargetAt st 0 b bt ∧ bt.state = QUERY_TARGET_QUERIED) ∧
        net_query_ParseResponse K st addr packet callback now = st) ∨
      (∃ b bt, TargetAt st 0 b bt ∧ bt.state = QUERY_TARGET_QUERIED ∧
        net_query_ParseResponse K st addr packet callback now =
          callback addr qd (u32 (now - bt.query_time))
            { st with targets := st.targets ++
                [{ newTarget st addr with
                    state := QUERY_TARGET_RESPONDED, query_time := bt.query_time, data := qd,
                    ping_time := u32 (now - bt.query_time) }] }) := by
    intro st addr packet callback now qd hh hq hno
    rcases parse_unknown K st addr packet callback now hh hq hno with
      ⟨el0, e⟩ | ⟨b, bt, el0, hb, e⟩
    · refine Or.inl ⟨?_, e⟩
      rintro ⟨b, bt, hT, _⟩
      rw [lookup_of_targetAt hT] at el0
      exact nomatch el0
    · have hT := lookup_targetAt el0 hb
      by_cases hs : bt.state = QUERY_TARGET_QUERIED
      · exact Or.inr ⟨b, bt, hT, hs, by rw [e, if_neg (by simp [hs])]⟩
      · refine Or.inl ⟨?_, by rw [e, if_pos hs]⟩
        rintro ⟨b2, bt2, hT2, hs2⟩
        rw [(targetAt_unique hT hT2).2] at hs
        exact hs hs2
  refine ⟨fun st addr packet now => ?_, fun callback hcb st addr ins packet callback' now hr => ?_,
    fun st addr packet callback now hno hb => ?_,
    fun st addr packet callback now b bt hcb hv hno hT hq => ?_⟩
  · by_cases hv : ValidResponse K packet
    swap
    · exact Or.inl (fun callback => parse_invalid K st addr packet callback now hv)
    obtain ⟨hh, hq⟩ := hv
    obtain ⟨qd, hq⟩ := Option.ne_none_iff_exists'.1 hq
    rcases lookup_cases st addr with ⟨_, hno⟩ | ⟨j, t', el, ht', hta, hf⟩
    · by_cases hb : ∃ b bt, TargetAt st 0 b bt ∧ bt.state = QUERY_TARGET_QUERIED
      · obtain ⟨b, bt, hT, hs⟩ := hb
        right
        refine ⟨qd, u32 (now - bt.query_time),
          { st with targets := st.targets ++
              [{ newTarget st addr with
                  state := QUERY_TARGET_RESPONDED, query_time := bt.query_time, data := qd,
                  ping_time := u32 (now - bt.query_time) }] },
          hq, fun callback => ?_, ?_, ?_⟩
        · rcases unknown st addr packet callback now qd hh hq hno with ⟨h1, _⟩ | ⟨b2, bt2, hT2, _, e⟩
          · exact absurd ⟨b, bt, hT, hs⟩ h1
          · rw [e, (targetAt_unique hT hT2).2]
        · rintro ⟨i, t, hT', _⟩
          exact hno t (mem_of_get hT'.1) hT'.2.1
        · refine ⟨st.targets.length,
            { newTarget st addr with
                state := QUERY_TARGET_RESPONDED, query_time := bt.query_time, data := qd,
                ping_time := u32 (now - bt.query_time) },
            ⟨?_, rfl, fun j tj hj hjt => ?_⟩, rfl, rfl, rfl⟩
          · simp
          · dsimp only at hjt
            rw [List.getElem?_append_left hj] at hjt
            exact hno tj (mem_of_get hjt)
      · left
        intro callback
        rcases unknown st addr packet callback now qd hh hq hno with ⟨_, e⟩ | ⟨b2, bt2, hT2, hs2, _⟩
        · exact e
        · exact absurd ⟨b2, bt2, hT2, hs2⟩ hb
    · by_cases hs : t'.state = QUERY_TARGET_RESPONDED
      · left
        intro callback
        rw [parse_known K st addr packet callback now hh hq el ht', if_neg (by simp [hs])]
      · right
        refine ⟨qd, u32 (now - t'.query_time),
          { st with targets := (onTarget (fun t0 =>
              { t0 with state := QUERY_TARGET_RESPONDED, data := qd,
                        ping_time := u32 (now - t'.query_time) }) j st.targets) },
          hq, fun callback => ?_, ?_, ?_⟩
        · rw [parse_known K st addr packet callback now hh hq el ht', if_pos hs]
        · rintro ⟨i, t, hT', hs'⟩
          rw [(targetAt_unique hT' ⟨ht', hta, hf⟩).2] at hs'
          exact hs hs'
        · refine ⟨j,
            { t' with state := QUERY_TARGET_RESPONDED, data := qd,
                      ping_time := u32 (now - t'.query_time) },
            ⟨?_, ?_, fun k tk hk hkt => ?_⟩, rfl, rfl, rfl⟩
          · dsimp only
            rw [onTarget_get, if_pos rfl, ht']
            rfl
          · exact hta
          · dsimp only at hkt
            rw [onTarget_get, if_neg (by omega)] at hkt
            exact hf k tk hk hkt
  · exact parse_responded K _ addr packet callback' now
      (respondedAt_stays (stays_polls K hcb ins st) hr)
  · by_cases hv : ValidResponse K packet
    swap
    · exact parse_invalid K st addr packet callback now hv
    obtain ⟨hh, hq⟩ := hv
    obtain ⟨qd, hq⟩ := Option.ne_none_iff_exists'.1 hq
    rcases unknown st addr packet callback now qd hh hq hno with ⟨_, e⟩ | ⟨b2, bt2, hT2, hs2, _⟩
    · exact e
    · exact absurd ⟨b2, bt2, hT2, hs2⟩ hb
  · obtain ⟨hh, hq'⟩ := hv
    obtain ⟨qd, hq'⟩ := Option.ne_none_iff_exists'.1 hq'
    rcases unknown st addr packet callback now qd hh hq' hno with ⟨h1, _⟩ | ⟨b2, bt2, hT2, _, e⟩
    · exact absurd ⟨b, bt, hT, hq⟩ h1
    · rw [e, (hcb _ _ _ _).1]
      exact ⟨_, rfl, rfl, rfl⟩

end Query

namespace GameMode

/-! ## The claim about `gamemode.c` -/

/-- C25: `D_ValidEpisodeMap` is true exactly when the mission and mode are those
of an entry of `validoom_modes` and the episode and the map lie between 1 and
that entry's counts, that is for doom/shareware with episode 1 and maps 1 to 9
and for doom/registered with episodes 1 to 3 and maps 1 to 9; whenever it is
true, `D_ValidGameMode` is true for the mission and mode. -/
theorem C25_valid_episode_map (mission : GameMission_t) (mode : GameMode_t)
    (episode map : Int) :
    (D_ValidEpisodeMap mission mode episode map = true ↔
      ∃ e ∈ validoom_modes, e.mission = mission ∧ e.mode = mode ∧
        1 ≤ episode ∧ episode ≤ e.episode ∧ 1 ≤ map ∧ map ≤ e.map) ∧
    (D_ValidEpisodeMap mission mode episode map = true ↔
      (mission = GameMission_t.doom ∧ mode = GameMode_t.shareware ∧ episode = 1 ∧
        1 ≤ map ∧ map ≤ 9) ∨
      (mission = GameMission_t.doom ∧ mode = GameMode_t.registered ∧ 1 ≤ episode ∧
        episode ≤ 3 ∧ 1 ≤ map ∧ map ≤ 9)) ∧
    (D_ValidEpisodeMap mission mode episode map = true →
      D_ValidGameMode mission mode = true) := by
  have key : D_ValidEpisodeMap mission mode episode map = true ↔
      (mission = GameMission_t.doom ∧ mode = GameMode_t.shareware ∧ episode = 1 ∧
        1 ≤ map ∧ map ≤ 9) ∨
      (mission = GameMission_t.doom ∧ mode = GameMode_t.registered ∧ 1 ≤ episode ∧
        episode ≤ 3 ∧ 1 ≤ map ∧ map ≤ 9) := by
    unfold D_ValidEpisodeMap validoom_modes
    simp only [D_ValidEpisodeMap_loop, GameMission_t.doom, GameMode_t.shareware,
      GameMode_t.registered]
    by_cases h1 : mission = 0 ∧ mode = 0
    · rw [if_pos h1]
      simp only [decide_eq_true_eq, h1.1, h1.2]
      constructor
      · rintro ⟨a, b, c, d⟩
        exact Or.inl ⟨trivial, trivial, by omega, c, d⟩
      · rintro (⟨_, _, a, c, d⟩ | ⟨_, h, _⟩)
        · exact ⟨by omega, by omega, c, d⟩
        · exact absurd h (by decide)
    · rw [if_neg h1]
      by_cases h2 : mission = 0 ∧ mode = 1
      · rw [if_pos h2]
        simp only [decide_eq_true_eq, h2.1, h2.2]
        constructor
        · rintro ⟨a, b, c, d⟩
          exact Or.inr ⟨trivial, trivial, a, b, c, d⟩
        · rintro (⟨_, h, _⟩ | ⟨_, _, a, b, c, d⟩)
          · exact absurd h (by decide)
          · exact ⟨a, b, c, d⟩
      · rw [if_neg h2]
        constructor
        · intro h; exact nomatch h
        · rintro (⟨a, b, _⟩ | ⟨a, b, _⟩)
          · exact absurd ⟨a, b⟩ h1
          · exact absurd ⟨a, b⟩ h2
  refine ⟨?_, key, ?_⟩
  · rw [key]
    simp only [validoom_modes, List.mem_cons, List.mem_singleton, List.not_mem_nil, or_false]
    constructor
    · rintro (⟨a, b, c, d, e⟩ | ⟨a, b, c, d, e, f⟩)
      · exact ⟨_, Or.inl rfl, a.symm, b.symm, by omega, by simp only; omega, d, e⟩
      · exact ⟨_, Or.inr rfl, a.symm, b.symm, c, d, e, f⟩
    · rintro ⟨x, rfl | rfl, a, b, c, d, e, f⟩
      · exact Or.inl ⟨a.symm, b.symm, by simp only at d; omega, e, f⟩
      · exact Or.inr ⟨a.symm, b.symm, c, d, e, f⟩
  · intro h
    rcases key.1 h with ⟨a, b, _⟩ | ⟨a, b, _⟩ <;> subst a <;> subst b <;> decide

end GameMode

namespace Hud

/-! ## The ring buffer -/

theorem land_queuesize (x : Int) (h0 : 0 ≤ x) : Int.land x (QUEUESIZE - 1) = x % 128 := by
  obtain ⟨n, rfl⟩ := Int.eq_ofNat_of_zero_le h0
  show ((n &&& 127 : Nat) : Int) = (n : Int) % 128
  have := Nat.and_pow_two_sub_one_eq_mod n 7
  norm_num at this
  rw [this]
  omega

theorem pending_length (st : ChatState) :
    (pending st).length = ((st.head - st.tail) % QUEUESIZE).toNat := by
  simp [pending]

theorem pending_le (st : ChatState) : (pending st).length ≤ 127 := by
  rw [pending_length]
  unfold QUEUESIZE
  omega

theorem pending_empty (st : ChatState) (h : ChatInv st) :
    pending st = [] ↔ st.head = st.tail := by
  rw [← List.length_eq_zero, pending_length]
  unfold ChatInv QUEUESIZE at *
  omega

/-- Queueing a character when the queue is not full appends it to the pending
characters. -/
theorem queue_room (M : Int) (st : ChatState) (c : Int) (h : ChatInv st)
    (hr : (pending st).length < 127) :
    pending (HU_queueChatChar M st c) = pending st ++ [c] ∧
      ChatInv (HU_queueChatChar M st c) ∧
      (HU_queueChatChar M st c).tail = st.tail ∧
      (HU_queueChatChar M st c).plr_message = st.plr_message := by
  rw [pending_length] at hr
  have hl := land_queuesize (st.head + 1) (by unfold ChatInv at h; omega)
  unfold ChatInv QUEUESIZE at h
  have hne : ¬ Int.land (st.head + 1) (QUEUESIZE - 1) = st.tail := by
    rw [hl]; unfold QUEUESIZE at hr; omega
  unfold HU_queueChatChar
  rw [if_neg hne, hl]
  refine ⟨?_, by unfold ChatInv QUEUESIZE; dsimp only; omega, rfl, rfl⟩
  unfold pending
  dsimp only
  have hn : (((st.head + 1) % 128 - st.tail) % QUEUESIZE).toNat =
      ((st.head - st.tail) % QUEUESIZE).toNat + 1 := by
    unfold QUEUESIZE at hr ⊢; omega
  rw [hn, List.range_succ, List.map_append, List.map_singleton]
  congr 1
  · apply List.map_congr_left
    intro i hi
    rw [List.mem_range] at hi
    rw [if_neg]
    unfold QUEUESIZE at hi ⊢
    omega
  · rw [if_pos]
    unfold QUEUESIZE
    omega

/-- Queueing a character when 127 characters are pending changes nothing but
the message of the player. -/
theorem queue_full (M : Int) (st : ChatState) (c : Int) (h : ChatInv st)
    (hf : ¬ (pending st).length < 127) :
    HU_queueChatChar M st c = { st with plr_message := M } := by
  rw [pending_length] at hf
  have hl := land_queuesize (st.head + 1) (by unfold ChatInv at h; omega)
  unfold ChatInv QUEUESIZE at h
  unfold HU_queueChatChar
  rw [if_pos]
  rw [hl]
  unfold QUEUESIZE at hf
  omega

theorem dequeue_empty (st : ChatState) (he : st.head = st.tail) :
    HU_dequeueChatChar st = (0, st) := by
  unfold HU_dequeueChatChar
  rw [if_neg (by simpa using he)]

/-- Dequeueing from a queue that is not empty yields the oldest pending
character and leaves the others pending. -/
theorem dequeue_some (st : ChatState) (h : ChatInv st) (hne : st.head ≠ st.tail) :
    pending st = (HU_dequeueChatChar st).1 :: pending (HU_dequeueChatChar st).2 ∧
      ChatInv (HU_dequeueChatChar st).2 ∧
      (HU_dequeueChatChar st).2.head = st.head ∧
      (HU_dequeueChatChar st).2.chatchars = st.chatchars ∧
      (HU_dequeueChatChar st).2.plr_message = st.plr_message := by
  have hl := land_queuesize (st.tail + 1) (by unfold ChatInv at h; omega)
  unfold ChatInv QUEUESIZE at h
  unfold HU_dequeueChatChar
  rw [if_pos hne, hl]
  refine ⟨?_, by unfold ChatInv QUEUESIZE; dsimp only; omega, rfl, rfl, rfl⟩
  unfold pending
  dsimp only
  have hn : ((st.head - st.tail) % QUEUESIZE).toNat =
      ((st.head - (st.tail + 1) % 128) % QUEUESIZE).toNat + 1 := by
    unfold QUEUESIZE; omega
  rw [hn, List.range_succ_eq_map, List.map_cons, List.map_map]
  congr 1
  · congr 1
    unfold QUEUESIZE
    omega
  · apply List.map_congr_left
    intro i _
    simp only [Function.comp, Nat.succ_eq_add_one]
    congr 1
    unfold QUEUESIZE
    push_cast
    omega

/-- `HU_queueChatChar` is `fifoQueue` on the pending characters. -/
theorem queue_refines (M : Int) (st : ChatState) (c : Int) (h : ChatInv st) :
    pending (HU_queueChatChar M st c) = fifoQueue (pending st) c ∧
      ChatInv (HU_queueChatChar M st c) := by
  unfold fifoQueue
  by_cases hr : (pending st).length < 127
  · rw [if_pos hr]
    exact ⟨(queue_room M st c h hr).1, (queue_room M st c h hr).2.1⟩
  · rw [if_neg hr, queue_full M st c h hr]
    exact ⟨rfl, h⟩

/-- `HU_dequeueChatChar` is `fifoDequeue` on the pending characters. -/
theorem dequeue_refines (st : ChatState) (h : ChatInv st) :
    ((HU_dequeueChatChar st).1, pending (HU_dequeueChatChar st).2) = fifoDequeue (pending st) ∧
      ChatInv (HU_dequeueChatChar st).2 := by
  by_cases he : st.head = st.tail
  · rw [dequeue_empty st he, (pending_empty st h).2 he]
    exact ⟨rfl, h⟩
  · obtain ⟨e, hi, _⟩ := dequeue_some st h he
    rw [e]
    exact ⟨rfl, hi⟩

/-- Every sequence of calls on the ring buffer is the same sequence of calls on
the FIFO of the pending characters. -/
theorem run_refines (M : Int) : ∀ (ops : List ChatOp) (st : ChatState), ChatInv st →
    (runChat M st ops).2 = (runFifo (pending st) ops).2 ∧
      pending (runChat M st ops).1 = (runFifo (pending st) ops).1 ∧
      ChatInv (runChat M st ops).1
  | [], _, h => ⟨rfl, rfl, h⟩
  | .queue c :: ops, st, h => by
    obtain ⟨e, hi⟩ := queue_refines M st c h
    have ih := run_refines M ops _ hi
    rw [e] at ih
    exact ih
  | .dequeue :: ops, st, h => by
    obtain ⟨e, hi⟩ := dequeue_refines st h
    have ih := run_refines M ops _ hi
    have e1 : (fifoDequeue (pending st)).1 = (HU_dequeueChatChar st).1 := by rw [← e]
    have e2 : (fifoDequeue (pending st)).2 = pending (HU_dequeueChatChar st).2 := by rw [← e]
    simp only [runChat, runFifo, e1, e2]
    exact ⟨by rw [ih.1], ih.2.1, ih.2.2⟩

theorem runFifo_queue : ∀ (cs q : List Int) (rest : List ChatOp), q.length + cs.length ≤ 127 →
    runFifo q (cs.map ChatOp.queue ++ rest) = runFifo (q ++ cs) rest
  | [], q, rest, _ => by simp
  | c :: cs, q, rest, h => by
    simp only [List.length_cons] at h
    have ih := runFifo_queue cs (q ++ [c]) rest (by simp; omega)
    rw [List.map_cons, List.cons_append]
    show runFifo (fifoQueue q c) (cs.map ChatOp.queue ++ rest) = _
    rw [fifoQueue, if_pos (by omega), ih]
    simp

theorem runFifo_drain : ∀ (q : List Int),
    (runFifo q (List.replicate (q.length + 1) ChatOp.dequeue)).2 = q ++ [0]
  | [] => rfl
  | c :: q => by
    have ih := runFifo_drain q
    rw [List.length_cons, List.replicate_succ]
    show c :: (runFifo q (List.replicate (q.length + 1) ChatOp.dequeue)).2 = _
    rw [ih]
    rfl

/-! ## The claim about `hud/stuff.c` -/

/-- C30: `head` and `tail` start in `[0, 128)` and stay there under every
sequence of calls; `HU_queueChatChar` appends the character to the pending
characters while fewer than 127 are pending and otherwise leaves the array and
both indices as they are; `HU_dequeueChatChar` returns the oldest pending
character and removes it, or returns 0 when none is pending; every sequence of
calls behaves as the same calls on a FIFO bounded by 127; and characters queued
while there is room come back from `HU_dequeueChatChar` in the order in which
they were queued, followed by 0. -/
theorem C30_chat_queue_fifo (M : Int) :
    (∀ message, ChatInv (chatInit message) ∧ pending (chatInit message) = []) ∧
    (∀ st c, ChatInv st →
      pending (HU_queueChatChar M st c) = fifoQueue (pending st) c ∧
      ChatInv (HU_queueChatChar M st c) ∧
      (¬ (pending st).length < 127 →
        (HU_queueChatChar M st c).chatchars = st.chatchars ∧
        (HU_queueChatChar M st c).head = st.head ∧
        (HU_queueChatChar M st c).tail = st.tail)) ∧
    (∀ st, ChatInv st →
      ((HU_dequeueChatChar st).1, pending (HU_dequeueChatChar st).2) =
        fifoDequeue (pending st) ∧
      ChatInv (HU_dequeueChatChar st).2) ∧
    (∀ ops st, ChatInv st →
      (runChat M st ops).2 = (runFifo (pending st) ops).2 ∧
      pending (runChat M st ops).1 = (runFifo (pending st) ops).1 ∧
      ChatInv (runChat M st ops).1) ∧
    (∀ st cs, ChatInv st → (pending st).length + cs.length ≤ 127 →
      (runChat M st (cs.map ChatOp.queue ++
        List.replicate ((pending st).length + cs.length + 1) ChatOp.dequeue)).2 =
        pending st ++ cs ++ [0]) := by
  refine ⟨fun message => ⟨by unfold ChatInv chatInit QUEUESIZE; dsimp only; omega, rfl⟩, fun st c h => ?_, dequeue_refines,
    fun ops st h => run_refines M ops st h, fun st cs h hl => ?_⟩
  · refine ⟨(queue_refines M st c h).1, (queue_refines M st c h).2, fun hf => ?_⟩
    rw [queue_full M st c h hf]
    exact ⟨rfl, rfl, rfl⟩
  · rw [(run_refines M _ st h).1, runFifo_queue cs (pending st) _ hl]
    have := runFifo_drain (pending st ++ cs)
    rw [List.length_append] at this
    exact this

end Hud

namespace Deh

/-! ## `CleanString` -/

theorem skipLeading_eq (isspace : Nat → Bool) :
    ∀ s, skipLeading isspace s = s.dropWhile isspace
  | [] => rfl
  | c :: s => by
    unfold skipLeading
    rw [List.dropWhile_cons]
    split
    · exact skipLeading_eq isspace s
    · rfl

theorem stripTrailing_eq (isspace : Nat → Bool) :
    ∀ (fuel : Nat) (s : List Nat), s.length ≤ fuel →
      stripTrailing isspace fuel s = s.rdropWhile isspace
  | 0, s, h => by
    have : s = [] := List.length_eq_zero.1 (by omega)
    subst this
    rfl
  | fuel + 1, s, h => by
    unfold stripTrailing
    rcases List.eq_nil_or_concat s with rfl | ⟨t, c, rfl⟩
    · rfl
    · rw [List.concat_eq_append] at h ⊢
      rw [List.getLast?_concat]
      dsimp only
      rw [List.dropLast_concat]
      by_cases hc : isspace c = true
      · rw [if_pos hc, List.rdropWhile_concat_pos _ _ _ hc]
        exact stripTrailing_eq isspace fuel t (by simp at h; omega)
      · rw [if_neg hc, List.rdropWhile_concat_neg _ _ _ hc]

theorem cleanString_eq (isspace : Nat → Bool) (s : List Nat) :
    CleanString isspace s = trimmed isspace s := by
  unfold CleanString trimmed
  dsimp only
  rw [skipLeading_eq, stripTrailing_eq _ _ _ (le_refl _)]

/-! ## `strchr` -/

theorem strchr_none : ∀ (s : List Nat) (c : Nat), strchr s c = none ↔ c ∉ s
  | [], c => by simp [strchr]
  | x :: s, c => by
    unfold strchr
    by_cases h : x = c
    · rw [if_pos h]; simp [h]
    · rw [if_neg h, Option.map_eq_none', strchr_none s c]
      simp [Ne.symm h]

theorem strchr_split : ∀ (pre post : List Nat) (c : Nat), c ∉ pre →
    strchr (pre ++ c :: post) c = some pre.length
  | [], post, c, _ => by simp [strchr]
  | x :: pre, post, c, h => by
    simp only [List.mem_cons, not_or] at h
    rw [List.cons_append, strchr, if_neg (fun e => h.1 e.symm), strchr_split pre post c h.2]
    rfl

/-! ## What trimming leaves -/

theorem rdrop_split (p : Nat → Bool) (l : List Nat) :
    ∃ b, l = l.rdropWhile p ++ b ∧ ∀ c ∈ b, p c = true := by
  induction l using List.reverseRecOn with
  | nil => exact ⟨[], rfl, fun c h => nomatch h⟩
  | append_singleton l a ih =>
    by_cases ha : p a = true
    · obtain ⟨b, e, hb⟩ := ih
      refine ⟨b ++ [a], ?_, fun c hc => ?_⟩
      · rw [List.rdropWhile_concat_pos _ _ _ ha, ← List.append_assoc, ← e]
      · rcases List.mem_append.1 hc with h | h
        · exact hb c h
        · rw [List.mem_singleton.1 h]; exact ha
    · exact ⟨[], by rw [List.rdropWhile_concat_neg _ _ _ ha, List.append_nil],
        fun c h => nomatch h⟩

theorem trimmed_split (p : Nat → Bool) (s : List Nat) :
    ∃ a b, s = a ++ trimmed p s ++ b ∧ (∀ c ∈ a, p c = true) ∧ (∀ c ∈ b, p c = true) := by
  obtain ⟨b, e, hb⟩ := rdrop_split p (s.dropWhile p)
  refine ⟨s.takeWhile p, b, ?_, fun c hc => List.mem_takeWhile_imp hc, hb⟩
  unfold trimmed
  rw [List.append_assoc, ← e, List.takeWhile_append_dropWhile]

theorem trimmed_head (p : Nat → Bool) (s : List Nat) (c : Nat)
    (h : (trimmed p s).head? = some c) : p c = false := by
  unfold trimmed at h
  obtain ⟨t, ht⟩ := List.rdropWhile_prefix p (l := s.dropWhile p)
  cases hd : List.rdropWhile p (List.dropWhile p s) with
  | nil => rw [hd] at h; exact nomatch h
  | cons x r =>
    rw [hd] at h ht
    simp only [List.head?_cons, Option.some.injEq] at h
    subst h
    have h2 := List.head?_dropWhile_not p s
    rw [← ht] at h2
    simpa using h2

theorem trimmed_last (p : Nat → Bool) (s : List Nat) (c : Nat)
    (h : (trimmed p s).getLast? = some c) : p c = false := by
  unfold trimmed at h
  have hne : List.rdropWhile p (List.dropWhile p s) ≠ [] := by
    intro e; rw [e] at h; exact nomatch h
  have := List.rdropWhile_last_not p (s.dropWhile p) hne
  rw [List.getLast?_eq_getLast _ hne] at h
  injection h with h
  rw [h] at this
  simpa using this

/-- A line of a dehacked file, parsed with the `isspace` of the "C" locale. -/
theorem parseAssignment_example :
    DEH_ParseAssignment isspaceC (chars " Max Health = 100 = x ") =
      some (chars "Max Health", chars "100 = x") := by
  decide

/-! ## The claim about `deh_main.c` -/

/-- C26: `DEH_ParseAssignment` returns false exactly when the line has no `=`;
on a line with an `=` it returns true, the name being the text before the first
`=` and the value the text behind it (further `=` included), each with all
leading and trailing whitespace removed: what `CleanString` leaves is the text
between a stretch of whitespace at the start and one at the end, and neither
begins nor ends with whitespace. -/
theorem C26_parse_assignment (isspace : Nat → Bool) :
    (∀ line, DEH_ParseAssignment isspace line = none ↔ 61 ∉ line) ∧
    (∀ pre post, 61 ∉ pre →
      DEH_ParseAssignment isspace (pre ++ 61 :: post) =
        some (trimmed isspace pre, trimmed isspace post)) ∧
    (∀ s, CleanString isspace s = trimmed isspace s) ∧
    (∀ s, ∃ a b, s = a ++ trimmed isspace s ++ b ∧ (∀ c ∈ a, isspace c = true) ∧
      (∀ c ∈ b, isspace c = true) ∧
      (∀ c, (trimmed isspace s).head? = some c → isspace c = false) ∧
      (∀ c, (trimmed isspace s).getLast? = some c → isspace c = false)) := by
  refine ⟨fun line => ?_, fun pre post h => ?_, cleanString_eq isspace, fun s => ?_⟩
  · unfold DEH_ParseAssignment
    rw [← strchr_none]
    cases strchr line 61 <;> simp
  · unfold DEH_ParseAssignment
    rw [strchr_split pre post 61 h]
    dsimp only
    have e : pre ++ 61 :: post = (pre ++ [61]) ++ post := by simp
    rw [cleanString_eq, cleanString_eq, List.take_left,
      e, List.drop_left' (by simp)]
  · obtain ⟨a, b, e, ha, hb⟩ := trimmed_split isspace s
    exact ⟨a, b, e, ha, hb, trimmed_head isspace s, trimmed_last isspace s⟩

end Deh

namespace Gui

/-! ## What the parts of the loop print -/

theorem sameCore_refl (st : State) : SameCore st st := ⟨rfl, rfl, rfl, rfl, rfl, rfl, rfl, rfl⟩

theorem sameCore_trans {a b c : State} (h1 : SameCore a b) (h2 : SameCore b c) :
    SameCore a c := by
  obtain ⟨a1, a2, a3, a4, a5, a6, a7, a8⟩ := h1
  obtain ⟨b1, b2, b3, b4, b5, b6, b7, b8⟩ := h2
  exact ⟨b1.trans a1, b2.trans a2, b3.trans a3, b4.trans a4, b5.trans a5, b6.trans a6,
    b7.trans a7, b8.trans a8⟩

theorem buildWindow_loop_out : ∀ (n i : Nat) (st : State),
    SameCore st (BuildWindow_loop n i st) ∧
      ∃ extra, (BuildWindow_loop n i st).out = st.out ++ extra ∧
        ∀ e ∈ extra, ∃ a b c, e = Event.window_line a b c
  | 0, _, st => ⟨sameCore_refl st, [], by simp [BuildWindow_loop], fun e h => nomatch h⟩
  | n + 1, i, st => by
    unfold BuildWindow_loop
    dsimp only
    obtain ⟨h1, extra, e, h2⟩ := buildWindow_loop_out n (i + 1)
      { st with
        out := st.out ++ [Event.window_line (i + 1) (st.player_labels i) (st.ip_labels i)],
        player_labels := fun j => if j = i then emptyLabel else st.player_labels j,
        ip_labels := fun j => if j = i then emptyLabel else st.ip_labels j }
    refine ⟨h1, Event.window_line (i + 1) (st.player_labels i) (st.ip_labels i) :: extra,
      ?_, ?_⟩
    · rw [e]; simp
    · intro x hx
      rcases List.mem_cons.1 hx with rfl | hx
      · exact ⟨_, _, _, rfl⟩
      · exact h2 x hx

theorem updateGUI_loop_out : ∀ (n i : Nat) (st : State),
    SameCore st (UpdateGUI_loop n i st) ∧ (UpdateGUI_loop n i st).out = st.out
  | 0, _, st => ⟨sameCore_refl st, rfl⟩
  | n + 1, i, st => by
    unfold UpdateGUI_loop
    dsimp only
    split
    · exact updateGUI_loop_out n (i + 1) _
    · exact updateGUI_loop_out n (i + 1) _

/-- `UpdateGUI` prints no checksum warning; it makes a launch request exactly
when wait data has been received, we are the controller and the key is `s`. -/
theorem updateGUI_out (st : State) (key : Int) :
    SameCore st (UpdateGUI st key) ∧
      warnings (UpdateGUI st key) = warnings st ∧
      launches (UpdateGUI st key) = launches st +
        (if st.client_received_wait_data = true ∧ st.client_wait_data.is_controller = true ∧
          key = 115 then 1 else 0) := by
  unfold UpdateGUI
  by_cases hr : st.client_received_wait_data = true
  swap
  · rw [if_neg hr]
    refine ⟨sameCore_refl st, rfl, ?_⟩
    rw [if_neg (fun h => hr h.1)]
    rfl
  rw [if_pos hr]
  dsimp only
  have hb : ∃ s1, (if st.client_wait_data.max_players ≠ st.old_max_players
      then BuildWindow st else st) = s1 ∧ SameCore st s1 ∧ warnings s1 = warnings st ∧
      launches s1 = launches st := by
    split
    · obtain ⟨h1, extra, e, h2⟩ := buildWindow_loop_out st.client_wait_data.max_players.toNat 0 st
      refine ⟨_, rfl, h1, ?_, ?_⟩
      · unfold warnings BuildWindow
        have hz : List.count Event.sha1_warning extra = 0 :=
          List.count_eq_zero_of_not_mem (fun hm => by
            obtain ⟨a, b, c, h⟩ := h2 _ hm
            exact nomatch h)
        rw [e, List.count_append, hz, Nat.add_zero]
      · unfold launches BuildWindow
        have hz : List.count Event.launch_game extra = 0 :=
          List.count_eq_zero_of_not_mem (fun hm => by
            obtain ⟨a, b, c, h⟩ := h2 _ hm
            exact nomatch h)
        rw [e, List.count_append, hz, Nat.add_zero]
    · exact ⟨st, rfl, sameCore_refl st, rfl, rfl⟩
  obtain ⟨s1, e1, c1, w1, l1⟩ := hb
  rw [e1]
  obtain ⟨c2, o2⟩ := updateGUI_loop_out s1.client_wait_data.max_players.toNat 0 s1
  generalize UpdateGUI_loop s1.client_wait_data.max_players.toNat 0 s1 = s2 at c2 o2
  have c12 := sameCore_trans c1 c2
  have hctl : s2.client_wait_data.is_controller = st.client_wait_data.is_controller := by
    rw [c12.2.2.2.2.1]
  rw [hctl]
  have w2 : warnings s2 = warnings st := by unfold warnings at w1 ⊢; rw [o2, w1]
  have l2 : launches s2 = launches st := by unfold launches at l1 ⊢; rw [o2, l1]
  unfold warnings launches at *
  by_cases hc : st.client_wait_data.is_controller = true
  · rw [if_pos hc]
    by_cases hk : key = 115
    · rw [if_pos hk, if_pos ⟨hr, hc, hk⟩]
      refine ⟨?_, ?_, ?_⟩
      · exact c12
      · simp [List.count_append, w2]
      · simp [List.count_append, l2]
    · rw [if_neg hk, if_neg (fun h => hk h.2.2)]
      refine ⟨c12, ?_, ?_⟩
      · simp [List.count_append, w2]
      · simp [List.count_append, l2]
  · rw [if_neg hc, if_neg (fun h => hc h.2.1)]
    refine ⟨c12, ?_, ?_⟩
    · simp [List.count_append, w2]
    · simp [List.count_append, l2]

/-- `CheckAutoLaunch` only ever writes `expected_nodes`: it prints nothing and
makes no call. -/
theorem checkAutoLaunch_out (st : State) :
    (CheckAutoLaunch st).out = st.out ∧ (CheckAutoLaunch st).had_warning = st.had_warning ∧
      (CheckAutoLaunch st).client_received_wait_data = st.client_received_wait_data ∧
      (CheckAutoLaunch st).client_wait_data = st.client_wait_data ∧
      (CheckAutoLaunch st).net_local_wad_sha1sum = st.net_local_wad_sha1sum := by
  unfold CheckAutoLaunch
  split
  · dsimp only
    split <;> exact ⟨rfl, rfl, rfl, rfl, rfl⟩
  · exact ⟨rfl, rfl, rfl, rfl, rfl⟩

/-- `CheckSHA1Sums` in one piece. -/
theorem checkSHA1Sums_eq (n : Nat) (st : State) :
    CheckSHA1Sums n st =
      if st.client_received_wait_data = true ∧ st.had_warning = false ∧
          st.net_local_wad_sha1sum.take n ≠ st.client_wait_data.wad_sha1sum.take n then
        { st with
          out := st.out ++ [Event.sha1_warning, Event.digest_local st.net_local_wad_sha1sum,
            Event.digest_server st.client_wait_data.wad_sha1sum, Event.desync_notice],
          had_warning := true }
      else st := by
  unfold CheckSHA1Sums memcmp_eq
  by_cases h1 : st.client_received_wait_data = true <;>
    by_cases h2 : st.had_warning = true <;>
    by_cases h3 : st.net_local_wad_sha1sum.take n = st.client_wait_data.wad_sha1sum.take n <;>
    simp [h1, h2, h3]

theorem checkSHA1Sums_warnings (n : Nat) (st : State) :
    warnings (CheckSHA1Sums n st) + (if (CheckSHA1Sums n st).had_warning = true then 0 else 1) ≤
      warnings st + (if st.had_warning = true then 0 else 1) ∧
    launches (CheckSHA1Sums n st) = launches st := by
  rw [checkSHA1Sums_eq]
  split
  · rename_i h
    unfold warnings launches
    dsimp only
    rw [if_pos rfl, if_neg (by rw [h.2.1]; decide)]
    simp [List.count_append, List.count_cons]
  · exact ⟨le_refl _, rfl⟩

theorem checkMasterStatus_out (st : State) (master : Option Bool) :
    warnings (CheckMasterStatus st master) = warnings st ∧
      launches (CheckMasterStatus st master) = launches st ∧
      (CheckMasterStatus st master).had_warning = st.had_warning := by
  unfold CheckMasterStatus warnings launches
  rcases master with _ | _ | _ <;> simp [List.count_append, List.count_cons]

/-- One iteration of the loop: at most one warning, and only when none was
given before; a launch request only for the key `s`. -/
theorem waitStep_out (n : Nat) (st : State) (inp : WaitInput) :
    warnings (waitStep n st inp) + (if (waitStep n st inp).had_warning = true then 0 else 1) ≤
      warnings st + (if st.had_warning = true then 0 else 1) ∧
    launches (waitStep n st inp) = launches st +
      (if st.client_received_wait_data = true ∧ st.client_wait_data.is_controller = true ∧
        inp.key = 115 then 1 else 0) := by
  obtain ⟨c1, w1, l1⟩ := updateGUI_out st inp.key
  obtain ⟨o2, h2, _⟩ := checkAutoLaunch_out (UpdateGUI st inp.key)
  obtain ⟨w3, l3⟩ := checkSHA1Sums_warnings n (CheckAutoLaunch (UpdateGUI st inp.key))
  obtain ⟨w4, l4, h4⟩ := checkMasterStatus_out
    (CheckSHA1Sums n (CheckAutoLaunch (UpdateGUI st inp.key))) inp.master
  have e : warnings (waitStep n st inp) = warnings (CheckMasterStatus
      (CheckSHA1Sums n (CheckAutoLaunch (UpdateGUI st inp.key))) inp.master) := rfl
  have e2 : launches (waitStep n st inp) = launches (CheckMasterStatus
      (CheckSHA1Sums n (CheckAutoLaunch (UpdateGUI st inp.key))) inp.master) := rfl
  have e3 : (waitStep n st inp).had_warning = (CheckMasterStatus
      (CheckSHA1Sums n (CheckAutoLaunch (UpdateGUI st inp.key))) inp.master).had_warning := rfl
  have w2 : warnings (CheckAutoLaunch (UpdateGUI st inp.key)) = warnings st := by
    unfold warnings at w1 ⊢; rw [o2, w1]
  have l2 : launches (CheckAutoLaunch (UpdateGUI st inp.key)) = launches st +
      (if st.client_received_wait_data = true ∧ st.client_wait_data.is_controller = true ∧
        inp.key = 115 then 1 else 0) := by
    unfold launches at l1 ⊢; rw [o2, l1]
  rw [e, e2, e3, w4, l4, h4, l3, l2]
  rw [w2, h2, c1.2.1] at w3
  exact ⟨w3, rfl⟩

theorem waitLoop_warnings (n : Nat) : ∀ (ins : List WaitInput) (st st' : State),
    (waitLoop n st ins).state = some st' →
      warnings st' + (if st'.had_warning = true then 0 else 1) ≤
        warnings st + (if st.had_warning = true then 0 else 1)
  | [], st, st', h => by
    unfold waitLoop at h
    split at h
    · exact nomatch h
    · injection h with h; rw [← h]
  | inp :: rest, st, st', h => by
    unfold waitLoop at h
    split at h
    · dsimp only at h
      split at h
      · injection h with h
        rw [← h]
        exact (waitStep_out n st inp).1
      · exact le_trans (waitLoop_warnings n rest _ st' h) (waitStep_out n st inp).1
    · injection h with h; rw [← h]

theorem waitLoop_launches (n : Nat) : ∀ (ins : List WaitInput) (st st' : State),
    (∀ i ∈ ins, i.key ≠ 115) → (waitLoop n st ins).state = some st' →
      launches st' = launches st
  | [], st, st', _, h => by
    unfold waitLoop at h
    split at h
    · exact nomatch h
    · injection h with h; rw [← h]
  | inp :: rest, st, st', hk, h => by
    have hs : launches (waitStep n st inp) = launches st := by
      rw [(waitStep_out n st inp).2, if_neg (fun hc => hk inp (List.mem_cons_self _ _) hc.2.2)]
      rfl
    unfold waitLoop at h
    split at h
    · dsimp only at h
      split at h
      · injection h with h
        rw [← h, hs]
      · rw [waitLoop_launches n rest _ st' (fun i hi => hk i (List.mem_cons_of_mem _ hi)) h, hs]
    · injection h with h; rw [← h]

theorem waitLoop_connected (n : Nat) : ∀ (ins : List WaitInput) (st : State),
    (∀ i ∈ ins, i.connected = true) → ∀ st', waitLoop n st ins ≠ .lost_connection st'
  | [], st, _, st' => by
    unfold waitLoop
    split <;> exact fun h => nomatch h
  | inp :: rest, st, hc, st' => by
    unfold waitLoop
    split
    · dsimp only
      have : (waitStep n st inp).client_connected = true := hc inp (List.mem_cons_self _ _)
      rw [if_neg (by simp [this])]
      exact waitLoop_connected n rest _ (fun i hi => hc i (List.mem_cons_of_mem _ hi)) st'
    · exact fun h => nomatch h

/-! ## The claims about `net/gui.c` -/

/-- C22: `CheckSHA1Sums` always returns; it prints the warning (and sets
`had_warning`) exactly when wait data has been received, `had_warning` is not
set and the first `sizeof(sha1_digest_t)` bytes of the local digest differ
from those of the server (for digests of that size: when the digests differ),
and changes nothing otherwise, in particular when `had_warning` is set.
During one `NET_WaitForLaunch` the warning is printed at most once, and as
long as the connection holds the wait does not end in `error`, whatever the
digests are. -/
theorem C22_checksum_warning (n : Nat) :
    (∀ st, CheckSHA1Sums n st =
      if st.client_received_wait_data = true ∧ st.had_warning = false ∧
          st.net_local_wad_sha1sum.take n ≠ st.client_wait_data.wad_sha1sum.take n then
        { st with
          out := st.out ++ [Event.sha1_warning, Event.digest_local st.net_local_wad_sha1sum,
            Event.digest_server st.client_wait_data.wad_sha1sum, Event.desync_notice],
          had_warning := true }
      else st) ∧
    (∀ a b : sha1_digest_t, a.length = n → b.length = n → (a.take n ≠ b.take n ↔ a ≠ b)) ∧
    (∀ st, st.had_warning = true → CheckSHA1Sums n st = st) ∧
    (∀ st nodes ins st', (NET_WaitForLaunch n st nodes ins).state = some st' →
      warnings st' ≤ warnings st + 1) ∧
    (∀ st nodes ins, (∀ i ∈ ins, i.connected = true) →
      ∀ st', NET_WaitForLaunch n st nodes ins ≠ .lost_connection st') := by
  refine ⟨checkSHA1Sums_eq n, fun a b ha hb => ?_, fun st h => ?_,
    fun st nodes ins st' h => ?_, fun st nodes ins hc st' => ?_⟩
  · rw [← ha, List.take_length]
    have : List.take a.length b = b := by rw [ha, ← hb, List.take_length]
    rw [this]
  · rw [checkSHA1Sums_eq, if_neg]
    rintro ⟨_, h2, _⟩
    rw [h] at h2
    exact nomatch h2
  · have h1 := waitLoop_warnings n ins
      { ParseCommandLineArgs st nodes with had_warning := false } st' h
    have e : warnings { ParseCommandLineArgs st nodes with had_warning := false } =
        warnings st := by
      cases nodes <;> rfl
    have e2 : (if ({ ParseCommandLineArgs st nodes with had_warning := false } : State).had_warning
        = true then 0 else 1) = 1 := rfl
    rw [e, e2] at h1
    omega
  · exact waitLoop_connected n ins _ hc st'

/-- C23: the launch request is missing. The client `demoLobby` has received
wait data, is the controller and was started with `-nodes 2`; two players have
joined. `CheckAutoLaunch` sets `expected_nodes` to 0 and makes no launch
request, and neither does any other part of the wait as long as the key `s` is
not typed (`UpdateGUI` makes the request for that key); `CheckAutoLaunch` never
prints or calls anything. -/
theorem C23_no_launch_request :
    (demoLobby.client_received_wait_data = true ∧
      demoLobby.client_wait_data.is_controller = true ∧ demoLobby.expected_nodes = 2 ∧
      demoLobby.client_wait_data.num_players + demoLobby.client_wait_data.num_drones = 2) ∧
    (CheckAutoLaunch demoLobby).out = demoLobby.out ∧
    (CheckAutoLaunch demoLobby).expected_nodes = 0 ∧
    (∀ st, (CheckAutoLaunch st).out = st.out) ∧
    ((NET_WaitForLaunch 20 demoLobby (some 2)
      [demoIdle, demoIdle, { demoIdle with waiting_for_launch := false }]).state.map
        (fun st => (launches st, st.expected_nodes)) = some (0, 0)) ∧
    launches (UpdateGUI demoLobby 115) = 1 := by
  refine ⟨by decide, by decide, by decide, fun st => (checkAutoLaunch_out st).1, by decide,
    by decide⟩

end Gui

namespace Loop

/-! ## The scheduler -/

theorem store_fields (s : Scheduler) (peer tick : Nat) (cmd : TickCommand) :
    (storeCommand s peer tick cmd).peers = s.peers ∧
      (storeCommand s peer tick cmd).gametic = s.gametic ∧
      (storeCommand s peer tick cmd).resolved = s.resolved := by
  unfold storeCommand
  split <;> exact ⟨rfl, rfl, rfl⟩

theorem stores_fields : ∀ (inc : List (Nat × Nat × TickCommand)) (s : Scheduler),
    (inc.foldl (fun s c => storeCommand s c.1 c.2.1 c.2.2) s).peers = s.peers ∧
    (inc.foldl (fun s c => storeCommand s c.1 c.2.1 c.2.2) s).gametic = s.gametic ∧
    (inc.foldl (fun s c => storeCommand s c.1 c.2.1 c.2.2) s).resolved = s.resolved
  | [], _ => ⟨rfl, rfl, rfl⟩
  | c :: inc, s => by
    obtain ⟨h1, h2, h3⟩ := stores_fields inc (storeCommand s c.1 c.2.1 c.2.2)
    obtain ⟨e1, e2, e3⟩ := store_fields s c.1 c.2.1 c.2.2
    rw [List.foldl_cons]
    exact ⟨h1.trans e1, h2.trans e2, h3.trans e3⟩

/-- Running ticks appends the events of consecutive ticks, starting with the
next tick to be applied. -/
theorem runTics_log : ∀ (budget : Nat) (s : Scheduler),
    ∃ k extra, (runTics budget s).gametic = s.gametic + k ∧
      (runTics budget s).resolved = s.resolved ++ extra ∧
      extra.map Prod.fst = List.range' s.gametic k ∧
      (runTics budget s).peers = s.peers
  | 0, s => ⟨0, [], rfl, by simp [runTics], rfl, rfl⟩
  | budget + 1, s => by
    unfold runTics
    split
    · obtain ⟨k, extra, h1, h2, h3, h4⟩ := runTics_log budget (runTick s)
      refine ⟨k + 1,
        (s.gametic, s.peers.map (fun p => (s.buffer p s.gametic).getD 0)) :: extra,
        ?_, ?_, ?_, h4⟩
      · rw [h1]; simp only [runTick]; omega
      · rw [h2]; simp only [runTick, List.append_assoc, List.singleton_append]
      · rw [List.map_cons, h3, List.range'_succ]
        rfl
    · exact ⟨0, [], rfl, by simp, rfl, rfl⟩

/-- A call of `TryRunTics` extends the events by those of consecutive ticks. -/
theorem tryRunTics_log (s : Scheduler) (inp : TicsInput) :
    ∃ k extra, (TryRunTics s inp).gametic = s.gametic + k ∧
      (TryRunTics s inp).resolved = s.resolved ++ extra ∧
      extra.map Prod.fst = List.range' s.gametic k ∧
      (TryRunTics s inp).peers = s.peers := by
  unfold TryRunTics
  obtain ⟨k, extra, h1, h2, h3, h4⟩ := runTics_log inp.budget
    (inp.incoming.foldl (fun s c => storeCommand s c.1 c.2.1 c.2.2) s)
  obtain ⟨e1, e2, e3⟩ := stores_fields inp.incoming s
  exact ⟨k, extra, by rw [h1, e2], by rw [h2, e3], by rw [h3, e2], by rw [h4, e1]⟩

/-- A frame runs `TryRunTics` once, or not at all during a wipe. -/
theorem runFrame_sched (st st' : FrameState) (inp : FrameInput)
    (h : D_RunFrame st inp = some st') :
    st'.sched = st.sched ∨ st'.sched = TryRunTics st.sched inp.tics := by
  unfold D_RunFrame at h
  split at h
  · split at h
    · exact nomatch h
    · injection h with h; rw [← h]; exact Or.inl rfl
  · dsimp only at h
    split at h
    · split at h
      · split at h
        · exact nomatch h
        · injection h with h; rw [← h]; exact Or.inr rfl
      · injection h with h; rw [← h]; exact Or.inr rfl
    · injection h with h; rw [← h]; exact Or.inr rfl

theorem ticks_step {s s' : Scheduler} (h : ticks s = List.range s.gametic)
    (hs : ∃ k extra, s'.gametic = s.gametic + k ∧ s'.resolved = s.resolved ++ extra ∧
      extra.map Prod.fst = List.range' s.gametic k ∧ s'.peers = s.peers) :
    ticks s' = List.range s'.gametic ∧ s.resolved <+: s'.resolved ∧ s'.peers = s.peers := by
  obtain ⟨k, extra, h1, h2, h3, h4⟩ := hs
  refine ⟨?_, ⟨extra, h2.symm⟩, h4⟩
  unfold ticks at h ⊢
  rw [h2, List.map_append, h, h3, h1, List.range_eq_range', List.range_eq_range']
  have := List.range'_append_1 0 s.gametic k
  rw [Nat.zero_add] at this
  rw [this, Nat.add_comm]

/-- Along every sequence of frames the events are those of the ticks
`0, 1, ..., gametic - 1`, in this order. -/
theorem frames_ticks : ∀ (ins : List FrameInput) (st st' : FrameState),
    ticks st.sched = List.range st.sched.gametic → frames st ins = some st' →
      ticks st'.sched = List.range st'.sched.gametic ∧
        st.sched.resolved <+: st'.sched.resolved ∧ st'.sched.peers = st.sched.peers
  | [], st, st', h, e => by
    injection e with e
    rw [← e]
    exact ⟨h, List.prefix_refl _, rfl⟩
  | inp :: rest, st, st', h, e => by
    unfold frames at e
    split at e
    · exact nomatch e
    · rename_i s1 e1
      have h1 : ticks s1.sched = List.range s1.sched.gametic ∧
          st.sched.resolved <+: s1.sched.resolved ∧ s1.sched.peers = st.sched.peers := by
        rcases runFrame_sched st s1 inp e1 with e2 | e2
        · rw [e2]; exact ⟨h, List.prefix_refl _, rfl⟩
        · rw [e2]; exact ticks_step h (tryRunTics_log st.sched inp.tics)
      obtain ⟨h2, h3, h4⟩ := frames_ticks rest s1 st' h1.1 e
      exact ⟨h2, List.IsPrefix.trans h1.2.1 h3, h4.trans h1.2.2⟩

/-! ## Two peers with the same commands -/

theorem store_agrees {cmds : Nat → Nat → TickCommand} {s : Scheduler} (h : Agrees cmds s)
    (peer tick : Nat) : Agrees cmds (storeCommand s peer tick (cmds peer tick)) := by
  unfold storeCommand
  split
  · exact h
  · refine ⟨fun p n c hc => ?_, h.2⟩
    dsimp only at hc
    split at hc
    · rename_i hpn
      injection hc with hc
      rw [← hc, hpn.1, hpn.2]
    · exact h.1 p n c hc

theorem stores_agrees {cmds : Nat → Nat → TickCommand} :
    ∀ (inc : List (Nat × Nat × TickCommand)) (s : Scheduler), Agrees cmds s →
      (∀ c ∈ inc, c.2.2 = cmds c.1 c.2.1) →
      Agrees cmds (inc.foldl (fun s c => storeCommand s c.1 c.2.1 c.2.2) s)
  | [], _, h, _ => h
  | c :: inc, s, h, hc => by
    rw [List.foldl_cons]
    refine stores_agrees inc _ ?_ (fun x hx => hc x (List.mem_cons_of_mem _ hx))
    rw [hc c (List.mem_cons_self _ _)]
    exact store_agrees h c.1 c.2.1

theorem runTick_agrees {cmds : Nat → Nat → TickCommand} {s : Scheduler} (h : Agrees cmds s)
    (hr : resolvable s s.gametic = true) : Agrees cmds (runTick s) := by
  refine ⟨h.1, ?_⟩
  unfold runTick
  dsimp only
  rw [List.range_succ, List.map_append, ← h.2, List.map_singleton]
  congr 3
  apply List.map_congr_left
  intro p hp
  unfold resolvable at hr
  rw [List.all_eq_true] at hr
  have := hr p hp
  cases hb : s.buffer p s.gametic with
  | none => rw [hb] at this; exact nomatch this
  | some c => rw [h.1 p _ c hb]; rfl

theorem runTics_agrees {cmds : Nat → Nat → TickCommand} :
    ∀ (budget : Nat) (s : Scheduler), Agrees cmds s → Agrees cmds (runTics budget s)
  | 0, _, h => h
  | budget + 1, s, h => by
    unfold runTics
    split
    · rename_i hr
      exact runTics_agrees budget _ (runTick_agrees h hr)
    · exact h

theorem frames_agrees {cmds : Nat → Nat → TickCommand} :
    ∀ (ins : List FrameInput) (st st' : FrameState), Agrees cmds st.sched →
      (∀ i ∈ ins, FromTable cmds i) → frames st ins = some st' → Agrees cmds st'.sched
  | [], st, st', h, _, e => by
    injection e with e
    rw [← e]
    exact h
  | inp :: rest, st, st', h, hi, e => by
    unfold frames at e
    split at e
    · exact nomatch e
    · rename_i s1 e1
      refine frames_agrees rest s1 st' ?_ (fun i hx => hi i (List.mem_cons_of_mem _ hx)) e
      rcases runFrame_sched st s1 inp e1 with e2 | e2
      · rw [e2]; exact h
      · rw [e2]
        exact runTics_agrees _ _ (stores_agrees _ _ h (hi inp (List.mem_cons_self _ _)))

/-- Two schedulers with the same peers and the same table of commands have the
same events as far as both have got. -/
theorem agrees_upto {cmds : Nat → Nat → TickCommand} {s1 s2 : Scheduler}
    (h1 : Agrees cmds s1) (h2 : Agrees cmds s2) (hp : s1.peers = s2.peers)
    (hg : s1.gametic ≤ s2.gametic) : s1.resolved <+: s2.resolved := by
  rw [h1.2, h2.2, hp]
  obtain ⟨k, hk⟩ := Nat.exists_eq_add_of_le hg
  rw [hk, List.range_eq_range', List.range_eq_range']
  have := List.range'_append_1 0 s1.gametic k
  rw [Nat.zero_add] at this
  rw [Nat.add_comm, ← this, List.map_append]
  exact List.prefix_append _ _

/-! ## The claim about the tick scheduler -/

/-- C21: in a game that two peers run, frame by frame (`D_RunFrame`, which
calls the scheduler once per frame), from the same roster and with the commands
of one table, the "tick N resolved" events of each peer are those of the ticks
`0, 1, ..., gametic - 1` in this order: the tick numbers increase strictly, and
tick `N + 1` is resolved right after tick `N`; each event carries the commands
of the table, so the events of the two peers agree as far as both have got.
The order of the ticks does not depend on the commands: it holds for every
sequence of frames. -/
theorem C21_ticks_in_order (cmds : Nat → Nat → TickCommand) (peers : List Nat)
    (ins1 ins2 : List FrameInput) (st1 st2 : FrameState)
    (h1 : ∀ i ∈ ins1, FromTable cmds i) (h2 : ∀ i ∈ ins2, FromTable cmds i)
    (e1 : frames (newFrames peers) ins1 = some st1)
    (e2 : frames (newFrames peers) ins2 = some st2) :
    ticks st1.sched = List.range st1.sched.gametic ∧
    ticks st2.sched = List.range st2.sched.gametic ∧
    (ticks st1.sched).Chain' (fun a b => a < b) ∧
    (ticks st2.sched).Chain' (fun a b => a < b) ∧
    (∀ i N, (ticks st1.sched)[i]? = some (N + 1) →
      ∃ j, i = j + 1 ∧ (ticks st1.sched)[j]? = some N) ∧
    st1.sched.resolved =
      (List.range st1.sched.gametic).map (fun n => (n, peers.map (fun p => cmds p n))) ∧
    st2.sched.resolved =
      (List.range st2.sched.gametic).map (fun n => (n, peers.map (fun p => cmds p n))) ∧
    (st1.sched.resolved <+: st2.sched.resolved ∨ st2.sched.resolved <+: st1.sched.resolved) ∧
    (∀ ins st, frames (newFrames peers) ins = some st →
      ticks st.sched = List.range st.sched.gametic) := by
  have h0 : ticks (newFrames peers).sched = List.range (newFrames peers).sched.gametic := rfl
  have a0 : Agrees cmds (newFrames peers).sched := ⟨fun p n c h => (nomatch h), rfl⟩
  obtain ⟨t1, _, p1⟩ := frames_ticks ins1 _ st1 h0 e1
  obtain ⟨t2, _, p2⟩ := frames_ticks ins2 _ st2 h0 e2
  have a1 := frames_agrees ins1 _ st1 a0 h1 e1
  have a2 := frames_agrees ins2 _ st2 a0 h2 e2
  have hc : ∀ g : Nat, (List.range g).Chain' (fun a b => a < b) := by
    intro g
    cases g with
    | zero => exact List.chain'_nil
    | succ n => exact (List.chain'_range_succ (fun a b => a < b) n).2 (fun m _ => Nat.lt_succ_self m)
  refine ⟨t1, t2, by rw [t1]; exact hc _, by rw [t2]; exact hc _, ?_, ?_, ?_, ?_, ?_⟩
  · intro i N hi
    rw [t1] at hi ⊢
    obtain ⟨hlt, e⟩ := List.getElem?_eq_some.1 hi
    rw [List.getElem_range] at e
    rw [List.length_range] at hlt
    exact ⟨N, e, List.getElem?_range (by omega)⟩
  · have := a1.2
    rw [p1] at this
    exact this
  · have := a2.2
    rw [p2] at this
    exact this
  · rcases Nat.le_total st1.sched.gametic st2.sched.gametic with hg | hg
    · exact Or.inl (agrees_upto a1 a2 (p1.trans p2.symm) hg)
    · exact Or.inr (agrees_upto a2 a1 (p2.trans p1.symm) hg)
  · intro ins st e
    exact (frames_ticks ins _ st h0 e).1

theorem C21_ticks_in_order_witness :
    (ticks demoPeerA.sched = [0, 1, 2] ∧ ticks demoPeerB.sched = [0]) ∧
    ticks demoPeerA.sched = List.range demoPeerA.sched.gametic ∧
    (demoPeerA.sched.resolved <+: demoPeerB.sched.resolved ∨
      demoPeerB.sched.resolved <+: demoPeerA.sched.resolved) :=
  ⟨by decide,
    (C21_ticks_in_order demoCmds [1, 2] demoFramesA demoFramesB demoPeerA demoPeerB
      (by decide) (by decide) rfl rfl).1,
    (C21_ticks_in_order demoCmds [1, 2] demoFramesA demoFramesB demoPeerA demoPeerB
      (by decide) (by decide) rfl rfl).2.2.2.2.2.2.2.1⟩

end Loop
